import Mathlib

/-!
Verification of the OS-algorithms simulation engine.

Shallow embedding of the repository's core (src/models/data_models.py,
src/algorithms/base.py, src/algorithms/page_replacement.py,
src/algorithms/cpu_scheduling.py) together with proofs of the frozen
claims about it.

Conventions of the embedding:
* Python ints are `Int` (arbitrary precision); counters and list indices
  are `Nat` where the code can only produce non-negative values by
  construction (e.g. `len`, `enumerate` indices, frame ids created by
  `range(frame_count)`).
* Python floats produced by true division are modelled as exact
  rationals `ℚ` (the code only divides, it never rounds explicitly).
* Python dicts whose keys are built dynamically are association lists
  in insertion order; `dict.get(k, d)` is `lookupD`.
* `while` loops are fueled step functions returning `Option`; `none`
  means the loop has not finished within the given fuel, or the Python
  code would have raised an uncaught exception (e.g. `min()` of an
  empty sequence, `pop(0)` of an empty list).  Termination theorems
  exhibit a sufficient fuel.
* Python mutates the tail element of `gantt_chart_data` and appends to
  lists; the embedding stores such lists most-recent-first (`..Rev`
  fields) and reverses them when the result object is built, so that
  the produced result lists are in the exact order Python produces.
-/

/-! ## Entity model (src/models/data_models.py) -/

/-- Values stored in the `state_before` / `state_after` dictionaries of
scheduling simulation steps (`Dict[str, Any]` in the source, but the
schedulers only ever store ints, optional ints, booleans and lists of
ints there). -/
inductive SVal where
  | int (i : Int)
  | opt (o : Option Int)
  | bool (b : Bool)
  | list (l : List Int)
  deriving DecidableEq, Repr

/-- `Process` dataclass (data_models.py lines 29-56).  `memory_pages`
and `io_operations` are irrelevant to every scheduler (the core never
reads them) and are omitted. -/
structure Process where
  pid : Int
  arrival_time : Int
  burst_time : Int
  priority : Int
  deadline : Option Int
  remaining_time : Int
  deriving DecidableEq, Repr

/-- Constructing a `Process`: the dataclass constructor followed by
`__post_init__`, which sets `remaining_time` to `burst_time` only when
it is 0.  Note that no validation whatsoever happens here. -/
def mkProcess (pid arrival_time burst_time priority : Int)
    (deadline : Option Int) (remaining_time : Int) : Process :=
  let p : Process := ⟨pid, arrival_time, burst_time, priority, deadline, remaining_time⟩
  if p.remaining_time = 0 then
    { p with remaining_time := p.burst_time }
  else p

/-- `Process.validate` (data_models.py lines 46-56): a separate method,
never called by `__post_init__` nor by any engine.  Raising
`ValueError` is modelled by `Except.error` carrying the message. -/
def Process.validate (p : Process) : Except String Bool :=
  if p.pid < 0 then .error "Process ID must be non-negative"
  else if p.arrival_time < 0 then .error "Arrival time must be non-negative"
  else if p.burst_time ≤ 0 then .error "Burst time must be positive"
  else
    match p.deadline with
    | some d =>
        if d < p.arrival_time then .error "Deadline must be after arrival time"
        else .ok true
    | none => .ok true

/-- `FrameState` dataclass (data_models.py lines 73-98). -/
structure FrameState where
  frame_id : Nat
  page_number : Option Int
  last_access_time : Int
  reference_bit : Bool
  dirty_bit : Bool
  deriving DecidableEq, Repr

/-- A fresh frame, `FrameState(frame_id=i)` with dataclass defaults. -/
def FrameState.init (i : Nat) : FrameState :=
  ⟨i, none, 0, false, false⟩

/-- `FrameState.is_empty`. -/
def FrameState.is_empty (f : FrameState) : Bool :=
  f.page_number.isNone

/-- `FrameState.load_page` (with the default `dirty=False`). -/
def FrameState.load_page (f : FrameState) (page timestamp : Int) : FrameState :=
  { f with page_number := some page, last_access_time := timestamp,
           reference_bit := true, dirty_bit := false }

/-- `dict.get(k, d)` over an insertion-ordered association list (keys
are written at most once by the engines, so first match is the value). -/
def lookupD {α β : Type} [DecidableEq α] (l : List (α × β)) (k : α) (d : β) : β :=
  match l.find? (fun kv => kv.1 = k) with
  | some kv => kv.2
  | none => d

/-- Python `min(xs)` for an `Int` sequence: `none` when the sequence is
empty (Python raises `ValueError` there). -/
def pythonMinInt (l : List Int) : Option Int :=
  match l with
  | [] => none
  | x :: xs => some (xs.foldl min x)

/-- Strict lexicographic order on triples, the order Python uses to
compare the 3-tuples the schedulers pass as `key=`. -/
def tripleLt (a b : Int × Int × Int) : Bool :=
  a.1 < b.1 ∨ (a.1 = b.1 ∧ (a.2.1 < b.2.1 ∨ (a.2.1 = b.2.1 ∧ a.2.2 < b.2.2)))

/-- Python `min(xs, key=k)`: first element with minimal key. -/
def pythonMinBy {α : Type} (key : α → Int × Int × Int) (l : List α) : Option α :=
  match l with
  | [] => none
  | x :: xs => some (xs.foldl (fun b y => if tripleLt (key y) (key b) then y else b) x)

/-! ## Page replacement: shared pieces (src/algorithms/base.py) -/

/-- `PageReplacementBase._calculate_metrics` (base.py lines 43-54).
`page_hits` is an int in the source; the ratios are true divisions.
All values live in `ℚ` here. -/
def calculatePageMetrics (total_references page_faults : Nat) : List (String × ℚ) :=
  let hit_ratio : ℚ :=
    if 0 < total_references then ((total_references : ℚ) - page_faults) / total_references else 0
  let fault_ratio : ℚ :=
    if 0 < total_references then (page_faults : ℚ) / total_references else 0
  [("total_references", (total_references : ℚ)),
   ("page_faults", (page_faults : ℚ)),
   ("page_hits", (total_references : ℚ) - page_faults),
   ("hit_ratio", hit_ratio),
   ("fault_ratio", fault_ratio)]

/-- Snapshot of one frame as produced by the `_get_current_state`
helpers of FIFO / LRU / Optimal (page_replacement.py). -/
structure FrameSnap where
  frame_id : Nat
  page_number : Option Int
  last_access_time : Int
  is_empty : Bool
  deriving DecidableEq, Repr

def FrameState.snap (f : FrameState) : FrameSnap :=
  ⟨f.frame_id, f.page_number, f.last_access_time, f.is_empty⟩

/-- Snapshot of one frame as produced by Clock's `_get_current_state`
(it additionally exposes the reference bit). -/
structure ClockFrameSnap where
  frame_id : Nat
  page_number : Option Int
  last_access_time : Int
  reference_bit : Bool
  is_empty : Bool
  deriving DecidableEq, Repr

def FrameState.clockSnap (f : FrameState) : ClockFrameSnap :=
  ⟨f.frame_id, f.page_number, f.last_access_time, f.reference_bit, f.is_empty⟩

/-- A recorded simulation step of a page-replacement run
(`SimulationStep` with paging-only fields populated; `σ` is the
policy-specific state snapshot).  In the source `_record_step` is
called after the frame mutation in every branch, so `state_before`
and `state_after` are both the post-mutation snapshot. -/
structure PageStep (σ : Type) where
  step_number : Nat
  timestamp : Int
  action : String
  state_before : σ
  state_after : σ
  is_hit : Option Bool
  is_fault : Option Bool
  deriving DecidableEq, Repr

/-- The action string of `_record_step`. -/
def pageAction (page_num : Int) (is_hit : Bool) : String :=
  let tag := if is_hit then "HIT" else "FAULT"
  let pg := toString page_num
  "Access page " ++ pg ++ " - " ++ tag

/-- A `SimulationResult` from a page-replacement engine.  `σ` is the
snapshot type, `ν` the `algorithm_specific` visualization payload.
The wall-clock `timestamp` field (`datetime.now`) is outside the
simulation semantics and not modelled. -/
structure PageResult (σ ν : Type) where
  algorithm_name : String
  execution_steps : List (PageStep σ)
  metrics : List (String × ℚ)
  frame_states_timeline : List σ
  hit_miss_pattern : List (Option Bool)
  algorithm_specific : ν
  page_sequence_param : List Int
  frame_count_param : Int
  deriving DecidableEq, Repr

/-- Replace the first frame satisfying `p` (the object Python's
`_find_page_in_frames` / `_find_empty_frame` return and then mutate). -/
def updateFirstFrame (l : List FrameState) (p : FrameState → Bool)
    (g : FrameState → FrameState) : List FrameState :=
  match l with
  | [] => []
  | f :: fs => if p f then g f :: fs else f :: updateFirstFrame fs p g

/-- `_find_page_in_frames`. -/
def findPageInFrames (frames : List FrameState) (page_num : Int) : Option FrameState :=
  frames.find? (fun f => f.page_number = some page_num)

/-- `_find_empty_frame`. -/
def findEmptyFrame (frames : List FrameState) : Option FrameState :=
  frames.find? (fun f => f.is_empty)

/-! ## FIFO (page_replacement.py lines 10-122) -/

/-- FIFO snapshot (`_get_current_state`): all frames plus a copy of the
insertion-order queue. -/
structure FifoSnap where
  frames : List FrameSnap
  insertion_order : List Nat
  deriving DecidableEq, Repr

/-- The engine-local state of one `FIFOAlgorithm.execute` run. -/
structure FifoState where
  frames : List FrameState
  insertion_order : List Nat
  page_faults : Nat
  steps : List (PageStep FifoSnap)
  deriving DecidableEq, Repr

def fifoSnap (frames : List FrameState) (order : List Nat) : FifoSnap :=
  ⟨frames.map FrameState.snap, order⟩

def fifoRecord (st : FifoState) (step_num : Nat) (timestamp page_num : Int)
    (is_hit : Bool) : FifoState :=
  let snap := fifoSnap st.frames st.insertion_order
  { st with steps := st.steps ++
      [⟨step_num, timestamp, pageAction page_num is_hit, snap, snap,
        some is_hit, some (!is_hit)⟩] }

/-- One iteration of the `for step_num, page_num in enumerate(...)`
loop of `FIFOAlgorithm.execute`.  `none` models the `IndexError` that
`self.insertion_order.pop(0)` raises on an empty queue (possible only
when `frame_count` is not positive). -/
def fifoStep (st : FifoState) (step_num : Nat) (page_num : Int) : Option FifoState :=
  let timestamp : Int := step_num
  match findPageInFrames st.frames page_num with
  | some _ =>
      let frames2 := updateFirstFrame st.frames (fun f => f.page_number = some page_num)
        (fun f => { f with last_access_time := timestamp })
      let st := { st with frames := frames2 }
      some (fifoRecord st step_num timestamp page_num true)
  | none =>
      let st := { st with page_faults := st.page_faults + 1 }
      match findEmptyFrame st.frames with
      | some e =>
          let frames2 := updateFirstFrame st.frames (fun f => f.is_empty)
            (fun f => f.load_page page_num timestamp)
          let st := { st with frames := frames2,
                              insertion_order := st.insertion_order ++ [e.frame_id] }
          some (fifoRecord st step_num timestamp page_num false)
      | none =>
          match st.insertion_order with
          | [] => none
          | victim_frame_id :: rest =>
              match st.frames.get? victim_frame_id with
              | none => none
              | some victim_frame =>
                  let frames2 := st.frames.set victim_frame_id
                    (victim_frame.load_page page_num timestamp)
                  let st := { st with frames := frames2,
                                      insertion_order := rest ++ [victim_frame_id] }
                  some (fifoRecord st step_num timestamp page_num false)

/-- The whole reference loop, threading the enumeration index. -/
def fifoLoop (st : FifoState) (step_num : Nat) : List Int → Option FifoState
  | [] => some st
  | page :: rest =>
      match fifoStep st step_num page with
      | some st2 => fifoLoop st2 (step_num + 1) rest
      | none => none

def fifoInitState (frame_count : Int) : FifoState :=
  ⟨(List.range frame_count.toNat).map FrameState.init, [], 0, []⟩

/-- `FIFOAlgorithm.execute`. -/
def fifoExecute (page_sequence : List Int) (frame_count : Int) :
    Option (PageResult FifoSnap (List Nat)) :=
  match fifoLoop (fifoInitState frame_count) 0 page_sequence with
  | none => none
  | some st =>
      some ⟨"FIFO", st.steps, calculatePageMetrics page_sequence.length st.page_faults,
        st.steps.map (·.state_after), st.steps.map (·.is_hit),
        st.insertion_order, page_sequence, frame_count⟩

/-! ## LRU (page_replacement.py lines 125-243) -/

structure LruSnap where
  frames : List FrameSnap
  deriving DecidableEq, Repr

structure LruState where
  frames : List FrameState
  page_faults : Nat
  steps : List (PageStep LruSnap)
  deriving DecidableEq, Repr

def lruRecord (st : LruState) (step_num : Nat) (timestamp page_num : Int)
    (is_hit : Bool) : LruState :=
  let snap : LruSnap := ⟨st.frames.map FrameState.snap⟩
  { st with steps := st.steps ++
      [⟨step_num, timestamp, pageAction page_num is_hit, snap, snap,
        some is_hit, some (!is_hit)⟩] }

/-- `_find_lru_frame`: smallest `last_access_time` among occupied
frames, first such frame on ties (`<` keeps the earlier find).
Returns `none` when every frame is empty, where the Python code would
return `None` and crash on `lru_frame.load_page`. -/
def findLruFrame (frames : List FrameState) : Option FrameState :=
  frames.foldl
    (fun best f =>
      if f.is_empty then best
      else
        match best with
        | none => some f
        | some b => if f.last_access_time < b.last_access_time then some f else best)
    none

def lruStep (st : LruState) (step_num : Nat) (page_num : Int) : Option LruState :=
  let timestamp : Int := step_num
  match findPageInFrames st.frames page_num with
  | some _ =>
      let frames2 := updateFirstFrame st.frames (fun f => f.page_number = some page_num)
        (fun f => { f with last_access_time := timestamp })
      let st := { st with frames := frames2 }
      some (lruRecord st step_num timestamp page_num true)
  | none =>
      let st := { st with page_faults := st.page_faults + 1 }
      match findEmptyFrame st.frames with
      | some _ =>
          let frames2 := updateFirstFrame st.frames (fun f => f.is_empty)
            (fun f => f.load_page page_num timestamp)
          let st := { st with frames := frames2 }
          some (lruRecord st step_num timestamp page_num false)
      | none =>
          match findLruFrame st.frames with
          | none => none
          | some victim =>
              let frames2 := updateFirstFrame st.frames (fun f => f = victim)
                (fun f => f.load_page page_num timestamp)
              let st := { st with frames := frames2 }
              some (lruRecord st step_num timestamp page_num false)

def lruLoop (st : LruState) (step_num : Nat) : List Int → Option LruState
  | [] => some st
  | page :: rest =>
      match lruStep st step_num page with
      | some st2 => lruLoop st2 (step_num + 1) rest
      | none => none

/-- `LRUAlgorithm.execute`.  The `algorithm_specific` payload is the
`access_times` dictionary. -/
def lruExecute (page_sequence : List Int) (frame_count : Int) :
    Option (PageResult LruSnap (List (Nat × Int))) :=
  match lruLoop ⟨(List.range frame_count.toNat).map FrameState.init, 0, []⟩ 0 page_sequence with
  | none => none
  | some st =>
      some ⟨"LRU", st.steps, calculatePageMetrics page_sequence.length st.page_faults,
        st.steps.map (·.state_after), st.steps.map (·.is_hit),
        st.frames.map (fun f => (f.frame_id, f.last_access_time)),
        page_sequence, frame_count⟩

/-! ## Optimal (page_replacement.py lines 246-395) -/

structure OptState where
  frames : List FrameState
  page_faults : Nat
  steps : List (PageStep LruSnap)
  deriving DecidableEq, Repr

def optRecord (st : OptState) (step_num : Nat) (timestamp page_num : Int)
    (is_hit : Bool) : OptState :=
  let snap : LruSnap := ⟨st.frames.map FrameState.snap⟩
  { st with steps := st.steps ++
      [⟨step_num, timestamp, pageAction page_num is_hit, snap, snap,
        some is_hit, some (!is_hit)⟩] }

/-- `_find_next_use`: index of the next reference of `page_num` at or
after `start_index`, `-1` when the page is never used again. -/
def findNextUse (page_sequence : List Int) (page_num : Int) (start_index : Nat) : Int :=
  match (page_sequence.drop start_index).findIdx? (fun p => p = page_num) with
  | some i => ((start_index + i : Nat) : Int)
  | none => -1

/-- `_find_optimal_victim`: scan the frames; a page never used again is
evicted immediately (first such frame wins); otherwise the first frame
with the strictly farthest next use wins.  The `self.frames[0]`
fallback of the source is unreachable when some frame is occupied and
is modelled by `Option` on the empty-frames case. -/
def findOptimalVictim (page_sequence : List Int) (frames : List FrameState)
    (current_step : Nat) : Option FrameState :=
  let rec go : List FrameState → Int → Option FrameState → Option FrameState
    | [], _, victim => victim
    | f :: fs, farthest, victim =>
        if f.is_empty then go fs farthest victim
        else
          let next_use := findNextUse page_sequence f.page_number.iget (current_step + 1)
          if next_use = -1 then some f
          else if farthest < next_use then go fs next_use (some f)
          else go fs farthest victim
  match go frames (-1) none with
  | some v => some v
  | none => frames.get? 0

def optStep (page_sequence : List Int) (st : OptState) (step_num : Nat)
    (page_num : Int) : Option OptState :=
  let timestamp : Int := step_num
  match findPageInFrames st.frames page_num with
  | some _ =>
      let frames2 := updateFirstFrame st.frames (fun f => f.page_number = some page_num)
        (fun f => { f with last_access_time := timestamp })
      let st := { st with frames := frames2 }
      some (optRecord st step_num timestamp page_num true)
  | none =>
      let st := { st with page_faults := st.page_faults + 1 }
      match findEmptyFrame st.frames with
      | some _ =>
          let frames2 := updateFirstFrame st.frames (fun f => f.is_empty)
            (fun f => f.load_page page_num timestamp)
          let st := { st with frames := frames2 }
          some (optRecord st step_num timestamp page_num false)
      | none =>
          match findOptimalVictim page_sequence st.frames step_num with
          | none => none
          | some victim =>
              let frames2 := updateFirstFrame st.frames (fun f => f = victim)
                (fun f => f.load_page page_num timestamp)
              let st := { st with frames := frames2 }
              some (optRecord st step_num timestamp page_num false)

def optLoop (page_sequence : List Int) (st : OptState) (step_num : Nat) :
    List Int → Option OptState
  | [] => some st
  | page :: rest =>
      match optStep page_sequence st step_num page with
      | some st2 => optLoop page_sequence st2 (step_num + 1) rest
      | none => none

/-- `_get_future_reference_info`: for every position, the page and its
next use. -/
def futureReferenceInfo (page_sequence : List Int) : List (String × (Int × Int)) :=
  (List.range page_sequence.length).map (fun step_num =>
    let page_num := page_sequence.getD step_num 0
    let sn := toString step_num
    ("step_" ++ sn, (page_num, findNextUse page_sequence page_num (step_num + 1))))

/-- `OptimalAlgorithm.execute`. -/
def optExecute (page_sequence : List Int) (frame_count : Int) :
    Option (PageResult LruSnap (List (String × (Int × Int)))) :=
  match optLoop page_sequence ⟨(List.range frame_count.toNat).map FrameState.init, 0, []⟩
      0 page_sequence with
  | none => none
  | some st =>
      some ⟨"Optimal", st.steps, calculatePageMetrics page_sequence.length st.page_faults,
        st.steps.map (·.state_after), st.steps.map (·.is_hit),
        futureReferenceInfo page_sequence, page_sequence, frame_count⟩

/-! ## Clock (page_replacement.py lines 398-531) -/

structure ClockSnap where
  frames : List ClockFrameSnap
  clock_hand : Nat
  deriving DecidableEq, Repr

structure ClockState where
  frames : List FrameState
  clock_hand : Nat
  page_faults : Nat
  steps : List (PageStep ClockSnap)
  deriving DecidableEq, Repr

def clockRecord (st : ClockState) (step_num : Nat) (timestamp page_num : Int)
    (is_hit : Bool) : ClockState :=
  let snap : ClockSnap := ⟨st.frames.map FrameState.clockSnap, st.clock_hand⟩
  { st with steps := st.steps ++
      [⟨step_num, timestamp, pageAction page_num is_hit, snap, snap,
        some is_hit, some (!is_hit)⟩] }

/-- One probe of `_find_clock_victim`s `while True` loop: either give
the current frame a second chance (clear its bit, advance) or pick it
as victim (advance the hand past it). -/
def clockProbe (frames : List FrameState) (hand : Nat) :
    Option ((List FrameState × Nat) ⊕ (List FrameState × Nat × FrameState)) :=
  match frames.get? hand with
  | none => none
  | some current_frame =>
      if current_frame.reference_bit then
        some (.inl (frames.set hand { current_frame with reference_bit := false },
          (hand + 1) % frames.length))
      else
        some (.inr (frames, (hand + 1) % frames.length, current_frame))

/-- `_find_clock_victim` as a fueled loop; `frames.length + 1` probes
always suffice (proved below for the states the engine reaches). -/
def findClockVictim (fuel : Nat) (frames : List FrameState) (hand : Nat) :
    Option (List FrameState × Nat × FrameState) :=
  match fuel with
  | 0 => none
  | fuel + 1 =>
      match clockProbe frames hand with
      | none => none
      | some (.inl (frames2, hand2)) => findClockVictim fuel frames2 hand2
      | some (.inr out) => some out

def clockStep (st : ClockState) (step_num : Nat) (page_num : Int) : Option ClockState :=
  let timestamp : Int := step_num
  match findPageInFrames st.frames page_num with
  | some _ =>
      let frames2 := updateFirstFrame st.frames (fun f => f.page_number = some page_num)
        (fun f => { f with last_access_time := timestamp, reference_bit := true })
      let st := { st with frames := frames2 }
      some (clockRecord st step_num timestamp page_num true)
  | none =>
      let st := { st with page_faults := st.page_faults + 1 }
      match findEmptyFrame st.frames with
      | some _ =>
          let frames2 := updateFirstFrame st.frames (fun f => f.is_empty)
            (fun f => f.load_page page_num timestamp)
          let st := { st with frames := frames2 }
          some (clockRecord st step_num timestamp page_num false)
      | none =>
          match findClockVictim (st.frames.length + 1) st.frames st.clock_hand with
          | none => none
          | some (frames2, hand2, victim) =>
              let frames3 := updateFirstFrame frames2 (fun f => f = victim)
                (fun f => f.load_page page_num timestamp)
              let st := { st with frames := frames3, clock_hand := hand2 }
              some (clockRecord st step_num timestamp page_num false)

def clockLoop (st : ClockState) (step_num : Nat) : List Int → Option ClockState
  | [] => some st
  | page :: rest =>
      match clockStep st step_num page with
      | some st2 => clockLoop st2 (step_num + 1) rest
      | none => none

/-- `ClockAlgorithm.execute`.  `algorithm_specific` carries the (final)
clock-hand position list and the reference bits. -/
def clockExecute (page_sequence : List Int) (frame_count : Int) :
    Option (PageResult ClockSnap (List Nat × List (Nat × Bool))) :=
  match clockLoop ⟨(List.range frame_count.toNat).map FrameState.init, 0, 0, []⟩
      0 page_sequence with
  | none => none
  | some st =>
      some ⟨"Clock", st.steps, calculatePageMetrics page_sequence.length st.page_faults,
        st.steps.map (·.state_after), st.steps.map (·.is_hit),
        ([st.clock_hand], st.frames.map (fun f => (f.frame_id, f.reference_bit))),
        page_sequence, frame_count⟩

/-! ## CPU scheduling: shared pieces (src/algorithms/cpu_scheduling.py) -/

/-- A scheduling `SimulationStep` (`_add_simulation_step`): paging-only
fields are unset, `process_id` always set. -/
structure SchedStep where
  step_number : Nat
  timestamp : Int
  action : String
  process_id : Int
  state_before : List (String × SVal)
  state_after : List (String × SVal)
  deriving DecidableEq, Repr

/-- Gantt-chart entry of FCFS / SJF / Round Robin. -/
structure GanttRR where
  process_id : Int
  start_time : Int
  end_time : Int
  duration : Int
  deriving DecidableEq, Repr

/-- Gantt-chart entry of Priority scheduling (extra `priority`). -/
structure GanttPrio where
  process_id : Int
  start_time : Int
  end_time : Int
  duration : Int
  priority : Int
  deriving DecidableEq, Repr

/-- Gantt-chart entry of MLFQ (extra `queue_level` and `quantum`). -/
structure GanttMLFQ where
  process_id : Int
  start_time : Int
  end_time : Int
  duration : Int
  queue_level : Nat
  quantum : Int
  deriving DecidableEq, Repr

/-- Gantt-chart entry of EDF (extra `deadline`, `deadline_missed`). -/
structure GanttEDF where
  process_id : Int
  start_time : Int
  end_time : Int
  duration : Int
  deadline : Int
  deadline_missed : Bool
  deriving DecidableEq, Repr

/-- A CPU-scheduling `SimulationResult` (γ is the Gantt entry type).
The wall-clock `timestamp` field is not modelled. -/
structure SchedResult (γ : Type) where
  algorithm_name : String
  execution_steps : List SchedStep
  metrics : List (String × ℚ)
  gantt_chart : List γ
  input_parameters : List (String × SVal)
  deriving DecidableEq, Repr

/-- `_create_empty_result` (injected into every scheduler). -/
def createEmptyResult (γ : Type) (name : String) : SchedResult γ :=
  ⟨name, [], [], [], [("processes", SVal.int 0)]⟩

/-- Sum of a list of integers (Python `sum`). -/
def intSum (l : List Int) : Int := l.foldl (· + ·) 0

/-- `_calculate_detailed_metrics` (cpu_scheduling.py lines 964-995,
injected into every scheduler; EDF carries an identical copy). -/
def calculateDetailedMetrics (processes : List Process)
    (completion_times response_times : List (Int × Int)) : List (String × ℚ) :=
  if processes.isEmpty ∨ completion_times.isEmpty then []
  else
    let totals := processes.foldl
      (fun (acc : Int × Int × Int) p =>
        let completion_time := lookupD completion_times p.pid 0
        let turnaround_time := completion_time - p.arrival_time
        let waiting_time := turnaround_time - p.burst_time
        let response_time := lookupD response_times p.pid 0
        (acc.1 + turnaround_time, acc.2.1 + waiting_time, acc.2.2 + response_time))
      (0, 0, 0)
    let process_count : ℚ := processes.length
    let max_completion_time : Int :=
      (completion_times.map (·.2)).foldl max (completion_times.headD (0, 0)).2
    [("average_turnaround_time", (totals.1 : ℚ) / process_count),
     ("average_waiting_time", (totals.2.1 : ℚ) / process_count),
     ("average_response_time", (totals.2.2 : ℚ) / process_count),
     ("throughput",
       if 0 < max_completion_time then process_count / (max_completion_time : ℚ) else 0),
     ("total_execution_time", (max_completion_time : ℚ)),
     ("cpu_utilization",
       if 0 < max_completion_time then
         (intSum (processes.map (·.burst_time)) : ℚ) / (max_completion_time : ℚ)
       else 0)]

/-- Replace the value at the first occurrence of key `k` (the key is
present whenever the engines call this; otherwise no change). -/
def updateAssoc {β : Type} (l : List (Int × β)) (k : Int) (v : β) : List (Int × β) :=
  match l with
  | [] => []
  | kv :: rest => if kv.1 = k then (k, v) :: rest else kv :: updateAssoc rest k v

/-- `process_copies = {p.pid: deepcopy(p) for p in processes}`: lookup
returns the last process with the given pid (dict overwrite). -/
def processCopy (processes : List Process) (pid : Int) : Option Process :=
  processes.reverse.find? (fun p => p.pid = pid)

/-- Initial `remaining_time` table of the working copies (last
occurrence of a pid wins, as in the dict comprehension). -/
def initRemaining (processes : List Process) : List (Int × Int) :=
  processes.reverse.map (fun p => (p.pid, p.remaining_time))

/-- The completion `SimulationStep` shared verbatim by SJF / RR /
Priority / MLFQ-with-suffix / EDF-with-suffix. -/
def completionStep (n : Nat) (t prev : Int) (pid : Int) (suffix : String) : SchedStep :=
  ⟨n, t, "Process P" ++ toString pid ++ " completes execution" ++ suffix, pid,
   [("current_time", SVal.int prev), ("running_process", SVal.opt (some pid))],
   [("current_time", SVal.int t), ("running_process", SVal.opt none)]⟩

/-! ## FCFS (cpu_scheduling.py lines 22-92) -/

/-- The `SchedulingBase` instance fields that survive between calls
(base.py lines 59-63): `execute` returns the very objects stored here,
so a later `reset` clears the lists inside the already-returned
result. -/
structure SchedEngineState (γ : Type) where
  simulation_steps : List SchedStep
  metrics : List (String × ℚ)
  gantt_chart_data : List γ
  deriving DecidableEq, Repr

/-- `SchedulingBase.reset` (base.py lines 90-94): clears the three
lists in place. -/
def schedReset (γ : Type) (_ : SchedEngineState γ) : SchedEngineState γ :=
  ⟨[], [], []⟩

/-- Accumulator of the FCFS `for` loop. -/
structure FcfsAcc where
  current_time : Int
  completion_times : List (Int × Int)
  response_times : List (Int × Int)
  steps : List SchedStep
  gantt : List GanttRR
  deriving DecidableEq, Repr

def fcfsBody (acc : FcfsAcc) (p : Process) : FcfsAcc :=
  let current_time := if acc.current_time < p.arrival_time then p.arrival_time else acc.current_time
  let response_times := acc.response_times ++ [(p.pid, current_time - p.arrival_time)]
  let startStep : SchedStep :=
    ⟨acc.steps.length, current_time,
     "Process P" ++ toString p.pid ++ " starts execution", p.pid,
     [("current_time", SVal.int current_time), ("running_process", SVal.opt none)],
     [("current_time", SVal.int current_time), ("running_process", SVal.opt (some p.pid))]⟩
  let gantt := acc.gantt ++
    [⟨p.pid, current_time, current_time + p.burst_time, p.burst_time⟩]
  let current_time2 := current_time + p.burst_time
  let completion_times := acc.completion_times ++ [(p.pid, current_time2)]
  let endStep : SchedStep :=
    ⟨acc.steps.length + 1, current_time2,
     "Process P" ++ toString p.pid ++ " completes execution", p.pid,
     [("current_time", SVal.int (current_time2 - p.burst_time)),
      ("running_process", SVal.opt (some p.pid))],
     [("current_time", SVal.int current_time2), ("running_process", SVal.opt none)]⟩
  ⟨current_time2, completion_times, response_times,
   acc.steps ++ [startStep, endStep], gantt⟩

/-- Stable insertion into a sorted list: `x` goes after every element
strictly smaller and before the first element not smaller (so equal
keys keep their original order). -/
def insertStable {α : Type} (lt : α → α → Bool) (x : α) : List α → List α
  | [] => [x]
  | y :: ys => if lt y x then y :: insertStable lt x ys else x :: y :: ys

/-- Stable sort (the unique stable ordering Python `sorted` yields). -/
def stableSortBy {α : Type} (lt : α → α → Bool) (l : List α) : List α :=
  l.foldr (insertStable lt) []

/-- Stable sort by `(arrival_time, pid)` (Python `sorted` with that
key). -/
def fcfsSort (processes : List Process) : List Process :=
  stableSortBy (fun a b =>
    a.arrival_time < b.arrival_time ∨ (a.arrival_time = b.arrival_time ∧ a.pid < b.pid))
    processes

/-- `FCFSScheduler.execute`.  It threads the engine instance state:
`reset` first, then the loop; the returned result holds the final
values of the instance lists (which are the *same objects*, see the
C1 analysis). -/
def fcfsExecute (st : SchedEngineState GanttRR) (processes : List Process) :
    SchedEngineState GanttRR × SchedResult GanttRR :=
  let st := schedReset GanttRR st
  if processes.isEmpty then
    (st, createEmptyResult GanttRR "FCFS")
  else
    let acc := (fcfsSort processes).foldl fcfsBody ⟨0, [], [], [], []⟩
    let metrics := calculateDetailedMetrics processes acc.completion_times acc.response_times
    let st2 : SchedEngineState GanttRR := ⟨acc.steps, metrics, acc.gantt⟩
    (st2, ⟨"FCFS", st2.simulation_steps, st2.metrics, st2.gantt_chart_data,
      [("processes", SVal.int processes.length)]⟩)

/-! ## Round Robin (cpu_scheduling.py lines 283-390) -/

structure RRState where
  current_time : Int
  completed : List Int
  completion_times : List (Int × Int)
  response_times : List (Int × Int)
  ready_queue : List Int
  current : Option Int
  quantum_remaining : Int
  remaining : List (Int × Int)
  first_execution : List Int
  ganttRev : List GanttRR
  stepsRev : List SchedStep
  deriving DecidableEq, Repr

/-- The new-arrivals scan shared by the preemptive schedulers: iterate
over the *input* list in order and enqueue pids that have arrived, are
not completed, not already queued, and are not the running process. -/
def addArrivals (processes : List Process) (time : Int) (completed queue : List Int)
    (current : Option Int) : List Int :=
  processes.foldl
    (fun q p =>
      if p.arrival_time ≤ time ∧ p.pid ∉ completed ∧ p.pid ∉ q ∧ current ≠ some p.pid
      then q ++ [p.pid] else q)
    queue

/-- The idle jump target: `min(p.arrival_time for p in processes if
p.pid not in completed and p.arrival_time > current_time)`. -/
def nextArrivalAfter (processes : List Process) (completed : List Int) (time : Int) :
    Option Int :=
  pythonMinInt ((processes.filter
    (fun p => p.pid ∉ completed ∧ time < p.arrival_time)).map (·.arrival_time))

/-- Append to / merge with the newest Gantt entry after executing pid
for one unit `[execStart, newTime)` (the list is newest-first). -/
def ganttPushRR (g : List GanttRR) (pid execStart newTime : Int) : List GanttRR :=
  match g with
  | e :: rest =>
      if e.process_id = pid ∧ e.end_time = execStart then
        { e with end_time := newTime, duration := e.duration + 1 } :: rest
      else ⟨pid, execStart, newTime, 1⟩ :: e :: rest
  | [] => [⟨pid, execStart, newTime, 1⟩]

def addCompleted (completed : List Int) (pid : Int) : List Int :=
  if pid ∈ completed then completed else completed ++ [pid]

/-- The `if current_process:` execute-one-unit tail of the Round Robin
loop body (lines 344-380).  When `current` is `none` here the Python
body falls through doing nothing. -/
def rrExec (st : RRState) : RRState :=
  match st.current with
  | none => st
  | some c =>
      let execution_start := st.current_time
      let t2 := st.current_time + 1
      let rem2 := lookupD st.remaining c 0 - 1
      let st3 := { st with
        current_time := t2,
        remaining := updateAssoc st.remaining c rem2,
        quantum_remaining := st.quantum_remaining - 1,
        ganttRev := ganttPushRR st.ganttRev c execution_start t2 }
      if rem2 = 0 then
        { st3 with
          completion_times := st3.completion_times ++ [(c, t2)],
          completed := addCompleted st3.completed c,
          stepsRev := completionStep st3.stepsRev.length t2 (t2 - 1) c "" :: st3.stepsRev,
          current := none,
          quantum_remaining := 0 }
      else st3

/-- One iteration of the Round Robin `while` loop.  `none` models the
`ValueError` of `min()` on an empty sequence in the idle branch. -/
def rrStep (time_quantum : Int) (processes : List Process) (st : RRState) :
    Option RRState :=
  let q0 := addArrivals processes st.current_time st.completed st.ready_queue st.current
  let st := { st with ready_queue := q0 }
  if st.current = none ∨ st.quantum_remaining = (0 : Int) then
    -- quantum expired with work left: requeue the incumbent at the tail
    let st :=
      match st.current with
      | some c =>
          if 0 < lookupD st.remaining c 0 then
            { st with ready_queue := st.ready_queue ++ [c] }
          else st
      | none => st
    if st.ready_queue.isEmpty ∧ st.current = none then
      -- no processes ready: jump to the next arrival and restart the loop
      match nextArrivalAfter processes st.completed st.current_time with
      | some next_arrival => some { st with current_time := next_arrival }
      | none => none
    else
      match st.ready_queue with
      | c :: rest =>
          let st := { st with current := some c, ready_queue := rest,
                              quantum_remaining := time_quantum }
          if c ∉ st.first_execution then
            let arrival := (processCopy processes c).elim 0 (·.arrival_time)
            some (rrExec { st with
              response_times := st.response_times ++ [(c, st.current_time - arrival)],
              first_execution := st.first_execution ++ [c] })
          else some (rrExec st)
      | [] => some (rrExec st)
  else some (rrExec st)

def rrInitState (processes : List Process) : RRState :=
  ⟨0, [], [], [], [], none, 0, initRemaining processes, [], [], []⟩

/-- The fueled Round Robin `while` loop. -/
def rrRun (time_quantum : Int) (processes : List Process) :
    Nat → RRState → Option RRState
  | fuel, st =>
      if processes.length ≤ st.completed.length then some st
      else
        match fuel with
        | 0 => none
        | fuel + 1 =>
            match rrStep time_quantum processes st with
            | some st2 => rrRun time_quantum processes fuel st2
            | none => none

/-- `RoundRobinScheduler.execute`, with explicit loop fuel. -/
def rrExecute (fuel : Nat) (time_quantum : Int) (processes : List Process) :
    Option (SchedResult GanttRR) :=
  let name := "Round Robin (q=" ++ toString time_quantum ++ ")"
  if processes.isEmpty then some (createEmptyResult GanttRR name)
  else
    match rrRun time_quantum processes fuel (rrInitState processes) with
    | none => none
    | some st =>
        some ⟨name, st.stepsRev.reverse,
          calculateDetailedMetrics processes st.completion_times st.response_times,
          st.ganttRev.reverse,
          [("processes", SVal.int processes.length),
           ("time_quantum", SVal.int time_quantum)]⟩

/-! ## SJF non-preemptive (cpu_scheduling.py lines 115-186) -/

/-- Loop state of the non-preemptive schedulers (γ is the Gantt entry
type).  The ready queue holds the working copies themselves; the
non-preemptive variants never mutate them. -/
structure NPState (γ : Type) where
  current_time : Int
  completed : List Int
  completion_times : List (Int × Int)
  response_times : List (Int × Int)
  ready_queue : List Process
  steps : List SchedStep
  gantt : List γ
  deriving DecidableEq, Repr

/-- New-arrivals scan of the non-preemptive loops (no `current` guard:
there is no incumbent between bursts). -/
def addArrivalsNp (processes : List Process) (time : Int) (completed : List Int)
    (queue : List Process) : List Process :=
  processes.foldl
    (fun q p =>
      if p.arrival_time ≤ time ∧ p.pid ∉ completed ∧ p.pid ∉ q.map (·.pid)
      then q ++ [p] else q)
    queue

/-- Idle target of the non-preemptive loops: minimum arrival among
incomplete processes (no `> current_time` filter in the source). -/
def nextArrivalNp (processes : List Process) (completed : List Int) : Option Int :=
  pythonMinInt ((processes.filter (fun p => p.pid ∉ completed)).map (·.arrival_time))

/-- One iteration of `_execute_non_preemptive_sjf`. -/
def sjfNpStep (processes : List Process) (st : NPState GanttRR) :
    Option (NPState GanttRR) :=
  let q0 := addArrivalsNp processes st.current_time st.completed st.ready_queue
  let st := { st with ready_queue := q0 }
  if st.ready_queue.isEmpty then
    match nextArrivalNp processes st.completed with
    | some next_arrival => some { st with current_time := next_arrival }
    | none => none
  else
    match pythonMinBy (fun p => (p.burst_time, p.arrival_time, p.pid)) st.ready_queue with
    | none => none
    | some sel =>
        let st := { st with ready_queue := st.ready_queue.eraseP (fun p => p = sel) }
        let t := st.current_time
        let startStep : SchedStep :=
          ⟨st.steps.length, t,
           "Process P" ++ toString sel.pid ++ " starts execution (burst: " ++
             toString sel.burst_time ++ ")", sel.pid,
           [("current_time", SVal.int t),
            ("ready_queue", SVal.list (st.ready_queue.map (·.pid)))],
           [("current_time", SVal.int t), ("running_process", SVal.opt (some sel.pid))]⟩
        let t2 := t + sel.burst_time
        some { st with
          current_time := t2,
          completion_times := st.completion_times ++ [(sel.pid, t2)],
          completed := addCompleted st.completed sel.pid,
          response_times := st.response_times ++ [(sel.pid, t - sel.arrival_time)],
          steps := st.steps ++ [startStep,
            completionStep (st.steps.length + 1) t2 (t2 - sel.burst_time) sel.pid ""],
          gantt := st.gantt ++ [⟨sel.pid, t, t2, sel.burst_time⟩] }

def npRun {γ : Type} (step : NPState γ → Option (NPState γ)) (n : Nat) :
    Nat → NPState γ → Option (NPState γ)
  | fuel, st =>
      if n ≤ st.completed.length then some st
      else
        match fuel with
        | 0 => none
        | fuel + 1 =>
            match step st with
            | some st2 => npRun step n fuel st2
            | none => none

def npInitState (γ : Type) : NPState γ := ⟨0, [], [], [], [], [], []⟩

/-! ## SJF preemptive / SRTF (cpu_scheduling.py lines 188-280) -/

/-- Loop state of SRTF (no quantum). -/
structure SRTFState where
  current_time : Int
  completed : List Int
  completion_times : List (Int × Int)
  response_times : List (Int × Int)
  ready_queue : List Int
  current : Option Int
  remaining : List (Int × Int)
  first_execution : List Int
  ganttRev : List GanttRR
  stepsRev : List SchedStep
  deriving DecidableEq, Repr

/-- The key `(p.remaining_time, p.arrival_time, p.pid)` read off the
live working copies. -/
def srtfKey (processes : List Process) (remaining : List (Int × Int)) (pid : Int) :
    Int × Int × Int :=
  (lookupD remaining pid 0, (processCopy processes pid).elim 0 (·.arrival_time), pid)

def srtfExecPhase (st : SRTFState) (c : Int) : SRTFState :=
  let execution_start := st.current_time
  let t2 := st.current_time + 1
  let rem2 := lookupD st.remaining c 0 - 1
  let st3 := { st with
    current_time := t2,
    remaining := updateAssoc st.remaining c rem2,
    ganttRev := ganttPushRR st.ganttRev c execution_start t2 }
  if rem2 = 0 then
    { st3 with
      completion_times := st3.completion_times ++ [(c, t2)],
      completed := addCompleted st3.completed c,
      stepsRev := completionStep st3.stepsRev.length t2 (t2 - 1) c "" :: st3.stepsRev,
      current := none }
  else st3

/-- One iteration of `_execute_preemptive_sjf`. -/
def srtfStep (processes : List Process) (st : SRTFState) : Option SRTFState :=
  let q0 := addArrivals processes st.current_time st.completed st.ready_queue st.current
  let st := { st with ready_queue := q0 }
  -- preempt when a ready process has strictly smaller remaining time
  let st :=
    match st.current with
    | some c =>
        if st.ready_queue.isEmpty then st
        else
          match pythonMinBy (srtfKey processes st.remaining) st.ready_queue with
          | some shortest =>
              if lookupD st.remaining shortest 0 < lookupD st.remaining c 0 then
                { st with ready_queue := st.ready_queue ++ [c], current := none }
              else st
          | none => st
    | none => st
  match st.current with
  | some c => some (srtfExecPhase st c)
  | none =>
      if st.ready_queue.isEmpty then
        match nextArrivalAfter processes st.completed st.current_time with
        | some next_arrival => some { st with current_time := next_arrival }
        | none => none
      else
        match pythonMinBy (srtfKey processes st.remaining) st.ready_queue with
        | none => none
        | some c =>
            let st := { st with current := some c,
                                ready_queue := st.ready_queue.erase c }
            let st :=
              if c ∉ st.first_execution then
                { st with
                  response_times := st.response_times ++
                    [(c, st.current_time - (processCopy processes c).elim 0 (·.arrival_time))],
                  first_execution := st.first_execution ++ [c] }
              else st
            some (srtfExecPhase st c)

def srtfRun (processes : List Process) : Nat → SRTFState → Option SRTFState
  | fuel, st =>
      if processes.length ≤ st.completed.length then some st
      else
        match fuel with
        | 0 => none
        | fuel + 1 =>
            match srtfStep processes st with
            | some st2 => srtfRun processes fuel st2
            | none => none

def srtfInitState (processes : List Process) : SRTFState :=
  ⟨0, [], [], [], [], none, initRemaining processes, [], [], []⟩

/-- `SJFScheduler.execute` (both modes), with explicit loop fuel. -/
def sjfExecute (fuel : Nat) (preemptive : Bool) (processes : List Process) :
    Option (SchedResult GanttRR) :=
  let mode := if preemptive then "Preemptive" else "Non-preemptive"
  let name := "SJF (" ++ mode ++ ")"
  if processes.isEmpty then some (createEmptyResult GanttRR name)
  else if preemptive then
    match srtfRun processes fuel (srtfInitState processes) with
    | none => none
    | some st =>
        some ⟨name, st.stepsRev.reverse,
          calculateDetailedMetrics processes st.completion_times st.response_times,
          st.ganttRev.reverse,
          [("processes", SVal.int processes.length), ("preemptive", SVal.bool true)]⟩
  else
    match npRun (sjfNpStep processes) processes.length fuel (npInitState GanttRR) with
    | none => none
    | some st =>
        some ⟨name, st.steps,
          calculateDetailedMetrics processes st.completion_times st.response_times,
          st.gantt,
          [("processes", SVal.int processes.length), ("preemptive", SVal.bool false)]⟩

/-! ## Priority scheduling (cpu_scheduling.py lines 393-580) -/

/-- One iteration of `_execute_non_preemptive_priority`. -/
def prioNpStep (processes : List Process) (st : NPState GanttPrio) :
    Option (NPState GanttPrio) :=
  let q0 := addArrivalsNp processes st.current_time st.completed st.ready_queue
  let st := { st with ready_queue := q0 }
  if st.ready_queue.isEmpty then
    match nextArrivalNp processes st.completed with
    | some next_arrival => some { st with current_time := next_arrival }
    | none => none
  else
    match pythonMinBy (fun p => (p.priority, p.arrival_time, p.pid)) st.ready_queue with
    | none => none
    | some sel =>
        let st := { st with ready_queue := st.ready_queue.eraseP (fun p => p = sel) }
        let t := st.current_time
        let startStep : SchedStep :=
          ⟨st.steps.length, t,
           "Process P" ++ toString sel.pid ++ " starts execution (priority: " ++
             toString sel.priority ++ ")", sel.pid,
           [("current_time", SVal.int t),
            ("ready_queue", SVal.list (st.ready_queue.map (·.pid)))],
           [("current_time", SVal.int t), ("running_process", SVal.opt (some sel.pid))]⟩
        let t2 := t + sel.burst_time
        some { st with
          current_time := t2,
          completion_times := st.completion_times ++ [(sel.pid, t2)],
          completed := addCompleted st.completed sel.pid,
          response_times := st.response_times ++ [(sel.pid, t - sel.arrival_time)],
          steps := st.steps ++ [startStep,
            completionStep (st.steps.length + 1) t2 (t2 - sel.burst_time) sel.pid ""],
          gantt := st.gantt ++ [⟨sel.pid, t, t2, sel.burst_time, sel.priority⟩] }

/-- Loop state of preemptive priority scheduling. -/
structure PrioPState where
  current_time : Int
  completed : List Int
  completion_times : List (Int × Int)
  response_times : List (Int × Int)
  ready_queue : List Int
  current : Option Int
  remaining : List (Int × Int)
  first_execution : List Int
  ganttRev : List GanttPrio
  stepsRev : List SchedStep
  deriving DecidableEq, Repr

def prioOf (processes : List Process) (pid : Int) : Int :=
  (processCopy processes pid).elim 0 (·.priority)

def prioKey (processes : List Process) (pid : Int) : Int × Int × Int :=
  (prioOf processes pid, (processCopy processes pid).elim 0 (·.arrival_time), pid)

def ganttPushPrio (g : List GanttPrio) (pid execStart newTime priority : Int) :
    List GanttPrio :=
  match g with
  | e :: rest =>
      if e.process_id = pid ∧ e.end_time = execStart then
        { e with end_time := newTime, duration := e.duration + 1 } :: rest
      else ⟨pid, execStart, newTime, 1, priority⟩ :: e :: rest
  | [] => [⟨pid, execStart, newTime, 1, priority⟩]

def prioPExecPhase (processes : List Process) (st : PrioPState) (c : Int) : PrioPState :=
  let execution_start := st.current_time
  let t2 := st.current_time + 1
  let rem2 := lookupD st.remaining c 0 - 1
  let st3 := { st with
    current_time := t2,
    remaining := updateAssoc st.remaining c rem2,
    ganttRev := ganttPushPrio st.ganttRev c execution_start t2 (prioOf processes c) }
  if rem2 = 0 then
    { st3 with
      completion_times := st3.completion_times ++ [(c, t2)],
      completed := addCompleted st3.completed c,
      stepsRev := completionStep st3.stepsRev.length t2 (t2 - 1) c "" :: st3.stepsRev,
      current := none }
  else st3

/-- One iteration of `_execute_preemptive_priority`. -/
def prioPStep (processes : List Process) (st : PrioPState) : Option PrioPState :=
  let q0 := addArrivals processes st.current_time st.completed st.ready_queue st.current
  let st := { st with ready_queue := q0 }
  let st :=
    match st.current with
    | some c =>
        if st.ready_queue.isEmpty then st
        else
          match pythonMinBy (prioKey processes) st.ready_queue with
          | some highest =>
              if prioOf processes highest < prioOf processes c then
                { st with ready_queue := st.ready_queue ++ [c], current := none }
              else st
          | none => st
    | none => st
  match st.current with
  | some c => some (prioPExecPhase processes st c)
  | none =>
      if st.ready_queue.isEmpty then
        match nextArrivalAfter processes st.completed st.current_time with
        | some next_arrival => some { st with current_time := next_arrival }
        | none => none
      else
        match pythonMinBy (prioKey processes) st.ready_queue with
        | none => none
        | some c =>
            let st := { st with current := some c,
                                ready_queue := st.ready_queue.erase c }
            let st :=
              if c ∉ st.first_execution then
                { st with
                  response_times := st.response_times ++
                    [(c, st.current_time - (processCopy processes c).elim 0 (·.arrival_time))],
                  first_execution := st.first_execution ++ [c] }
              else st
            some (prioPExecPhase processes st c)

def prioPRun (processes : List Process) : Nat → PrioPState → Option PrioPState
  | fuel, st =>
      if processes.length ≤ st.completed.length then some st
      else
        match fuel with
        | 0 => none
        | fuel + 1 =>
            match prioPStep processes st with
            | some st2 => prioPRun processes fuel st2
            | none => none

def prioPInitState (processes : List Process) : PrioPState :=
  ⟨0, [], [], [], [], none, initRemaining processes, [], [], []⟩

/-- `PriorityScheduler.execute` (both modes), with explicit loop fuel. -/
def prioExecute (fuel : Nat) (preemptive : Bool) (processes : List Process) :
    Option (SchedResult GanttPrio) :=
  let mode := if preemptive then "Preemptive" else "Non-preemptive"
  let name := "Priority (" ++ mode ++ ")"
  if processes.isEmpty then some (createEmptyResult GanttPrio name)
  else if preemptive then
    match prioPRun processes fuel (prioPInitState processes) with
    | none => none
    | some st =>
        some ⟨name, st.stepsRev.reverse,
          calculateDetailedMetrics processes st.completion_times st.response_times,
          st.ganttRev.reverse,
          [("processes", SVal.int processes.length), ("preemptive", SVal.bool true)]⟩
  else
    match npRun (prioNpStep processes) processes.length fuel (npInitState GanttPrio) with
    | none => none
    | some st =>
        some ⟨name, st.steps,
          calculateDetailedMetrics processes st.completion_times st.response_times,
          st.gantt,
          [("processes", SVal.int processes.length), ("preemptive", SVal.bool false)]⟩

/-! ## EDF (cpu_scheduling.py lines 740-931) -/

structure EDFState where
  current_time : Int
  completed : List Int
  completion_times : List (Int × Int)
  response_times : List (Int × Int)
  ready_queue : List Int
  current : Option Int
  missed : List Int
  remaining : List (Int × Int)
  first_execution : List Int
  ganttRev : List GanttEDF
  stepsRev : List SchedStep
  deriving DecidableEq, Repr

/-- The working copy's deadline (every process has one once the
precondition check has passed). -/
def edfDeadline (processes : List Process) (pid : Int) : Int :=
  (processCopy processes pid).elim 0 (fun p => p.deadline.getD 0)

def edfKey (processes : List Process) (pid : Int) : Int × Int × Int :=
  (edfDeadline processes pid, (processCopy processes pid).elim 0 (·.arrival_time), pid)

def ganttPushEDF (g : List GanttEDF) (pid execStart newTime deadline : Int)
    (deadline_missed : Bool) : List GanttEDF :=
  match g with
  | e :: rest =>
      if e.process_id = pid ∧ e.end_time = execStart then
        { e with end_time := newTime, duration := e.duration + 1 } :: rest
      else ⟨pid, execStart, newTime, 1, deadline, deadline_missed⟩ :: e :: rest
  | [] => [⟨pid, execStart, newTime, 1, deadline, deadline_missed⟩]

/-- Deadline-miss check plus one execution unit (lines 808-858). -/
def edfExecPhase (processes : List Process) (st : EDFState) (c : Int) : EDFState :=
  let d := edfDeadline processes c
  -- check for deadline miss before execution, recorded at most once
  let st :=
    if d ≤ st.current_time ∧ c ∉ st.missed then
      let missStep : SchedStep :=
        ⟨st.stepsRev.length, st.current_time,
         "Process P" ++ toString c ++ " MISSED DEADLINE (" ++ toString d ++ ")", c,
         [("current_time", SVal.int st.current_time), ("deadline", SVal.int d)],
         [("current_time", SVal.int st.current_time), ("deadline_missed", SVal.bool true)]⟩
      { st with missed := st.missed ++ [c], stepsRev := missStep :: st.stepsRev }
    else st
  let execution_start := st.current_time
  let t2 := st.current_time + 1
  let rem2 := lookupD st.remaining c 0 - 1
  let st3 := { st with
    current_time := t2,
    remaining := updateAssoc st.remaining c rem2,
    ganttRev := ganttPushEDF st.ganttRev c execution_start t2 d (c ∈ st.missed) }
  if rem2 = 0 then
    let deadline_met := t2 ≤ d
    let doneStep : SchedStep :=
      ⟨st3.stepsRev.length, t2,
       "Process P" ++ toString c ++ " completes execution (" ++
         (if deadline_met then "ON TIME" else "LATE") ++ ")", c,
       [("current_time", SVal.int (t2 - 1)), ("running_process", SVal.opt (some c))],
       [("current_time", SVal.int t2), ("running_process", SVal.opt none),
        ("deadline_met", SVal.bool deadline_met)]⟩
    { st3 with
      completion_times := st3.completion_times ++ [(c, t2)],
      completed := addCompleted st3.completed c,
      stepsRev := doneStep :: st3.stepsRev,
      current := none }
  else st3

/-- One iteration of the EDF `while` loop. -/
def edfStep (processes : List Process) (st : EDFState) : Option EDFState :=
  let q0 := addArrivals processes st.current_time st.completed st.ready_queue st.current
  let st := { st with ready_queue := q0 }
  -- preempt whenever a ready process has a strictly earlier deadline
  let st :=
    match st.current with
    | some c =>
        if st.ready_queue.isEmpty then st
        else
          match pythonMinBy (edfKey processes) st.ready_queue with
          | some earliest =>
              if edfDeadline processes earliest < edfDeadline processes c then
                { st with ready_queue := st.ready_queue ++ [c], current := none }
              else st
          | none => st
    | none => st
  match st.current with
  | some c => some (edfExecPhase processes st c)
  | none =>
      if st.ready_queue.isEmpty then
        match nextArrivalAfter processes st.completed st.current_time with
        | some next_arrival => some { st with current_time := next_arrival }
        | none => none
      else
        match pythonMinBy (edfKey processes) st.ready_queue with
        | none => none
        | some c =>
            let st := { st with current := some c,
                                ready_queue := st.ready_queue.erase c }
            let st :=
              if c ∉ st.first_execution then
                { st with
                  response_times := st.response_times ++
                    [(c, st.current_time - (processCopy processes c).elim 0 (·.arrival_time))],
                  first_execution := st.first_execution ++ [c] }
              else st
            some (edfExecPhase processes st c)

def edfRun (processes : List Process) : Nat → EDFState → Option EDFState
  | fuel, st =>
      if processes.length ≤ st.completed.length then some st
      else
        match fuel with
        | 0 => none
        | fuel + 1 =>
            match edfStep processes st with
            | some st2 => edfRun processes fuel st2
            | none => none

def edfInitState (processes : List Process) : EDFState :=
  ⟨0, [], [], [], [], none, [], initRemaining processes, [], [], []⟩

/-- `EDFScheduler.execute`, with explicit loop fuel.  The `ValueError`
raised when some process lacks a deadline is modelled as `none`. -/
def edfExecute (fuel : Nat) (processes : List Process) :
    Option (SchedResult GanttEDF) :=
  let name := "EDF (Earliest Deadline First)"
  if processes.isEmpty then some (createEmptyResult GanttEDF name)
  else if processes.any (fun p => p.deadline.isNone) then none
  else
    match edfRun processes fuel (edfInitState processes) with
    | none => none
    | some st =>
        let base := calculateDetailedMetrics processes st.completion_times st.response_times
        some ⟨name, st.stepsRev.reverse,
          base ++
            [("missed_deadlines", (st.missed.length : ℚ)),
             ("deadline_miss_ratio", (st.missed.length : ℚ) / processes.length),
             ("schedulability", 1 - (st.missed.length : ℚ) / processes.length)],
          st.ganttRev.reverse,
          [("processes", SVal.int processes.length),
           ("missed_deadlines", SVal.list st.missed)]⟩

/-! ## MLFQ (cpu_scheduling.py lines 583-737) -/

/-- Constructor quantum extension: `while len(time_quantums) <
num_queues: append(last * 2)`.  `none` models the `IndexError` on an
empty quantum list. -/
def mlfqExtend (num_queues : Nat) (tqs : List Int) : Option (List Int) :=
  if tqs.length < num_queues then
    match tqs.getLast? with
    | none => none
    | some last => mlfqExtend num_queues (tqs ++ [2 * last])
  else some tqs
termination_by num_queues - tqs.length
decreasing_by simp at *; omega

structure MLFQState where
  current_time : Int
  completed : List Int
  completion_times : List (Int × Int)
  response_times : List (Int × Int)
  queues : List (List Int)
  queue_level : List (Int × Nat)
  waiting_time : List (Int × Int)
  current : Option Int
  quantum_remaining : Int
  current_queue_level : Nat
  remaining : List (Int × Int)
  first_execution : List Int
  ganttRev : List GanttMLFQ
  stepsRev : List SchedStep
  deriving DecidableEq, Repr

/-- MLFQ arrivals: enqueue to queue 0, record level 0 and a fresh
waiting counter; the `pid not in process_queue_level` guard makes this
happen at most once per pid. -/
def mlfqArrivals (processes : List Process) (st : MLFQState) : MLFQState :=
  processes.foldl
    (fun st p =>
      if p.arrival_time ≤ st.current_time ∧ p.pid ∉ st.completed ∧
         p.pid ∉ st.queue_level.map (·.1) ∧ st.current ≠ some p.pid then
        { st with
          queues := st.queues.set 0 (st.queues.getD 0 [] ++ [p.pid]),
          queue_level := st.queue_level ++ [(p.pid, 0)],
          waiting_time := st.waiting_time ++ [(p.pid, 0)] }
      else st)
    st

/-- Aging pass over a snapshot of the waiting-time keys: bump each
non-running incomplete process and promote it one level once the
threshold is reached. -/
def mlfqAge (aging_threshold : Int) (st : MLFQState) : MLFQState :=
  (st.waiting_time.map (·.1)).foldl
    (fun st pid =>
      if pid ∉ st.completed ∧ st.current ≠ some pid then
        let w := lookupD st.waiting_time pid 0 + 1
        let st := { st with waiting_time := updateAssoc st.waiting_time pid w }
        if aging_threshold ≤ w then
          let lv := lookupD st.queue_level pid 0
          if 0 < lv then
            if pid ∈ st.queues.getD lv [] then
              let q2 := (st.queues.getD lv []).erase pid
              let new_level := lv - 1
              let q1 := st.queues.getD new_level [] ++ [pid]
              { st with
                queues := (st.queues.set lv q2).set new_level q1,
                queue_level := updateAssoc st.queue_level pid new_level,
                waiting_time := updateAssoc st.waiting_time pid 0 }
            else st
          else st
        else st
      else st)
    st

/-- First non-empty queue level and its head. -/
def mlfqFirst : List (List Int) → Nat → Option (Nat × Int)
  | [], _ => none
  | q :: rest, lv =>
      match q with
      | pid :: _ => some (lv, pid)
      | [] => mlfqFirst rest (lv + 1)

def ganttPushMLFQ (g : List GanttMLFQ) (pid execStart newTime : Int)
    (queue_level : Nat) (quantum : Int) : List GanttMLFQ :=
  match g with
  | e :: rest =>
      if e.process_id = pid ∧ e.end_time = execStart then
        { e with end_time := newTime, duration := e.duration + 1 } :: rest
      else ⟨pid, execStart, newTime, 1, queue_level, quantum⟩ :: e :: rest
  | [] => [⟨pid, execStart, newTime, 1, queue_level, quantum⟩]

def mlfqExecPhase (time_quantums : List Int) (st : MLFQState) (c : Int) : MLFQState :=
  let execution_start := st.current_time
  let t2 := st.current_time + 1
  let rem2 := lookupD st.remaining c 0 - 1
  let st3 := { st with
    current_time := t2,
    remaining := updateAssoc st.remaining c rem2,
    quantum_remaining := st.quantum_remaining - 1,
    ganttRev := ganttPushMLFQ st.ganttRev c execution_start t2 st.current_queue_level
      (time_quantums.getD st.current_queue_level 0) }
  if rem2 = 0 then
    { st3 with
      completion_times := st3.completion_times ++ [(c, t2)],
      completed := addCompleted st3.completed c,
      stepsRev := completionStep st3.stepsRev.length t2 (t2 - 1) c
        (" (from queue " ++ toString st3.current_queue_level ++ ")") :: st3.stepsRev,
      current := none,
      quantum_remaining := 0 }
  else st3

/-- One iteration of the MLFQ `while` loop. -/
def mlfqStep (num_queues : Nat) (time_quantums : List Int) (aging_threshold : Int)
    (processes : List Process) (st : MLFQState) : Option MLFQState :=
  let st := mlfqArrivals processes st
  let st := mlfqAge aging_threshold st
  if st.current = none ∨ st.quantum_remaining = (0 : Int) then
    -- quantum expired with work left: demote the incumbent one level
    let st :=
      match st.current with
      | some c =>
          if 0 < lookupD st.remaining c 0 then
            let new_level := min (st.current_queue_level + 1) (num_queues - 1)
            { st with
              queues := st.queues.set new_level (st.queues.getD new_level [] ++ [c]),
              queue_level := updateAssoc st.queue_level c new_level,
              waiting_time := updateAssoc st.waiting_time c 0 }
          else st
      | none => st
    let st := { st with current := none }
    match mlfqFirst st.queues 0 with
    | some (lv, c) =>
        let st := { st with
          queues := st.queues.set lv ((st.queues.getD lv []).drop 1),
          current := some c,
          current_queue_level := lv,
          quantum_remaining := time_quantums.getD lv 0 }
        let st :=
          if c ∉ st.first_execution then
            { st with
              response_times := st.response_times ++
                [(c, st.current_time - (processCopy processes c).elim 0 (·.arrival_time))],
              first_execution := st.first_execution ++ [c] }
          else st
        some (mlfqExecPhase time_quantums st c)
    | none =>
        match nextArrivalAfter processes st.completed st.current_time with
        | some next_arrival => some { st with current_time := next_arrival }
        | none => none
  else
    match st.current with
    | some c => some (mlfqExecPhase time_quantums st c)
    | none => some st

def mlfqRun (num_queues : Nat) (time_quantums : List Int) (aging_threshold : Int)
    (processes : List Process) : Nat → MLFQState → Option MLFQState
  | fuel, st =>
      if processes.length ≤ st.completed.length then some st
      else
        match fuel with
        | 0 => none
        | fuel + 1 =>
            match mlfqStep num_queues time_quantums aging_threshold processes st with
            | some st2 => mlfqRun num_queues time_quantums aging_threshold processes fuel st2
            | none => none

def mlfqInitState (num_queues : Nat) (processes : List Process) : MLFQState :=
  ⟨0, [], [], [], List.replicate num_queues [], [], [], none, 0, 0,
   initRemaining processes, [], [], []⟩

/-- `MLFQScheduler.execute`, with explicit loop fuel; `time_quantums`
is the constructor argument before extension (`none` plays the role of
the `None` default, giving `[2, 4, 8]`). -/
def mlfqExecute (fuel : Nat) (num_queues : Nat) (time_quantums : Option (List Int))
    (aging_threshold : Int) (processes : List Process) :
    Option (SchedResult GanttMLFQ) :=
  let name := "MLFQ (" ++ toString num_queues ++ " levels)"
  match mlfqExtend num_queues (time_quantums.getD [2, 4, 8]) with
  | none => none
  | some tqs =>
      if processes.isEmpty then some (createEmptyResult GanttMLFQ name)
      else
        match mlfqRun num_queues tqs aging_threshold processes fuel
            (mlfqInitState num_queues processes) with
        | none => none
        | some st =>
            some ⟨name, st.stepsRev.reverse,
              calculateDetailedMetrics processes st.completion_times st.response_times,
              st.ganttRev.reverse,
              [("processes", SVal.int processes.length),
               ("num_queues", SVal.int num_queues),
               ("time_quantums", SVal.list tqs),
               ("aging_threshold", SVal.int aging_threshold)]⟩

/-! ## Observation helpers used by the claims -/

/-- `P` holds of the value inside the option (vacuous on `none`). -/
def optionHolds {α : Type} (P : α → Prop) : Option α → Prop
  | none => True
  | some a => P a

/-- Frame ids loaded by one FIFO reference (empty on a hit): the
`load_page` call sites of `FIFOAlgorithm.execute`. -/
def fifoEvOfStep (st : FifoState) (page_num : Int) : List Nat :=
  match findPageInFrames st.frames page_num with
  | some _ => []
  | none =>
      match findEmptyFrame st.frames with
      | some e => [e.frame_id]
      | none =>
          match st.insertion_order with
          | [] => []
          | v :: _ => [v]

/-- The FIFO loop instrumented with its chronological load-event log
(same run as `fifoLoop`, see `fifoLoopEv_fst`). -/
def fifoLoopEv (st : FifoState) (ev : List Nat) (step_num : Nat) :
    List Int → Option (FifoState × List Nat)
  | [] => some (st, ev)
  | page :: rest =>
      match fifoStep st step_num page with
      | some st2 => fifoLoopEv st2 (ev ++ fifoEvOfStep st page) (step_num + 1) rest
      | none => none

/-- Keep only the last occurrence of every element, ordered by that
last occurrence. -/
def keepLast (l : List Nat) : List Nat :=
  l.foldl (fun acc i => acc.filter (fun j => j ≠ i) ++ [i]) []

/-- Frame `i` currently holds a page. -/
def frameOccupied (frames : List FrameState) (i : Nat) : Prop :=
  ∃ f ∈ frames, f.frame_id = i ∧ f.is_empty = false

/-- The FIFO queue invariant of claim C10: `insertion_order` is the
frame ids ordered by the most recent load of each (hence contains
exactly the occupied frames, each once); frames sit at the index equal
to their id and their number never changes. -/
def FifoInv (fc : Int) (st : FifoState) (ev : List Nat) : Prop :=
  st.insertion_order = keepLast ev ∧
  (∀ i, i ∈ st.insertion_order ↔ frameOccupied st.frames i) ∧
  (∀ j fr, st.frames.get? j = some fr → fr.frame_id = j) ∧
  st.frames.length = fc.toNat

/-- Content of the first FCFS result's `execution_steps` list after a
subsequent `engine.reset()`: `execute` returns the engine's own
`simulation_steps` object (cpu_scheduling.py line 88) and `reset`
clears that object in place (base.py line 92), so reading the
already-returned result sees the cleared list. -/
def fcfsStepsAfterReset (processes : List Process) : List SchedStep :=
  (schedReset GanttRR (fcfsExecute ⟨[], [], []⟩ processes).1).simulation_steps

/-- Sufficient fuel for every scheduling loop: total burst time plus
one idle jump per process, plus one. -/
def schedFuel (processes : List Process) : Nat :=
  (intSum (processes.map (·.burst_time))).toNat + processes.length + 1

/-- No Gantt entry strictly newer than position `k` (the list is
newest-first) belongs to process `pid`. -/
def rrFirstOcc (g : List GanttRR) (k : Nat) (pid : Int) : Prop :=
  ∀ k2 e2, k2 < k → g.get? k2 = some e2 → e2.process_id ≠ pid

/-- The Round Robin loop invariant behind claim C2.  `ganttRev` is the
merged Gantt chart newest-first; every entry is either made of whole
quanta (`q ∣ duration`), or is the final entry of an already-completed
process (no newer entry of that process exists), or is the entry the
running process is currently growing (in which case `duration +
quantum_remaining` is a whole number of quanta).  The remaining
components are the bookkeeping facts needed to push this through one
loop iteration. -/
def RRInv (q : Int) (ps : List Process) (st : RRState) : Prop :=
  (match st.current with
   | some c => ∃ e rest2, st.ganttRev = e :: rest2 ∧ e.process_id = c ∧
       e.end_time = st.current_time ∧ q ∣ (e.duration + st.quantum_remaining) ∧
       0 ≤ st.quantum_remaining ∧ st.quantum_remaining < q
   | none => True) ∧
  (∀ k e, st.ganttRev.get? k = some e →
    q ∣ e.duration ∨
    (e.process_id ∈ st.completed ∧ rrFirstOcc st.ganttRev k e.process_id) ∨
    (st.current = some e.process_id ∧ k = 0)) ∧
  (∀ e ∈ st.ganttRev, 1 ≤ e.duration) ∧
  (∀ c, st.current = some c → c ∉ st.completed) ∧
  (∀ c, st.current = some c → c ∉ st.ready_queue) ∧
  st.ready_queue.Nodup ∧
  (∀ p ∈ st.ready_queue, p ∉ st.completed) ∧
  (∀ p ∈ st.ready_queue, p ∈ ps.map (·.pid)) ∧
  (∀ c, st.current = some c → c ∈ ps.map (·.pid)) ∧
  (∀ pid, pid ∈ ps.map (·.pid) → pid ∉ st.completed → 1 ≤ lookupD st.remaining pid 0) ∧
  st.remaining.map (·.1) = (initRemaining ps).map (·.1) ∧
  (ps.length ≤ st.completed.length → st.current = none)

/-! ## Concrete Round Robin run used for claim C2 (q = 1,
P1 arrives 0 burst 3, P2 arrives 2 burst 1): P1 runs [0,2) as one merged
Gantt segment (re-dispatched at quantum expiry with an otherwise empty
queue), is preempted by P2 at t = 2 and finishes in a later segment. -/

def psC2 : List Process := [mkProcess 1 0 3 0 none 0, mkProcess 2 2 1 0 none 0]

/-- The loop state after 1 iteration of the Round Robin loop on `psC2`. -/
def rrS1 : RRState :=
  ⟨1, [], [], [(1, 0)], [], some 1, 0, [(2, 1), (1, 2)], [1],
   [⟨1, 0, 1, 1⟩], []⟩

/-- The loop state after 2 iterations of the Round Robin loop on `psC2`. -/
def rrS2 : RRState :=
  ⟨2, [], [], [(1, 0)], [], some 1, 0, [(2, 1), (1, 1)], [1],
   [⟨1, 0, 2, 2⟩], []⟩

/-- The loop state after 3 iterations of the Round Robin loop on `psC2`. -/
def rrS3 : RRState :=
  ⟨3, [2], [(2, 3)], [(1, 0), (2, 0)], [1], none, 0, [(2, 0), (1, 1)], [1, 2],
   [⟨2, 2, 3, 1⟩, ⟨1, 0, 2, 2⟩],
   [⟨0, 3, "Process P2 completes execution", 2,
     [("current_time", SVal.int 2), ("running_process", SVal.opt (some 2))],
     [("current_time", SVal.int 3), ("running_process", SVal.opt none)]⟩]⟩

/-- The loop state after 4 iterations of the Round Robin loop on `psC2`
(both processes completed, so the loop exits here). -/
def rrS4 : RRState :=
  ⟨4, [2, 1], [(2, 3), (1, 4)], [(1, 0), (2, 0)], [], none, 0, [(2, 0), (1, 0)], [1, 2],
   [⟨1, 3, 4, 1⟩, ⟨2, 2, 3, 1⟩, ⟨1, 0, 2, 2⟩],
   [⟨1, 4, "Process P1 completes execution", 1,
     [("current_time", SVal.int 3), ("running_process", SVal.opt (some 1))],
     [("current_time", SVal.int 4), ("running_process", SVal.opt none)]⟩,
    ⟨0, 3, "Process P2 completes execution", 2,
     [("current_time", SVal.int 2), ("running_process", SVal.opt (some 2))],
     [("current_time", SVal.int 3), ("running_process", SVal.opt none)]⟩]⟩

/-- Loop invariant of the EDF `while` loop: bookkeeping of the
completed / ready / missed sets, and the two facts that make the
missed-deadline accounting correct: a completed process is in the missed
set iff it finished strictly after its deadline, and an incomplete
process in the missed set already has its deadline strictly in the
past. -/
def EDFInv (ps : List Process) (st : EDFState) : Prop :=
  st.completed.Nodup ∧
  (∀ c ∈ st.completed, c ∈ ps.map (·.pid)) ∧
  (∀ c ∈ st.ready_queue, c ∈ ps.map (·.pid)) ∧
  (∀ c, st.current = some c → c ∈ ps.map (·.pid)) ∧
  (∀ c, st.current = some c → c ∉ st.completed) ∧
  (∀ c ∈ st.ready_queue, c ∉ st.completed) ∧
  st.ready_queue.Nodup ∧
  (∀ c, st.current = some c → c ∉ st.ready_queue) ∧
  (∀ c, c ∈ st.completion_times.map (·.1) ↔ c ∈ st.completed) ∧
  st.missed.Nodup ∧
  (∀ c ∈ st.missed, c ∈ ps.map (·.pid)) ∧
  (∀ c ∈ st.completed,
    (c ∈ st.missed ↔ edfDeadline ps c < lookupD st.completion_times c 0)) ∧
  (∀ c ∈ st.missed, c ∉ st.completed → edfDeadline ps c < st.current_time)

/-! ## Termination measures and loop invariants for the scheduling engines -/

def remSum (ps : List Process) (completed : List Int)
    (remaining : List (Int × Int)) : Nat :=
  ((ps.filter (fun p => p.pid ∉ completed)).map
    (fun p => (lookupD remaining p.pid 0).toNat)).sum

def futCount (ps : List Process) (t : Int) : Nat :=
  (ps.filter (fun p => t < p.arrival_time)).length

def schedMu (ps : List Process) (completed : List Int)
    (remaining : List (Int × Int)) (t : Int) : Nat :=
  remSum ps completed remaining + futCount ps t

def npMu (ps : List Process) (completed : List Int) (t : Int) : Nat :=
  (ps.filter (fun p => p.pid ∉ completed)).length + futCount ps t

def RemFacts (ps : List Process) (completed : List Int)
    (remaining : List (Int × Int)) : Prop :=
  (∀ pid ∈ ps.map (·.pid), pid ∉ completed → 1 ≤ lookupD remaining pid 0) ∧
  remaining.map (·.1) = (initRemaining ps).map (·.1)

def CurQFacts (ps : List Process) (completed queue : List Int)
    (cur : Option Int) : Prop :=
  (∀ c, cur = some c → c ∉ completed) ∧
  (∀ c, cur = some c → c ∈ ps.map (·.pid)) ∧
  (∀ x ∈ queue, x ∈ ps.map (·.pid)) ∧
  (∀ x ∈ queue, x ∉ completed) ∧
  queue.Nodup ∧
  (∀ c, cur = some c → c ∉ queue)

def srtfTInv (ps : List Process) (st : SRTFState) : Prop :=
  CurQFacts ps st.completed st.ready_queue st.current ∧
  RemFacts ps st.completed st.remaining

def prioPTInv (ps : List Process) (st : PrioPState) : Prop :=
  CurQFacts ps st.completed st.ready_queue st.current ∧
  RemFacts ps st.completed st.remaining

def edfTInv (ps : List Process) (st : EDFState) : Prop :=
  CurQFacts ps st.completed st.ready_queue st.current ∧
  RemFacts ps st.completed st.remaining

def rrTInv (ps : List Process) (st : RRState) : Prop :=
  CurQFacts ps st.completed st.ready_queue st.current ∧
  RemFacts ps st.completed st.remaining

def NPTInv {γ : Type} (ps : List Process) (st : NPState γ) : Prop :=
  (∀ p ∈ st.ready_queue, p ∈ ps) ∧
  (∀ p ∈ st.ready_queue, p.pid ∉ st.completed) ∧
  (st.ready_queue.map (·.pid)).Nodup

def mlfqTInv (nq : Nat) (ps : List Process) (st : MLFQState) : Prop :=
  RemFacts ps st.completed st.remaining ∧
  (∀ c, st.current = some c → c ∉ st.completed) ∧
  (∀ c, st.current = some c → c ∈ ps.map (·.pid)) ∧
  (∀ c, st.current = some c → c ∈ st.queue_level.map (·.1)) ∧
  (∀ lv q, st.queues.get? lv = some q → ∀ x ∈ q,
     x ∈ ps.map (·.pid) ∧ x ∉ st.completed ∧ x ∈ st.queue_level.map (·.1)) ∧
  (∀ x, x ∈ st.queue_level.map (·.1) → x ∉ st.completed → st.current ≠ some x →
     ∃ lv q, st.queues.get? lv = some q ∧ x ∈ q) ∧
  (∀ lv q, st.queues.get? lv = some q → q.Nodup) ∧
  (∀ lv1 q1 lv2 q2 x, st.queues.get? lv1 = some q1 → st.queues.get? lv2 = some q2 →
     x ∈ q1 → x ∈ q2 → lv1 = lv2) ∧
  (∀ c lv q, st.current = some c → st.queues.get? lv = some q → c ∉ q) ∧
  st.queues.length = nq

def rrDivInv (st : RRState) : Prop :=
  st.ready_queue = [] ∧ st.completed = [] ∧
  (1 : Int) ∈ st.remaining.map (·.1) ∧ lookupD st.remaining 1 0 ≤ -1

/-! ## Abstract demand-paging runs for the Belady comparison (C8) -/

def notBefore : List Int → Int → Int → Prop
  | [], _, _ => True
  | p :: σ, u, w => if p = w then True else if p = u then False else notBefore σ u w

instance notBefore_dec : ∀ (l : List Int) (u w : Int), Decidable (notBefore l u w)
  | [], _, _ => .isTrue trivial
  | p :: σ, u, w => by
      unfold notBefore
      by_cases h1 : p = w
      · rw [if_pos h1]; exact .isTrue trivial
      · rw [if_neg h1]
        by_cases h2 : p = u
        · rw [if_pos h2]; exact .isFalse (fun h => h)
        · rw [if_neg h2]; exact notBefore_dec σ u w

inductive PageRun (k : Nat) : List Int → Finset Int → Nat → Prop
  | nil (C : Finset Int) : PageRun k [] C 0
  | hit (p : Int) (σ : List Int) (C : Finset Int) (n : Nat) :
      p ∈ C → PageRun k σ C n → PageRun k (p :: σ) C n
  | fill (p : Int) (σ : List Int) (C : Finset Int) (n : Nat) :
      p ∉ C → C.card < k → PageRun k σ (insert p C) n → PageRun k (p :: σ) C (n + 1)
  | evict (p : Int) (σ : List Int) (C : Finset Int) (n : Nat) (v : Int) :
      p ∉ C → k ≤ C.card → v ∈ C → PageRun k σ (insert p (C.erase v)) n →
      PageRun k (p :: σ) C (n + 1)

inductive FarRun (k : Nat) : List Int → Finset Int → Nat → Prop
  | nil (C : Finset Int) : FarRun k [] C 0
  | hit (p : Int) (σ : List Int) (C : Finset Int) (n : Nat) :
      p ∈ C → FarRun k σ C n → FarRun k (p :: σ) C n
  | fill (p : Int) (σ : List Int) (C : Finset Int) (n : Nat) :
      p ∉ C → C.card < k → FarRun k σ (insert p C) n → FarRun k (p :: σ) C (n + 1)
  | evict (p : Int) (σ : List Int) (C : Finset Int) (n : Nat) (v : Int) :
      p ∉ C → k ≤ C.card → v ∈ C → (∀ x ∈ C, notBefore σ v x) →
      FarRun k σ (insert p (C.erase v)) n → FarRun k (p :: σ) C (n + 1)

def framesPages (frames : List FrameState) : List Int :=
  frames.filterMap (·.page_number)

def firstIdx : List Int → Int → Option Nat
  | [], _ => none
  | p :: σ, x => if p = x then some 0 else (firstIdx σ x).map (· + 1)

/-! # Theorems -/

/-! ## Shared metric lemmas -/

theorem lookup_page_faults (t f : Nat) :
    lookupD (calculatePageMetrics t f) "page_faults" 0 = (f : ℚ) := rfl

theorem lookup_page_hits (t f : Nat) :
    lookupD (calculatePageMetrics t f) "page_hits" 0 = (t : ℚ) - f := rfl

theorem lookup_total_references (t f : Nat) :
    lookupD (calculatePageMetrics t f) "total_references" 0 = (t : ℚ) := rfl

theorem lookup_hit_ratio (t f : Nat) :
    lookupD (calculatePageMetrics t f) "hit_ratio" 0 =
      if 0 < t then ((t : ℚ) - f) / t else 0 := rfl

theorem lookup_fault_ratio (t f : Nat) :
    lookupD (calculatePageMetrics t f) "fault_ratio" 0 =
      if 0 < t then (f : ℚ) / t else 0 := rfl

/-- The two arithmetic identities of `_calculate_metrics`, for any
fault count; the ratio identity needs a non-empty sequence. -/
theorem calculatePageMetrics_props (t f : Nat) :
    lookupD (calculatePageMetrics t f) "page_faults" 0 +
      lookupD (calculatePageMetrics t f) "page_hits" 0 =
      lookupD (calculatePageMetrics t f) "total_references" 0 ∧
    (0 < t →
      lookupD (calculatePageMetrics t f) "hit_ratio" 0 +
        lookupD (calculatePageMetrics t f) "fault_ratio" 0 = 1) := by
  constructor
  · rw [lookup_page_faults, lookup_page_hits, lookup_total_references]; ring
  · intro ht
    rw [lookup_hit_ratio, lookup_fault_ratio, if_pos ht, if_pos ht]
    have htq : (t : ℚ) ≠ 0 := by positivity
    field_simp

theorem fifoExecute_metrics_shape (seq : List Int) (fc : Int)
    (r : PageResult FifoSnap (List Nat)) (h : fifoExecute seq fc = some r) :
    ∃ n, r.metrics = calculatePageMetrics seq.length n := by
  unfold fifoExecute at h
  cases hl : fifoLoop (fifoInitState fc) 0 seq with
  | none => rw [hl] at h; cases h
  | some st => rw [hl] at h; refine ⟨st.page_faults, ?_⟩; cases h; rfl

theorem lruExecute_metrics_shape (seq : List Int) (fc : Int)
    (r : PageResult LruSnap (List (Nat × Int))) (h : lruExecute seq fc = some r) :
    ∃ n, r.metrics = calculatePageMetrics seq.length n := by
  unfold lruExecute at h
  cases hl : lruLoop ⟨(List.range fc.toNat).map FrameState.init, 0, []⟩ 0 seq with
  | none => rw [hl] at h; cases h
  | some st => rw [hl] at h; refine ⟨st.page_faults, ?_⟩; cases h; rfl

theorem optExecute_metrics_shape (seq : List Int) (fc : Int)
    (r : PageResult LruSnap (List (String × (Int × Int)))) (h : optExecute seq fc = some r) :
    ∃ n, r.metrics = calculatePageMetrics seq.length n := by
  unfold optExecute at h
  cases hl : optLoop seq ⟨(List.range fc.toNat).map FrameState.init, 0, []⟩ 0 seq with
  | none => rw [hl] at h; cases h
  | some st => rw [hl] at h; refine ⟨st.page_faults, ?_⟩; cases h; rfl

theorem clockExecute_metrics_shape (seq : List Int) (fc : Int)
    (r : PageResult ClockSnap (List Nat × List (Nat × Bool))) (h : clockExecute seq fc = some r) :
    ∃ n, r.metrics = calculatePageMetrics seq.length n := by
  unfold clockExecute at h
  cases hl : clockLoop ⟨(List.range fc.toNat).map FrameState.init, 0, 0, []⟩ 0 seq with
  | none => rw [hl] at h; cases h
  | some st => rw [hl] at h; refine ⟨st.page_faults, ?_⟩; cases h; rfl

/-! ## C1 -/

/-- C1, counterexample: the `SimulationResult` returned by
`FCFSScheduler.execute` IS mutated by the engine afterwards.  The
result's `execution_steps` is the engine's own `simulation_steps` list
(cpu_scheduling.py line 88); after `reset()` (base.py line 92, an
in-place `clear`) the already-returned result's step list is empty,
while at return time it had two steps. -/
theorem C1_counterexample :
    (fcfsExecute ⟨[], [], []⟩ [mkProcess 1 0 5 0 none 0]).2.execution_steps ≠ [] ∧
    fcfsStepsAfterReset [mkProcess 1 0 5 0 none 0] = [] := by
  constructor
  · intro h; cases h
  · rfl

/-- C1, amended: re-running the same FCFS engine instance via `reset`
followed by `execute` on identical inputs yields a result with
identical content (steps, metrics, visualization data) to the first
run, from any prior engine state; however the first result is not
immutable: `reset` empties the very step list the first result holds
(second conjunct), because `execute` returns the engine's own lists. -/
theorem C1_reset_execute_determinism :
    ∀ (st : SchedEngineState GanttRR) (ps : List Process),
    (fcfsExecute (schedReset GanttRR (fcfsExecute st ps).1) ps).2 = (fcfsExecute st ps).2 ∧
    (schedReset GanttRR (fcfsExecute st ps).1).simulation_steps = [] := by
  intro st ps; exact ⟨rfl, rfl⟩

/-! ## C3 -/

/-- C3, counterexample: on an empty page sequence FIFO's metrics
mapping is NOT empty — `_calculate_metrics(0, 0)` still returns all
five keys (with zero values). -/
theorem C3_counterexample :
    (fifoExecute ([] : List Int) 3).map (fun r => decide (r.metrics = [])) = some false :=
  rfl

/-- C3, amended: for every `frame_count`, each of the four policies on
the empty sequence returns a result with zero execution steps and the
five standard metric keys all mapped to zero (not an empty mapping). -/
theorem C3_empty_sequence_result : ∀ fc : Int,
    (optionHolds (fun r => r.execution_steps = [] ∧
      r.metrics = [("total_references", (0 : ℚ)), ("page_faults", 0), ("page_hits", 0),
                   ("hit_ratio", 0), ("fault_ratio", 0)]) (fifoExecute [] fc) ∧
      (fifoExecute [] fc).isSome) ∧
    (optionHolds (fun r => r.execution_steps = [] ∧
      r.metrics = [("total_references", (0 : ℚ)), ("page_faults", 0), ("page_hits", 0),
                   ("hit_ratio", 0), ("fault_ratio", 0)]) (lruExecute [] fc) ∧
      (lruExecute [] fc).isSome) ∧
    (optionHolds (fun r => r.execution_steps = [] ∧
      r.metrics = [("total_references", (0 : ℚ)), ("page_faults", 0), ("page_hits", 0),
                   ("hit_ratio", 0), ("fault_ratio", 0)]) (optExecute [] fc) ∧
      (optExecute [] fc).isSome) ∧
    (optionHolds (fun r => r.execution_steps = [] ∧
      r.metrics = [("total_references", (0 : ℚ)), ("page_faults", 0), ("page_hits", 0),
                   ("hit_ratio", 0), ("fault_ratio", 0)]) (clockExecute [] fc) ∧
      (clockExecute [] fc).isSome) := by
  intro fc
  refine ⟨⟨?_, ?_⟩, ⟨?_, ?_⟩, ⟨?_, ?_⟩, ⟨?_, ?_⟩⟩ <;>
    simp [fifoExecute, lruExecute, optExecute, clockExecute, fifoLoop, lruLoop, optLoop,
      clockLoop, fifoInitState, optionHolds, calculatePageMetrics]

/-! ## C4 -/

/-- C4, counterexample: constructing a malformed `Process` is NOT
rejected — `__post_init__` performs no validation.  A process with
negative pid, negative arrival and zero burst is constructed without
error and is happily scheduled by FCFS (two simulation steps); and
even the separate `validate()` accepts pid 0, although the claim says
non-positive pids are rejected. -/
theorem C4_counterexample :
    (mkProcess (-1) (-2) 0 0 none 0).pid = -1 ∧
    Process.validate (mkProcess 0 0 1 0 none 0) = .ok true ∧
    (fcfsExecute ⟨[], [], []⟩ [mkProcess (-1) (-2) 0 0 none 0]).2.execution_steps.length = 2 := by
  refine ⟨rfl, rfl, rfl⟩

/-- C4, amended: construction never validates (see the
counterexample); the separate `validate()` method succeeds exactly
when pid ≥ 0 (zero allowed), arrival_time ≥ 0, burst_time > 0 and any
declared deadline is ≥ the arrival time, and it is not called by any
engine, so malformed values can reach an engine. -/
theorem C4_validate_spec : ∀ p : Process,
    Process.validate p = .ok true ↔
      0 ≤ p.pid ∧ 0 ≤ p.arrival_time ∧ 0 < p.burst_time ∧
        ∀ d ∈ p.deadline, p.arrival_time ≤ d := by
  intro p
  rcases p with ⟨pid, arr, bt, pr, dl, rt⟩
  cases dl with
  | none =>
      simp only [Process.validate]
      split_ifs with h1 h2 h3 <;> simp <;> omega
  | some d =>
      simp only [Process.validate]
      split_ifs with h1 h2 h3 h4 <;> simp <;> omega

/-! ## C6 -/

/-- C6, counterexample: on the empty page sequence with frame_count 1
the ratios sum to 0, not 1 (`_calculate_metrics` guards the division
by returning 0). -/
theorem C6_counterexample :
    (fifoExecute ([] : List Int) 1).map (fun r => lookupD r.metrics "hit_ratio" 0) = some 0 ∧
    (fifoExecute ([] : List Int) 1).map (fun r => lookupD r.metrics "fault_ratio" 0) = some 0 ∧
    (0 : ℚ) + 0 ≠ 1 := by
  refine ⟨rfl, rfl, by norm_num⟩

/-- C6, amended: for every page sequence and frame_count ≥ 1 and every
policy, `page_faults + page_hits = total_references`; the identity
`hit_ratio + fault_ratio = 1` additionally needs a non-empty
sequence (on the empty sequence both ratios are 0). -/
theorem C6_metrics_identities : ∀ (seq : List Int) (fc : Int), 1 ≤ fc →
    optionHolds (fun r =>
      lookupD r.metrics "page_faults" 0 + lookupD r.metrics "page_hits" 0 =
        lookupD r.metrics "total_references" 0 ∧
      (seq ≠ [] → lookupD r.metrics "hit_ratio" 0 + lookupD r.metrics "fault_ratio" 0 = 1))
      (fifoExecute seq fc) ∧
    optionHolds (fun r =>
      lookupD r.metrics "page_faults" 0 + lookupD r.metrics "page_hits" 0 =
        lookupD r.metrics "total_references" 0 ∧
      (seq ≠ [] → lookupD r.metrics "hit_ratio" 0 + lookupD r.metrics "fault_ratio" 0 = 1))
      (lruExecute seq fc) ∧
    optionHolds (fun r =>
      lookupD r.metrics "page_faults" 0 + lookupD r.metrics "page_hits" 0 =
        lookupD r.metrics "total_references" 0 ∧
      (seq ≠ [] → lookupD r.metrics "hit_ratio" 0 + lookupD r.metrics "fault_ratio" 0 = 1))
      (optExecute seq fc) ∧
    optionHolds (fun r =>
      lookupD r.metrics "page_faults" 0 + lookupD r.metrics "page_hits" 0 =
        lookupD r.metrics "total_references" 0 ∧
      (seq ≠ [] → lookupD r.metrics "hit_ratio" 0 + lookupD r.metrics "fault_ratio" 0 = 1))
      (clockExecute seq fc) := by
  intro seq fc _
  have hlen : seq ≠ [] → 0 < seq.length := by
    intro h; exact List.length_pos.mpr h
  refine ⟨?_, ?_, ?_, ?_⟩
  · cases hx : fifoExecute seq fc with
    | none => exact trivial
    | some r =>
        obtain ⟨n, hm⟩ := fifoExecute_metrics_shape seq fc r hx
        simp only [optionHolds]
        rw [hm]
        obtain ⟨h1, h2⟩ := calculatePageMetrics_props seq.length n
        exact ⟨h1, fun hne => h2 (hlen hne)⟩
  · cases hx : lruExecute seq fc with
    | none => exact trivial
    | some r =>
        obtain ⟨n, hm⟩ := lruExecute_metrics_shape seq fc r hx
        simp only [optionHolds]
        rw [hm]
        obtain ⟨h1, h2⟩ := calculatePageMetrics_props seq.length n
        exact ⟨h1, fun hne => h2 (hlen hne)⟩
  · cases hx : optExecute seq fc with
    | none => exact trivial
    | some r =>
        obtain ⟨n, hm⟩ := optExecute_metrics_shape seq fc r hx
        simp only [optionHolds]
        rw [hm]
        obtain ⟨h1, h2⟩ := calculatePageMetrics_props seq.length n
        exact ⟨h1, fun hne => h2 (hlen hne)⟩
  · cases hx : clockExecute seq fc with
    | none => exact trivial
    | some r =>
        obtain ⟨n, hm⟩ := clockExecute_metrics_shape seq fc r hx
        simp only [optionHolds]
        rw [hm]
        obtain ⟨h1, h2⟩ := calculatePageMetrics_props seq.length n
        exact ⟨h1, fun hne => h2 (hlen hne)⟩

/-! ## C7 -/

/-- C7: on the textbook sequence with 3 frames the engines report
FIFO 15 faults, LRU 12 faults, Optimal 9 faults. -/
theorem C7_textbook_faults :
    (fifoExecute [7,0,1,2,0,3,0,4,2,3,0,3,2,1,2,0,1,7,0,1] 3).map
      (fun r => lookupD r.metrics "page_faults" 0) = some 15 ∧
    (lruExecute [7,0,1,2,0,3,0,4,2,3,0,3,2,1,2,0,1,7,0,1] 3).map
      (fun r => lookupD r.metrics "page_faults" 0) = some 12 ∧
    (optExecute [7,0,1,2,0,3,0,4,2,3,0,3,2,1,2,0,1,7,0,1] 3).map
      (fun r => lookupD r.metrics "page_faults" 0) = some 9 := by
  refine ⟨rfl, rfl, rfl⟩

/-- C6 witness: the amended identities instantiated on a concrete
non-empty sequence with 3 frames. -/
theorem C6_witness :
    (1 : Int) ≤ 3 ∧
    (optionHolds (fun r =>
      lookupD r.metrics "page_faults" 0 + lookupD r.metrics "page_hits" 0 =
        lookupD r.metrics "total_references" 0 ∧
      (([1, 2] : List Int) ≠ [] →
        lookupD r.metrics "hit_ratio" 0 + lookupD r.metrics "fault_ratio" 0 = 1))
      (fifoExecute [1, 2] 3) ∧
    optionHolds (fun r =>
      lookupD r.metrics "page_faults" 0 + lookupD r.metrics "page_hits" 0 =
        lookupD r.metrics "total_references" 0 ∧
      (([1, 2] : List Int) ≠ [] →
        lookupD r.metrics "hit_ratio" 0 + lookupD r.metrics "fault_ratio" 0 = 1))
      (lruExecute [1, 2] 3) ∧
    optionHolds (fun r =>
      lookupD r.metrics "page_faults" 0 + lookupD r.metrics "page_hits" 0 =
        lookupD r.metrics "total_references" 0 ∧
      (([1, 2] : List Int) ≠ [] →
        lookupD r.metrics "hit_ratio" 0 + lookupD r.metrics "fault_ratio" 0 = 1))
      (optExecute [1, 2] 3) ∧
    optionHolds (fun r =>
      lookupD r.metrics "page_faults" 0 + lookupD r.metrics "page_hits" 0 =
        lookupD r.metrics "total_references" 0 ∧
      (([1, 2] : List Int) ≠ [] →
        lookupD r.metrics "hit_ratio" 0 + lookupD r.metrics "fault_ratio" 0 = 1))
      (clockExecute [1, 2] 3)) :=
  ⟨by norm_num, C6_metrics_identities [1, 2] 3 (by norm_num)⟩

/-! ## C10: FIFO insertion-order invariant -/

theorem keepLast_append_single (l : List Nat) (x : Nat) :
    keepLast (l ++ [x]) = (keepLast l).filter (fun j => j ≠ x) ++ [x] := by
  unfold keepLast
  rw [List.foldl_append]
  rfl

theorem keepLast_nodup (l : List Nat) : (keepLast l).Nodup := by
  suffices h : ∀ (l acc : List Nat), acc.Nodup →
      (l.foldl (fun acc i => acc.filter (fun j => j ≠ i) ++ [i]) acc).Nodup by
    exact h l [] List.nodup_nil
  intro l
  induction l with
  | nil => intro acc h; exact h
  | cons x xs ih =>
      intro acc h
      apply ih
      rw [List.nodup_append]
      refine ⟨h.filter _, List.nodup_singleton x, ?_⟩
      intro a ha hb
      simp only [List.mem_singleton] at hb
      subst hb
      have := List.of_mem_filter ha
      simp at this

theorem occ_cons (f : FrameState) (fs : List FrameState) (i : Nat) :
    frameOccupied (f :: fs) i ↔
      (f.frame_id = i ∧ f.is_empty = false) ∨ frameOccupied fs i := by
  constructor
  · rintro ⟨x, hx, h1, h2⟩
    rcases List.mem_cons.mp hx with h | h
    · subst h; exact Or.inl ⟨h1, h2⟩
    · exact Or.inr ⟨x, h, h1, h2⟩
  · rintro (⟨h1, h2⟩ | ⟨x, hx, h1, h2⟩)
    · exact ⟨f, List.mem_cons_self f fs, h1, h2⟩
    · exact ⟨x, List.mem_cons_of_mem f hx, h1, h2⟩

theorem occ_nil (i : Nat) : ¬ frameOccupied [] i := by
  rintro ⟨x, hx, _⟩
  cases hx

theorem updateFirstFrame_map_id {p : FrameState → Bool} {g : FrameState → FrameState}
    (hg : ∀ f, (g f).frame_id = f.frame_id) :
    ∀ l : List FrameState,
      (updateFirstFrame l p g).map (·.frame_id) = l.map (·.frame_id) := by
  intro l
  induction l with
  | nil => rfl
  | cons f fs ih =>
      unfold updateFirstFrame
      by_cases hp : p f
      · rw [if_pos hp]; simp [hg f]
      · rw [if_neg hp]; simp [ih]

theorem get?_id_of_map_eq {l' l : List FrameState}
    (hmap : l'.map (·.frame_id) = l.map (·.frame_id))
    (hid : ∀ j fr, l.get? j = some fr → fr.frame_id = j) :
    ∀ j fr, l'.get? j = some fr → fr.frame_id = j := by
  intro j fr h
  have h1 : (l'.map (·.frame_id)).get? j = some fr.frame_id := by
    rw [List.get?_map, h]; rfl
  rw [hmap, List.get?_map] at h1
  cases hl : l.get? j with
  | none => rw [hl] at h1; cases h1
  | some fr0 =>
      rw [hl] at h1
      have h2 : fr0.frame_id = fr.frame_id := by simpa using h1
      rw [← h2]
      exact hid j fr0 hl

theorem occ_iff_get {frames : List FrameState}
    (hid : ∀ j fr, frames.get? j = some fr → fr.frame_id = j) (i : Nat) :
    frameOccupied frames i ↔ ∃ fr, frames.get? i = some fr ∧ fr.is_empty = false := by
  constructor
  · rintro ⟨f, hmem, hfid, hemp⟩
    obtain ⟨n, hn⟩ := List.mem_iff_get?.mp hmem
    have hni : n = i := by rw [← hid n f hn, hfid]
    exact ⟨f, hni ▸ hn, hemp⟩
  · rintro ⟨fr, hget, hemp⟩
    exact ⟨fr, List.get?_mem hget, hid i fr hget, hemp⟩

theorem occ_updateFirstFrame_pres {p : FrameState → Bool} {g : FrameState → FrameState}
    (hg : ∀ f, (g f).frame_id = f.frame_id ∧ (g f).is_empty = f.is_empty) :
    ∀ (l : List FrameState) (i : Nat),
      frameOccupied (updateFirstFrame l p g) i ↔ frameOccupied l i := by
  intro l
  induction l with
  | nil => intro i; exact Iff.rfl
  | cons f fs ih =>
      intro i
      unfold updateFirstFrame
      by_cases hp : p f
      · rw [if_pos hp, occ_cons, occ_cons, (hg f).1, (hg f).2]
      · rw [if_neg hp, occ_cons, occ_cons, ih]

theorem occ_updateFirstFrame_load (pg ts : Int) :
    ∀ (l : List FrameState) (e : FrameState),
    l.find? (fun f => f.is_empty) = some e →
    ∀ i, frameOccupied (updateFirstFrame l (fun f => f.is_empty)
        (fun f => f.load_page pg ts)) i ↔
      (frameOccupied l i ∨ i = e.frame_id) := by
  intro l
  induction l with
  | nil => intro e h; cases h
  | cons f fs ih =>
      intro e h i
      by_cases hp : f.is_empty
      · rw [List.find?_cons_of_pos _ hp] at h
        injection h with h
        subst h
        unfold updateFirstFrame
        rw [if_pos hp, occ_cons, occ_cons]
        have hload : (f.load_page pg ts).is_empty = false := rfl
        have hloadid : (f.load_page pg ts).frame_id = f.frame_id := rfl
        rw [hload, hloadid]
        constructor
        · rintro (⟨h1, _⟩ | h2)
          · exact Or.inr h1.symm
          · exact Or.inl (Or.inr h2)
        · rintro ((⟨h1, h2⟩ | h2) | h3)
          · rw [hp] at h2; cases h2
          · exact Or.inr h2
          · exact Or.inl ⟨h3.symm, rfl⟩
      · rw [List.find?_cons_of_neg _ hp] at h
        unfold updateFirstFrame
        rw [if_neg hp, occ_cons, occ_cons, ih e h i]
        tauto

theorem fifoRecord_frames (st : FifoState) (n : Nat) (ts pg : Int) (h : Bool) :
    (fifoRecord st n ts pg h).frames = st.frames := rfl

theorem fifoRecord_order (st : FifoState) (n : Nat) (ts pg : Int) (h : Bool) :
    (fifoRecord st n ts pg h).insertion_order = st.insertion_order := rfl

theorem updateFirstFrame_length (l : List FrameState) (p : FrameState → Bool)
    (g : FrameState → FrameState) : (updateFirstFrame l p g).length = l.length := by
  induction l with
  | nil => rfl
  | cons f fs ih =>
      unfold updateFirstFrame
      split
      · simp
      · simp [ih]

theorem filter_ne_self {l : List Nat} {x : Nat} (h : x ∉ l) :
    l.filter (fun j => j ≠ x) = l := by
  induction l with
  | nil => rfl
  | cons a as ih =>
      rw [List.filter_cons]
      have hax : a ≠ x := fun he => h (he ▸ List.mem_cons_self a as)
      rw [if_pos (by simpa using hax)]
      rw [ih (fun hm => h (List.mem_cons_of_mem a hm))]

theorem filter_ne_cons_self {rest : List Nat} {v : Nat} (h : v ∉ rest) :
    (v :: rest).filter (fun j => j ≠ v) = rest := by
  rw [List.filter_cons]
  rw [if_neg (by simp)]
  exact filter_ne_self h

theorem fifoStep_inv (fc : Int) (hfc : 1 ≤ fc) (st : FifoState) (ev : List Nat)
    (hinv : FifoInv fc st ev) (n : Nat) (pg : Int) :
    ∃ st2, fifoStep st n pg = some st2 ∧ FifoInv fc st2 (ev ++ fifoEvOfStep st pg) := by
  obtain ⟨hord, hmem, hid, hlen⟩ := hinv
  unfold fifoStep fifoEvOfStep
  cases hfind : findPageInFrames st.frames pg with
  | some f =>
      dsimp only
      refine ⟨_, rfl, ?_, ?_, ?_, ?_⟩
      · simp only [fifoRecord_order]
        rw [List.append_nil]; exact hord
      · intro i
        simp only [fifoRecord_order, fifoRecord_frames]
        have hg : ∀ f : FrameState,
            ({ f with last_access_time := (n : Int) }).frame_id = f.frame_id ∧
            ({ f with last_access_time := (n : Int) }).is_empty = f.is_empty :=
          fun f => ⟨rfl, rfl⟩
        rw [occ_updateFirstFrame_pres hg]
        exact hmem i
      · simp only [fifoRecord_frames]
        refine get?_id_of_map_eq (updateFirstFrame_map_id ?_ st.frames) hid
        intro f; rfl
      · simp only [fifoRecord_frames]
        rw [updateFirstFrame_length]
        exact hlen
  | none =>
      dsimp only
      cases hempty : findEmptyFrame st.frames with
      | some e =>
          dsimp only
          have hmemE : e ∈ st.frames := List.mem_of_find?_eq_some hempty
          have hempE : e.is_empty = true := List.find?_some hempty
          have hgetE : st.frames.get? e.frame_id = some e := by
            obtain ⟨m, hm⟩ := List.mem_iff_get?.mp hmemE
            have := hid m e hm
            rw [this]; exact hm
          have hnotocc : ¬ frameOccupied st.frames e.frame_id := by
            rw [occ_iff_get hid]
            rintro ⟨fr, hget, hfr⟩
            rw [hgetE] at hget
            injection hget with hget
            rw [← hget] at hfr
            rw [hempE] at hfr
            cases hfr
          have hnotin : e.frame_id ∉ st.insertion_order := fun h => hnotocc ((hmem _).mp h)
          refine ⟨_, rfl, ?_, ?_, ?_, ?_⟩
          · simp only [fifoRecord_order]
            show st.insertion_order ++ [e.frame_id] = keepLast (ev ++ [e.frame_id])
            rw [keepLast_append_single, ← hord, filter_ne_self hnotin]
          · intro i
            simp only [fifoRecord_order, fifoRecord_frames]
            show i ∈ st.insertion_order ++ [e.frame_id] ↔ _
            rw [List.mem_append, List.mem_singleton]
            rw [occ_updateFirstFrame_load pg n st.frames e hempty i]
            rw [hmem i]
          · simp only [fifoRecord_frames]
            refine get?_id_of_map_eq (updateFirstFrame_map_id ?_ st.frames) hid
            intro f; rfl
          · simp only [fifoRecord_frames]
            rw [updateFirstFrame_length]
            exact hlen
      | none =>
          cases horder : st.insertion_order with
          | nil =>
              exfalso
              have hall : ∀ f ∈ st.frames, ¬ f.is_empty = true := by
                intro f hf
                exact List.find?_eq_none.mp hempty f hf
              cases hframes : st.frames with
              | nil =>
                  rw [hframes] at hlen
                  simp at hlen
                  omega
              | cons f0 fs =>
                  have hget0 : st.frames.get? 0 = some f0 := by rw [hframes]; rfl
                  have hocc : frameOccupied st.frames 0 := by
                    rw [occ_iff_get hid]
                    refine ⟨f0, hget0, ?_⟩
                    have := hall f0 (by rw [hframes]; exact List.mem_cons_self f0 fs)
                    simpa using this
                  have := (hmem 0).mpr hocc
                  rw [horder] at this
                  cases this
          | cons v rest =>
              have hvmem : v ∈ st.insertion_order := by
                rw [horder]; exact List.mem_cons_self v rest
              have hocc : frameOccupied st.frames v := (hmem v).mp hvmem
              obtain ⟨fr, hget, hfr⟩ := (occ_iff_get hid v).mp hocc
              dsimp only
              rw [hget]
              dsimp only
              have hidv : fr.frame_id = v := hid v fr hget
              have hnodup : (v :: rest).Nodup := by
                rw [← horder, hord]; exact keepLast_nodup ev
              have hvnotin : v ∉ rest := (List.nodup_cons.mp hnodup).1
              have hid2 : ∀ j fr2, (st.frames.set v (fr.load_page pg n)).get? j = some fr2 →
                  fr2.frame_id = j := by
                intro j fr2 h2
                by_cases hjv : v = j
                · subst hjv
                  rw [List.get?_set_eq] at h2
                  rw [hget] at h2
                  injection h2 with h2
                  rw [← h2]
                  exact hidv
                · rw [List.get?_set_ne _ _ hjv] at h2
                  exact hid j fr2 h2
              refine ⟨_, rfl, ?_, ?_, ?_, ?_⟩
              · simp only [fifoRecord_order]
                show rest ++ [v] = keepLast (ev ++ [v])
                rw [keepLast_append_single, ← hord, horder, filter_ne_cons_self hvnotin]
              · intro i
                simp only [fifoRecord_order, fifoRecord_frames]
                show i ∈ rest ++ [v] ↔ _
                rw [List.mem_append, List.mem_singleton]
                rw [occ_iff_get hid2]
                by_cases hiv : i = v
                · subst hiv
                  constructor
                  · intro _
                    refine ⟨fr.load_page pg n, ?_, rfl⟩
                    rw [List.get?_set_eq, hget]; rfl
                  · intro _; exact Or.inr rfl
                · constructor
                  · intro h
                    rcases h with h | h
                    · have hmem2 : i ∈ st.insertion_order := by
                        rw [horder]; exact List.mem_cons_of_mem v h
                      have hocc2 := (hmem i).mp hmem2
                      obtain ⟨fr2, hg2, hf2⟩ := (occ_iff_get hid i).mp hocc2
                      refine ⟨fr2, ?_, hf2⟩
                      rw [List.get?_set_ne _ _ (fun hh => hiv hh.symm)]
                      exact hg2
                    · exact absurd h hiv
                  · rintro ⟨fr2, hg2, hf2⟩
                    rw [List.get?_set_ne _ _ (fun hh => hiv hh.symm)] at hg2
                    have hocc2 : frameOccupied st.frames i := (occ_iff_get hid i).mpr ⟨fr2, hg2, hf2⟩
                    have hmem2 := (hmem i).mpr hocc2
                    rw [horder] at hmem2
                    rcases List.mem_cons.mp hmem2 with h | h
                    · exact absurd h hiv
                    · exact Or.inl h
              · simp only [fifoRecord_frames]
                exact hid2
              · simp only [fifoRecord_frames]
                rw [List.length_set]
                exact hlen

theorem fifoLoopEv_inv (fc : Int) (hfc : 1 ≤ fc) :
    ∀ (l : List Int) (st : FifoState) (ev : List Nat) (n : Nat),
    FifoInv fc st ev →
    ∃ st2 ev2, fifoLoopEv st ev n l = some (st2, ev2) ∧ FifoInv fc st2 ev2 := by
  intro l
  induction l with
  | nil => intro st ev n h; exact ⟨st, ev, rfl, h⟩
  | cons pg rest ih =>
      intro st ev n h
      obtain ⟨st2, hstep, hinv2⟩ := fifoStep_inv fc hfc st ev h n pg
      unfold fifoLoopEv
      rw [hstep]
      exact ih st2 _ _ hinv2

theorem fifoLoopEv_fst : ∀ (l : List Int) (st : FifoState) (ev : List Nat) (n : Nat),
    (fifoLoopEv st ev n l).map (·.1) = fifoLoop st n l := by
  intro l
  induction l with
  | nil => intros; rfl
  | cons pg rest ih =>
      intro st ev n
      unfold fifoLoopEv fifoLoop
      cases h : fifoStep st n pg with
      | none => rfl
      | some st2 => exact ih st2 _ _

theorem fifoInit_inv (fc : Int) : FifoInv fc (fifoInitState fc) [] := by
  refine ⟨rfl, ?_, ?_, ?_⟩
  · intro i
    constructor
    · intro h; cases h
    · rintro ⟨f, hf, hfid, hemp⟩
      obtain ⟨j, hj, hfe⟩ := List.mem_map.mp hf
      rw [← hfe] at hemp
      cases hemp
  · intro j fr h
    have h2 := h
    rw [fifoInitState] at h2
    dsimp only at h2
    rw [List.get?_map] at h2
    cases hr : (List.range fc.toNat).get? j with
    | none => rw [hr] at h2; cases h2
    | some m =>
        have hlt : j < (List.range fc.toNat).length := (List.get?_eq_some.mp hr).1
        rw [List.length_range] at hlt
        have hj : (List.range fc.toNat).get? j = some j := List.get?_range hlt
        rw [hj] at h2
        have h3 : FrameState.init j = fr := by simpa using h2
        rw [← h3]
        rfl
  · simp [fifoInitState]

/-- C10: during `FIFOAlgorithm.execute` with frame_count ≥ 1, after
each processed reference the `insertion_order` list contains exactly
the ids of the occupied frames, each exactly once, ordered by the most
recent load of each frame (it equals `keepLast` of the chronological
load-event log); consequently the victim dequeue never underflows and
the whole run returns a result (`isSome`). -/
theorem C10_fifo_insertion_order :
    ∀ (seq : List Int) (fc : Int) (n : Nat), 1 ≤ fc →
    (optionHolds (fun p =>
        p.1.insertion_order = keepLast p.2 ∧
        p.1.insertion_order.Nodup ∧
        (∀ i, i ∈ p.1.insertion_order ↔ frameOccupied p.1.frames i))
      (fifoLoopEv (fifoInitState fc) [] 0 (seq.take n)) ∧
      (fifoLoopEv (fifoInitState fc) [] 0 (seq.take n)).isSome) ∧
    (fifoExecute seq fc).isSome := by
  intro seq fc n hfc
  constructor
  · obtain ⟨st2, ev2, hrun, hinv⟩ :=
      fifoLoopEv_inv fc hfc (seq.take n) (fifoInitState fc) [] 0 (fifoInit_inv fc)
    rw [hrun]
    refine ⟨⟨hinv.1, ?_, hinv.2.1⟩, rfl⟩
    rw [hinv.1]
    exact keepLast_nodup ev2
  · obtain ⟨st2, ev2, hrun, hinv⟩ :=
      fifoLoopEv_inv fc hfc seq (fifoInitState fc) [] 0 (fifoInit_inv fc)
    have hfst := fifoLoopEv_fst seq (fifoInitState fc) [] 0
    rw [hrun] at hfst
    unfold fifoExecute
    rw [← hfst]
    rfl

/-- C10 witness: the invariant on a concrete run with 2 frames. -/
theorem C10_witness :
    (1 : Int) ≤ 2 ∧
    ((optionHolds (fun p =>
        p.1.insertion_order = keepLast p.2 ∧
        p.1.insertion_order.Nodup ∧
        (∀ i, i ∈ p.1.insertion_order ↔ frameOccupied p.1.frames i))
      (fifoLoopEv (fifoInitState 2) [] 0 (([1, 2, 1, 3, 2] : List Int).take 4)) ∧
      (fifoLoopEv (fifoInitState 2) [] 0 (([1, 2, 1, 3, 2] : List Int).take 4)).isSome) ∧
    (fifoExecute [1, 2, 1, 3, 2] 2).isSome) :=
  ⟨by norm_num, C10_fifo_insertion_order [1, 2, 1, 3, 2] 2 4 (by norm_num)⟩


theorem lookupD_cons {β : Type} (kv : Int × β) (rest : List (Int × β)) (k : Int) (d : β) :
    lookupD (kv :: rest) k d = if kv.1 = k then kv.2 else lookupD rest k d := by
  unfold lookupD
  rw [List.find?_cons]
  by_cases h : kv.1 = k
  · simp [h]
  · simp [h]

theorem lookupD_updateAssoc_ne {β : Type} (l : List (Int × β)) (k k2 : Int) (v d : β)
    (h : k2 ≠ k) : lookupD (updateAssoc l k v) k2 d = lookupD l k2 d := by
  induction l with
  | nil => rfl
  | cons kv rest ih =>
      unfold updateAssoc
      by_cases hk : kv.1 = k
      · rw [if_pos hk, lookupD_cons, lookupD_cons]
        rw [if_neg (show ¬((k, v).1 = k2) from fun hh => h hh.symm)]
        rw [if_neg (show ¬(kv.1 = k2) from fun hh => h (hk ▸ hh).symm)]
      · rw [if_neg hk, lookupD_cons, lookupD_cons]
        by_cases hkv : kv.1 = k2
        · simp [hkv]
        · rw [if_neg hkv, if_neg hkv]
          exact ih

theorem lookupD_updateAssoc_self {β : Type} (l : List (Int × β)) (k : Int) (v d : β)
    (hmem : k ∈ l.map (·.1)) : lookupD (updateAssoc l k v) k d = v := by
  induction l with
  | nil => cases hmem
  | cons kv rest ih =>
      unfold updateAssoc
      by_cases hk : kv.1 = k
      · rw [if_pos hk, lookupD_cons]
        simp
      · rw [if_neg hk, lookupD_cons]
        rw [if_neg hk]
        apply ih
        rcases List.mem_map.mp hmem with ⟨x, hx, he⟩
        rcases List.mem_cons.mp hx with h | h
        · exfalso; apply hk; rw [h] at he; exact he
        · exact List.mem_map.mpr ⟨x, h, he⟩

theorem updateAssoc_keys {β : Type} (l : List (Int × β)) (k : Int) (v : β) :
    (updateAssoc l k v).map (·.1) = l.map (·.1) := by
  induction l with
  | nil => rfl
  | cons kv rest ih =>
      unfold updateAssoc
      by_cases hk : kv.1 = k
      · rw [if_pos hk]; simp [hk]
      · rw [if_neg hk]; simp [ih]

theorem lookupD_remaining_init (l : List Process) (pid : Int)
    (hall : ∀ p ∈ l, 1 ≤ p.remaining_time) (hmem : pid ∈ l.map (·.pid)) :
    1 ≤ lookupD (l.map (fun p => (p.pid, p.remaining_time))) pid 0 := by
  induction l with
  | nil => cases hmem
  | cons p rest ih =>
      rw [List.map_cons, lookupD_cons]
      by_cases hp : p.pid = pid
      · rw [if_pos hp]
        exact hall p (List.mem_cons_self p rest)
      · rw [if_neg hp]
        apply ih
        · intro x hx; exact hall x (List.mem_cons_of_mem p hx)
        · rcases List.mem_map.mp hmem with ⟨x, hx, he⟩
          rcases List.mem_cons.mp hx with h | h
          · exfalso; apply hp; rw [h] at he; exact he
          · exact List.mem_map.mpr ⟨x, h, he⟩

theorem addArrivals_all {P : Int → Prop} (ps : List Process) (t : Int)
    (completed : List Int) (cur : Option Int) :
    ∀ (queue : List Int), (∀ p ∈ queue, P p) →
    (∀ p ∈ ps, p.pid ∉ completed → P p.pid) →
    ∀ p ∈ addArrivals ps t completed queue cur, P p := by
  unfold addArrivals
  induction ps with
  | nil => intro queue hq _ p hp; exact hq p hp
  | cons x rest ih =>
      intro queue hq hnew
      rw [List.foldl_cons]
      by_cases hx : x.arrival_time ≤ t ∧ x.pid ∉ completed ∧ x.pid ∉ queue ∧ cur ≠ some x.pid
      · rw [if_pos hx]
        apply ih
        · intro p hp
          rcases List.mem_append.mp hp with h | h
          · exact hq p h
          · rw [List.mem_singleton] at h
            rw [h]
            exact hnew x (List.mem_cons_self x rest) hx.2.1
        · intro p hp hc; exact hnew p (List.mem_cons_of_mem x hp) hc
      · rw [if_neg hx]
        apply ih
        · exact hq
        · intro p hp hc; exact hnew p (List.mem_cons_of_mem x hp) hc

theorem addArrivals_nodup (ps : List Process) (t : Int) (completed : List Int)
    (cur : Option Int) :
    ∀ (queue : List Int), queue.Nodup →
    (addArrivals ps t completed queue cur).Nodup := by
  unfold addArrivals
  induction ps with
  | nil => intro queue hq; exact hq
  | cons x rest ih =>
      intro queue hq
      rw [List.foldl_cons]
      by_cases hx : x.arrival_time ≤ t ∧ x.pid ∉ completed ∧ x.pid ∉ queue ∧ cur ≠ some x.pid
      · rw [if_pos hx]
        apply ih
        rw [List.nodup_append]
        exact ⟨hq, List.nodup_singleton _, by
          intro a ha hb
          rw [List.mem_singleton] at hb
          rw [hb] at ha
          exact hx.2.2.1 ha⟩
      · rw [if_neg hx]
        exact ih queue hq

theorem addArrivals_not_current (ps : List Process) (t : Int) (completed : List Int)
    (c : Int) :
    ∀ (queue : List Int), c ∉ queue →
    c ∉ addArrivals ps t completed queue (some c) := by
  unfold addArrivals
  induction ps with
  | nil => intro queue hq; exact hq
  | cons x rest ih =>
      intro queue hq
      rw [List.foldl_cons]
      by_cases hx : x.arrival_time ≤ t ∧ x.pid ∉ completed ∧ x.pid ∉ queue ∧
          (some c : Option Int) ≠ some x.pid
      · rw [if_pos hx]
        apply ih
        intro hc
        rcases List.mem_append.mp hc with h | h
        · exact hq h
        · rw [List.mem_singleton] at h
          exact hx.2.2.2 (by rw [h])
      · rw [if_neg hx]
        exact ih queue hq

theorem initRemaining_keys (ps : List Process) :
    (initRemaining ps).map (·.1) = ps.reverse.map (·.pid) := by
  unfold initRemaining
  rw [List.map_map]
  rfl

theorem mem_keys_of_mem_pids (ps : List Process) (st : RRState) (c : Int)
    (hkeys : st.remaining.map (·.1) = (initRemaining ps).map (·.1))
    (hcps : c ∈ ps.map (·.pid)) : c ∈ st.remaining.map (·.1) := by
  rw [hkeys, initRemaining_keys]
  rcases List.mem_map.mp hcps with ⟨x, hx, he⟩
  exact List.mem_map.mpr ⟨x, List.mem_reverse.mpr hx, he⟩

theorem addCompleted_eq (completed : List Int) (c : Int) (h : c ∉ completed) :
    addCompleted completed c = completed ++ [c] := by
  unfold addCompleted
  rw [if_neg h]

theorem mem_addCompleted (completed : List Int) (c p : Int) :
    p ∈ addCompleted completed c ↔ p ∈ completed ∨ p = c := by
  unfold addCompleted
  by_cases h : c ∈ completed
  · rw [if_pos h]
    constructor
    · exact Or.inl
    · rintro (hp | hp)
      · exact hp
      · rw [hp]; exact h
  · rw [if_neg h]
    rw [List.mem_append, List.mem_singleton]

theorem rrPush_summary (q : Int) (st : RRState) (c : Int)
    (hmerge : ∀ e rest2, st.ganttRev = e :: rest2 → e.process_id = c →
      e.end_time = st.current_time → q ∣ (e.duration + st.quantum_remaining))
    (hnil : st.ganttRev = [] → q ∣ st.quantum_remaining)
    (hmiss : ∀ e rest2, st.ganttRev = e :: rest2 →
      ¬(e.process_id = c ∧ e.end_time = st.current_time) → q ∣ st.quantum_remaining)
    (hclosed : ∀ k e, st.ganttRev.get? k = some e →
      q ∣ e.duration ∨
      (e.process_id ∈ st.completed ∧ rrFirstOcc st.ganttRev k e.process_id) ∨
      (k = 0 ∧ e.process_id = c ∧ e.end_time = st.current_time))
    (hdur : ∀ e ∈ st.ganttRev, 1 ≤ e.duration)
    (hcc : c ∉ st.completed) :
    ∃ eh grest,
      ganttPushRR st.ganttRev c st.current_time (st.current_time + 1) = eh :: grest ∧
      eh.process_id = c ∧ eh.end_time = st.current_time + 1 ∧ 1 ≤ eh.duration ∧
      q ∣ (eh.duration + (st.quantum_remaining - 1)) ∧
      (∀ e2 ∈ grest, 1 ≤ e2.duration) ∧
      (∀ k e2, grest.get? k = some e2 →
        q ∣ e2.duration ∨
        (e2.process_id ∈ st.completed ∧ e2.process_id ≠ c ∧
          ∀ k2 e3, k2 < k → grest.get? k2 = some e3 → e3.process_id ≠ e2.process_id)) := by
  cases hg : st.ganttRev with
  | nil =>
      refine ⟨⟨c, st.current_time, st.current_time + 1, 1⟩, [], rfl, rfl, rfl, le_refl 1,
        ?_, ?_, ?_⟩
      · show q ∣ (1 + (st.quantum_remaining - 1))
        have he : (1 : Int) + (st.quantum_remaining - 1) = st.quantum_remaining := by ring
        rw [he]
        exact hnil hg
      · intro e2 h2; cases h2
      · intro k e2 h2; cases h2
  | cons e0 rest2 =>
      by_cases hm : e0.process_id = c ∧ e0.end_time = st.current_time
      · -- merge with the newest entry
        refine ⟨{ e0 with end_time := st.current_time + 1, duration := e0.duration + 1 },
          rest2, ?_, hm.1, rfl, ?_, ?_, ?_, ?_⟩
        · simp only [ganttPushRR]
          rw [if_pos hm]
        · show 1 ≤ e0.duration + 1
          have := hdur e0 (by rw [hg]; exact List.mem_cons_self e0 rest2)
          omega
        · show q ∣ (e0.duration + 1 + (st.quantum_remaining - 1))
          have he : e0.duration + 1 + (st.quantum_remaining - 1) =
              e0.duration + st.quantum_remaining := by ring
          rw [he]
          exact hmerge e0 rest2 hg hm.1 hm.2
        · intro e2 h2
          exact hdur e2 (by rw [hg]; exact List.mem_cons_of_mem e0 h2)
        · intro k e2 h2
          have hgk : st.ganttRev.get? (k + 1) = some e2 := by rw [hg]; exact h2
          rcases hclosed (k + 1) e2 hgk with h | ⟨hcm, hfo⟩ | ⟨hk0, _⟩
          · exact Or.inl h
          · refine Or.inr ⟨hcm, ?_, ?_⟩
            · intro he; rw [he] at hcm; exact hcc hcm
            · intro k2 e3 hk2 h3
              refine hfo (k2 + 1) e3 (by omega) ?_
              rw [hg]; exact h3
          · cases hk0
      · -- a new entry is pushed in front
        refine ⟨⟨c, st.current_time, st.current_time + 1, 1⟩, e0 :: rest2, ?_, rfl, rfl,
          le_refl 1, ?_, ?_, ?_⟩
        · simp only [ganttPushRR]
          rw [if_neg hm]
        · show q ∣ (1 + (st.quantum_remaining - 1))
          have he : (1 : Int) + (st.quantum_remaining - 1) = st.quantum_remaining := by ring
          rw [he]
          exact hmiss e0 rest2 hg hm
        · intro e2 h2
          exact hdur e2 (by rw [hg]; exact h2)
        · intro k e2 h2
          have hgk : st.ganttRev.get? k = some e2 := by rw [hg]; exact h2
          rcases hclosed k e2 hgk with h | ⟨hcm, hfo⟩ | ⟨hk0, hpid, hend⟩
          · exact Or.inl h
          · refine Or.inr ⟨hcm, ?_, ?_⟩
            · intro he; rw [he] at hcm; exact hcc hcm
            · intro k2 e3 hk2 h3
              refine hfo k2 e3 hk2 ?_
              rw [hg]; exact h3
          · exfalso
            subst hk0
            have : e2 = e0 := by
              rw [hg] at hgk
              injection hgk with hh
              exact hh.symm
            subst this
            exact hm ⟨hpid, hend⟩

theorem rrExec_inv (q : Int) (ps : List Process) (hq : 1 ≤ q) (st : RRState) (c : Int)
    (hc : st.current = some c)
    (hq1 : 1 ≤ st.quantum_remaining) (hq2 : st.quantum_remaining ≤ q)
    (hmerge : ∀ e rest2, st.ganttRev = e :: rest2 → e.process_id = c →
      e.end_time = st.current_time → q ∣ (e.duration + st.quantum_remaining))
    (hnil : st.ganttRev = [] → q ∣ st.quantum_remaining)
    (hmiss : ∀ e rest2, st.ganttRev = e :: rest2 →
      ¬(e.process_id = c ∧ e.end_time = st.current_time) → q ∣ st.quantum_remaining)
    (hclosed : ∀ k e, st.ganttRev.get? k = some e →
      q ∣ e.duration ∨
      (e.process_id ∈ st.completed ∧ rrFirstOcc st.ganttRev k e.process_id) ∨
      (k = 0 ∧ e.process_id = c ∧ e.end_time = st.current_time))
    (hdur : ∀ e ∈ st.ganttRev, 1 ≤ e.duration)
    (hcc : c ∉ st.completed)
    (hcq : c ∉ st.ready_queue)
    (hqnd : st.ready_queue.Nodup)
    (hque : ∀ p ∈ st.ready_queue, p ∉ st.completed)
    (hqps : ∀ p ∈ st.ready_queue, p ∈ ps.map (·.pid))
    (hcps : c ∈ ps.map (·.pid))
    (hrem : ∀ pid, pid ∈ ps.map (·.pid) → pid ∉ st.completed →
      1 ≤ lookupD st.remaining pid 0)
    (hkeys : st.remaining.map (·.1) = (initRemaining ps).map (·.1))
    (hnd : st.completed.length < ps.length) :
    RRInv q ps (rrExec st) := by
  have hkeys2 : ∀ v : Int,
      (updateAssoc st.remaining c v).map (·.1) = (initRemaining ps).map (·.1) := by
    intro v; rw [updateAssoc_keys]; exact hkeys
  have hrem2ne : ∀ (v pid : Int), pid ∈ ps.map (·.pid) → pid ≠ c → pid ∉ st.completed →
      1 ≤ lookupD (updateAssoc st.remaining c v) pid 0 := by
    intro v pid hm hne hnc
    rw [lookupD_updateAssoc_ne _ _ _ _ _ hne]
    exact hrem pid hm hnc
  have hremc : 1 ≤ lookupD st.remaining c 0 := hrem c hcps hcc
  have hkeymem : c ∈ st.remaining.map (·.1) := mem_keys_of_mem_pids ps st c hkeys hcps
  obtain ⟨eh, grest, hgp, hehpid, hehend, hehdur, hehdiv, hgrestdur, hgrestclosed⟩ :=
    rrPush_summary q st c hmerge hnil hmiss hclosed hdur hcc
  unfold rrExec
  rw [hc]
  dsimp only
  rw [hgp]
  by_cases hrem2 : lookupD st.remaining c 0 - 1 = 0
  · rw [if_pos hrem2]
    refine ⟨trivial, ?_, ?_, ?_, ?_, hqnd, ?_, hqps, ?_, ?_, hkeys2 _, fun _ => rfl⟩
    · -- CLOSED after completion
      intro k e hk
      cases k with
      | zero =>
          have he : e = eh := by injection hk with hh; exact hh.symm
          subst he
          refine Or.inr (Or.inl ⟨?_, ?_⟩)
          · rw [hehpid]
            exact (mem_addCompleted _ _ _).mpr (Or.inr rfl)
          · intro k2 e2 hk2 _; omega
      | succ k =>
          have hk2 : grest.get? k = some e := hk
          rcases hgrestclosed k e hk2 with h | ⟨hcm, hne, hfo⟩
          · exact Or.inl h
          · refine Or.inr (Or.inl ⟨(mem_addCompleted _ _ _).mpr (Or.inl hcm), ?_⟩)
            intro k3 e3 hk3 h3
            cases k3 with
            | zero =>
                have he3 : e3 = eh := by injection h3 with hh; exact hh.symm
                subst he3
                rw [hehpid]
                exact fun hh => hne hh.symm
            | succ k3 =>
                exact hfo k3 e3 (by omega) h3
    · -- durations
      intro e he
      rcases List.mem_cons.mp he with h | h
      · rw [h]; exact hehdur
      · exact hgrestdur e h
    · intro c2 h; cases h
    · intro c2 h; cases h
    · -- queue pids still incomplete
      intro p hp hmem
      rcases (mem_addCompleted _ _ _).mp hmem with h | h
      · exact hque p hp h
      · rw [h] at hp; exact hcq hp
    · intro c2 h; cases h
    · -- remaining of incomplete pids
      intro pid hm hnc
      by_cases hpe : pid = c
      · exfalso
        exact hnc ((mem_addCompleted _ _ _).mpr (Or.inr hpe))
      · exact hrem2ne _ pid hm hpe
          (fun hmm => hnc ((mem_addCompleted _ _ _).mpr (Or.inl hmm)))
  · rw [if_neg hrem2]
    refine ⟨?_, ?_, ?_, ?_, ?_, hqnd, hque, hqps, ?_, ?_, hkeys2 _, ?_⟩
    · -- OPEN for the still-running process
      dsimp only
      refine ⟨eh, grest, rfl, hehpid, hehend, ?_, by omega, by omega⟩
      exact hehdiv
    · -- CLOSED
      intro k e hk
      cases k with
      | zero =>
          have he : e = eh := by injection hk with hh; exact hh.symm
          subst he
          exact Or.inr (Or.inr ⟨by rw [hehpid], rfl⟩)
      | succ k =>
          have hk2 : grest.get? k = some e := hk
          rcases hgrestclosed k e hk2 with h | ⟨hcm, hne, hfo⟩
          · exact Or.inl h
          · refine Or.inr (Or.inl ⟨hcm, ?_⟩)
            intro k3 e3 hk3 h3
            cases k3 with
            | zero =>
                have he3 : e3 = eh := by injection h3 with hh; exact hh.symm
                subst he3
                rw [hehpid]
                exact fun hh => hne hh.symm
            | succ k3 =>
                exact hfo k3 e3 (by omega) h3
    · intro e he
      rcases List.mem_cons.mp he with h | h
      · rw [h]; exact hehdur
      · exact hgrestdur e h
    · intro c2 h
      injection h with h
      rw [← h]
      exact hcc
    · intro c2 h
      injection h with h
      rw [← h]
      exact hcq
    · intro c2 h
      injection h with h
      rw [← h]
      exact hcps
    · intro pid hm hnc
      by_cases hpe : pid = c
      · subst hpe
        rw [lookupD_updateAssoc_self _ _ _ _ hkeymem]
        omega
      · exact hrem2ne _ pid hm hpe hnc
    · intro hlen
      exfalso
      have hlen2 : ps.length ≤ st.completed.length := hlen
      omega

theorem rrStep_inv (q : Int) (ps : List Process) (hq : 1 ≤ q) (st st2 : RRState)
    (hinv : RRInv q ps st) (hnd : st.completed.length < ps.length)
    (hstep : rrStep q ps st = some st2) : RRInv q ps st2 := by
  obtain ⟨hopen, hclosed, hdur, hcurc, ha5, hqnd, hque, hqps, hcps, hrem, hkeys, hdone⟩ := hinv
  unfold rrStep at hstep
  dsimp only at hstep
  by_cases hsel : st.current = none ∨ st.quantum_remaining = (0 : Int)
  · rw [if_pos hsel] at hstep
    have q0nd : (addArrivals ps st.current_time st.completed st.ready_queue st.current).Nodup :=
      addArrivals_nodup ps st.current_time st.completed st.current st.ready_queue hqnd
    have q0que : ∀ p ∈ addArrivals ps st.current_time st.completed st.ready_queue st.current,
        p ∉ st.completed :=
      addArrivals_all ps st.current_time st.completed st.current st.ready_queue hque
        (fun p _ hp => hp)
    have q0ps : ∀ p ∈ addArrivals ps st.current_time st.completed st.ready_queue st.current,
        p ∈ ps.map (·.pid) :=
      addArrivals_all ps st.current_time st.completed st.current st.ready_queue hqps
        (fun p hp _ => List.mem_map.mpr ⟨p, hp, rfl⟩)
    cases hcur : st.current with
    | none =>
        rw [hcur] at hstep
        rw [hcur] at q0nd q0que q0ps
        dsimp only at hstep
        by_cases hemp :
            (addArrivals ps st.current_time st.completed st.ready_queue none).isEmpty = true
        · rw [if_pos ⟨hemp, rfl⟩] at hstep
          cases hna : nextArrivalAfter ps st.completed st.current_time with
          | none => rw [hna] at hstep; cases hstep
          | some next_arrival =>
              rw [hna] at hstep
              injection hstep with hstep
              rw [← hstep]
              refine ⟨trivial, ?_, hdur, ?_, ?_, ?_, ?_, ?_, ?_, hrem, hkeys, fun _ => rfl⟩
              · intro k e hk
                rcases hclosed k e hk with h | h | ⟨hceq, _⟩
                · exact Or.inl h
                · exact Or.inr (Or.inl h)
                · rw [hcur] at hceq; cases hceq
              · intro c2 h; cases h
              · intro c2 h; cases h
              · exact q0nd
              · exact q0que
              · exact q0ps
              · intro c2 h; cases h
        · rw [if_neg (fun hh => hemp hh.1)] at hstep
          cases hqq : addArrivals ps st.current_time st.completed st.ready_queue none with
          | nil => rw [hqq] at hemp; exact absurd rfl hemp
          | cons c rest =>
              rw [hqq] at hstep
              dsimp only at hstep
              have hcmem : c ∈ addArrivals ps st.current_time st.completed
                  st.ready_queue none := by
                rw [hqq]; exact List.mem_cons_self c rest
              have hccomp : c ∉ st.completed := q0que c hcmem
              have hcps2 : c ∈ ps.map (·.pid) := q0ps c hcmem
              have hcrest : c ∉ rest := by
                have h2 := q0nd
                rw [hqq] at h2
                exact (List.nodup_cons.mp h2).1
              have hrestnd : rest.Nodup := by
                have h2 := q0nd
                rw [hqq] at h2
                exact (List.nodup_cons.mp h2).2
              have hrestque : ∀ p ∈ rest, p ∉ st.completed := by
                intro p hp
                apply q0que
                rw [hqq]
                exact List.mem_cons_of_mem c hp
              have hrestps : ∀ p ∈ rest, p ∈ ps.map (·.pid) := by
                intro p hp
                apply q0ps
                rw [hqq]
                exact List.mem_cons_of_mem c hp
              have hdvd : ∀ e2 rest3, st.ganttRev = e2 :: rest3 → e2.process_id = c →
                  q ∣ e2.duration := by
                intro e2 rest3 heq hpid
                have hk0 : st.ganttRev.get? 0 = some e2 := by rw [heq]; rfl
                rcases hclosed 0 e2 hk0 with h | ⟨hcm, _⟩ | ⟨hceq, _⟩
                · exact h
                · exfalso
                  rw [hpid] at hcm
                  exact hccomp hcm
                · rw [hcur] at hceq; cases hceq
              have hmain : ∀ (rts : List (Int × Int)) (fes : List Int),
                  RRInv q ps (rrExec
                    { current_time := st.current_time, completed := st.completed,
                      completion_times := st.completion_times, response_times := rts,
                      ready_queue := rest, current := some c, quantum_remaining := q,
                      remaining := st.remaining, first_execution := fes,
                      ganttRev := st.ganttRev, stepsRev := st.stepsRev }) := by
                intro rts fes
                refine rrExec_inv q ps hq _ c rfl hq (le_refl q) ?_ ?_ ?_ ?_ hdur hccomp
                  hcrest hrestnd hrestque hrestps hcps2 hrem hkeys hnd
                · intro e2 rest3 heq hpid _
                  exact Dvd.dvd.add (hdvd e2 rest3 heq hpid) (dvd_refl q)
                · intro _; exact dvd_refl q
                · intro _ _ _ _; exact dvd_refl q
                · intro k e2 hk
                  rcases hclosed k e2 hk with h | h | ⟨hceq, _⟩
                  · exact Or.inl h
                  · exact Or.inr (Or.inl h)
                  · rw [hcur] at hceq; cases hceq
              by_cases hfe : c ∉ st.first_execution
              · rw [if_pos hfe] at hstep
                injection hstep with hstep
                rw [← hstep]
                exact hmain _ _
              · rw [if_neg hfe] at hstep
                injection hstep with hstep
                rw [← hstep]
                exact hmain _ _
    | some c0 =>
        rw [hcur] at hstep
        rw [hcur] at q0nd q0que q0ps
        dsimp only at hstep
        have hqr0 : st.quantum_remaining = 0 := by
          rcases hsel with h | h
          · rw [hcur] at h; cases h
          · exact h
        rw [hcur] at hopen
        obtain ⟨e0, rest0, hg0, hpid0, hend0, hdiv0, _, _⟩ := hopen
        have hdvd0 : q ∣ e0.duration := by
          rw [hqr0] at hdiv0
          simpa using hdiv0
        have hremc0 : (0 : Int) < lookupD st.remaining c0 0 := by
          have := hrem c0 (hcps c0 hcur) (hcurc c0 hcur)
          omega
        rw [if_pos hremc0] at hstep
        rw [if_neg (fun hh => by cases hh.2)] at hstep
        have hc0notq0 : c0 ∉ addArrivals ps st.current_time st.completed
            st.ready_queue (some c0) :=
          addArrivals_not_current ps st.current_time st.completed c0 st.ready_queue
            (ha5 c0 hcur)
        have qbnd : (addArrivals ps st.current_time st.completed st.ready_queue (some c0) ++
            [c0]).Nodup := by
          rw [List.nodup_append]
          refine ⟨q0nd, List.nodup_singleton _, ?_⟩
          intro a ha hb
          rw [List.mem_singleton] at hb
          rw [hb] at ha
          exact hc0notq0 ha
        have qbque : ∀ p ∈ addArrivals ps st.current_time st.completed st.ready_queue
            (some c0) ++ [c0], p ∉ st.completed := by
          intro p hp
          rcases List.mem_append.mp hp with h | h
          · exact q0que p h
          · rw [List.mem_singleton] at h
            rw [h]
            exact hcurc c0 hcur
        have qbps : ∀ p ∈ addArrivals ps st.current_time st.completed st.ready_queue
            (some c0) ++ [c0], p ∈ ps.map (·.pid) := by
          intro p hp
          rcases List.mem_append.mp hp with h | h
          · exact q0ps p h
          · rw [List.mem_singleton] at h
            rw [h]
            exact hcps c0 hcur
        cases hqq : addArrivals ps st.current_time st.completed st.ready_queue (some c0) ++
            [c0] with
        | nil => simp at hqq
        | cons c rest =>
            rw [hqq] at hstep
            dsimp only at hstep
            have hcmem : c ∈ addArrivals ps st.current_time st.completed st.ready_queue
                (some c0) ++ [c0] := by
              rw [hqq]; exact List.mem_cons_self c rest
            have hccomp : c ∉ st.completed := qbque c hcmem
            have hcps2 : c ∈ ps.map (·.pid) := qbps c hcmem
            have hcrest : c ∉ rest := by
              have h2 := qbnd
              rw [hqq] at h2
              exact (List.nodup_cons.mp h2).1
            have hrestnd : rest.Nodup := by
              have h2 := qbnd
              rw [hqq] at h2
              exact (List.nodup_cons.mp h2).2
            have hrestque : ∀ p ∈ rest, p ∉ st.completed := by
              intro p hp
              apply qbque
              rw [hqq]
              exact List.mem_cons_of_mem c hp
            have hrestps : ∀ p ∈ rest, p ∈ ps.map (·.pid) := by
              intro p hp
              apply qbps
              rw [hqq]
              exact List.mem_cons_of_mem c hp
            have hmain : ∀ (rts : List (Int × Int)) (fes : List Int),
                RRInv q ps (rrExec
                  { current_time := st.current_time, completed := st.completed,
                    completion_times := st.completion_times, response_times := rts,
                    ready_queue := rest, current := some c, quantum_remaining := q,
                    remaining := st.remaining, first_execution := fes,
                    ganttRev := st.ganttRev, stepsRev := st.stepsRev }) := by
              intro rts fes
              refine rrExec_inv q ps hq _ c rfl hq (le_refl q) ?_ ?_ ?_ ?_ hdur hccomp
                hcrest hrestnd hrestque hrestps hcps2 hrem hkeys hnd
              · intro e2 rest3 heq _ _
                rw [hg0] at heq
                injection heq with h1 _
                rw [← h1]
                exact Dvd.dvd.add hdvd0 (dvd_refl q)
              · intro _; exact dvd_refl q
              · intro _ _ _ _; exact dvd_refl q
              · intro k e2 hk
                rcases hclosed k e2 hk with h | h | ⟨hceq, hk0⟩
                · exact Or.inl h
                · exact Or.inr (Or.inl h)
                · subst hk0
                  rw [hg0] at hk
                  have he2 : e2 = e0 := by injection hk with hh; exact hh.symm
                  subst he2
                  exact Or.inl hdvd0
            by_cases hfe : c ∉ st.first_execution
            · rw [if_pos hfe] at hstep
              injection hstep with hstep
              rw [← hstep]
              exact hmain _ _
            · rw [if_neg hfe] at hstep
              injection hstep with hstep
              rw [← hstep]
              exact hmain _ _
  · rw [if_neg hsel] at hstep
    push_neg at hsel
    obtain ⟨hcne, hqne⟩ := hsel
    cases hc : st.current with
    | none => exact absurd hc hcne
    | some c =>
        injection hstep with hstep
        rw [← hstep]
        rw [hc] at hopen
        obtain ⟨e, rest2, hg, hpid, hend, hdiv, hq0le, hqlt⟩ := hopen
        refine rrExec_inv q ps hq _ c hc
          (by show (1 : Int) ≤ st.quantum_remaining; omega)
          (by show st.quantum_remaining ≤ q; omega) ?_ ?_ ?_ ?_ hdur
          (hcurc c hc) ?_ ?_ ?_ ?_ (hcps c hc) hrem hkeys hnd
        · intro e2 rest3 heq _ _
          rw [hg] at heq
          injection heq with h1 h2
          rw [← h1]
          exact hdiv
        · intro hnilg
          rw [hg] at hnilg
          cases hnilg
        · intro e2 rest3 heq hne
          rw [hg] at heq
          injection heq with h1 h2
          exfalso
          apply hne
          rw [← h1]
          exact ⟨hpid, hend⟩
        · intro k e2 hk
          rcases hclosed k e2 hk with h | h | ⟨hceq, hk0⟩
          · exact Or.inl h
          · exact Or.inr (Or.inl h)
          · subst hk0
            rw [hg] at hk
            have he2 : e2 = e := by injection hk with hh; exact hh.symm
            subst he2
            exact Or.inr (Or.inr ⟨rfl, hpid, hend⟩)
        · show c ∉ addArrivals ps st.current_time st.completed st.ready_queue st.current
          rw [hc]
          exact addArrivals_not_current ps st.current_time st.completed c st.ready_queue
            (ha5 c hc)
        · exact addArrivals_nodup ps st.current_time st.completed st.current
            st.ready_queue hqnd
        · exact addArrivals_all ps st.current_time st.completed st.current
            st.ready_queue hque (fun p _ hp => hp)
        · exact addArrivals_all ps st.current_time st.completed st.current
            st.ready_queue hqps (fun p hp _ => List.mem_map.mpr ⟨p, hp, rfl⟩)

theorem rrRun_inv (q : Int) (ps : List Process) (hq : 1 ≤ q) :
    ∀ (fuel : Nat) (st st2 : RRState), RRInv q ps st →
    rrRun q ps fuel st = some st2 → RRInv q ps st2 := by
  intro fuel
  induction fuel with
  | zero =>
      intro st st2 hinv hrun
      unfold rrRun at hrun
      by_cases hd : ps.length ≤ st.completed.length
      · rw [if_pos hd] at hrun
        injection hrun with hrun
        rw [← hrun]
        exact hinv
      · rw [if_neg hd] at hrun
        cases hrun
  | succ fuel ih =>
      intro st st2 hinv hrun
      unfold rrRun at hrun
      by_cases hd : ps.length ≤ st.completed.length
      · rw [if_pos hd] at hrun
        injection hrun with hrun
        rw [← hrun]
        exact hinv
      · rw [if_neg hd] at hrun
        cases hs : rrStep q ps st with
        | none => rw [hs] at hrun; cases hrun
        | some stm =>
            rw [hs] at hrun
            exact ih stm st2 (rrStep_inv q ps hq st stm hinv (by omega) hs) hrun

theorem rrInit_inv (q : Int) (ps : List Process)
    (hrem0 : ps.all (fun p => 1 ≤ p.remaining_time) = true) :
    RRInv q ps (rrInitState ps) := by
  refine ⟨trivial, ?_, ?_, ?_, ?_, List.nodup_nil, ?_, ?_, ?_, ?_, rfl, fun _ => rfl⟩
  · intro k e hk; cases hk
  · intro e he; cases he
  · intro c h; cases h
  · intro c h; cases h
  · intro p hp; cases hp
  · intro p hp; cases hp
  · intro c h; cases h
  · intro pid hm _
    show 1 ≤ lookupD (initRemaining ps) pid 0
    unfold initRemaining
    apply lookupD_remaining_init
    · intro p hp
      have := List.all_eq_true.mp hrem0 p (List.mem_reverse.mp hp)
      simpa using this
    · rcases List.mem_map.mp hm with ⟨x, hx, he⟩
      exact List.mem_map.mpr ⟨x, List.mem_reverse.mpr hx, he⟩

/-- C2, amended: in the Round Robin Gantt chart (contiguous same-process
entries merged by the engine itself, cpu_scheduling.py lines 360-368),
every entry that is NOT the last entry of its process has a duration
that is a positive MULTIPLE of the time quantum — not necessarily at
most the quantum: when the quantum expires with an otherwise empty ready
queue the incumbent is re-dispatched immediately and the engine extends
the same entry, so a non-final merged segment can exceed `q`
(see `C2_counterexample`). -/
theorem C2_rr_segment_durations (q : Int) (ps : List Process) (fuel : Nat) (hq : 1 ≤ q)
    (hrem0 : ps.all (fun p => 1 ≤ p.remaining_time) = true) :
    optionHolds (fun r => ∀ i j ei ej, i < j →
      r.gantt_chart.get? i = some ei → r.gantt_chart.get? j = some ej →
      ei.process_id = ej.process_id → q ∣ ei.duration ∧ 1 ≤ ei.duration)
      (rrExecute fuel q ps) := by
  unfold rrExecute
  dsimp only
  by_cases hps : ps.isEmpty
  · rw [if_pos hps]
    simp only [optionHolds]
    intro i j ei ej hij hi hj hpid
    cases hi
  · rw [if_neg hps]
    cases hrun : rrRun q ps fuel (rrInitState ps) with
    | none => exact trivial
    | some stf =>
        simp only [optionHolds]
        intro i j ei ej hij hi hj hpid
        have hinv := rrRun_inv q ps hq fuel (rrInitState ps) stf
          (rrInit_inv q ps hrem0) hrun
        obtain ⟨_, hclosed, hdur, _⟩ := hinv
        have hi2 : stf.ganttRev.reverse.get? i = some ei := hi
        have hj2 : stf.ganttRev.reverse.get? j = some ej := hj
        have hilt : i < stf.ganttRev.length := by
          have := (List.get?_eq_some.mp hi2).1
          simpa using this
        have hjlt : j < stf.ganttRev.length := by
          have := (List.get?_eq_some.mp hj2).1
          simpa using this
        rw [List.get?_reverse hilt] at hi2
        rw [List.get?_reverse hjlt] at hj2
        rcases hclosed (stf.ganttRev.length - 1 - i) ei hi2 with h | ⟨_, hfo⟩ | ⟨_, hk0⟩
        · refine ⟨h, hdur ei (List.get?_mem hi2)⟩
        · exfalso
          exact hfo (stf.ganttRev.length - 1 - j) ej (by omega) hj2 hpid.symm
        · exfalso
          omega

theorem rrRun_step_eq (q : Int) (ps : List Process) (fuel : Nat) (st st2 : RRState)
    (hguard : ¬ ps.length ≤ st.completed.length)
    (hstep : rrStep q ps st = some st2) :
    rrRun q ps (fuel + 1) st = rrRun q ps fuel st2 := by
  rw [rrRun.eq_def]
  dsimp only
  rw [if_neg hguard, hstep]

theorem rrRun_done_eq (q : Int) (ps : List Process) (fuel : Nat) (st : RRState)
    (hguard : ps.length ≤ st.completed.length) :
    rrRun q ps fuel st = some st := by
  rw [rrRun.eq_def]
  dsimp only
  rw [if_pos hguard]

theorem rrTraceC2 : rrRun 1 psC2 8 (rrInitState psC2) = some rrS4 := by
  rw [show (8 : Nat) = 7 + 1 from rfl,
      rrRun_step_eq 1 psC2 7 (rrInitState psC2) rrS1 (by decide) (by decide)]
  rw [show (7 : Nat) = 6 + 1 from rfl,
      rrRun_step_eq 1 psC2 6 rrS1 rrS2 (by decide) (by decide)]
  rw [show (6 : Nat) = 5 + 1 from rfl,
      rrRun_step_eq 1 psC2 5 rrS2 rrS3 (by decide) (by decide)]
  rw [show (5 : Nat) = 4 + 1 from rfl,
      rrRun_step_eq 1 psC2 4 rrS3 rrS4 (by decide) (by decide)]
  exact rrRun_done_eq 1 psC2 4 rrS4 (by decide)

/-- C2, counterexample: with time quantum 1 on `psC2` (P1 arrives 0
burst 3, P2 arrives 2 burst 1) the Gantt chart is
`[P1 [0,2), P2 [2,3), P1 [3,4)]`: the FIRST entry is a maximal
uninterrupted run segment of P1, it is not P1's final segment (entry 2
is), and its duration 2 exceeds the quantum 1 — the engine re-dispatches
P1 at quantum expiry because the ready queue is empty and merges the two
quantum-sized slices into one Gantt entry. -/
theorem C2_counterexample :
    (rrExecute 8 1 psC2).map (fun r => r.gantt_chart.get? 0) = some (some ⟨1, 0, 2, 2⟩) ∧
    (rrExecute 8 1 psC2).map (fun r => r.gantt_chart.get? 2) = some (some ⟨1, 3, 4, 1⟩) ∧
    ¬ ((2 : Int) ≤ 1) := by
  have hex : rrExecute 8 1 psC2 = some ⟨"Round Robin (q=" ++ toString (1 : Int) ++ ")",
      rrS4.stepsRev.reverse,
      calculateDetailedMetrics psC2 rrS4.completion_times rrS4.response_times,
      rrS4.ganttRev.reverse,
      [("processes", SVal.int psC2.length), ("time_quantum", SVal.int 1)]⟩ := by
    rw [rrExecute]
    rw [if_neg (by decide), rrTraceC2]
  rw [hex]
  refine ⟨rfl, rfl, by norm_num⟩

section

attribute [local irreducible] rrRun

/-- C2, witness: the amended segment property instantiated at quantum 2
on P1 (arrives 0, burst 10) and P2 (arrives 5, burst 1), whose run
completes within fuel 20. -/
theorem C2_witness :
    (1 : Int) ≤ 2 ∧
    ([mkProcess 1 0 10 0 none 0, mkProcess 2 5 1 0 none 0].all
      (fun p => 1 ≤ p.remaining_time)) = true ∧
    optionHolds (fun r => ∀ i j ei ej, i < j →
      r.gantt_chart.get? i = some ei → r.gantt_chart.get? j = some ej →
      ei.process_id = ej.process_id → (2 : Int) ∣ ei.duration ∧ 1 ≤ ei.duration)
      (rrExecute 20 2 [mkProcess 1 0 10 0 none 0, mkProcess 2 5 1 0 none 0]) :=
  ⟨by norm_num, by decide,
    C2_rr_segment_durations 2 [mkProcess 1 0 10 0 none 0, mkProcess 2 5 1 0 none 0] 20
      (by norm_num) (by decide)⟩

end

theorem lookupD_cons_gen {α β : Type} [DecidableEq α] (kv : α × β) (rest : List (α × β))
    (k : α) (d : β) :
    lookupD (kv :: rest) k d = if kv.1 = k then kv.2 else lookupD rest k d := by
  unfold lookupD
  rw [List.find?_cons]
  by_cases h : kv.1 = k
  · simp [h]
  · simp [h]

theorem lookupD_append_right_gen {α β : Type} [DecidableEq α] (l l2 : List (α × β))
    (k : α) (d : β) (h : ∀ kv ∈ l, kv.1 ≠ k) :
    lookupD (l ++ l2) k d = lookupD l2 k d := by
  have hnone : l.find? (fun kv => kv.1 = k) = none :=
    List.find?_eq_none.mpr (fun kv hkv => by simpa using h kv hkv)
  unfold lookupD
  rw [List.find?_append, hnone]
  rfl

theorem lookupD_append_left_gen {α β : Type} [DecidableEq α] (l l2 : List (α × β))
    (k : α) (d : β) (h : k ∈ l.map (·.1)) :
    lookupD (l ++ l2) k d = lookupD l k d := by
  induction l with
  | nil => cases h
  | cons kv rest ih =>
      rw [List.cons_append, lookupD_cons_gen, lookupD_cons_gen]
      by_cases hk : kv.1 = k
      · rw [if_pos hk, if_pos hk]
      · rw [if_neg hk, if_neg hk]
        apply ih
        rcases List.mem_map.mp h with ⟨x, hx, he⟩
        rcases List.mem_cons.mp hx with hx2 | hx2
        · subst hx2; exact absurd he hk
        · exact List.mem_map.mpr ⟨x, hx2, he⟩

theorem pythonMinBy_mem {α : Type} (key : α → Int × Int × Int) (l : List α) (x : α)
    (h : pythonMinBy key l = some x) : x ∈ l := by
  unfold pythonMinBy at h
  cases l with
  | nil => cases h
  | cons a xs =>
      have hmem : ∀ (ys : List α) (b : α),
          ys.foldl (fun b y => if tripleLt (key y) (key b) then y else b) b ∈ b :: ys := by
        intro ys
        induction ys with
        | nil => intro b; exact List.mem_singleton.mpr rfl
        | cons y ys ih =>
            intro b
            rw [List.foldl_cons]
            rcases List.mem_cons.mp (ih (if tripleLt (key y) (key b) then y else b)) with hh | hh
            · rw [hh]
              by_cases ht : tripleLt (key y) (key b)
              · rw [if_pos ht]
                exact List.mem_cons_of_mem _ (List.mem_cons_self _ _)
              · rw [if_neg ht]
                exact List.mem_cons_self _ _
            · exact List.mem_cons_of_mem _ (List.mem_cons_of_mem _ hh)
      injection h with h
      rw [← h]
      exact hmem xs a

theorem pythonMinInt_mem (l : List Int) (x : Int) (h : pythonMinInt l = some x) :
    x ∈ l := by
  unfold pythonMinInt at h
  cases l with
  | nil => cases h
  | cons a xs =>
      have hmem : ∀ (ys : List Int) (b : Int), ys.foldl min b ∈ b :: ys := by
        intro ys
        induction ys with
        | nil => intro b; exact List.mem_singleton.mpr rfl
        | cons y ys ih =>
            intro b
            rw [List.foldl_cons]
            rcases List.mem_cons.mp (ih (min b y)) with hh | hh
            · rw [hh]
              rcases min_choice b y with hm | hm
              · rw [hm]; exact List.mem_cons_self _ _
              · rw [hm]; exact List.mem_cons_of_mem _ (List.mem_cons_self _ _)
            · exact List.mem_cons_of_mem _ (List.mem_cons_of_mem _ hh)
      injection h with h
      rw [← h]
      exact hmem xs a

theorem nextArrivalAfter_gt (ps : List Process) (completed : List Int) (t a : Int)
    (h : nextArrivalAfter ps completed t = some a) : t < a := by
  unfold nextArrivalAfter at h
  have hmem := pythonMinInt_mem _ _ h
  rcases List.mem_map.mp hmem with ⟨p, hp, he⟩
  have h2 := List.mem_filter.mp hp
  have h3 := of_decide_eq_true h2.2
  rw [← he]
  exact h3.2

theorem find?_pid_self (l : List Process) (p : Process)
    (hnd : (l.map (·.pid)).Nodup) (hp : p ∈ l) :
    l.find? (fun q => q.pid = p.pid) = some p := by
  induction l with
  | nil => cases hp
  | cons q rest ih =>
      rw [List.map_cons] at hnd
      rcases List.nodup_cons.mp hnd with ⟨hq1, hq2⟩
      by_cases hq : q.pid = p.pid
      · have hpq : p = q := by
          rcases List.mem_cons.mp hp with hh | hh
          · exact hh
          · exact absurd (hq ▸ List.mem_map.mpr ⟨p, hh, rfl⟩) hq1
        rw [List.find?_cons_of_pos _ (by simpa using hq), hpq]
      · have hp2 : p ∈ rest := by
          rcases List.mem_cons.mp hp with hh | hh
          · subst hh; exact absurd rfl hq
          · exact hh
        rw [List.find?_cons_of_neg _ (by simpa using hq)]
        exact ih hq2 hp2

theorem processCopy_self (ps : List Process) (p : Process)
    (hnd : (ps.map (·.pid)).Nodup) (hp : p ∈ ps) :
    processCopy ps p.pid = some p := by
  unfold processCopy
  apply find?_pid_self
  · rw [List.map_reverse]
    exact List.nodup_reverse.mpr hnd
  · exact List.mem_reverse.mpr hp

theorem edfDeadline_self (ps : List Process) (p : Process)
    (hnd : (ps.map (·.pid)).Nodup) (hp : p ∈ ps) :
    edfDeadline ps p.pid = p.deadline.getD 0 := by
  unfold edfDeadline
  rw [processCopy_self ps p hnd hp]
  rfl

theorem edfInit_inv (ps : List Process) : EDFInv ps (edfInitState ps) := by
  unfold EDFInv edfInitState
  refine ⟨List.nodup_nil, ?_, ?_, ?_, ?_, ?_, List.nodup_nil, ?_, ?_, List.nodup_nil,
    ?_, ?_, ?_⟩
  · intro c hc; cases hc
  · intro c hc; cases hc
  · intro c hc; cases hc
  · intro c hc; cases hc
  · intro c hc; cases hc
  · intro c hc; cases hc
  · intro c; constructor
    · intro hc; cases hc
    · intro hc; cases hc
  · intro c hc; cases hc
  · intro c hc; cases hc
  · intro c hc; cases hc

theorem edfExec_inv (ps : List Process) (st : EDFState) (c : Int)
    (hcur : st.current = some c) (hinv : EDFInv ps st) :
    EDFInv ps (edfExecPhase ps st c) := by
  obtain ⟨hnodc, hcsub, hqsub, hcurp, hcurnc, hqnc, hqnod, hcurq, hkeys, hmnod,
    hmsub, hmc, hmi⟩ := hinv
  have hcp : c ∈ ps.map (·.pid) := hcurp c hcur
  have hcnc : c ∉ st.completed := hcurnc c hcur
  have hcnq : c ∉ st.ready_queue := hcurq c hcur
  have hctkeys : ∀ kv ∈ st.completion_times, kv.1 ≠ c := by
    intro kv hkv he
    exact hcnc ((hkeys c).mp (List.mem_map.mpr ⟨kv, hkv, he⟩))
  unfold edfExecPhase
  dsimp only
  by_cases hm : edfDeadline ps c ≤ st.current_time ∧ c ∉ st.missed
  · rw [if_pos hm]
    dsimp only
    by_cases hr : lookupD st.remaining c 0 - 1 = 0
    · rw [if_pos hr]
      unfold EDFInv
      dsimp only
      rw [addCompleted_eq st.completed c hcnc]
      refine ⟨?_, ?_, hqsub, ?_, ?_, ?_, hqnod, ?_, ?_, ?_, ?_, ?_, ?_⟩
      · exact List.Nodup.append hnodc (List.nodup_singleton c)
          (fun a ha hb => absurd ha ((List.mem_singleton.mp hb) ▸ hcnc))
      · intro x hx
        rcases List.mem_append.mp hx with hx | hx
        · exact hcsub x hx
        · rw [List.mem_singleton.mp hx]; exact hcp
      · intro x hx; cases hx
      · intro x hx; cases hx
      · intro x hx hx2
        rcases List.mem_append.mp hx2 with hx2 | hx2
        · exact hqnc x hx hx2
        · rw [List.mem_singleton.mp hx2] at hx; exact hcnq hx
      · intro x hx; cases hx
      · intro x
        rw [List.map_append, List.mem_append, List.mem_append]
        constructor
        · rintro (hx | hx)
          · exact Or.inl ((hkeys x).mp hx)
          · exact Or.inr (by simpa using hx)
        · rintro (hx | hx)
          · exact Or.inl ((hkeys x).mpr hx)
          · exact Or.inr (by simpa using hx)
      · exact List.Nodup.append hmnod (List.nodup_singleton c)
          (fun a ha hb => absurd ha ((List.mem_singleton.mp hb) ▸ hm.2))
      · intro x hx
        rcases List.mem_append.mp hx with hx | hx
        · exact hmsub x hx
        · rw [List.mem_singleton.mp hx]; exact hcp
      · intro x hx
        rcases List.mem_append.mp hx with hx | hx
        · have hxc : x ≠ c := fun he => hcnc (he ▸ hx)
          rw [lookupD_append_left_gen _ _ _ _ ((hkeys x).mpr hx)]
          constructor
          · intro h2
            rcases List.mem_append.mp h2 with h2 | h2
            · exact (hmc x hx).mp h2
            · exact absurd (List.mem_singleton.mp h2) hxc
          · intro h2
            exact List.mem_append.mpr (Or.inl ((hmc x hx).mpr h2))
        · rw [List.mem_singleton.mp hx]
          rw [lookupD_append_right_gen _ _ _ _ hctkeys, lookupD_cons_gen, if_pos rfl]
          exact iff_of_true (List.mem_append.mpr (Or.inr (List.mem_singleton.mpr rfl)))
            (Int.lt_add_one_iff.mpr hm.1)
      · intro x hx hx2
        have hx3 : x ∉ st.completed := fun h4 => hx2 (List.mem_append.mpr (Or.inl h4))
        have hxc : x ≠ c := fun he =>
          hx2 (List.mem_append.mpr (Or.inr (List.mem_singleton.mpr he)))
        rcases List.mem_append.mp hx with hx | hx
        · exact lt_trans (hmi x hx hx3) (by omega)
        · exact absurd (List.mem_singleton.mp hx) hxc
    · rw [if_neg hr]
      unfold EDFInv
      dsimp only
      refine ⟨hnodc, hcsub, hqsub, ?_, ?_, hqnc, hqnod, ?_, hkeys, ?_, ?_, ?_, ?_⟩
      · intro x hx; rw [hcur] at hx; injection hx with hx; rw [← hx]; exact hcp
      · intro x hx; rw [hcur] at hx; injection hx with hx; rw [← hx]; exact hcnc
      · intro x hx; rw [hcur] at hx; injection hx with hx; rw [← hx]; exact hcnq
      · exact List.Nodup.append hmnod (List.nodup_singleton c)
          (fun a ha hb => absurd ha ((List.mem_singleton.mp hb) ▸ hm.2))
      · intro x hx
        rcases List.mem_append.mp hx with hx | hx
        · exact hmsub x hx
        · rw [List.mem_singleton.mp hx]; exact hcp
      · intro x hx
        have hxc : x ≠ c := fun he => hcnc (he ▸ hx)
        constructor
        · intro h2
          rcases List.mem_append.mp h2 with h2 | h2
          · exact (hmc x hx).mp h2
          · exact absurd (List.mem_singleton.mp h2) hxc
        · intro h2
          exact List.mem_append.mpr (Or.inl ((hmc x hx).mpr h2))
      · intro x hx hx2
        rcases List.mem_append.mp hx with hx | hx
        · exact lt_trans (hmi x hx hx2) (by omega)
        · rw [List.mem_singleton.mp hx]
          exact Int.lt_add_one_iff.mpr hm.1
  · rw [if_neg hm]
    by_cases hr : lookupD st.remaining c 0 - 1 = 0
    · rw [if_pos hr]
      unfold EDFInv
      dsimp only
      rw [addCompleted_eq st.completed c hcnc]
      refine ⟨?_, ?_, hqsub, ?_, ?_, ?_, hqnod, ?_, ?_, hmnod, hmsub, ?_, ?_⟩
      · exact List.Nodup.append hnodc (List.nodup_singleton c)
          (fun a ha hb => absurd ha ((List.mem_singleton.mp hb) ▸ hcnc))
      · intro x hx
        rcases List.mem_append.mp hx with hx | hx
        · exact hcsub x hx
        · rw [List.mem_singleton.mp hx]; exact hcp
      · intro x hx; cases hx
      · intro x hx; cases hx
      · intro x hx hx2
        rcases List.mem_append.mp hx2 with hx2 | hx2
        · exact hqnc x hx hx2
        · rw [List.mem_singleton.mp hx2] at hx; exact hcnq hx
      · intro x hx; cases hx
      · intro x
        rw [List.map_append, List.mem_append, List.mem_append]
        constructor
        · rintro (hx | hx)
          · exact Or.inl ((hkeys x).mp hx)
          · exact Or.inr (by simpa using hx)
        · rintro (hx | hx)
          · exact Or.inl ((hkeys x).mpr hx)
          · exact Or.inr (by simpa using hx)
      · intro x hx
        rcases List.mem_append.mp hx with hx | hx
        · have hxc : x ≠ c := fun he => hcnc (he ▸ hx)
          rw [lookupD_append_left_gen _ _ _ _ ((hkeys x).mpr hx)]
          exact hmc x hx
        · rw [List.mem_singleton.mp hx]
          rw [lookupD_append_right_gen _ _ _ _ hctkeys, lookupD_cons_gen, if_pos rfl]
          by_cases hcm : c ∈ st.missed
          · exact iff_of_true hcm
              (lt_trans (hmi c hcm hcnc) (by omega))
          · refine iff_of_false hcm ?_
            have h3 : ¬ edfDeadline ps c ≤ st.current_time := fun h4 => hm ⟨h4, hcm⟩
            omega
      · intro x hx hx2
        have hx3 : x ∉ st.completed := fun h4 =>
          hx2 (List.mem_append.mpr (Or.inl h4))
        exact lt_trans (hmi x hx hx3) (by omega)
    · rw [if_neg hr]
      unfold EDFInv
      dsimp only
      refine ⟨hnodc, hcsub, hqsub, ?_, ?_, hqnc, hqnod, ?_, hkeys, hmnod, hmsub,
        hmc, ?_⟩
      · intro x hx; rw [hcur] at hx; injection hx with hx; rw [← hx]; exact hcp
      · intro x hx; rw [hcur] at hx; injection hx with hx; rw [← hx]; exact hcnc
      · intro x hx; rw [hcur] at hx; injection hx with hx; rw [← hx]; exact hcnq
      · intro x hx hx2
        exact lt_trans (hmi x hx hx2) (by omega)

theorem edfStep_inv (ps : List Process) (st st2 : EDFState)
    (hinv : EDFInv ps st) (hstep : edfStep ps st = some st2) :
    EDFInv ps st2 := by
  obtain ⟨hnodc, hcsub, hqsub, hcurp, hcurnc, hqnc, hqnod, hcurq, hkeys, hmnod,
    hmsub, hmc, hmi⟩ := hinv
  have hps : ∀ p ∈ ps, p.pid ∉ st.completed → p.pid ∈ ps.map (·.pid) :=
    fun p hp _ => List.mem_map.mpr ⟨p, hp, rfl⟩
  have hSel : ∀ (Q : List Int) (c2 : Int) (rt : List (Int × Int)) (fe : List Int),
      (∀ x ∈ Q, x ∈ ps.map (·.pid)) → (∀ x ∈ Q, x ∉ st.completed) → Q.Nodup →
      c2 ∈ Q →
      EDFInv ps ⟨st.current_time, st.completed, st.completion_times, rt,
        Q.erase c2, some c2, st.missed, st.remaining, fe, st.ganttRev, st.stepsRev⟩ := by
    intro Q c2 rt fe hsub hnc hnod hc2
    unfold EDFInv
    dsimp only
    refine ⟨hnodc, hcsub, ?_, ?_, ?_, ?_, ?_, ?_, hkeys, hmnod, hmsub, hmc, hmi⟩
    · exact fun x hx => hsub x (List.mem_of_mem_erase hx)
    · intro x hx; injection hx with hx; rw [← hx]; exact hsub c2 hc2
    · intro x hx; injection hx with hx; rw [← hx]; exact hnc c2 hc2
    · exact fun x hx => hnc x (List.mem_of_mem_erase hx)
    · exact List.Nodup.erase c2 hnod
    · intro x hx; injection hx with hx; rw [← hx]; exact hnod.not_mem_erase
  unfold edfStep at hstep
  dsimp only at hstep
  cases hcur : st.current with
  | none =>
      rw [hcur] at hstep
      dsimp only at hstep
      set A := addArrivals ps st.current_time st.completed st.ready_queue none with hA
      have hq0sub : ∀ x ∈ A, x ∈ ps.map (·.pid) :=
        addArrivals_all ps st.current_time st.completed none st.ready_queue hqsub hps
      have hq0nc : ∀ x ∈ A, x ∉ st.completed :=
        addArrivals_all ps st.current_time st.completed none st.ready_queue hqnc
          (fun p _ hpc => hpc)
      have hq0nod : A.Nodup :=
        addArrivals_nodup ps st.current_time st.completed none st.ready_queue hqnod
      by_cases hqe : A.isEmpty
      · rw [if_pos hqe] at hstep
        cases hna : nextArrivalAfter ps st.completed st.current_time with
        | none => rw [hna] at hstep; cases hstep
        | some a =>
            rw [hna] at hstep
            injection hstep with hstep
            rw [← hstep]
            have hta := nextArrivalAfter_gt ps st.completed st.current_time a hna
            unfold EDFInv
            dsimp only
            refine ⟨hnodc, hcsub, hq0sub, ?_, ?_, hq0nc, hq0nod, ?_, hkeys, hmnod,
              hmsub, hmc, ?_⟩
            · intro x hx; cases hx
            · intro x hx; cases hx
            · intro x hx; cases hx
            · intro x hx hx2; exact lt_trans (hmi x hx hx2) hta
      · rw [if_neg hqe] at hstep
        cases hmin : pythonMinBy (edfKey ps) A with
        | none => rw [hmin] at hstep; cases hstep
        | some c2 =>
            rw [hmin] at hstep
            dsimp only at hstep
            have hc2 : c2 ∈ A := pythonMinBy_mem _ _ _ hmin
            by_cases hfe : c2 ∉ st.first_execution
            · rw [if_pos hfe] at hstep
              injection hstep with hstep
              rw [← hstep]
              exact edfExec_inv ps _ c2 rfl (hSel A c2 _ _ hq0sub hq0nc hq0nod hc2)
            · rw [if_neg hfe] at hstep
              injection hstep with hstep
              rw [← hstep]
              exact edfExec_inv ps _ c2 rfl (hSel A c2 _ _ hq0sub hq0nc hq0nod hc2)
  | some c =>
      rw [hcur] at hstep
      dsimp only at hstep
      set A := addArrivals ps st.current_time st.completed st.ready_queue (some c) with hA
      have hq0sub : ∀ x ∈ A, x ∈ ps.map (·.pid) :=
        addArrivals_all ps st.current_time st.completed (some c) st.ready_queue hqsub hps
      have hq0nc : ∀ x ∈ A, x ∉ st.completed :=
        addArrivals_all ps st.current_time st.completed (some c) st.ready_queue hqnc
          (fun p _ hpc => hpc)
      have hq0nod : A.Nodup :=
        addArrivals_nodup ps st.current_time st.completed (some c) st.ready_queue hqnod
      have hcnA : c ∉ A :=
        addArrivals_not_current ps st.current_time st.completed c st.ready_queue
          (hcurq c hcur)
      have hcp : c ∈ ps.map (·.pid) := hcurp c hcur
      have hcnc : c ∉ st.completed := hcurnc c hcur
      have hInvA : EDFInv ps ⟨st.current_time, st.completed, st.completion_times,
          st.response_times, A, some c, st.missed, st.remaining, st.first_execution,
          st.ganttRev, st.stepsRev⟩ := by
        unfold EDFInv
        dsimp only
        refine ⟨hnodc, hcsub, hq0sub, ?_, ?_, hq0nc, hq0nod, ?_, hkeys, hmnod,
          hmsub, hmc, hmi⟩
        · intro x hx; injection hx with hx; rw [← hx]; exact hcp
        · intro x hx; injection hx with hx; rw [← hx]; exact hcnc
        · intro x hx; injection hx with hx; rw [← hx]; exact hcnA
      by_cases hqe : A.isEmpty
      · rw [if_pos hqe] at hstep
        injection hstep with hstep
        rw [← hstep]
        exact edfExec_inv ps _ c rfl hInvA
      · rw [if_neg hqe] at hstep
        cases hmin : pythonMinBy (edfKey ps) A with
        | none =>
            rw [hmin] at hstep
            injection hstep with hstep
            rw [← hstep]
            exact edfExec_inv ps _ c rfl hInvA
        | some e =>
            rw [hmin] at hstep
            dsimp only at hstep
            by_cases hpre : edfDeadline ps e < edfDeadline ps c
            · rw [if_pos hpre] at hstep
              dsimp only at hstep
              rw [if_neg (by simp)] at hstep
              cases hmin2 : pythonMinBy (edfKey ps) (A ++ [c]) with
              | none => rw [hmin2] at hstep; cases hstep
              | some c2 =>
                  rw [hmin2] at hstep
                  dsimp only at hstep
                  have hc2 : c2 ∈ A ++ [c] := pythonMinBy_mem _ _ _ hmin2
                  have hsub2 : ∀ x ∈ A ++ [c], x ∈ ps.map (·.pid) := by
                    intro x hx
                    rcases List.mem_append.mp hx with hx | hx
                    · exact hq0sub x hx
                    · rw [List.mem_singleton.mp hx]; exact hcp
                  have hnc2 : ∀ x ∈ A ++ [c], x ∉ st.completed := by
                    intro x hx
                    rcases List.mem_append.mp hx with hx | hx
                    · exact hq0nc x hx
                    · rw [List.mem_singleton.mp hx]; exact hcnc
                  have hnod2 : (A ++ [c]).Nodup :=
                    List.Nodup.append hq0nod (List.nodup_singleton c)
                      (fun a ha hb => absurd ha ((List.mem_singleton.mp hb) ▸ hcnA))
                  by_cases hfe : c2 ∉ st.first_execution
                  · rw [if_pos hfe] at hstep
                    injection hstep with hstep
                    rw [← hstep]
                    exact edfExec_inv ps _ c2 rfl
                      (hSel (A ++ [c]) c2 _ _ hsub2 hnc2 hnod2 hc2)
                  · rw [if_neg hfe] at hstep
                    injection hstep with hstep
                    rw [← hstep]
                    exact edfExec_inv ps _ c2 rfl
                      (hSel (A ++ [c]) c2 _ _ hsub2 hnc2 hnod2 hc2)
            · rw [if_neg hpre] at hstep
              injection hstep with hstep
              rw [← hstep]
              exact edfExec_inv ps _ c rfl hInvA

theorem edfRun_inv (ps : List Process) :
    ∀ (fuel : Nat) (st stf : EDFState), EDFInv ps st →
    edfRun ps fuel st = some stf →
    EDFInv ps stf ∧ ps.length ≤ stf.completed.length := by
  intro fuel
  induction fuel with
  | zero =>
      intro st stf hinv hrun
      unfold edfRun at hrun
      by_cases hd : ps.length ≤ st.completed.length
      · rw [if_pos hd] at hrun
        injection hrun with hrun
        rw [← hrun]
        exact ⟨hinv, hd⟩
      · rw [if_neg hd] at hrun
        cases hrun
  | succ fuel ih =>
      intro st stf hinv hrun
      unfold edfRun at hrun
      by_cases hd : ps.length ≤ st.completed.length
      · rw [if_pos hd] at hrun
        injection hrun with hrun
        rw [← hrun]
        exact ⟨hinv, hd⟩
      · rw [if_neg hd] at hrun
        cases hs : edfStep ps st with
        | none => rw [hs] at hrun; cases hrun
        | some stm =>
            rw [hs] at hrun
            exact ih stm stf (edfStep_inv ps st stm hinv hs) hrun

theorem edf_missed_count (ps : List Process) (stf : EDFState)
    (hinv : EDFInv ps stf) (hdone : ps.length ≤ stf.completed.length) :
    stf.missed.Nodup ∧
    stf.missed.length =
      (ps.filter (fun p =>
        p.deadline.getD 0 < lookupD stf.completion_times p.pid 0)).length := by
  obtain ⟨hnodc, hcsub, _, _, _, _, _, _, _, hmnod, hmsub, hmc, _⟩ := hinv
  have hsp : stf.completed.Subperm (ps.map (·.pid)) :=
    List.subperm_of_subset hnodc (fun c hc => hcsub c hc)
  have hlen : (ps.map (·.pid)).length ≤ stf.completed.length := by
    rw [List.length_map]; exact hdone
  have hperm : stf.completed.Perm (ps.map (·.pid)) := hsp.perm_of_length_le hlen
  have hpnd : (ps.map (·.pid)).Nodup := hperm.nodup_iff.mp hnodc
  have hallc : ∀ x ∈ ps.map (·.pid), x ∈ stf.completed :=
    fun x hx => hperm.mem_iff.mpr hx
  have hmissperm : stf.missed.Perm ((ps.map (·.pid)).filter
      (fun c => edfDeadline ps c < lookupD stf.completion_times c 0)) := by
    rw [List.perm_ext_iff_of_nodup hmnod (List.Nodup.filter _ hpnd)]
    intro a
    rw [List.mem_filter]
    constructor
    · intro ha
      have hap := hmsub a ha
      exact ⟨hap, decide_eq_true ((hmc a (hallc a hap)).mp ha)⟩
    · rintro ⟨hap, hdec⟩
      exact (hmc a (hallc a hap)).mpr (of_decide_eq_true hdec)
  refine ⟨hmnod, ?_⟩
  rw [hmissperm.length_eq, List.filter_map, List.length_map]
  apply congrArg List.length
  apply List.filter_congr
  intro p hp
  simp only [Function.comp]
  rw [edfDeadline_self ps p hpnd hp]

theorem lookupD_calc_front (ps : List Process)
    (ct rt : List (Int × Int)) (rest : List (String × ℚ)) (d : ℚ) :
    lookupD (calculateDetailedMetrics ps ct rt ++ rest) "missed_deadlines" d =
      lookupD rest "missed_deadlines" d := by
  unfold calculateDetailedMetrics
  by_cases h : ps.isEmpty ∨ ct.isEmpty
  · rw [if_pos h, List.nil_append]
  · rw [if_neg h]
    dsimp only
    rw [List.cons_append, lookupD_cons_gen, if_neg (by simp)]
    rw [List.cons_append, lookupD_cons_gen, if_neg (by simp)]
    rw [List.cons_append, lookupD_cons_gen, if_neg (by simp)]
    rw [List.cons_append, lookupD_cons_gen, if_neg (by simp)]
    rw [List.cons_append, lookupD_cons_gen, if_neg (by simp)]
    rw [List.cons_append, lookupD_cons_gen, if_neg (by simp)]
    rw [List.nil_append]

/-- C5: under EDF, whenever the simulation loop terminates the
`missed_deadlines` metric equals the number of processes whose
completion time is strictly greater than their declared deadline, and
the internal missed set records each process at most once. -/
theorem C5_edf_missed_deadlines (ps : List Process) (fuel : Nat)
    (hdl : ps.all (fun p => p.deadline.isSome) = true) :
    optionHolds (fun st =>
        st.missed.Nodup ∧
        st.missed.length =
          (ps.filter (fun p =>
            p.deadline.getD 0 < lookupD st.completion_times p.pid 0)).length)
      (edfRun ps fuel (edfInitState ps)) ∧
    (edfExecute fuel ps).map (fun r => lookupD r.metrics "missed_deadlines" 0) =
      (edfRun ps fuel (edfInitState ps)).map (fun st => (st.missed.length : ℚ)) := by
  constructor
  · cases hrun : edfRun ps fuel (edfInitState ps) with
    | none => exact trivial
    | some stf =>
        simp only [optionHolds]
        obtain ⟨hinv, hdone⟩ := edfRun_inv ps fuel (edfInitState ps) stf
          (edfInit_inv ps) hrun
        exact edf_missed_count ps stf hinv hdone
  · unfold edfExecute
    dsimp only
    by_cases hps : ps.isEmpty
    · rw [if_pos hps]
      have hlen : ps.length = 0 := by
        rw [List.length_eq_zero]; exact List.isEmpty_iff.mp hps
      rw [edfRun.eq_def]
      dsimp only
      rw [if_pos (by rw [hlen]; exact Nat.zero_le _)]
      rfl
    · rw [if_neg hps]
      have hnone : ¬ (ps.any (fun p => p.deadline.isNone) = true) := by
        rw [List.any_eq_true]
        rintro ⟨p, hp, hpd⟩
        rw [List.all_eq_true] at hdl
        have := hdl p hp
        rw [Option.isNone_iff_eq_none] at hpd
        rw [hpd] at this
        cases this
      rw [if_neg hnone]
      cases hrun : edfRun ps fuel (edfInitState ps) with
      | none => rfl
      | some stf =>
          dsimp only [Option.map]
          rw [lookupD_calc_front, lookupD_cons_gen, if_pos rfl]

section

attribute [local irreducible] edfRun

/-- C5, witness: the missed-deadline accounting instantiated on
P1 (arrives 0, burst 2, deadline 2) and P2 (arrives 0, burst 2,
deadline 3), whose run completes within fuel 8 with P2 finishing at 4,
past its deadline. -/
theorem C5_witness :
    ([mkProcess 1 0 2 0 (some 2) 0, mkProcess 2 0 2 0 (some 3) 0].all
      (fun p => p.deadline.isSome)) = true ∧
    (optionHolds (fun st =>
        st.missed.Nodup ∧
        st.missed.length =
          ([mkProcess 1 0 2 0 (some 2) 0, mkProcess 2 0 2 0 (some 3) 0].filter (fun p =>
            p.deadline.getD 0 < lookupD st.completion_times p.pid 0)).length)
      (edfRun [mkProcess 1 0 2 0 (some 2) 0, mkProcess 2 0 2 0 (some 3) 0] 8
        (edfInitState [mkProcess 1 0 2 0 (some 2) 0, mkProcess 2 0 2 0 (some 3) 0])) ∧
    (edfExecute 8 [mkProcess 1 0 2 0 (some 2) 0, mkProcess 2 0 2 0 (some 3) 0]).map
        (fun r => lookupD r.metrics "missed_deadlines" 0) =
      (edfRun [mkProcess 1 0 2 0 (some 2) 0, mkProcess 2 0 2 0 (some 3) 0] 8
        (edfInitState [mkProcess 1 0 2 0 (some 2) 0, mkProcess 2 0 2 0 (some 3) 0])).map
        (fun st => (st.missed.length : ℚ))) :=
  ⟨by decide,
   C5_edf_missed_deadlines [mkProcess 1 0 2 0 (some 2) 0, mkProcess 2 0 2 0 (some 3) 0]
     8 (by decide)⟩

end

theorem filter_length_mono {α : Type} (l : List α) (p q : α → Bool)
    (h : ∀ x ∈ l, p x = true → q x = true) :
    (l.filter p).length ≤ (l.filter q).length := by
  induction l with
  | nil => exact Nat.le_refl _
  | cons y rest ih =>
      have ih2 := ih (fun x hx => h x (List.mem_cons_of_mem y hx))
      rw [List.filter_cons, List.filter_cons]
      by_cases hpy : p y = true
      · rw [if_pos hpy, if_pos (h y (List.mem_cons_self y rest) hpy)]
        simpa using Nat.succ_le_succ ih2
      · rw [if_neg hpy]
        by_cases hqy : q y = true
        · rw [if_pos hqy]
          exact Nat.le_trans ih2 (by simp)
        · rw [if_neg hqy]
          exact ih2

theorem filter_length_strict {α : Type} (l : List α) (p q : α → Bool)
    (h : ∀ x ∈ l, p x = true → q x = true) (x : α) (hx : x ∈ l)
    (hqx : q x = true) (hpx : p x = false) :
    (l.filter p).length < (l.filter q).length := by
  induction l with
  | nil => cases hx
  | cons y rest ih =>
      have hmono := filter_length_mono rest p q
        (fun z hz => h z (List.mem_cons_of_mem y hz))
      rw [List.filter_cons, List.filter_cons]
      rcases List.mem_cons.mp hx with hxy | hxr
      · subst hxy
        rw [if_neg (by rw [hpx]; exact Bool.false_ne_true), if_pos hqx]
        simpa using Nat.lt_succ_of_le hmono
      · have ih2 := ih (fun z hz => h z (List.mem_cons_of_mem y hz)) hxr
        by_cases hpy : p y = true
        · rw [if_pos hpy, if_pos (h y (List.mem_cons_self y rest) hpy)]
          simpa using Nat.succ_lt_succ ih2
        · rw [if_neg hpy]
          by_cases hqy : q y = true
          · rw [if_pos hqy]
            exact Nat.lt_trans ih2 (by simp)
          · rw [if_neg hqy]
            exact ih2

theorem futCount_mono (ps : List Process) (t t' : Int) (h : t ≤ t') :
    futCount ps t' ≤ futCount ps t := by
  unfold futCount
  apply filter_length_mono
  intro x _ hd
  have := of_decide_eq_true hd
  exact decide_eq_true (by omega)

theorem futCount_lt (ps : List Process) (t a : Int) (p0 : Process) (hp0 : p0 ∈ ps)
    (h1 : t < p0.arrival_time) (h2 : p0.arrival_time ≤ a) :
    futCount ps a < futCount ps t := by
  unfold futCount
  apply filter_length_strict _ _ _ _ p0 hp0
  · exact decide_eq_true h1
  · exact decide_eq_false (by omega)
  · intro x _ hd
    have := of_decide_eq_true hd
    exact decide_eq_true (by omega)

theorem remSum_irrel (rest : List Process) (completed : List Int)
    (remaining : List (Int × Int)) (c : Int) (v : Int)
    (h : c ∉ rest.map (·.pid)) :
    remSum rest completed (updateAssoc remaining c v) =
      remSum rest completed remaining := by
  induction rest with
  | nil => rfl
  | cons p ps2 ih =>
      have hne : p.pid ≠ c := by
        intro he
        exact h (List.mem_map.mpr ⟨p, List.mem_cons_self p ps2, he⟩)
      have hc2 : c ∉ ps2.map (·.pid) := by
        intro h2
        rcases List.mem_map.mp h2 with ⟨x, hx, he⟩
        exact h (List.mem_map.mpr ⟨x, List.mem_cons_of_mem p hx, he⟩)
      unfold remSum
      rw [List.filter_cons]
      by_cases hpc : (decide (p.pid ∉ completed)) = true
      · rw [if_pos hpc]
        rw [List.map_cons, List.map_cons, List.sum_cons, List.sum_cons]
        rw [lookupD_updateAssoc_ne remaining c p.pid v 0 hne]
        have := ih hc2
        unfold remSum at this
        rw [this]
      · rw [if_neg hpc]
        exact ih hc2

theorem remSum_irrel2 (rest : List Process) (completed : List Int)
    (remaining : List (Int × Int)) (c : Int) (v : Int)
    (h : c ∉ rest.map (·.pid)) :
    remSum rest (addCompleted completed c) (updateAssoc remaining c v) =
      remSum rest completed remaining := by
  induction rest with
  | nil => rfl
  | cons p ps2 ih =>
      have hne : p.pid ≠ c := by
        intro he
        exact h (List.mem_map.mpr ⟨p, List.mem_cons_self p ps2, he⟩)
      have hc2 : c ∉ ps2.map (·.pid) := by
        intro h2
        rcases List.mem_map.mp h2 with ⟨x, hx, he⟩
        exact h (List.mem_map.mpr ⟨x, List.mem_cons_of_mem p hx, he⟩)
      have hmemiff : (p.pid ∉ addCompleted completed c) ↔ (p.pid ∉ completed) := by
        rw [mem_addCompleted]
        constructor
        · intro hh hh2; exact hh (Or.inl hh2)
        · rintro hh (hh2 | hh2)
          · exact hh hh2
          · exact hne hh2
      unfold remSum
      rw [List.filter_cons, List.filter_cons]
      by_cases hpc : p.pid ∉ completed
      · rw [if_pos (decide_eq_true hpc), if_pos (decide_eq_true (hmemiff.mpr hpc))]
        rw [List.map_cons, List.map_cons, List.sum_cons, List.sum_cons]
        rw [lookupD_updateAssoc_ne remaining c p.pid v 0 hne]
        have := ih hc2
        unfold remSum at this
        rw [this]
      · have hpc2 : p.pid ∈ completed := not_not.mp hpc
        rw [if_neg (by simpa using (mem_addCompleted completed c p.pid).mpr (Or.inl hpc2)),
            if_neg (by simpa using hpc2)]
        exact ih hc2

theorem remSum_exec (ps : List Process) (completed : List Int)
    (remaining : List (Int × Int)) (c : Int)
    (hnd : (ps.map (·.pid)).Nodup) (hc : c ∈ ps.map (·.pid))
    (hcc : c ∉ completed) (h1 : 1 ≤ lookupD remaining c 0)
    (hk : c ∈ remaining.map (·.1)) :
    remSum ps completed (updateAssoc remaining c (lookupD remaining c 0 - 1)) + 1 =
      remSum ps completed remaining := by
  induction ps with
  | nil => cases hc
  | cons p rest ih =>
      rw [List.map_cons] at hnd
      rcases List.nodup_cons.mp hnd with ⟨hnd1, hnd2⟩
      by_cases hpc : p.pid = c
      · have hcr : c ∉ rest.map (·.pid) := hpc ▸ hnd1
        unfold remSum
        rw [List.filter_cons, if_pos (decide_eq_true (by rw [hpc]; exact hcc))]
        simp only [List.map_cons, List.sum_cons]
        rw [hpc, lookupD_updateAssoc_self remaining c _ 0 hk]
        have hir := remSum_irrel rest completed remaining c
          (lookupD remaining c 0 - 1) hcr
        unfold remSum at hir
        rw [hir]
        omega
      · have hcr : c ∈ rest.map (·.pid) := by
          rcases List.mem_map.mp hc with ⟨x, hx, he⟩
          rcases List.mem_cons.mp hx with hxp | hxr
          · subst hxp; exact absurd he hpc
          · exact List.mem_map.mpr ⟨x, hxr, he⟩
        unfold remSum
        rw [List.filter_cons]
        by_cases hpcm : p.pid ∉ completed
        · rw [if_pos (decide_eq_true hpcm)]
          simp only [List.map_cons, List.sum_cons]
          rw [lookupD_updateAssoc_ne remaining c p.pid _ 0 hpc]
          have hih := ih hnd2 hcr
          unfold remSum at hih
          omega
        · rw [if_neg (by simpa using not_not.mp hpcm)]
          exact ih hnd2 hcr

theorem remSum_complete (ps : List Process) (completed : List Int)
    (remaining : List (Int × Int)) (c : Int) (v : Int)
    (hnd : (ps.map (·.pid)).Nodup) (hc : c ∈ ps.map (·.pid))
    (hcc : c ∉ completed) (h1 : 1 ≤ lookupD remaining c 0) :
    remSum ps (addCompleted completed c) (updateAssoc remaining c v) + 1 ≤
      remSum ps completed remaining := by
  induction ps with
  | nil => cases hc
  | cons p rest ih =>
      rw [List.map_cons] at hnd
      rcases List.nodup_cons.mp hnd with ⟨hnd1, hnd2⟩
      by_cases hpc : p.pid = c
      · have hcr : c ∉ rest.map (·.pid) := hpc ▸ hnd1
        unfold remSum
        rw [List.filter_cons, List.filter_cons]
        rw [if_neg (by
          simpa using (mem_addCompleted completed c p.pid).mpr (Or.inr hpc))]
        rw [if_pos (decide_eq_true (by rw [hpc]; exact hcc))]
        simp only [List.map_cons, List.sum_cons]
        have hir := remSum_irrel2 rest completed remaining c v hcr
        unfold remSum at hir
        rw [hir]
        rw [hpc]
        omega
      · have hmemiff : (p.pid ∉ addCompleted completed c) ↔ (p.pid ∉ completed) := by
          rw [mem_addCompleted]
          constructor
          · intro hh hh2; exact hh (Or.inl hh2)
          · rintro hh (hh2 | hh2)
            · exact hh hh2
            · exact hpc hh2
        have hcr : c ∈ rest.map (·.pid) := by
          rcases List.mem_map.mp hc with ⟨x, hx, he⟩
          rcases List.mem_cons.mp hx with hxp | hxr
          · subst hxp; exact absurd he hpc
          · exact List.mem_map.mpr ⟨x, hxr, he⟩
        unfold remSum
        rw [List.filter_cons, List.filter_cons]
        by_cases hpcm : p.pid ∉ completed
        · rw [if_pos (decide_eq_true (hmemiff.mpr hpcm)), if_pos (decide_eq_true hpcm)]
          simp only [List.map_cons, List.sum_cons]
          rw [lookupD_updateAssoc_ne remaining c p.pid v 0 hpc]
          have hih := ih hnd2 hcr
          unfold remSum at hih
          omega
        · have hpc2 : p.pid ∈ completed := not_not.mp hpcm
          rw [if_neg (by
                simpa using (mem_addCompleted completed c p.pid).mpr (Or.inl hpc2)),
              if_neg (by simpa using hpc2)]
          exact ih hnd2 hcr

theorem exists_incomplete (ps : List Process) (completed : List Int)
    (hnd : (ps.map (·.pid)).Nodup) (h : ¬ ps.length ≤ completed.length) :
    ∃ p ∈ ps, p.pid ∉ completed := by
  by_contra hall
  push_neg at hall
  have hsub : ps.map (·.pid) ⊆ completed := by
    intro x hx
    rcases List.mem_map.mp hx with ⟨p, hp, he⟩
    exact he ▸ hall p hp
  have h2 := (List.subperm_of_subset hnd hsub).length_le
  rw [List.length_map] at h2
  omega

theorem addArrivals_mono (ps : List Process) (t : Int) (completed : List Int)
    (cur : Option Int) :
    ∀ (queue : List Int) (x : Int), x ∈ queue →
    x ∈ addArrivals ps t completed queue cur := by
  unfold addArrivals
  induction ps with
  | nil => intro queue x hx; exact hx
  | cons p rest ih =>
      intro queue x hx
      rw [List.foldl_cons]
      by_cases hp : p.arrival_time ≤ t ∧ p.pid ∉ completed ∧ p.pid ∉ queue ∧
          cur ≠ some p.pid
      · rw [if_pos hp]
        exact ih _ x (List.mem_append.mpr (Or.inl hx))
      · rw [if_neg hp]
        exact ih _ x hx

theorem addArrivals_mem (ps : List Process) (t : Int) (completed : List Int)
    (cur : Option Int) :
    ∀ (queue : List Int) (p : Process), p ∈ ps →
    p.arrival_time ≤ t → p.pid ∉ completed → cur ≠ some p.pid →
    p.pid ∈ addArrivals ps t completed queue cur := by
  induction ps with
  | nil => intro queue p hp; cases hp
  | cons q rest ih =>
      intro queue p hp ha hc hcur
      unfold addArrivals
      rw [List.foldl_cons]
      rcases List.mem_cons.mp hp with hpq | hpr
      · subst hpq
        by_cases hq : p.pid ∈ queue
        · by_cases hg : p.arrival_time ≤ t ∧ p.pid ∉ completed ∧ p.pid ∉ queue ∧
              cur ≠ some p.pid
          · rw [if_pos hg]
            exact addArrivals_mono rest t completed cur _ p.pid
              (List.mem_append.mpr (Or.inl hq))
          · rw [if_neg hg]
            exact addArrivals_mono rest t completed cur _ p.pid hq
        · rw [if_pos ⟨ha, hc, hq, hcur⟩]
          exact addArrivals_mono rest t completed cur _ p.pid
            (List.mem_append.mpr (Or.inr (List.mem_singleton.mpr rfl)))
      · by_cases hg : q.arrival_time ≤ t ∧ q.pid ∉ completed ∧ q.pid ∉ queue ∧
            cur ≠ some q.pid
        · rw [if_pos hg]
          exact ih _ p hpr ha hc hcur
        · rw [if_neg hg]
          exact ih _ p hpr ha hc hcur

theorem addArrivalsNp_all {γP : Process → Prop} (ps : List Process) (t : Int)
    (completed : List Int) :
    ∀ (queue : List Process), (∀ p ∈ queue, γP p) →
    (∀ p ∈ ps, p.pid ∉ completed → γP p) →
    ∀ p ∈ addArrivalsNp ps t completed queue, γP p := by
  unfold addArrivalsNp
  induction ps with
  | nil => intro queue hq _ p hp; exact hq p hp
  | cons x rest ih =>
      intro queue hq hnew
      rw [List.foldl_cons]
      by_cases hx : x.arrival_time ≤ t ∧ x.pid ∉ completed ∧
          x.pid ∉ queue.map (·.pid)
      · rw [if_pos hx]
        apply ih
        · intro p hp
          rcases List.mem_append.mp hp with hp | hp
          · exact hq p hp
          · rw [List.mem_singleton.mp hp]
            exact hnew x (List.mem_cons_self x rest) hx.2.1
        · intro p hp hpc
          exact hnew p (List.mem_cons_of_mem x hp) hpc
      · rw [if_neg hx]
        apply ih
        · exact hq
        · intro p hp hpc
          exact hnew p (List.mem_cons_of_mem x hp) hpc

theorem addArrivalsNp_nodup (ps : List Process) (t : Int) (completed : List Int) :
    ∀ (queue : List Process), (queue.map (·.pid)).Nodup →
    ((addArrivalsNp ps t completed queue).map (·.pid)).Nodup := by
  unfold addArrivalsNp
  induction ps with
  | nil => intro queue hq; exact hq
  | cons x rest ih =>
      intro queue hq
      rw [List.foldl_cons]
      by_cases hx : x.arrival_time ≤ t ∧ x.pid ∉ completed ∧
          x.pid ∉ queue.map (·.pid)
      · rw [if_pos hx]
        apply ih
        rw [List.map_append]
        exact List.Nodup.append hq (List.nodup_singleton x.pid)
          (fun a ha hb => absurd ha ((List.mem_singleton.mp hb) ▸ hx.2.2))
      · rw [if_neg hx]
        exact ih _ hq

theorem addArrivalsNp_mono (ps : List Process) (t : Int) (completed : List Int) :
    ∀ (queue : List Process) (x : Int), x ∈ queue.map (·.pid) →
    x ∈ (addArrivalsNp ps t completed queue).map (·.pid) := by
  unfold addArrivalsNp
  induction ps with
  | nil => intro queue x hx; exact hx
  | cons p rest ih =>
      intro queue x hx
      rw [List.foldl_cons]
      by_cases hp : p.arrival_time ≤ t ∧ p.pid ∉ completed ∧
          p.pid ∉ queue.map (·.pid)
      · rw [if_pos hp]
        apply ih
        rw [List.map_append]
        exact List.mem_append.mpr (Or.inl hx)
      · rw [if_neg hp]
        exact ih _ x hx

theorem addArrivalsNp_mem (ps : List Process) (t : Int) (completed : List Int) :
    ∀ (queue : List Process) (p : Process), p ∈ ps →
    p.arrival_time ≤ t → p.pid ∉ completed →
    p.pid ∈ (addArrivalsNp ps t completed queue).map (·.pid) := by
  induction ps with
  | nil => intro queue p hp; cases hp
  | cons q rest ih =>
      intro queue p hp ha hc
      unfold addArrivalsNp
      rw [List.foldl_cons]
      rcases List.mem_cons.mp hp with hpq | hpr
      · subst hpq
        by_cases hq : p.pid ∈ queue.map (·.pid)
        · by_cases hg : p.arrival_time ≤ t ∧ p.pid ∉ completed ∧
              p.pid ∉ queue.map (·.pid)
          · rw [if_pos hg]
            apply addArrivalsNp_mono rest t completed _ p.pid
            rw [List.map_append]
            exact List.mem_append.mpr (Or.inl hq)
          · rw [if_neg hg]
            exact addArrivalsNp_mono rest t completed _ p.pid hq
        · rw [if_pos ⟨ha, hc, hq⟩]
          apply addArrivalsNp_mono rest t completed _ p.pid
          rw [List.map_append]
          exact List.mem_append.mpr (Or.inr (by simp))
      · by_cases hg : q.arrival_time ≤ t ∧ q.pid ∉ completed ∧
            q.pid ∉ queue.map (·.pid)
        · rw [if_pos hg]
          exact ih _ p hpr ha hc
        · rw [if_neg hg]
          exact ih _ p hpr ha hc

theorem nodup_not_mem_eraseP_self {α : Type} [DecidableEq α] (l : List α) (a : α)
    (h : l.Nodup) : a ∉ l.eraseP (fun x => x = a) := by
  induction l with
  | nil => intro hx; cases hx
  | cons y rest ih =>
      rcases List.nodup_cons.mp h with ⟨h1, h2⟩
      rw [List.eraseP_cons]
      by_cases hy : y = a
      · rw [decide_eq_true hy]
        show a ∉ rest
        exact hy ▸ h1
      · rw [decide_eq_false hy]
        show a ∉ y :: rest.eraseP (fun x => x = a)
        intro hx
        rcases List.mem_cons.mp hx with hx | hx
        · exact hy hx.symm
        · exact ih h2 hx

theorem pythonMinInt_none (l : List Int) (h : pythonMinInt l = none) : l = [] := by
  cases l with
  | nil => rfl
  | cons x xs => cases h

theorem pythonMinBy_none {α : Type} (key : α → Int × Int × Int) (l : List α)
    (h : pythonMinBy key l = none) : l = [] := by
  cases l with
  | nil => rfl
  | cons x xs => cases h

theorem intSum_shift (l : List Int) : ∀ (a b : Int),
    l.foldl (· + ·) (a + b) = a + l.foldl (· + ·) b := by
  induction l with
  | nil => intro a b; rfl
  | cons y rest ih =>
      intro a b
      rw [List.foldl_cons, List.foldl_cons]
      rw [show a + b + y = a + (b + y) by ring]
      exact ih a (b + y)

theorem intSum_cons (x : Int) (l : List Int) : intSum (x :: l) = x + intSum l := by
  unfold intSum
  rw [List.foldl_cons]
  rw [show (0 : Int) + x = x + 0 by ring]
  exact intSum_shift l x 0

theorem intSum_nonneg (l : List Int) (h : ∀ x ∈ l, 0 ≤ x) : 0 ≤ intSum l := by
  induction l with
  | nil => exact le_refl 0
  | cons x rest ih =>
      rw [intSum_cons]
      have h1 := h x (List.mem_cons_self x rest)
      have h2 := ih (fun y hy => h y (List.mem_cons_of_mem x hy))
      omega

theorem intSum_length (l : List Int) (h : ∀ x ∈ l, 1 ≤ x) :
    (l.length : Int) ≤ intSum l := by
  induction l with
  | nil => rw [List.length_nil]; exact le_refl 0
  | cons x rest ih =>
      rw [intSum_cons, List.length_cons]
      have h1 := h x (List.mem_cons_self x rest)
      have h2 := ih (fun y hy => h y (List.mem_cons_of_mem x hy))
      push_cast
      omega

theorem sum_toNat_le (l : List Int) (h : ∀ x ∈ l, 0 ≤ x) :
    (l.map Int.toNat).sum ≤ (intSum l).toNat := by
  induction l with
  | nil => exact Nat.le_refl _
  | cons x rest ih =>
      rw [List.map_cons, List.sum_cons, intSum_cons]
      have h1 := h x (List.mem_cons_self x rest)
      have h2 := ih (fun y hy => h y (List.mem_cons_of_mem x hy))
      have h3 := intSum_nonneg rest (fun y hy => h y (List.mem_cons_of_mem x hy))
      omega

theorem lookupD_map_pid_self (l : List Process) (p : Process)
    (hnd : (l.map (·.pid)).Nodup) (hp : p ∈ l) :
    lookupD (l.map (fun q => (q.pid, q.remaining_time))) p.pid 0 =
      p.remaining_time := by
  induction l with
  | nil => cases hp
  | cons q rest ih =>
      rw [List.map_cons] at hnd
      rcases List.nodup_cons.mp hnd with ⟨h1, h2⟩
      rw [List.map_cons, lookupD_cons_gen]
      by_cases hq : q.pid = p.pid
      · rw [if_pos hq]
        rcases List.mem_cons.mp hp with hh | hh
        · rw [hh]
        · exact absurd (hq ▸ List.mem_map.mpr ⟨p, hh, rfl⟩) h1
      · rw [if_neg hq]
        rcases List.mem_cons.mp hp with hh | hh
        · subst hh; exact absurd rfl hq
        · exact ih h2 hh

theorem lookupD_init_self (ps : List Process) (p : Process)
    (hnd : (ps.map (·.pid)).Nodup) (hp : p ∈ ps) :
    lookupD (initRemaining ps) p.pid 0 = p.remaining_time := by
  unfold initRemaining
  apply lookupD_map_pid_self
  · rw [List.map_reverse]
    exact List.nodup_reverse.mpr hnd
  · exact List.mem_reverse.mpr hp

theorem remSum_init (ps : List Process)
    (hnd : (ps.map (·.pid)).Nodup)
    (hr : ∀ p ∈ ps, 0 ≤ p.remaining_time) :
    remSum ps [] (initRemaining ps) ≤
      (intSum (ps.map (·.remaining_time))).toNat := by
  unfold remSum
  have hfe : ps.filter (fun p => p.pid ∉ ([] : List Int)) = ps := by
    apply List.filter_eq_self.mpr
    intro p _
    exact decide_eq_true (by intro hx; cases hx)
  rw [hfe]
  have hmape : ps.map (fun p => (lookupD (initRemaining ps) p.pid 0).toNat) =
      ps.map (fun p => p.remaining_time.toNat) := by
    apply List.map_congr_left
    intro p hp
    rw [lookupD_init_self ps p hnd hp]
  rw [hmape]
  have : ps.map (fun p => p.remaining_time.toNat) =
      (ps.map (·.remaining_time)).map Int.toNat := by
    rw [List.map_map]
    rfl
  rw [this]
  apply sum_toNat_le
  intro x hx
  rcases List.mem_map.mp hx with ⟨p, hp, he⟩
  exact he ▸ hr p hp

theorem npRun_terminates {γ : Type} (step : NPState γ → Option (NPState γ)) (n : Nat)
    (Inv : NPState γ → Prop) (μ : NPState γ → Nat)
    (hstep : ∀ st, Inv st → ¬ n ≤ st.completed.length →
      ∃ st2, step st = some st2 ∧ Inv st2 ∧ μ st2 < μ st) :
    ∀ (fuel : Nat) (st : NPState γ), Inv st → μ st < fuel →
    (npRun step n fuel st).isSome := by
  intro fuel
  induction fuel with
  | zero => intro st _ h; omega
  | succ fuel ih =>
      intro st hinv hmu
      unfold npRun
      by_cases hd : n ≤ st.completed.length
      · rw [if_pos hd]; rfl
      · rw [if_neg hd]
        obtain ⟨st2, hs, hinv2, hmu2⟩ := hstep st hinv hd
        rw [hs]
        exact ih st2 hinv2 (by omega)

theorem sjfNpStep_progress (ps : List Process) (st : NPState GanttRR)
    (hnd : (ps.map (·.pid)).Nodup)
    (hb : ∀ p ∈ ps, 1 ≤ p.burst_time)
    (hinv : NPTInv ps st)
    (hndone : ¬ ps.length ≤ st.completed.length) :
    ∃ st2, sjfNpStep ps st = some st2 ∧ NPTInv ps st2 ∧
      npMu ps st2.completed st2.current_time <
        npMu ps st.completed st.current_time := by
  obtain ⟨hqps, hqnc, hqnod⟩ := hinv
  have hq0ps : ∀ p ∈ addArrivalsNp ps st.current_time st.completed st.ready_queue,
      p ∈ ps :=
    addArrivalsNp_all ps st.current_time st.completed st.ready_queue hqps
      (fun p hp _ => hp)
  have hq0nc : ∀ p ∈ addArrivalsNp ps st.current_time st.completed st.ready_queue,
      p.pid ∉ st.completed :=
    addArrivalsNp_all ps st.current_time st.completed st.ready_queue hqnc
      (fun _ _ hpc => hpc)
  have hq0nod :
      ((addArrivalsNp ps st.current_time st.completed st.ready_queue).map
        (·.pid)).Nodup :=
    addArrivalsNp_nodup ps st.current_time st.completed st.ready_queue hqnod
  unfold sjfNpStep
  dsimp only
  by_cases hqe :
      (addArrivalsNp ps st.current_time st.completed st.ready_queue).isEmpty
  · rw [if_pos hqe]
    obtain ⟨p0, hp0, hp0c⟩ := exists_incomplete ps st.completed hnd hndone
    have hall : ∀ p ∈ ps, p.pid ∉ st.completed → st.current_time < p.arrival_time := by
      intro p hp hpc
      by_contra hle
      push_neg at hle
      have := addArrivalsNp_mem ps st.current_time st.completed st.ready_queue
        p hp hle hpc
      rw [List.isEmpty_iff.mp hqe] at this
      cases this
    cases hna : nextArrivalNp ps st.completed with
    | none =>
        exfalso
        unfold nextArrivalNp at hna
        have := pythonMinInt_none _ hna
        rw [List.map_eq_nil, List.filter_eq_nil] at this
        exact this p0 hp0 (decide_eq_true hp0c)
    | some a =>
        refine ⟨_, rfl, ⟨hq0ps, hq0nc, hq0nod⟩, ?_⟩
        dsimp only
        unfold nextArrivalNp at hna
        have hmem := pythonMinInt_mem _ _ hna
        rcases List.mem_map.mp hmem with ⟨p1, hp1f, he1⟩
        rcases List.mem_filter.mp hp1f with ⟨hp1, hp1c⟩
        have hp1c2 := of_decide_eq_true hp1c
        have hlt : st.current_time < p1.arrival_time := hall p1 hp1 hp1c2
        have hfc : futCount ps a < futCount ps st.current_time :=
          futCount_lt ps st.current_time a p1 hp1 hlt (by rw [he1])
        unfold npMu
        omega
  · rw [if_neg hqe]
    cases hmin : pythonMinBy (fun p => (p.burst_time, p.arrival_time, p.pid))
        (addArrivalsNp ps st.current_time st.completed st.ready_queue) with
    | none =>
        exfalso
        rw [pythonMinBy_none _ _ hmin] at hqe
        exact hqe rfl
    | some sel =>
        refine ⟨_, rfl, ?_, ?_⟩
        · dsimp only
          refine ⟨?_, ?_, ?_⟩
          · intro p hp
            exact hq0ps p (List.mem_of_mem_eraseP hp)
          · intro p hp
            rw [mem_addCompleted]
            rintro (hh | hh)
            · exact hq0nc p (List.mem_of_mem_eraseP hp) hh
            · have hpsel : p =
                  sel :=
                List.inj_on_of_nodup_map hq0nod (List.mem_of_mem_eraseP hp)
                  (pythonMinBy_mem _ _ _ hmin) hh
              rw [hpsel] at hp
              exact nodup_not_mem_eraseP_self _ sel
                (List.Nodup.of_map _ hq0nod) hp
          · exact List.Nodup.sublist
              (List.Sublist.map _ (List.eraseP_sublist _)) hq0nod
        · dsimp only
          have hselq := pythonMinBy_mem _ _ _ hmin
          have hselps := hq0ps sel hselq
          have hselnc := hq0nc sel hselq
          have hfl : (ps.filter
                (fun p => p.pid ∉ addCompleted st.completed sel.pid)).length <
              (ps.filter (fun p => p.pid ∉ st.completed)).length := by
            apply filter_length_strict _ _ _ ?_ sel hselps
            · exact decide_eq_true hselnc
            · exact decide_eq_false (by
                intro hh
                exact hh ((mem_addCompleted _ _ _).mpr (Or.inr rfl)))
            · intro x _ hd
              have hx := of_decide_eq_true hd
              exact decide_eq_true (fun hh =>
                hx ((mem_addCompleted _ _ _).mpr (Or.inl hh)))
          have hfc : futCount ps (st.current_time + sel.burst_time) ≤
              futCount ps st.current_time :=
            futCount_mono ps st.current_time _ (by have := hb sel hselps; omega)
          unfold npMu
          omega

theorem prioNpStep_progress (ps : List Process) (st : NPState GanttPrio)
    (hnd : (ps.map (·.pid)).Nodup)
    (hb : ∀ p ∈ ps, 1 ≤ p.burst_time)
    (hinv : NPTInv ps st)
    (hndone : ¬ ps.length ≤ st.completed.length) :
    ∃ st2, prioNpStep ps st = some st2 ∧ NPTInv ps st2 ∧
      npMu ps st2.completed st2.current_time <
        npMu ps st.completed st.current_time := by
  obtain ⟨hqps, hqnc, hqnod⟩ := hinv
  have hq0ps : ∀ p ∈ addArrivalsNp ps st.current_time st.completed st.ready_queue,
      p ∈ ps :=
    addArrivalsNp_all ps st.current_time st.completed st.ready_queue hqps
      (fun p hp _ => hp)
  have hq0nc : ∀ p ∈ addArrivalsNp ps st.current_time st.completed st.ready_queue,
      p.pid ∉ st.completed :=
    addArrivalsNp_all ps st.current_time st.completed st.ready_queue hqnc
      (fun _ _ hpc => hpc)
  have hq0nod :
      ((addArrivalsNp ps st.current_time st.completed st.ready_queue).map
        (·.pid)).Nodup :=
    addArrivalsNp_nodup ps st.current_time st.completed st.ready_queue hqnod
  unfold prioNpStep
  dsimp only
  by_cases hqe :
      (addArrivalsNp ps st.current_time st.completed st.ready_queue).isEmpty
  · rw [if_pos hqe]
    obtain ⟨p0, hp0, hp0c⟩ := exists_incomplete ps st.completed hnd hndone
    have hall : ∀ p ∈ ps, p.pid ∉ st.completed → st.current_time < p.arrival_time := by
      intro p hp hpc
      by_contra hle
      push_neg at hle
      have := addArrivalsNp_mem ps st.current_time st.completed st.ready_queue
        p hp hle hpc
      rw [List.isEmpty_iff.mp hqe] at this
      cases this
    cases hna : nextArrivalNp ps st.completed with
    | none =>
        exfalso
        unfold nextArrivalNp at hna
        have := pythonMinInt_none _ hna
        rw [List.map_eq_nil, List.filter_eq_nil] at this
        exact this p0 hp0 (decide_eq_true hp0c)
    | some a =>
        refine ⟨_, rfl, ⟨hq0ps, hq0nc, hq0nod⟩, ?_⟩
        dsimp only
        unfold nextArrivalNp at hna
        have hmem := pythonMinInt_mem _ _ hna
        rcases List.mem_map.mp hmem with ⟨p1, hp1f, he1⟩
        rcases List.mem_filter.mp hp1f with ⟨hp1, hp1c⟩
        have hp1c2 := of_decide_eq_true hp1c
        have hlt : st.current_time < p1.arrival_time := hall p1 hp1 hp1c2
        have hfc : futCount ps a < futCount ps st.current_time :=
          futCount_lt ps st.current_time a p1 hp1 hlt (by rw [he1])
        unfold npMu
        omega
  · rw [if_neg hqe]
    cases hmin : pythonMinBy (fun p => (p.priority, p.arrival_time, p.pid))
        (addArrivalsNp ps st.current_time st.completed st.ready_queue) with
    | none =>
        exfalso
        rw [pythonMinBy_none _ _ hmin] at hqe
        exact hqe rfl
    | some sel =>
        refine ⟨_, rfl, ?_, ?_⟩
        · dsimp only
          refine ⟨?_, ?_, ?_⟩
          · intro p hp
            exact hq0ps p (List.mem_of_mem_eraseP hp)
          · intro p hp
            rw [mem_addCompleted]
            rintro (hh | hh)
            · exact hq0nc p (List.mem_of_mem_eraseP hp) hh
            · have hpsel : p =
                  sel :=
                List.inj_on_of_nodup_map hq0nod (List.mem_of_mem_eraseP hp)
                  (pythonMinBy_mem _ _ _ hmin) hh
              rw [hpsel] at hp
              exact nodup_not_mem_eraseP_self _ sel
                (List.Nodup.of_map _ hq0nod) hp
          · exact List.Nodup.sublist
              (List.Sublist.map _ (List.eraseP_sublist _)) hq0nod
        · dsimp only
          have hselq := pythonMinBy_mem _ _ _ hmin
          have hselps := hq0ps sel hselq
          have hselnc := hq0nc sel hselq
          have hfl : (ps.filter
                (fun p => p.pid ∉ addCompleted st.completed sel.pid)).length <
              (ps.filter (fun p => p.pid ∉ st.completed)).length := by
            apply filter_length_strict _ _ _ ?_ sel hselps
            · exact decide_eq_true hselnc
            · exact decide_eq_false (by
                intro hh
                exact hh ((mem_addCompleted _ _ _).mpr (Or.inr rfl)))
            · intro x _ hd
              have hx := of_decide_eq_true hd
              exact decide_eq_true (fun hh =>
                hx ((mem_addCompleted _ _ _).mpr (Or.inl hh)))
          have hfc : futCount ps (st.current_time + sel.burst_time) ≤
              futCount ps st.current_time :=
            futCount_mono ps st.current_time _ (by have := hb sel hselps; omega)
          unfold npMu
          omega

theorem schedFuel_bound (ps : List Process)
    (hb : ∀ p ∈ ps, 1 ≤ p.burst_time) :
    ps.length + futCount ps 0 < schedFuel ps := by
  unfold schedFuel
  have h1 : (ps.length : Int) ≤ intSum (ps.map (·.burst_time)) := by
    have := intSum_length (ps.map (·.burst_time)) (by
      intro x hx
      rcases List.mem_map.mp hx with ⟨p, hp, he⟩
      exact he ▸ hb p hp)
    rw [List.length_map] at this
    exact this
  have h2 : 0 ≤ intSum (ps.map (·.burst_time)) :=
    intSum_nonneg _ (by
      intro x hx
      rcases List.mem_map.mp hx with ⟨p, hp, he⟩
      have := hb p hp
      omega)
  have h3 : futCount ps 0 ≤ ps.length := List.length_filter_le _ _
  omega

theorem npInit_mu_lt (ps : List Process) (hb : ∀ p ∈ ps, 1 ≤ p.burst_time) :
    npMu ps ([] : List Int) 0 < schedFuel ps := by
  have hfl : (ps.filter (fun p => p.pid ∉ ([] : List Int))).length = ps.length := by
    rw [List.filter_eq_self.mpr]
    intro p _
    exact decide_eq_true (by intro hx; cases hx)
  unfold npMu
  rw [hfl]
  exact schedFuel_bound ps hb

theorem sjfNp_terminates (ps : List Process)
    (hnd : (ps.map (·.pid)).Nodup) (hb : ∀ p ∈ ps, 1 ≤ p.burst_time) :
    (npRun (sjfNpStep ps) ps.length (schedFuel ps) (npInitState GanttRR)).isSome := by
  apply npRun_terminates (sjfNpStep ps) ps.length (NPTInv ps)
    (fun st => npMu ps st.completed st.current_time)
  · intro st hinv hd
    exact sjfNpStep_progress ps st hnd hb hinv hd
  · exact ⟨fun p hp => absurd hp (by intro h; cases h),
      fun p hp => absurd hp (by intro h; cases h), List.nodup_nil⟩
  · exact npInit_mu_lt ps hb

theorem prioNp_terminates (ps : List Process)
    (hnd : (ps.map (·.pid)).Nodup) (hb : ∀ p ∈ ps, 1 ≤ p.burst_time) :
    (npRun (prioNpStep ps) ps.length (schedFuel ps) (npInitState GanttPrio)).isSome := by
  apply npRun_terminates (prioNpStep ps) ps.length (NPTInv ps)
    (fun st => npMu ps st.completed st.current_time)
  · intro st hinv hd
    exact prioNpStep_progress ps st hnd hb hinv hd
  · exact ⟨fun p hp => absurd hp (by intro h; cases h),
      fun p hp => absurd hp (by intro h; cases h), List.nodup_nil⟩
  · exact npInit_mu_lt ps hb

theorem mem_keys_of_pids (ps : List Process) (remaining : List (Int × Int)) (c : Int)
    (hkeys : remaining.map (·.1) = (initRemaining ps).map (·.1))
    (hc : c ∈ ps.map (·.pid)) : c ∈ remaining.map (·.1) := by
  rw [hkeys, initRemaining_keys]
  rcases List.mem_map.mp hc with ⟨x, hx, he⟩
  exact List.mem_map.mpr ⟨x, List.mem_reverse.mpr hx, he⟩

theorem srtfExec_T (ps : List Process) (st : SRTFState) (c : Int)
    (hnd : (ps.map (·.pid)).Nodup)
    (hcur : st.current = some c)
    (hinv : srtfTInv ps st) :
    srtfTInv ps (srtfExecPhase st c) ∧
      schedMu ps (srtfExecPhase st c).completed (srtfExecPhase st c).remaining
          (srtfExecPhase st c).current_time <
        schedMu ps st.completed st.remaining st.current_time := by
  obtain ⟨⟨hcurnc, hcurp, hqsub, hqnc, hqnod, hcurq⟩, hrem, hkeys⟩ := hinv
  have hcp : c ∈ ps.map (·.pid) := hcurp c hcur
  have hcc : c ∉ st.completed := hcurnc c hcur
  have hcnq : c ∉ st.ready_queue := hcurq c hcur
  have hk : c ∈ st.remaining.map (·.1) := mem_keys_of_pids ps st.remaining c hkeys hcp
  have h1 : 1 ≤ lookupD st.remaining c 0 := hrem c hcp hcc
  unfold srtfExecPhase
  dsimp only
  by_cases hr : lookupD st.remaining c 0 - 1 = 0
  · rw [if_pos hr]
    unfold srtfTInv CurQFacts RemFacts
    dsimp only
    refine ⟨⟨⟨?_, ?_, hqsub, ?_, hqnod, ?_⟩, ?_, ?_⟩, ?_⟩
    · intro x hx; cases hx
    · intro x hx; cases hx
    · intro x hx
      rw [mem_addCompleted]
      rintro (hh | hh)
      · exact hqnc x hx hh
      · rw [hh] at hx; exact hcnq hx
    · intro x hx; cases hx
    · intro pid2 hpid2 hpc2
      by_cases hpe : pid2 = c
      · exact absurd ((mem_addCompleted _ _ _).mpr (Or.inr hpe)) hpc2
      · rw [lookupD_updateAssoc_ne _ _ _ _ _ hpe]
        exact hrem pid2 hpid2 (fun hh =>
          hpc2 ((mem_addCompleted _ _ _).mpr (Or.inl hh)))
    · rw [updateAssoc_keys]
      exact hkeys
    · unfold schedMu
      have hrc := remSum_complete ps st.completed st.remaining c
        (lookupD st.remaining c 0 - 1) hnd hcp hcc h1
      have hfc := futCount_mono ps st.current_time (st.current_time + 1) (by omega)
      omega
  · rw [if_neg hr]
    unfold srtfTInv CurQFacts RemFacts
    dsimp only
    refine ⟨⟨⟨?_, ?_, hqsub, hqnc, hqnod, ?_⟩, ?_, ?_⟩, ?_⟩
    · intro x hx; rw [hcur] at hx; injection hx with hx; rw [← hx]; exact hcc
    · intro x hx; rw [hcur] at hx; injection hx with hx; rw [← hx]; exact hcp
    · intro x hx; rw [hcur] at hx; injection hx with hx; rw [← hx]; exact hcnq
    · intro pid2 hpid2 hpc2
      by_cases hpe : pid2 = c
      · subst hpe
        rw [lookupD_updateAssoc_self _ _ _ _ hk]
        omega
      · rw [lookupD_updateAssoc_ne _ _ _ _ _ hpe]
        exact hrem pid2 hpid2 hpc2
    · rw [updateAssoc_keys]
      exact hkeys
    · unfold schedMu
      have hre := remSum_exec ps st.completed st.remaining c hnd hcp hcc h1 hk
      have hfc := futCount_mono ps st.current_time (st.current_time + 1) (by omega)
      omega

theorem srtfStep_progress (ps : List Process) (st : SRTFState)
    (hnd : (ps.map (·.pid)).Nodup)
    (hinv : srtfTInv ps st)
    (hndone : ¬ ps.length ≤ st.completed.length) :
    ∃ st2, srtfStep ps st = some st2 ∧ srtfTInv ps st2 ∧
      schedMu ps st2.completed st2.remaining st2.current_time <
        schedMu ps st.completed st.remaining st.current_time := by
  obtain ⟨⟨hcurnc, hcurp, hqsub, hqnc, hqnod, hcurq⟩, hrem, hkeys⟩ := hinv
  have hps : ∀ p ∈ ps, p.pid ∉ st.completed → p.pid ∈ ps.map (·.pid) :=
    fun p hp _ => List.mem_map.mpr ⟨p, hp, rfl⟩
  have hSel : ∀ (Q : List Int) (c2 : Int) (rt : List (Int × Int)) (fe : List Int),
      (∀ x ∈ Q, x ∈ ps.map (·.pid)) → (∀ x ∈ Q, x ∉ st.completed) → Q.Nodup →
      c2 ∈ Q →
      srtfTInv ps ⟨st.current_time, st.completed, st.completion_times, rt,
        Q.erase c2, some c2, st.remaining, fe, st.ganttRev, st.stepsRev⟩ := by
    intro Q c2 rt fe hsub hnc hnod hc2
    unfold srtfTInv CurQFacts RemFacts
    dsimp only
    refine ⟨⟨?_, ?_, ?_, ?_, ?_, ?_⟩, hrem, hkeys⟩
    · intro x hx; injection hx with hx; rw [← hx]; exact hnc c2 hc2
    · intro x hx; injection hx with hx; rw [← hx]; exact hsub c2 hc2
    · exact fun x hx => hsub x (List.mem_of_mem_erase hx)
    · exact fun x hx => hnc x (List.mem_of_mem_erase hx)
    · exact List.Nodup.erase c2 hnod
    · intro x hx; injection hx with hx; rw [← hx]; exact hnod.not_mem_erase
  unfold srtfStep
  dsimp only
  cases hcur : st.current with
  | none =>
      dsimp only
      have hq0sub : ∀ x ∈ addArrivals ps st.current_time st.completed
          st.ready_queue none, x ∈ ps.map (·.pid) :=
        addArrivals_all ps st.current_time st.completed none st.ready_queue hqsub hps
      have hq0nc : ∀ x ∈ addArrivals ps st.current_time st.completed
          st.ready_queue none, x ∉ st.completed :=
        addArrivals_all ps st.current_time st.completed none st.ready_queue hqnc
          (fun _ _ hpc => hpc)
      have hq0nod : (addArrivals ps st.current_time st.completed
          st.ready_queue none).Nodup :=
        addArrivals_nodup ps st.current_time st.completed none st.ready_queue hqnod
      by_cases hqe : (addArrivals ps st.current_time st.completed
          st.ready_queue none).isEmpty
      · rw [if_pos hqe]
        obtain ⟨p0, hp0, hp0c⟩ := exists_incomplete ps st.completed hnd hndone
        have hp0a : st.current_time < p0.arrival_time := by
          by_contra hle
          push_neg at hle
          have := addArrivals_mem ps st.current_time st.completed none
            st.ready_queue p0 hp0 hle hp0c (by intro hh; cases hh)
          rw [List.isEmpty_iff.mp hqe] at this
          cases this
        cases hna : nextArrivalAfter ps st.completed st.current_time with
        | none =>
            exfalso
            unfold nextArrivalAfter at hna
            have := pythonMinInt_none _ hna
            rw [List.map_eq_nil, List.filter_eq_nil] at this
            exact this p0 hp0 (decide_eq_true ⟨hp0c, hp0a⟩)
        | some a =>
            refine ⟨_, rfl, ?_, ?_⟩
            · unfold srtfTInv CurQFacts RemFacts
              dsimp only
              refine ⟨⟨?_, ?_, hq0sub, hq0nc, hq0nod, ?_⟩, hrem, hkeys⟩
              · intro x hx; cases hx
              · intro x hx; cases hx
              · intro x hx; cases hx
            · dsimp only
              unfold nextArrivalAfter at hna
              have hmem := pythonMinInt_mem _ _ hna
              rcases List.mem_map.mp hmem with ⟨p1, hp1f, he1⟩
              rcases List.mem_filter.mp hp1f with ⟨hp1, hp1c⟩
              have hp1c2 := of_decide_eq_true hp1c
              have hfc : futCount ps a < futCount ps st.current_time :=
                futCount_lt ps st.current_time a p1 hp1 hp1c2.2 (by rw [he1])
              unfold schedMu
              omega
      · rw [if_neg hqe]
        cases hmin : pythonMinBy (srtfKey ps st.remaining)
            (addArrivals ps st.current_time st.completed st.ready_queue none) with
        | none =>
            exfalso
            rw [pythonMinBy_none _ _ hmin] at hqe
            exact hqe rfl
        | some c2 =>
            dsimp only
            have hc2 := pythonMinBy_mem _ _ _ hmin
            by_cases hfe : c2 ∉ st.first_execution
            · rw [if_pos hfe]
              refine ⟨_, rfl, ?_, ?_⟩
              · exact (srtfExec_T ps _ c2 hnd rfl
                  (hSel _ c2 _ _ hq0sub hq0nc hq0nod hc2)).1
              · exact (srtfExec_T ps _ c2 hnd rfl
                  (hSel _ c2 _ _ hq0sub hq0nc hq0nod hc2)).2
            · rw [if_neg hfe]
              refine ⟨_, rfl, ?_, ?_⟩
              · exact (srtfExec_T ps _ c2 hnd rfl
                  (hSel _ c2 _ _ hq0sub hq0nc hq0nod hc2)).1
              · exact (srtfExec_T ps _ c2 hnd rfl
                  (hSel _ c2 _ _ hq0sub hq0nc hq0nod hc2)).2
  | some c =>
      dsimp only
      have hq0sub : ∀ x ∈ addArrivals ps st.current_time st.completed
          st.ready_queue (some c), x ∈ ps.map (·.pid) :=
        addArrivals_all ps st.current_time st.completed (some c) st.ready_queue
          hqsub hps
      have hq0nc : ∀ x ∈ addArrivals ps st.current_time st.completed
          st.ready_queue (some c), x ∉ st.completed :=
        addArrivals_all ps st.current_time st.completed (some c) st.ready_queue hqnc
          (fun _ _ hpc => hpc)
      have hq0nod : (addArrivals ps st.current_time st.completed
          st.ready_queue (some c)).Nodup :=
        addArrivals_nodup ps st.current_time st.completed (some c) st.ready_queue hqnod
      have hcnA : c ∉ addArrivals ps st.current_time st.completed
          st.ready_queue (some c) :=
        addArrivals_not_current ps st.current_time st.completed c st.ready_queue
          (hcurq c hcur)
      have hcp : c ∈ ps.map (·.pid) := hcurp c hcur
      have hcc : c ∉ st.completed := hcurnc c hcur
      have hInvA : srtfTInv ps ⟨st.current_time, st.completed, st.completion_times,
          st.response_times, addArrivals ps st.current_time st.completed
            st.ready_queue (some c), some c, st.remaining, st.first_execution,
          st.ganttRev, st.stepsRev⟩ := by
        unfold srtfTInv CurQFacts RemFacts
        dsimp only
        refine ⟨⟨?_, ?_, hq0sub, hq0nc, hq0nod, ?_⟩, hrem, hkeys⟩
        · intro x hx; injection hx with hx; rw [← hx]; exact hcc
        · intro x hx; injection hx with hx; rw [← hx]; exact hcp
        · intro x hx; injection hx with hx; rw [← hx]; exact hcnA
      by_cases hqe : (addArrivals ps st.current_time st.completed
          st.ready_queue (some c)).isEmpty
      · rw [if_pos hqe]
        refine ⟨_, rfl, ?_, ?_⟩
        · exact (srtfExec_T ps _ c hnd rfl hInvA).1
        · exact (srtfExec_T ps _ c hnd rfl hInvA).2
      · rw [if_neg hqe]
        cases hmin : pythonMinBy (srtfKey ps st.remaining)
            (addArrivals ps st.current_time st.completed st.ready_queue (some c)) with
        | none =>
            dsimp only
            refine ⟨_, rfl, ?_, ?_⟩
            · exact (srtfExec_T ps _ c hnd rfl hInvA).1
            · exact (srtfExec_T ps _ c hnd rfl hInvA).2
        | some e =>
            dsimp only
            by_cases hpre : lookupD st.remaining e 0 < lookupD st.remaining c 0
            · rw [if_pos hpre]
              dsimp only
              rw [if_neg (by simp)]
              cases hmin2 : pythonMinBy (srtfKey ps st.remaining)
                  (addArrivals ps st.current_time st.completed st.ready_queue
                    (some c) ++ [c]) with
              | none =>
                  exfalso
                  have := pythonMinBy_none _ _ hmin2
                  cases hA : addArrivals ps st.current_time st.completed
                      st.ready_queue (some c) with
                  | nil => rw [hA] at this; cases this
                  | cons y ys => rw [hA] at this; cases this
              | some c2 =>
                  dsimp only
                  have hc2 : c2 ∈ addArrivals ps st.current_time st.completed
                      st.ready_queue (some c) ++ [c] := pythonMinBy_mem _ _ _ hmin2
                  have hsub2 : ∀ x ∈ addArrivals ps st.current_time st.completed
                      st.ready_queue (some c) ++ [c], x ∈ ps.map (·.pid) := by
                    intro x hx
                    rcases List.mem_append.mp hx with hx | hx
                    · exact hq0sub x hx
                    · rw [List.mem_singleton.mp hx]; exact hcp
                  have hnc2 : ∀ x ∈ addArrivals ps st.current_time st.completed
                      st.ready_queue (some c) ++ [c], x ∉ st.completed := by
                    intro x hx
                    rcases List.mem_append.mp hx with hx | hx
                    · exact hq0nc x hx
                    · rw [List.mem_singleton.mp hx]; exact hcc
                  have hnod2 : (addArrivals ps st.current_time st.completed
                      st.ready_queue (some c) ++ [c]).Nodup :=
                    List.Nodup.append hq0nod (List.nodup_singleton c)
                      (fun a ha hb => absurd ha ((List.mem_singleton.mp hb) ▸ hcnA))
                  by_cases hfe : c2 ∉ st.first_execution
                  · rw [if_pos hfe]
                    refine ⟨_, rfl, ?_, ?_⟩
                    · exact (srtfExec_T ps _ c2 hnd rfl
                        (hSel _ c2 _ _ hsub2 hnc2 hnod2 hc2)).1
                    · exact (srtfExec_T ps _ c2 hnd rfl
                        (hSel _ c2 _ _ hsub2 hnc2 hnod2 hc2)).2
                  · rw [if_neg hfe]
                    refine ⟨_, rfl, ?_, ?_⟩
                    · exact (srtfExec_T ps _ c2 hnd rfl
                        (hSel _ c2 _ _ hsub2 hnc2 hnod2 hc2)).1
                    · exact (srtfExec_T ps _ c2 hnd rfl
                        (hSel _ c2 _ _ hsub2 hnc2 hnod2 hc2)).2
            · rw [if_neg hpre]
              refine ⟨_, rfl, ?_, ?_⟩
              · exact (srtfExec_T ps _ c hnd rfl hInvA).1
              · exact (srtfExec_T ps _ c hnd rfl hInvA).2

theorem schedMu_init_lt (ps : List Process)
    (hnd : (ps.map (·.pid)).Nodup)
    (hb : ∀ p ∈ ps, 1 ≤ p.burst_time)
    (hrb : ∀ p ∈ ps, p.remaining_time = p.burst_time) :
    schedMu ps [] (initRemaining ps) 0 < schedFuel ps := by
  unfold schedMu schedFuel
  have h1 : remSum ps [] (initRemaining ps) ≤
      (intSum (ps.map (·.remaining_time))).toNat :=
    remSum_init ps hnd (fun p hp => by have := hb p hp; have := hrb p hp; omega)
  have h2 : ps.map (·.remaining_time) = ps.map (·.burst_time) :=
    List.map_congr_left (fun p hp => hrb p hp)
  rw [h2] at h1
  have h3 : futCount ps 0 ≤ ps.length := List.length_filter_le _ _
  omega

theorem rfInit (ps : List Process)
    (hnd : (ps.map (·.pid)).Nodup)
    (hb : ∀ p ∈ ps, 1 ≤ p.burst_time)
    (hrb : ∀ p ∈ ps, p.remaining_time = p.burst_time) :
    RemFacts ps [] (initRemaining ps) := by
  constructor
  · intro pid2 hpid2 _
    rcases List.mem_map.mp hpid2 with ⟨p, hp, he⟩
    rw [← he, lookupD_init_self ps p hnd hp, hrb p hp]
    exact hb p hp
  · rfl

theorem cqInit (ps : List Process) :
    CurQFacts ps [] [] none := by
  refine ⟨?_, ?_, ?_, ?_, List.nodup_nil, ?_⟩
  · intro x hx; cases hx
  · intro x hx; cases hx
  · intro x hx; cases hx
  · intro x hx; cases hx
  · intro x hx; cases hx

theorem srtfRun_terminates (ps : List Process)
    (hnd : (ps.map (·.pid)).Nodup) :
    ∀ (fuel : Nat) (st : SRTFState), srtfTInv ps st →
    schedMu ps st.completed st.remaining st.current_time < fuel →
    (srtfRun ps fuel st).isSome := by
  intro fuel
  induction fuel with
  | zero => intro st _ h; omega
  | succ fuel ih =>
      intro st hinv hmu
      unfold srtfRun
      by_cases hd : ps.length ≤ st.completed.length
      · rw [if_pos hd]; rfl
      · rw [if_neg hd]
        obtain ⟨st2, hs, hinv2, hmu2⟩ := srtfStep_progress ps st hnd hinv hd
        rw [hs]
        exact ih st2 hinv2 (by omega)

theorem srtf_terminates (ps : List Process)
    (hnd : (ps.map (·.pid)).Nodup)
    (hb : ∀ p ∈ ps, 1 ≤ p.burst_time)
    (hrb : ∀ p ∈ ps, p.remaining_time = p.burst_time) :
    (srtfRun ps (schedFuel ps) (srtfInitState ps)).isSome := by
  apply srtfRun_terminates ps hnd
  · exact ⟨cqInit ps, rfInit ps hnd hb hrb⟩
  · exact schedMu_init_lt ps hnd hb hrb

theorem prioPExec_T (ps : List Process) (st : PrioPState) (c : Int)
    (hnd : (ps.map (·.pid)).Nodup)
    (hcur : st.current = some c)
    (hinv : prioPTInv ps st) :
    prioPTInv ps (prioPExecPhase ps st c) ∧
      schedMu ps (prioPExecPhase ps st c).completed (prioPExecPhase ps st c).remaining
          (prioPExecPhase ps st c).current_time <
        schedMu ps st.completed st.remaining st.current_time := by
  obtain ⟨⟨hcurnc, hcurp, hqsub, hqnc, hqnod, hcurq⟩, hrem, hkeys⟩ := hinv
  have hcp : c ∈ ps.map (·.pid) := hcurp c hcur
  have hcc : c ∉ st.completed := hcurnc c hcur
  have hcnq : c ∉ st.ready_queue := hcurq c hcur
  have hk : c ∈ st.remaining.map (·.1) := mem_keys_of_pids ps st.remaining c hkeys hcp
  have h1 : 1 ≤ lookupD st.remaining c 0 := hrem c hcp hcc
  unfold prioPExecPhase
  dsimp only
  by_cases hr : lookupD st.remaining c 0 - 1 = 0
  · rw [if_pos hr]
    unfold prioPTInv CurQFacts RemFacts
    dsimp only
    refine ⟨⟨⟨?_, ?_, hqsub, ?_, hqnod, ?_⟩, ?_, ?_⟩, ?_⟩
    · intro x hx; cases hx
    · intro x hx; cases hx
    · intro x hx
      rw [mem_addCompleted]
      rintro (hh | hh)
      · exact hqnc x hx hh
      · rw [hh] at hx; exact hcnq hx
    · intro x hx; cases hx
    · intro pid2 hpid2 hpc2
      by_cases hpe : pid2 = c
      · exact absurd ((mem_addCompleted _ _ _).mpr (Or.inr hpe)) hpc2
      · rw [lookupD_updateAssoc_ne _ _ _ _ _ hpe]
        exact hrem pid2 hpid2 (fun hh =>
          hpc2 ((mem_addCompleted _ _ _).mpr (Or.inl hh)))
    · rw [updateAssoc_keys]
      exact hkeys
    · unfold schedMu
      have hrc := remSum_complete ps st.completed st.remaining c
        (lookupD st.remaining c 0 - 1) hnd hcp hcc h1
      have hfc := futCount_mono ps st.current_time (st.current_time + 1) (by omega)
      omega
  · rw [if_neg hr]
    unfold prioPTInv CurQFacts RemFacts
    dsimp only
    refine ⟨⟨⟨?_, ?_, hqsub, hqnc, hqnod, ?_⟩, ?_, ?_⟩, ?_⟩
    · intro x hx; rw [hcur] at hx; injection hx with hx; rw [← hx]; exact hcc
    · intro x hx; rw [hcur] at hx; injection hx with hx; rw [← hx]; exact hcp
    · intro x hx; rw [hcur] at hx; injection hx with hx; rw [← hx]; exact hcnq
    · intro pid2 hpid2 hpc2
      by_cases hpe : pid2 = c
      · subst hpe
        rw [lookupD_updateAssoc_self _ _ _ _ hk]
        omega
      · rw [lookupD_updateAssoc_ne _ _ _ _ _ hpe]
        exact hrem pid2 hpid2 hpc2
    · rw [updateAssoc_keys]
      exact hkeys
    · unfold schedMu
      have hre := remSum_exec ps st.completed st.remaining c hnd hcp hcc h1 hk
      have hfc := futCount_mono ps st.current_time (st.current_time + 1) (by omega)
      omega

theorem prioPStep_progress (ps : List Process) (st : PrioPState)
    (hnd : (ps.map (·.pid)).Nodup)
    (hinv : prioPTInv ps st)
    (hndone : ¬ ps.length ≤ st.completed.length) :
    ∃ st2, prioPStep ps st = some st2 ∧ prioPTInv ps st2 ∧
      schedMu ps st2.completed st2.remaining st2.current_time <
        schedMu ps st.completed st.remaining st.current_time := by
  obtain ⟨⟨hcurnc, hcurp, hqsub, hqnc, hqnod, hcurq⟩, hrem, hkeys⟩ := hinv
  have hps : ∀ p ∈ ps, p.pid ∉ st.completed → p.pid ∈ ps.map (·.pid) :=
    fun p hp _ => List.mem_map.mpr ⟨p, hp, rfl⟩
  have hSel : ∀ (Q : List Int) (c2 : Int) (rt : List (Int × Int)) (fe : List Int),
      (∀ x ∈ Q, x ∈ ps.map (·.pid)) → (∀ x ∈ Q, x ∉ st.completed) → Q.Nodup →
      c2 ∈ Q →
      prioPTInv ps ⟨st.current_time, st.completed, st.completion_times, rt,
        Q.erase c2, some c2, st.remaining, fe, st.ganttRev, st.stepsRev⟩ := by
    intro Q c2 rt fe hsub hnc hnod hc2
    unfold prioPTInv CurQFacts RemFacts
    dsimp only
    refine ⟨⟨?_, ?_, ?_, ?_, ?_, ?_⟩, hrem, hkeys⟩
    · intro x hx; injection hx with hx; rw [← hx]; exact hnc c2 hc2
    · intro x hx; injection hx with hx; rw [← hx]; exact hsub c2 hc2
    · exact fun x hx => hsub x (List.mem_of_mem_erase hx)
    · exact fun x hx => hnc x (List.mem_of_mem_erase hx)
    · exact List.Nodup.erase c2 hnod
    · intro x hx; injection hx with hx; rw [← hx]; exact hnod.not_mem_erase
  unfold prioPStep
  dsimp only
  cases hcur : st.current with
  | none =>
      dsimp only
      have hq0sub : ∀ x ∈ addArrivals ps st.current_time st.completed
          st.ready_queue none, x ∈ ps.map (·.pid) :=
        addArrivals_all ps st.current_time st.completed none st.ready_queue hqsub hps
      have hq0nc : ∀ x ∈ addArrivals ps st.current_time st.completed
          st.ready_queue none, x ∉ st.completed :=
        addArrivals_all ps st.current_time st.completed none st.ready_queue hqnc
          (fun _ _ hpc => hpc)
      have hq0nod : (addArrivals ps st.current_time st.completed
          st.ready_queue none).Nodup :=
        addArrivals_nodup ps st.current_time st.completed none st.ready_queue hqnod
      by_cases hqe : (addArrivals ps st.current_time st.completed
          st.ready_queue none).isEmpty
      · rw [if_pos hqe]
        obtain ⟨p0, hp0, hp0c⟩ := exists_incomplete ps st.completed hnd hndone
        have hp0a : st.current_time < p0.arrival_time := by
          by_contra hle
          push_neg at hle
          have := addArrivals_mem ps st.current_time st.completed none
            st.ready_queue p0 hp0 hle hp0c (by intro hh; cases hh)
          rw [List.isEmpty_iff.mp hqe] at this
          cases this
        cases hna : nextArrivalAfter ps st.completed st.current_time with
        | none =>
            exfalso
            unfold nextArrivalAfter at hna
            have := pythonMinInt_none _ hna
            rw [List.map_eq_nil, List.filter_eq_nil] at this
            exact this p0 hp0 (decide_eq_true ⟨hp0c, hp0a⟩)
        | some a =>
            refine ⟨_, rfl, ?_, ?_⟩
            · unfold prioPTInv CurQFacts RemFacts
              dsimp only
              refine ⟨⟨?_, ?_, hq0sub, hq0nc, hq0nod, ?_⟩, hrem, hkeys⟩
              · intro x hx; cases hx
              · intro x hx; cases hx
              · intro x hx; cases hx
            · dsimp only
              unfold nextArrivalAfter at hna
              have hmem := pythonMinInt_mem _ _ hna
              rcases List.mem_map.mp hmem with ⟨p1, hp1f, he1⟩
              rcases List.mem_filter.mp hp1f with ⟨hp1, hp1c⟩
              have hp1c2 := of_decide_eq_true hp1c
              have hfc : futCount ps a < futCount ps st.current_time :=
                futCount_lt ps st.current_time a p1 hp1 hp1c2.2 (by rw [he1])
              unfold schedMu
              omega
      · rw [if_neg hqe]
        cases hmin : pythonMinBy (prioKey ps)
            (addArrivals ps st.current_time st.completed st.ready_queue none) with
        | none =>
            exfalso
            rw [pythonMinBy_none _ _ hmin] at hqe
            exact hqe rfl
        | some c2 =>
            dsimp only
            have hc2 := pythonMinBy_mem _ _ _ hmin
            by_cases hfe : c2 ∉ st.first_execution
            · rw [if_pos hfe]
              refine ⟨_, rfl, ?_, ?_⟩
              · exact (prioPExec_T ps _ c2 hnd rfl
                  (hSel _ c2 _ _ hq0sub hq0nc hq0nod hc2)).1
              · exact (prioPExec_T ps _ c2 hnd rfl
                  (hSel _ c2 _ _ hq0sub hq0nc hq0nod hc2)).2
            · rw [if_neg hfe]
              refine ⟨_, rfl, ?_, ?_⟩
              · exact (prioPExec_T ps _ c2 hnd rfl
                  (hSel _ c2 _ _ hq0sub hq0nc hq0nod hc2)).1
              · exact (prioPExec_T ps _ c2 hnd rfl
                  (hSel _ c2 _ _ hq0sub hq0nc hq0nod hc2)).2
  | some c =>
      dsimp only
      have hq0sub : ∀ x ∈ addArrivals ps st.current_time st.completed
          st.ready_queue (some c), x ∈ ps.map (·.pid) :=
        addArrivals_all ps st.current_time st.completed (some c) st.ready_queue
          hqsub hps
      have hq0nc : ∀ x ∈ addArrivals ps st.current_time st.completed
          st.ready_queue (some c), x ∉ st.completed :=
        addArrivals_all ps st.current_time st.completed (some c) st.ready_queue hqnc
          (fun _ _ hpc => hpc)
      have hq0nod : (addArrivals ps st.current_time st.completed
          st.ready_queue (some c)).Nodup :=
        addArrivals_nodup ps st.current_time st.completed (some c) st.ready_queue hqnod
      have hcnA : c ∉ addArrivals ps st.current_time st.completed
          st.ready_queue (some c) :=
        addArrivals_not_current ps st.current_time st.completed c st.ready_queue
          (hcurq c hcur)
      have hcp : c ∈ ps.map (·.pid) := hcurp c hcur
      have hcc : c ∉ st.completed := hcurnc c hcur
      have hInvA : prioPTInv ps ⟨st.current_time, st.completed, st.completion_times,
          st.response_times, addArrivals ps st.current_time st.completed
            st.ready_queue (some c), some c, st.remaining, st.first_execution,
          st.ganttRev, st.stepsRev⟩ := by
        unfold prioPTInv CurQFacts RemFacts
        dsimp only
        refine ⟨⟨?_, ?_, hq0sub, hq0nc, hq0nod, ?_⟩, hrem, hkeys⟩
        · intro x hx; injection hx with hx; rw [← hx]; exact hcc
        · intro x hx; injection hx with hx; rw [← hx]; exact hcp
        · intro x hx; injection hx with hx; rw [← hx]; exact hcnA
      by_cases hqe : (addArrivals ps st.current_time st.completed
          st.ready_queue (some c)).isEmpty
      · rw [if_pos hqe]
        refine ⟨_, rfl, ?_, ?_⟩
        · exact (prioPExec_T ps _ c hnd rfl hInvA).1
        · exact (prioPExec_T ps _ c hnd rfl hInvA).2
      · rw [if_neg hqe]
        cases hmin : pythonMinBy (prioKey ps)
            (addArrivals ps st.current_time st.completed st.ready_queue (some c)) with
        | none =>
            dsimp only
            refine ⟨_, rfl, ?_, ?_⟩
            · exact (prioPExec_T ps _ c hnd rfl hInvA).1
            · exact (prioPExec_T ps _ c hnd rfl hInvA).2
        | some e =>
            dsimp only
            by_cases hpre : prioOf ps e < prioOf ps c
            · rw [if_pos hpre]
              dsimp only
              rw [if_neg (by simp)]
              cases hmin2 : pythonMinBy (prioKey ps)
                  (addArrivals ps st.current_time st.completed st.ready_queue
                    (some c) ++ [c]) with
              | none =>
                  exfalso
                  have := pythonMinBy_none _ _ hmin2
                  cases hA : addArrivals ps st.current_time st.completed
                      st.ready_queue (some c) with
                  | nil => rw [hA] at this; cases this
                  | cons y ys => rw [hA] at this; cases this
              | some c2 =>
                  dsimp only
                  have hc2 : c2 ∈ addArrivals ps st.current_time st.completed
                      st.ready_queue (some c) ++ [c] := pythonMinBy_mem _ _ _ hmin2
                  have hsub2 : ∀ x ∈ addArrivals ps st.current_time st.completed
                      st.ready_queue (some c) ++ [c], x ∈ ps.map (·.pid) := by
                    intro x hx
                    rcases List.mem_append.mp hx with hx | hx
                    · exact hq0sub x hx
                    · rw [List.mem_singleton.mp hx]; exact hcp
                  have hnc2 : ∀ x ∈ addArrivals ps st.current_time st.completed
                      st.ready_queue (some c) ++ [c], x ∉ st.completed := by
                    intro x hx
                    rcases List.mem_append.mp hx with hx | hx
                    · exact hq0nc x hx
                    · rw [List.mem_singleton.mp hx]; exact hcc
                  have hnod2 : (addArrivals ps st.current_time st.completed
                      st.ready_queue (some c) ++ [c]).Nodup :=
                    List.Nodup.append hq0nod (List.nodup_singleton c)
                      (fun a ha hb => absurd ha ((List.mem_singleton.mp hb) ▸ hcnA))
                  by_cases hfe : c2 ∉ st.first_execution
                  · rw [if_pos hfe]
                    refine ⟨_, rfl, ?_, ?_⟩
                    · exact (prioPExec_T ps _ c2 hnd rfl
                        (hSel _ c2 _ _ hsub2 hnc2 hnod2 hc2)).1
                    · exact (prioPExec_T ps _ c2 hnd rfl
                        (hSel _ c2 _ _ hsub2 hnc2 hnod2 hc2)).2
                  · rw [if_neg hfe]
                    refine ⟨_, rfl, ?_, ?_⟩
                    · exact (prioPExec_T ps _ c2 hnd rfl
                        (hSel _ c2 _ _ hsub2 hnc2 hnod2 hc2)).1
                    · exact (prioPExec_T ps _ c2 hnd rfl
                        (hSel _ c2 _ _ hsub2 hnc2 hnod2 hc2)).2
            · rw [if_neg hpre]
              refine ⟨_, rfl, ?_, ?_⟩
              · exact (prioPExec_T ps _ c hnd rfl hInvA).1
              · exact (prioPExec_T ps _ c hnd rfl hInvA).2


theorem prioPRun_terminates (ps : List Process)
    (hnd : (ps.map (·.pid)).Nodup) :
    ∀ (fuel : Nat) (st : PrioPState), prioPTInv ps st →
    schedMu ps st.completed st.remaining st.current_time < fuel →
    (prioPRun ps fuel st).isSome := by
  intro fuel
  induction fuel with
  | zero => intro st _ h; omega
  | succ fuel ih =>
      intro st hinv hmu
      unfold prioPRun
      by_cases hd : ps.length ≤ st.completed.length
      · rw [if_pos hd]; rfl
      · rw [if_neg hd]
        obtain ⟨st2, hs, hinv2, hmu2⟩ := prioPStep_progress ps st hnd hinv hd
        rw [hs]
        exact ih st2 hinv2 (by omega)

theorem prioP_terminates (ps : List Process)
    (hnd : (ps.map (·.pid)).Nodup)
    (hb : ∀ p ∈ ps, 1 ≤ p.burst_time)
    (hrb : ∀ p ∈ ps, p.remaining_time = p.burst_time) :
    (prioPRun ps (schedFuel ps) (prioPInitState ps)).isSome := by
  apply prioPRun_terminates ps hnd
  · exact ⟨cqInit ps, rfInit ps hnd hb hrb⟩
  · exact schedMu_init_lt ps hnd hb hrb

theorem edfExec_T (ps : List Process) (st : EDFState) (c : Int)
    (hnd : (ps.map (·.pid)).Nodup)
    (hcur : st.current = some c)
    (hinv : edfTInv ps st) :
    edfTInv ps (edfExecPhase ps st c) ∧
      schedMu ps (edfExecPhase ps st c).completed (edfExecPhase ps st c).remaining
          (edfExecPhase ps st c).current_time <
        schedMu ps st.completed st.remaining st.current_time := by
  obtain ⟨⟨hcurnc, hcurp, hqsub, hqnc, hqnod, hcurq⟩, hrem, hkeys⟩ := hinv
  have hcp : c ∈ ps.map (·.pid) := hcurp c hcur
  have hcc : c ∉ st.completed := hcurnc c hcur
  have hcnq : c ∉ st.ready_queue := hcurq c hcur
  have hk : c ∈ st.remaining.map (·.1) := mem_keys_of_pids ps st.remaining c hkeys hcp
  have h1 : 1 ≤ lookupD st.remaining c 0 := hrem c hcp hcc
  unfold edfExecPhase
  dsimp only
  by_cases hm : edfDeadline ps c ≤ st.current_time ∧ c ∉ st.missed
  · rw [if_pos hm]
    dsimp only
    by_cases hr : lookupD st.remaining c 0 - 1 = 0
    · rw [if_pos hr]
      unfold edfTInv CurQFacts RemFacts
      dsimp only
      refine ⟨⟨⟨?_, ?_, hqsub, ?_, hqnod, ?_⟩, ?_, ?_⟩, ?_⟩
      · intro x hx; cases hx
      · intro x hx; cases hx
      · intro x hx
        rw [mem_addCompleted]
        rintro (hh | hh)
        · exact hqnc x hx hh
        · rw [hh] at hx; exact hcnq hx
      · intro x hx; cases hx
      · intro pid2 hpid2 hpc2
        by_cases hpe : pid2 = c
        · exact absurd ((mem_addCompleted _ _ _).mpr (Or.inr hpe)) hpc2
        · rw [lookupD_updateAssoc_ne _ _ _ _ _ hpe]
          exact hrem pid2 hpid2 (fun hh =>
            hpc2 ((mem_addCompleted _ _ _).mpr (Or.inl hh)))
      · rw [updateAssoc_keys]
        exact hkeys
      · unfold schedMu
        have hrc := remSum_complete ps st.completed st.remaining c
          (lookupD st.remaining c 0 - 1) hnd hcp hcc h1
        have hfc := futCount_mono ps st.current_time (st.current_time + 1) (by omega)
        omega
    · rw [if_neg hr]
      unfold edfTInv CurQFacts RemFacts
      dsimp only
      refine ⟨⟨⟨?_, ?_, hqsub, hqnc, hqnod, ?_⟩, ?_, ?_⟩, ?_⟩
      · intro x hx; rw [hcur] at hx; injection hx with hx; rw [← hx]; exact hcc
      · intro x hx; rw [hcur] at hx; injection hx with hx; rw [← hx]; exact hcp
      · intro x hx; rw [hcur] at hx; injection hx with hx; rw [← hx]; exact hcnq
      · intro pid2 hpid2 hpc2
        by_cases hpe : pid2 = c
        · subst hpe
          rw [lookupD_updateAssoc_self _ _ _ _ hk]
          omega
        · rw [lookupD_updateAssoc_ne _ _ _ _ _ hpe]
          exact hrem pid2 hpid2 hpc2
      · rw [updateAssoc_keys]
        exact hkeys
      · unfold schedMu
        have hre := remSum_exec ps st.completed st.remaining c hnd hcp hcc h1 hk
        have hfc := futCount_mono ps st.current_time (st.current_time + 1) (by omega)
        omega
  · rw [if_neg hm]
    by_cases hr : lookupD st.remaining c 0 - 1 = 0
    · rw [if_pos hr]
      unfold edfTInv CurQFacts RemFacts
      dsimp only
      refine ⟨⟨⟨?_, ?_, hqsub, ?_, hqnod, ?_⟩, ?_, ?_⟩, ?_⟩
      · intro x hx; cases hx
      · intro x hx; cases hx
      · intro x hx
        rw [mem_addCompleted]
        rintro (hh | hh)
        · exact hqnc x hx hh
        · rw [hh] at hx; exact hcnq hx
      · intro x hx; cases hx
      · intro pid2 hpid2 hpc2
        by_cases hpe : pid2 = c
        · exact absurd ((mem_addCompleted _ _ _).mpr (Or.inr hpe)) hpc2
        · rw [lookupD_updateAssoc_ne _ _ _ _ _ hpe]
          exact hrem pid2 hpid2 (fun hh =>
            hpc2 ((mem_addCompleted _ _ _).mpr (Or.inl hh)))
      · rw [updateAssoc_keys]
        exact hkeys
      · unfold schedMu
        have hrc := remSum_complete ps st.completed st.remaining c
          (lookupD st.remaining c 0 - 1) hnd hcp hcc h1
        have hfc := futCount_mono ps st.current_time (st.current_time + 1) (by omega)
        omega
    · rw [if_neg hr]
      unfold edfTInv CurQFacts RemFacts
      dsimp only
      refine ⟨⟨⟨?_, ?_, hqsub, hqnc, hqnod, ?_⟩, ?_, ?_⟩, ?_⟩
      · intro x hx; rw [hcur] at hx; injection hx with hx; rw [← hx]; exact hcc
      · intro x hx; rw [hcur] at hx; injection hx with hx; rw [← hx]; exact hcp
      · intro x hx; rw [hcur] at hx; injection hx with hx; rw [← hx]; exact hcnq
      · intro pid2 hpid2 hpc2
        by_cases hpe : pid2 = c
        · subst hpe
          rw [lookupD_updateAssoc_self _ _ _ _ hk]
          omega
        · rw [lookupD_updateAssoc_ne _ _ _ _ _ hpe]
          exact hrem pid2 hpid2 hpc2
      · rw [updateAssoc_keys]
        exact hkeys
      · unfold schedMu
        have hre := remSum_exec ps st.completed st.remaining c hnd hcp hcc h1 hk
        have hfc := futCount_mono ps st.current_time (st.current_time + 1) (by omega)
        omega

theorem edfStep_progress (ps : List Process) (st : EDFState)
    (hnd : (ps.map (·.pid)).Nodup)
    (hinv : edfTInv ps st)
    (hndone : ¬ ps.length ≤ st.completed.length) :
    ∃ st2, edfStep ps st = some st2 ∧ edfTInv ps st2 ∧
      schedMu ps st2.completed st2.remaining st2.current_time <
        schedMu ps st.completed st.remaining st.current_time := by
  obtain ⟨⟨hcurnc, hcurp, hqsub, hqnc, hqnod, hcurq⟩, hrem, hkeys⟩ := hinv
  have hps : ∀ p ∈ ps, p.pid ∉ st.completed → p.pid ∈ ps.map (·.pid) :=
    fun p hp _ => List.mem_map.mpr ⟨p, hp, rfl⟩
  have hSel : ∀ (Q : List Int) (c2 : Int) (rt : List (Int × Int)) (fe : List Int),
      (∀ x ∈ Q, x ∈ ps.map (·.pid)) → (∀ x ∈ Q, x ∉ st.completed) → Q.Nodup →
      c2 ∈ Q →
      edfTInv ps ⟨st.current_time, st.completed, st.completion_times, rt,
        Q.erase c2, some c2, st.missed, st.remaining, fe, st.ganttRev, st.stepsRev⟩ := by
    intro Q c2 rt fe hsub hnc hnod hc2
    unfold edfTInv CurQFacts RemFacts
    dsimp only
    refine ⟨⟨?_, ?_, ?_, ?_, ?_, ?_⟩, hrem, hkeys⟩
    · intro x hx; injection hx with hx; rw [← hx]; exact hnc c2 hc2
    · intro x hx; injection hx with hx; rw [← hx]; exact hsub c2 hc2
    · exact fun x hx => hsub x (List.mem_of_mem_erase hx)
    · exact fun x hx => hnc x (List.mem_of_mem_erase hx)
    · exact List.Nodup.erase c2 hnod
    · intro x hx; injection hx with hx; rw [← hx]; exact hnod.not_mem_erase
  unfold edfStep
  dsimp only
  cases hcur : st.current with
  | none =>
      dsimp only
      have hq0sub : ∀ x ∈ addArrivals ps st.current_time st.completed
          st.ready_queue none, x ∈ ps.map (·.pid) :=
        addArrivals_all ps st.current_time st.completed none st.ready_queue hqsub hps
      have hq0nc : ∀ x ∈ addArrivals ps st.current_time st.completed
          st.ready_queue none, x ∉ st.completed :=
        addArrivals_all ps st.current_time st.completed none st.ready_queue hqnc
          (fun _ _ hpc => hpc)
      have hq0nod : (addArrivals ps st.current_time st.completed
          st.ready_queue none).Nodup :=
        addArrivals_nodup ps st.current_time st.completed none st.ready_queue hqnod
      by_cases hqe : (addArrivals ps st.current_time st.completed
          st.ready_queue none).isEmpty
      · rw [if_pos hqe]
        obtain ⟨p0, hp0, hp0c⟩ := exists_incomplete ps st.completed hnd hndone
        have hp0a : st.current_time < p0.arrival_time := by
          by_contra hle
          push_neg at hle
          have := addArrivals_mem ps st.current_time st.completed none
            st.ready_queue p0 hp0 hle hp0c (by intro hh; cases hh)
          rw [List.isEmpty_iff.mp hqe] at this
          cases this
        cases hna : nextArrivalAfter ps st.completed st.current_time with
        | none =>
            exfalso
            unfold nextArrivalAfter at hna
            have := pythonMinInt_none _ hna
            rw [List.map_eq_nil, List.filter_eq_nil] at this
            exact this p0 hp0 (decide_eq_true ⟨hp0c, hp0a⟩)
        | some a =>
            refine ⟨_, rfl, ?_, ?_⟩
            · unfold edfTInv CurQFacts RemFacts
              dsimp only
              refine ⟨⟨?_, ?_, hq0sub, hq0nc, hq0nod, ?_⟩, hrem, hkeys⟩
              · intro x hx; cases hx
              · intro x hx; cases hx
              · intro x hx; cases hx
            · dsimp only
              unfold nextArrivalAfter at hna
              have hmem := pythonMinInt_mem _ _ hna
              rcases List.mem_map.mp hmem with ⟨p1, hp1f, he1⟩
              rcases List.mem_filter.mp hp1f with ⟨hp1, hp1c⟩
              have hp1c2 := of_decide_eq_true hp1c
              have hfc : futCount ps a < futCount ps st.current_time :=
                futCount_lt ps st.current_time a p1 hp1 hp1c2.2 (by rw [he1])
              unfold schedMu
              omega
      · rw [if_neg hqe]
        cases hmin : pythonMinBy (edfKey ps)
            (addArrivals ps st.current_time st.completed st.ready_queue none) with
        | none =>
            exfalso
            rw [pythonMinBy_none _ _ hmin] at hqe
            exact hqe rfl
        | some c2 =>
            dsimp only
            have hc2 := pythonMinBy_mem _ _ _ hmin
            by_cases hfe : c2 ∉ st.first_execution
            · rw [if_pos hfe]
              refine ⟨_, rfl, ?_, ?_⟩
              · exact (edfExec_T ps _ c2 hnd rfl
                  (hSel _ c2 _ _ hq0sub hq0nc hq0nod hc2)).1
              · exact (edfExec_T ps _ c2 hnd rfl
                  (hSel _ c2 _ _ hq0sub hq0nc hq0nod hc2)).2
            · rw [if_neg hfe]
              refine ⟨_, rfl, ?_, ?_⟩
              · exact (edfExec_T ps _ c2 hnd rfl
                  (hSel _ c2 _ _ hq0sub hq0nc hq0nod hc2)).1
              · exact (edfExec_T ps _ c2 hnd rfl
                  (hSel _ c2 _ _ hq0sub hq0nc hq0nod hc2)).2
  | some c =>
      dsimp only
      have hq0sub : ∀ x ∈ addArrivals ps st.current_time st.completed
          st.ready_queue (some c), x ∈ ps.map (·.pid) :=
        addArrivals_all ps st.current_time st.completed (some c) st.ready_queue
          hqsub hps
      have hq0nc : ∀ x ∈ addArrivals ps st.current_time st.completed
          st.ready_queue (some c), x ∉ st.completed :=
        addArrivals_all ps st.current_time st.completed (some c) st.ready_queue hqnc
          (fun _ _ hpc => hpc)
      have hq0nod : (addArrivals ps st.current_time st.completed
          st.ready_queue (some c)).Nodup :=
        addArrivals_nodup ps st.current_time st.completed (some c) st.ready_queue hqnod
      have hcnA : c ∉ addArrivals ps st.current_time st.completed
          st.ready_queue (some c) :=
        addArrivals_not_current ps st.current_time st.completed c st.ready_queue
          (hcurq c hcur)
      have hcp : c ∈ ps.map (·.pid) := hcurp c hcur
      have hcc : c ∉ st.completed := hcurnc c hcur
      have hInvA : edfTInv ps ⟨st.current_time, st.completed, st.completion_times,
          st.response_times, addArrivals ps st.current_time st.completed
            st.ready_queue (some c), some c, st.missed, st.remaining, st.first_execution,
          st.ganttRev, st.stepsRev⟩ := by
        unfold edfTInv CurQFacts RemFacts
        dsimp only
        refine ⟨⟨?_, ?_, hq0sub, hq0nc, hq0nod, ?_⟩, hrem, hkeys⟩
        · intro x hx; injection hx with hx; rw [← hx]; exact hcc
        · intro x hx; injection hx with hx; rw [← hx]; exact hcp
        · intro x hx; injection hx with hx; rw [← hx]; exact hcnA
      by_cases hqe : (addArrivals ps st.current_time st.completed
          st.ready_queue (some c)).isEmpty
      · rw [if_pos hqe]
        refine ⟨_, rfl, ?_, ?_⟩
        · exact (edfExec_T ps _ c hnd rfl hInvA).1
        · exact (edfExec_T ps _ c hnd rfl hInvA).2
      · rw [if_neg hqe]
        cases hmin : pythonMinBy (edfKey ps)
            (addArrivals ps st.current_time st.completed st.ready_queue (some c)) with
        | none =>
            dsimp only
            refine ⟨_, rfl, ?_, ?_⟩
            · exact (edfExec_T ps _ c hnd rfl hInvA).1
            · exact (edfExec_T ps _ c hnd rfl hInvA).2
        | some e =>
            dsimp only
            by_cases hpre : edfDeadline ps e < edfDeadline ps c
            · rw [if_pos hpre]
              dsimp only
              rw [if_neg (by simp)]
              cases hmin2 : pythonMinBy (edfKey ps)
                  (addArrivals ps st.current_time st.completed st.ready_queue
                    (some c) ++ [c]) with
              | none =>
                  exfalso
                  have := pythonMinBy_none _ _ hmin2
                  cases hA : addArrivals ps st.current_time st.completed
                      st.ready_queue (some c) with
                  | nil => rw [hA] at this; cases this
                  | cons y ys => rw [hA] at this; cases this
              | some c2 =>
                  dsimp only
                  have hc2 : c2 ∈ addArrivals ps st.current_time st.completed
                      st.ready_queue (some c) ++ [c] := pythonMinBy_mem _ _ _ hmin2
                  have hsub2 : ∀ x ∈ addArrivals ps st.current_time st.completed
                      st.ready_queue (some c) ++ [c], x ∈ ps.map (·.pid) := by
                    intro x hx
                    rcases List.mem_append.mp hx with hx | hx
                    · exact hq0sub x hx
                    · rw [List.mem_singleton.mp hx]; exact hcp
                  have hnc2 : ∀ x ∈ addArrivals ps st.current_time st.completed
                      st.ready_queue (some c) ++ [c], x ∉ st.completed := by
                    intro x hx
                    rcases List.mem_append.mp hx with hx | hx
                    · exact hq0nc x hx
                    · rw [List.mem_singleton.mp hx]; exact hcc
                  have hnod2 : (addArrivals ps st.current_time st.completed
                      st.ready_queue (some c) ++ [c]).Nodup :=
                    List.Nodup.append hq0nod (List.nodup_singleton c)
                      (fun a ha hb => absurd ha ((List.mem_singleton.mp hb) ▸ hcnA))
                  by_cases hfe : c2 ∉ st.first_execution
                  · rw [if_pos hfe]
                    refine ⟨_, rfl, ?_, ?_⟩
                    · exact (edfExec_T ps _ c2 hnd rfl
                        (hSel _ c2 _ _ hsub2 hnc2 hnod2 hc2)).1
                    · exact (edfExec_T ps _ c2 hnd rfl
                        (hSel _ c2 _ _ hsub2 hnc2 hnod2 hc2)).2
                  · rw [if_neg hfe]
                    refine ⟨_, rfl, ?_, ?_⟩
                    · exact (edfExec_T ps _ c2 hnd rfl
                        (hSel _ c2 _ _ hsub2 hnc2 hnod2 hc2)).1
                    · exact (edfExec_T ps _ c2 hnd rfl
                        (hSel _ c2 _ _ hsub2 hnc2 hnod2 hc2)).2
            · rw [if_neg hpre]
              refine ⟨_, rfl, ?_, ?_⟩
              · exact (edfExec_T ps _ c hnd rfl hInvA).1
              · exact (edfExec_T ps _ c hnd rfl hInvA).2


theorem edfRun_terminates2 (ps : List Process)
    (hnd : (ps.map (·.pid)).Nodup) :
    ∀ (fuel : Nat) (st : EDFState), edfTInv ps st →
    schedMu ps st.completed st.remaining st.current_time < fuel →
    (edfRun ps fuel st).isSome := by
  intro fuel
  induction fuel with
  | zero => intro st _ h; omega
  | succ fuel ih =>
      intro st hinv hmu
      unfold edfRun
      by_cases hd : ps.length ≤ st.completed.length
      · rw [if_pos hd]; rfl
      · rw [if_neg hd]
        obtain ⟨st2, hs, hinv2, hmu2⟩ := edfStep_progress ps st hnd hinv hd
        rw [hs]
        exact ih st2 hinv2 (by omega)

theorem edf_terminates (ps : List Process)
    (hnd : (ps.map (·.pid)).Nodup)
    (hb : ∀ p ∈ ps, 1 ≤ p.burst_time)
    (hrb : ∀ p ∈ ps, p.remaining_time = p.burst_time) :
    (edfRun ps (schedFuel ps) (edfInitState ps)).isSome := by
  apply edfRun_terminates2 ps hnd
  · exact ⟨cqInit ps, rfInit ps hnd hb hrb⟩
  · exact schedMu_init_lt ps hnd hb hrb


theorem rrExec_T (ps : List Process) (st : RRState) (c : Int)
    (hnd : (ps.map (·.pid)).Nodup)
    (hcur : st.current = some c)
    (hinv : rrTInv ps st) :
    rrTInv ps (rrExec st) ∧
      schedMu ps (rrExec st).completed (rrExec st).remaining
          (rrExec st).current_time <
        schedMu ps st.completed st.remaining st.current_time := by
  obtain ⟨⟨hcurnc, hcurp, hqsub, hqnc, hqnod, hcurq⟩, hrem, hkeys⟩ := hinv
  have hcp : c ∈ ps.map (·.pid) := hcurp c hcur
  have hcc : c ∉ st.completed := hcurnc c hcur
  have hcnq : c ∉ st.ready_queue := hcurq c hcur
  have hk : c ∈ st.remaining.map (·.1) := mem_keys_of_pids ps st.remaining c hkeys hcp
  have h1 : 1 ≤ lookupD st.remaining c 0 := hrem c hcp hcc
  unfold rrExec
  rw [hcur]
  dsimp only
  by_cases hr : lookupD st.remaining c 0 - 1 = 0
  · rw [if_pos hr]
    unfold rrTInv CurQFacts RemFacts
    dsimp only
    refine ⟨⟨⟨?_, ?_, hqsub, ?_, hqnod, ?_⟩, ?_, ?_⟩, ?_⟩
    · intro x hx; cases hx
    · intro x hx; cases hx
    · intro x hx
      rw [mem_addCompleted]
      rintro (hh | hh)
      · exact hqnc x hx hh
      · rw [hh] at hx; exact hcnq hx
    · intro x hx; cases hx
    · intro pid2 hpid2 hpc2
      by_cases hpe : pid2 = c
      · exact absurd ((mem_addCompleted _ _ _).mpr (Or.inr hpe)) hpc2
      · rw [lookupD_updateAssoc_ne _ _ _ _ _ hpe]
        exact hrem pid2 hpid2 (fun hh =>
          hpc2 ((mem_addCompleted _ _ _).mpr (Or.inl hh)))
    · rw [updateAssoc_keys]
      exact hkeys
    · unfold schedMu
      have hrc := remSum_complete ps st.completed st.remaining c
        (lookupD st.remaining c 0 - 1) hnd hcp hcc h1
      have hfc := futCount_mono ps st.current_time (st.current_time + 1) (by omega)
      omega
  · rw [if_neg hr]
    unfold rrTInv CurQFacts RemFacts
    dsimp only
    refine ⟨⟨⟨?_, ?_, hqsub, hqnc, hqnod, ?_⟩, ?_, ?_⟩, ?_⟩
    · intro x hx; injection hx with hx; rw [← hx]; exact hcc
    · intro x hx; injection hx with hx; rw [← hx]; exact hcp
    · intro x hx; injection hx with hx; rw [← hx]; exact hcnq
    · intro pid2 hpid2 hpc2
      by_cases hpe : pid2 = c
      · subst hpe
        rw [lookupD_updateAssoc_self _ _ _ _ hk]
        omega
      · rw [lookupD_updateAssoc_ne _ _ _ _ _ hpe]
        exact hrem pid2 hpid2 hpc2
    · rw [updateAssoc_keys]
      exact hkeys
    · unfold schedMu
      have hre := remSum_exec ps st.completed st.remaining c hnd hcp hcc h1 hk
      have hfc := futCount_mono ps st.current_time (st.current_time + 1) (by omega)
      omega

theorem rrStep_progress (q : Int) (ps : List Process) (st : RRState)
    (hnd : (ps.map (·.pid)).Nodup)
    (hinv : rrTInv ps st)
    (hndone : ¬ ps.length ≤ st.completed.length) :
    ∃ st2, rrStep q ps st = some st2 ∧ rrTInv ps st2 ∧
      schedMu ps st2.completed st2.remaining st2.current_time <
        schedMu ps st.completed st.remaining st.current_time := by
  obtain ⟨⟨hcurnc, hcurp, hqsub, hqnc, hqnod, hcurq⟩, hrem, hkeys⟩ := hinv
  have hps : ∀ p ∈ ps, p.pid ∉ st.completed → p.pid ∈ ps.map (·.pid) :=
    fun p hp _ => List.mem_map.mpr ⟨p, hp, rfl⟩
  unfold rrStep
  dsimp only
  cases hcur : st.current with
  | none =>
      have hq0sub : ∀ x ∈ addArrivals ps st.current_time st.completed
          st.ready_queue none, x ∈ ps.map (·.pid) :=
        addArrivals_all ps st.current_time st.completed none st.ready_queue hqsub hps
      have hq0nc : ∀ x ∈ addArrivals ps st.current_time st.completed
          st.ready_queue none, x ∉ st.completed :=
        addArrivals_all ps st.current_time st.completed none st.ready_queue hqnc
          (fun _ _ hpc => hpc)
      have hq0nod : (addArrivals ps st.current_time st.completed
          st.ready_queue none).Nodup :=
        addArrivals_nodup ps st.current_time st.completed none st.ready_queue hqnod
      rw [if_pos (Or.inl rfl)]
      dsimp only
      by_cases hqe : (addArrivals ps st.current_time st.completed
          st.ready_queue none).isEmpty
      · rw [if_pos ⟨hqe, rfl⟩]
        obtain ⟨p0, hp0, hp0c⟩ := exists_incomplete ps st.completed hnd hndone
        have hp0a : st.current_time < p0.arrival_time := by
          by_contra hle
          push_neg at hle
          have := addArrivals_mem ps st.current_time st.completed none
            st.ready_queue p0 hp0 hle hp0c (by intro hh; cases hh)
          rw [List.isEmpty_iff.mp hqe] at this
          cases this
        cases hna : nextArrivalAfter ps st.completed st.current_time with
        | none =>
            exfalso
            unfold nextArrivalAfter at hna
            have := pythonMinInt_none _ hna
            rw [List.map_eq_nil, List.filter_eq_nil] at this
            exact this p0 hp0 (decide_eq_true ⟨hp0c, hp0a⟩)
        | some a =>
            refine ⟨_, rfl, ?_, ?_⟩
            · unfold rrTInv CurQFacts RemFacts
              dsimp only
              refine ⟨⟨?_, ?_, hq0sub, hq0nc, hq0nod, ?_⟩, hrem, hkeys⟩
              · intro x hx; cases hx
              · intro x hx; cases hx
              · intro x hx; cases hx
            · dsimp only
              unfold nextArrivalAfter at hna
              have hmem := pythonMinInt_mem _ _ hna
              rcases List.mem_map.mp hmem with ⟨p1, hp1f, he1⟩
              rcases List.mem_filter.mp hp1f with ⟨hp1, hp1c⟩
              have hp1c2 := of_decide_eq_true hp1c
              have hfc : futCount ps a < futCount ps st.current_time :=
                futCount_lt ps st.current_time a p1 hp1 hp1c2.2 (by rw [he1])
              unfold schedMu
              omega
      · rw [if_neg (fun h => hqe h.1)]
        cases hA : addArrivals ps st.current_time st.completed
            st.ready_queue none with
        | nil =>
            rw [hA] at hqe
            exact absurd rfl hqe
        | cons c2 rest =>
            rw [hA] at hq0sub hq0nc hq0nod
            dsimp only
            have hInvD : ∀ (rt : List (Int × Int)) (fe : List Int),
                rrTInv ps ⟨st.current_time, st.completed,
                st.completion_times, rt, rest, some c2, q,
                st.remaining, fe, st.ganttRev, st.stepsRev⟩ := by
              intro rt fe
              unfold rrTInv CurQFacts RemFacts
              dsimp only
              rcases List.nodup_cons.mp hq0nod with ⟨hc2r, hrnod⟩
              refine ⟨⟨?_, ?_, ?_, ?_, hrnod, ?_⟩, hrem, hkeys⟩
              · intro x hx; injection hx with hx; rw [← hx]
                exact hq0nc c2 (List.mem_cons_self _ _)
              · intro x hx; injection hx with hx; rw [← hx]
                exact hq0sub c2 (List.mem_cons_self _ _)
              · exact fun x hx => hq0sub x (List.mem_cons_of_mem _ hx)
              · exact fun x hx => hq0nc x (List.mem_cons_of_mem _ hx)
              · intro x hx; injection hx with hx; rw [← hx]; exact hc2r
            by_cases hfe : c2 ∉ st.first_execution
            · rw [if_pos hfe]
              refine ⟨_, rfl, ?_, ?_⟩
              · exact (rrExec_T ps _ c2 hnd rfl (hInvD _ _)).1
              · exact (rrExec_T ps _ c2 hnd rfl (hInvD _ _)).2
            · rw [if_neg hfe]
              refine ⟨_, rfl, ?_, ?_⟩
              · exact (rrExec_T ps _ c2 hnd rfl (hInvD _ _)).1
              · exact (rrExec_T ps _ c2 hnd rfl (hInvD _ _)).2
  | some c =>
      have hq0sub : ∀ x ∈ addArrivals ps st.current_time st.completed
          st.ready_queue (some c), x ∈ ps.map (·.pid) :=
        addArrivals_all ps st.current_time st.completed (some c) st.ready_queue
          hqsub hps
      have hq0nc : ∀ x ∈ addArrivals ps st.current_time st.completed
          st.ready_queue (some c), x ∉ st.completed :=
        addArrivals_all ps st.current_time st.completed (some c) st.ready_queue hqnc
          (fun _ _ hpc => hpc)
      have hq0nod : (addArrivals ps st.current_time st.completed
          st.ready_queue (some c)).Nodup :=
        addArrivals_nodup ps st.current_time st.completed (some c) st.ready_queue hqnod
      have hcnA : c ∉ addArrivals ps st.current_time st.completed
          st.ready_queue (some c) :=
        addArrivals_not_current ps st.current_time st.completed c st.ready_queue
          (hcurq c hcur)
      have hcp : c ∈ ps.map (·.pid) := hcurp c hcur
      have hcc : c ∉ st.completed := hcurnc c hcur
      have h1 : 1 ≤ lookupD st.remaining c 0 := hrem c hcp hcc
      by_cases hqr : st.quantum_remaining = (0 : Int)
      · rw [if_pos (Or.inr hqr)]
        dsimp only
        rw [if_pos (by omega : 0 < lookupD st.remaining c 0)]
        rw [if_neg (fun h => Option.noConfusion h.2)]
        cases hA : addArrivals ps st.current_time st.completed
            st.ready_queue (some c) with
        | nil =>
            simp only [List.nil_append]
            have hInvD : ∀ (rt : List (Int × Int)) (fe : List Int),
                rrTInv ps ⟨st.current_time, st.completed,
                st.completion_times, rt, [], some c, q,
                st.remaining, fe, st.ganttRev, st.stepsRev⟩ := by
              intro rt fe
              unfold rrTInv CurQFacts RemFacts
              dsimp only
              refine ⟨⟨?_, ?_, ?_, ?_, List.nodup_nil, ?_⟩, hrem, hkeys⟩
              · intro x hx; injection hx with hx; rw [← hx]; exact hcc
              · intro x hx; injection hx with hx; rw [← hx]; exact hcp
              · intro x hx; cases hx
              · intro x hx; cases hx
              · intro x hx; intro hh; cases hh
            by_cases hfe : c ∉ st.first_execution
            · rw [if_pos hfe]
              refine ⟨_, rfl, ?_, ?_⟩
              · exact (rrExec_T ps _ c hnd rfl (hInvD _ _)).1
              · exact (rrExec_T ps _ c hnd rfl (hInvD _ _)).2
            · rw [if_neg hfe]
              refine ⟨_, rfl, ?_, ?_⟩
              · exact (rrExec_T ps _ c hnd rfl (hInvD _ _)).1
              · exact (rrExec_T ps _ c hnd rfl (hInvD _ _)).2
        | cons y ys =>
            rw [hA] at hq0sub hq0nc hq0nod hcnA
            simp only [List.cons_append]
            have hnodA : (y :: (ys ++ [c])).Nodup := by
              rw [← List.cons_append]
              exact List.Nodup.append hq0nod (List.nodup_singleton c)
                (fun a ha hb => absurd ha ((List.mem_singleton.mp hb) ▸ hcnA))
            rcases List.nodup_cons.mp hnodA with ⟨hyr, hrnod⟩
            have hsubA : ∀ x ∈ y :: (ys ++ [c]), x ∈ ps.map (·.pid) := by
              intro x hx
              rcases List.mem_cons.mp hx with hx | hx
              · exact hq0sub x (hx ▸ List.mem_cons_self _ _)
              · rcases List.mem_append.mp hx with hx | hx
                · exact hq0sub x (List.mem_cons_of_mem _ hx)
                · rw [List.mem_singleton.mp hx]; exact hcp
            have hncA : ∀ x ∈ y :: (ys ++ [c]), x ∉ st.completed := by
              intro x hx
              rcases List.mem_cons.mp hx with hx | hx
              · exact hq0nc x (hx ▸ List.mem_cons_self _ _)
              · rcases List.mem_append.mp hx with hx | hx
                · exact hq0nc x (List.mem_cons_of_mem _ hx)
                · rw [List.mem_singleton.mp hx]; exact hcc
            have hInvD : ∀ (rt : List (Int × Int)) (fe : List Int),
                rrTInv ps ⟨st.current_time, st.completed,
                st.completion_times, rt, ys ++ [c], some y, q,
                st.remaining, fe, st.ganttRev, st.stepsRev⟩ := by
              intro rt fe
              unfold rrTInv CurQFacts RemFacts
              dsimp only
              refine ⟨⟨?_, ?_, ?_, ?_, hrnod, ?_⟩, hrem, hkeys⟩
              · intro x hx; injection hx with hx; rw [← hx]
                exact hncA y (List.mem_cons_self _ _)
              · intro x hx; injection hx with hx; rw [← hx]
                exact hsubA y (List.mem_cons_self _ _)
              · exact fun x hx => hsubA x (List.mem_cons_of_mem _ hx)
              · exact fun x hx => hncA x (List.mem_cons_of_mem _ hx)
              · intro x hx; injection hx with hx; rw [← hx]; exact hyr
            by_cases hfe : y ∉ st.first_execution
            · rw [if_pos hfe]
              refine ⟨_, rfl, ?_, ?_⟩
              · exact (rrExec_T ps _ y hnd rfl (hInvD _ _)).1
              · exact (rrExec_T ps _ y hnd rfl (hInvD _ _)).2
            · rw [if_neg hfe]
              refine ⟨_, rfl, ?_, ?_⟩
              · exact (rrExec_T ps _ y hnd rfl (hInvD _ _)).1
              · exact (rrExec_T ps _ y hnd rfl (hInvD _ _)).2
      · rw [if_neg (by simp [hqr])]
        have hInvA : rrTInv ps ⟨st.current_time, st.completed,
            st.completion_times, st.response_times,
            addArrivals ps st.current_time st.completed st.ready_queue (some c),
            some c, st.quantum_remaining, st.remaining, st.first_execution,
            st.ganttRev, st.stepsRev⟩ := by
          unfold rrTInv CurQFacts RemFacts
          dsimp only
          refine ⟨⟨?_, ?_, hq0sub, hq0nc, hq0nod, ?_⟩, hrem, hkeys⟩
          · intro x hx; injection hx with hx; rw [← hx]; exact hcc
          · intro x hx; injection hx with hx; rw [← hx]; exact hcp
          · intro x hx; injection hx with hx; rw [← hx]; exact hcnA
        refine ⟨_, rfl, ?_, ?_⟩
        · exact (rrExec_T ps _ c hnd rfl hInvA).1
        · exact (rrExec_T ps _ c hnd rfl hInvA).2

theorem rrRun_terminates (q : Int) (ps : List Process)
    (hnd : (ps.map (·.pid)).Nodup) :
    ∀ (fuel : Nat) (st : RRState), rrTInv ps st →
    schedMu ps st.completed st.remaining st.current_time < fuel →
    (rrRun q ps fuel st).isSome := by
  intro fuel
  induction fuel with
  | zero => intro st _ h; omega
  | succ fuel ih =>
      intro st hinv hmu
      unfold rrRun
      by_cases hd : ps.length ≤ st.completed.length
      · rw [if_pos hd]; rfl
      · rw [if_neg hd]
        obtain ⟨st2, hs, hinv2, hmu2⟩ := rrStep_progress q ps st hnd hinv hd
        rw [hs]
        exact ih st2 hinv2 (by omega)

theorem rr_terminates (q : Int) (ps : List Process)
    (hnd : (ps.map (·.pid)).Nodup)
    (hb : ∀ p ∈ ps, 1 ≤ p.burst_time)
    (hrb : ∀ p ∈ ps, p.remaining_time = p.burst_time) :
    (rrRun q ps (schedFuel ps) (rrInitState ps)).isSome := by
  apply rrRun_terminates q ps hnd
  · exact ⟨cqInit ps, rfInit ps hnd hb hrb⟩
  · exact schedMu_init_lt ps hnd hb hrb

theorem getD_queues (qs : List (List Int)) (lv : Nat) :
    qs.getD lv [] = (qs.get? lv).getD [] := by
  simp [List.getD_eq_getElem?_getD, List.get?_eq_getElem?]

theorem mem_getD_queues (qs : List (List Int)) (lv : Nat) (x : Int)
    (hx : x ∈ qs.getD lv []) : ∃ q, qs.get? lv = some q ∧ x ∈ q := by
  rw [getD_queues] at hx
  cases hq : qs.get? lv with
  | none => rw [hq] at hx; cases hx
  | some q => rw [hq] at hx; exact ⟨q, rfl, hx⟩

theorem get?_set_self_q (qs : List (List Int)) (lv : Nat) (Q : List Int)
    (h : lv < qs.length) : (qs.set lv Q).get? lv = some Q := by
  rw [List.get?_set_eq]
  cases hq : qs.get? lv with
  | none =>
      rw [List.get?_eq_none] at hq
      omega
  | some q => rfl

theorem getD_of_lt (qs : List (List Int)) (lv : Nat) (h : lv < qs.length) :
    qs.get? lv = some (qs.getD lv []) := by
  rw [getD_queues]
  cases hq : qs.get? lv with
  | none =>
      rw [List.get?_eq_none] at hq
      omega
  | some q => rfl

theorem mlfqFirst_none (qs : List (List Int)) :
    ∀ (lv0 : Nat), mlfqFirst qs lv0 = none →
    ∀ (lv : Nat) (q : List Int), qs.get? lv = some q → q = [] := by
  induction qs with
  | nil => intro lv0 _ lv q hq; cases hq
  | cons q0 rest ih =>
      intro lv0 h lv q hq
      unfold mlfqFirst at h
      cases hq0 : q0 with
      | cons pid tl => rw [hq0] at h; cases h
      | nil =>
          rw [hq0] at h
          cases lv with
          | zero =>
              rw [List.get?_cons_zero] at hq
              injection hq with hq
              rw [← hq, hq0]
          | succ lv2 =>
              rw [List.get?_cons_succ] at hq
              exact ih (lv0 + 1) h lv2 q hq

theorem mlfqFirst_spec (qs : List (List Int)) :
    ∀ (lv0 lv : Nat) (c : Int), mlfqFirst qs lv0 = some (lv, c) →
    lv0 ≤ lv ∧ ∃ rest, qs.get? (lv - lv0) = some (c :: rest) := by
  induction qs with
  | nil => intro lv0 lv c h; cases h
  | cons q0 rest ih =>
      intro lv0 lv c h
      unfold mlfqFirst at h
      cases hq0 : q0 with
      | cons pid tl =>
          rw [hq0] at h
          injection h with h
          have h1 : lv0 = lv := congrArg Prod.fst h
          have h2 : pid = c := congrArg Prod.snd h
          refine ⟨by omega, tl, ?_⟩
          rw [show lv - lv0 = 0 by omega, List.get?_cons_zero, h2]
      | nil =>
          rw [hq0] at h
          obtain ⟨hle, rest2, hget⟩ := ih (lv0 + 1) lv c h
          refine ⟨by omega, rest2, ?_⟩
          rw [show lv - lv0 = (lv - (lv0 + 1)) + 1 by omega, List.get?_cons_succ]
          exact hget

theorem mlfq_foldl_pres {α : Type} (Inv : MLFQState → Prop)
    (f : MLFQState → α → MLFQState) (l : List α)
    (h : ∀ st x, x ∈ l → Inv st → Inv (f st x)) :
    ∀ (st : MLFQState), Inv st → Inv (l.foldl f st) := by
  induction l with
  | nil => intro st hst; exact hst
  | cons x rest ih =>
      intro st hst
      rw [List.foldl_cons]
      exact ih (fun st2 y hy hs => h st2 y (List.mem_cons_of_mem x hy) hs)
        (f st x) (h st x (List.mem_cons_self x rest) hst)

theorem mlfqArrivals_proj (ps : List Process) (st : MLFQState) :
    (mlfqArrivals ps st).current_time = st.current_time ∧
    (mlfqArrivals ps st).completed = st.completed ∧
    (mlfqArrivals ps st).current = st.current ∧
    (mlfqArrivals ps st).remaining = st.remaining ∧
    (mlfqArrivals ps st).quantum_remaining = st.quantum_remaining ∧
    (mlfqArrivals ps st).current_queue_level = st.current_queue_level := by
  unfold mlfqArrivals
  apply mlfq_foldl_pres (fun s => s.current_time = st.current_time ∧
    s.completed = st.completed ∧ s.current = st.current ∧
    s.remaining = st.remaining ∧ s.quantum_remaining = st.quantum_remaining ∧
    s.current_queue_level = st.current_queue_level)
  · intro s p _ hs
    dsimp only
    split_ifs <;> exact hs
  · exact ⟨rfl, rfl, rfl, rfl, rfl, rfl⟩

theorem mlfqAge_proj (aging : Int) (st : MLFQState) :
    (mlfqAge aging st).current_time = st.current_time ∧
    (mlfqAge aging st).completed = st.completed ∧
    (mlfqAge aging st).current = st.current ∧
    (mlfqAge aging st).remaining = st.remaining ∧
    (mlfqAge aging st).quantum_remaining = st.quantum_remaining ∧
    (mlfqAge aging st).current_queue_level = st.current_queue_level := by
  unfold mlfqAge
  apply mlfq_foldl_pres (fun s => s.current_time = st.current_time ∧
    s.completed = st.completed ∧ s.current = st.current ∧
    s.remaining = st.remaining ∧ s.quantum_remaining = st.quantum_remaining ∧
    s.current_queue_level = st.current_queue_level)
  · intro s pid2 _ hs
    dsimp only
    split_ifs <;> exact hs
  · exact ⟨rfl, rfl, rfl, rfl, rfl, rfl⟩

theorem mlfqAge_keys (aging : Int) (st : MLFQState) (x : Int)
    (hx : x ∈ st.queue_level.map (·.1)) :
    x ∈ (mlfqAge aging st).queue_level.map (·.1) := by
  unfold mlfqAge
  apply mlfq_foldl_pres (fun s => x ∈ s.queue_level.map (·.1))
  · intro s pid2 _ hs
    dsimp only
    split_ifs <;> first
      | exact hs
      | (dsimp only; rw [updateAssoc_keys]; exact hs)
  · exact hx

theorem mlfqArrivals_keys (ps : List Process) (st : MLFQState) (x : Int)
    (hx : x ∈ st.queue_level.map (·.1)) :
    x ∈ (mlfqArrivals ps st).queue_level.map (·.1) := by
  unfold mlfqArrivals
  apply mlfq_foldl_pres (fun s => x ∈ s.queue_level.map (·.1))
  · intro s p _ hs
    dsimp only
    split_ifs
    · dsimp only
      rw [List.map_append]
      exact List.mem_append.mpr (Or.inl hs)
    · exact hs
  · exact hx

theorem mlfqArrivals_mem_aux :
    ∀ (l : List Process) (st : MLFQState) (p : Process),
    p.arrival_time ≤ st.current_time → p.pid ∉ st.completed →
    st.current ≠ some p.pid →
    (p ∈ l ∨ p.pid ∈ st.queue_level.map (·.1)) →
    p.pid ∈ (l.foldl
      (fun st p =>
        if p.arrival_time ≤ st.current_time ∧ p.pid ∉ st.completed ∧
           p.pid ∉ st.queue_level.map (·.1) ∧ st.current ≠ some p.pid then
          { st with
            queues := st.queues.set 0 (st.queues.getD 0 [] ++ [p.pid]),
            queue_level := st.queue_level ++ [(p.pid, 0)],
            waiting_time := st.waiting_time ++ [(p.pid, 0)] }
        else st)
      st).queue_level.map (·.1) := by
  intro l
  induction l with
  | nil =>
      intro st p _ _ _ hor
      rcases hor with hor | hor
      · cases hor
      · exact hor
  | cons q rest ih =>
      intro st p ha hc hcur hor
      rw [List.foldl_cons]
      by_cases hg : q.arrival_time ≤ st.current_time ∧ q.pid ∉ st.completed ∧
          q.pid ∉ st.queue_level.map (·.1) ∧ st.current ≠ some q.pid
      · rw [if_pos hg]
        refine ih _ p ?_ ?_ ?_ ?_
        · exact ha
        · exact hc
        · exact hcur
        · rcases hor with hor | hor
          · rcases List.mem_cons.mp hor with hpq | hpr
            · subst hpq
              refine Or.inr ?_
              dsimp only
              rw [List.map_append]
              exact List.mem_append.mpr (Or.inr (by simp))
            · exact Or.inl hpr
          · refine Or.inr ?_
            dsimp only
            rw [List.map_append]
            exact List.mem_append.mpr (Or.inl hor)
      · rw [if_neg hg]
        rcases hor with hor | hor
        · rcases List.mem_cons.mp hor with hpq | hpr
          · subst hpq
            have hreg : p.pid ∈ st.queue_level.map (·.1) := by
              by_contra hnr
              exact hg ⟨ha, hc, hnr, hcur⟩
            exact ih st p ha hc hcur (Or.inr hreg)
          · exact ih st p ha hc hcur (Or.inl hpr)
        · exact ih st p ha hc hcur (Or.inr hor)

theorem mlfqArrivals_mem (ps : List Process) (st : MLFQState) (p : Process)
    (hp : p ∈ ps) (ha : p.arrival_time ≤ st.current_time)
    (hc : p.pid ∉ st.completed) (hcur : st.current ≠ some p.pid) :
    p.pid ∈ (mlfqArrivals ps st).queue_level.map (·.1) := by
  unfold mlfqArrivals
  exact mlfqArrivals_mem_aux ps st p ha hc hcur (Or.inl hp)

theorem mlfqArrUpd_pres (nq : Nat) (ps : List Process) (st : MLFQState) (p : Process)
    (hp : p ∈ ps) (hnq : 0 < nq) (hinv : mlfqTInv nq ps st)
    (hg2 : p.pid ∉ st.completed) (hg3 : p.pid ∉ st.queue_level.map (·.1))
    (hg4 : st.current ≠ some p.pid) :
    mlfqTInv nq ps { st with
      queues := st.queues.set 0 (st.queues.getD 0 [] ++ [p.pid]),
      queue_level := st.queue_level ++ [(p.pid, 0)],
      waiting_time := st.waiting_time ++ [(p.pid, 0)] } := by
  obtain ⟨h1, h2, h3, h4, h5, h6, h7, h8, h9, h10⟩ := hinv
  have hlen : 0 < st.queues.length := by omega
  have hq00 : st.queues.get? 0 = some (st.queues.getD 0 []) := getD_of_lt _ _ hlen
  have hGet : ∀ (lv : Nat) (q2 : List Int),
      (st.queues.set 0 (st.queues.getD 0 [] ++ [p.pid])).get? lv = some q2 →
      (lv = 0 ∧ q2 = st.queues.getD 0 [] ++ [p.pid]) ∨
      (lv ≠ 0 ∧ st.queues.get? lv = some q2) := by
    intro lv q2 hq2
    by_cases h0 : lv = 0
    · subst h0
      rw [get?_set_self_q _ _ _ hlen] at hq2
      injection hq2 with hq2
      exact Or.inl ⟨rfl, hq2.symm⟩
    · rw [List.get?_set_ne _ _ (fun hh => h0 hh.symm)] at hq2
      exact Or.inr ⟨h0, hq2⟩
  have hkeys2 : ∀ x, x ∈ st.queue_level.map (·.1) →
      x ∈ (st.queue_level ++ [(p.pid, 0)]).map (fun kv : Int × Nat => kv.1) := by
    intro x hx
    rw [List.map_append]
    exact List.mem_append.mpr (Or.inl hx)
  unfold mlfqTInv
  dsimp only
  refine ⟨h1, h2, h3, ?_, ?_, ?_, ?_, ?_, ?_, ?_⟩
  · intro c hc
    exact hkeys2 c (h4 c hc)
  · intro lv q2 hq2 x hx
    rcases hGet lv q2 hq2 with ⟨_, hq⟩ | ⟨_, hq⟩
    · subst hq
      rcases List.mem_append.mp hx with hx | hx
      · obtain ⟨ha, hb, hc⟩ := h5 0 _ hq00 x hx
        exact ⟨ha, hb, hkeys2 x hc⟩
      · rw [List.mem_singleton.mp hx]
        refine ⟨List.mem_map.mpr ⟨p, hp, rfl⟩, hg2, ?_⟩
        rw [List.map_append]
        exact List.mem_append.mpr (Or.inr (by simp))
    · obtain ⟨ha, hb, hc⟩ := h5 lv q2 hq x hx
      exact ⟨ha, hb, hkeys2 x hc⟩
  · intro x hxk hxc hxcur
    rw [List.map_append] at hxk
    rcases List.mem_append.mp hxk with hxk | hxk
    · obtain ⟨lv, q, hq, hxq⟩ := h6 x hxk hxc hxcur
      by_cases h0 : lv = 0
      · subst h0
        rw [hq00] at hq
        injection hq with hq
        refine ⟨0, _, get?_set_self_q _ _ _ hlen, ?_⟩
        exact List.mem_append.mpr (Or.inl (hq ▸ hxq))
      · exact ⟨lv, q, by
          rw [List.get?_set_ne _ _ (fun hh => h0 hh.symm)]; exact hq, hxq⟩
    · have hxp : x = p.pid := by simpa using hxk
      refine ⟨0, _, get?_set_self_q _ _ _ hlen, ?_⟩
      exact List.mem_append.mpr (Or.inr (by simp [hxp]))
  · intro lv q2 hq2
    rcases hGet lv q2 hq2 with ⟨_, hq⟩ | ⟨_, hq⟩
    · subst hq
      refine List.Nodup.append (h7 0 _ hq00) (List.nodup_singleton _) ?_
      intro a ha hb
      rw [List.mem_singleton.mp hb] at ha
      exact hg3 (h5 0 _ hq00 p.pid ha).2.2
    · exact h7 lv q2 hq
  · intro lv1 q1 lv2 q2 x hq1 hq2 hx1 hx2
    rcases hGet lv1 q1 hq1 with ⟨he1, hq1'⟩ | ⟨hn1, hq1'⟩ <;>
      rcases hGet lv2 q2 hq2 with ⟨he2, hq2'⟩ | ⟨hn2, hq2'⟩
    · rw [he1, he2]
    · subst hq1'
      rcases List.mem_append.mp hx1 with hx1 | hx1
      · exact absurd (h8 0 _ lv2 q2 x hq00 hq2' hx1 hx2).symm hn2
      · rw [List.mem_singleton.mp hx1] at hx2
        exact absurd (h5 lv2 q2 hq2' p.pid hx2).2.2 hg3
    · subst hq2'
      rcases List.mem_append.mp hx2 with hx2 | hx2
      · exact absurd (h8 lv1 q1 0 _ x hq1' hq00 hx1 hx2) hn1
      · rw [List.mem_singleton.mp hx2] at hx1
        exact absurd (h5 lv1 q1 hq1' p.pid hx1).2.2 hg3
    · exact h8 lv1 q1 lv2 q2 x hq1' hq2' hx1 hx2
  · intro c lv q2 hc hq2
    rcases hGet lv q2 hq2 with ⟨_, hq⟩ | ⟨_, hq⟩
    · subst hq
      intro hcm
      rcases List.mem_append.mp hcm with hcm | hcm
      · exact h9 c 0 _ hc hq00 hcm
      · rw [List.mem_singleton.mp hcm] at hc
        exact hg4 hc
    · exact h9 c lv q2 hc hq
  · rw [List.length_set]
    exact h10

theorem mlfqArrivals_inv (nq : Nat) (ps : List Process) (st : MLFQState)
    (hnq : 0 < nq) (hinv : mlfqTInv nq ps st) :
    mlfqTInv nq ps (mlfqArrivals ps st) := by
  unfold mlfqArrivals
  apply mlfq_foldl_pres (mlfqTInv nq ps)
  · intro s p hp hs
    dsimp only
    by_cases hg : p.arrival_time ≤ s.current_time ∧ p.pid ∉ s.completed ∧
        p.pid ∉ s.queue_level.map (·.1) ∧ s.current ≠ some p.pid
    · rw [if_pos hg]
      exact mlfqArrUpd_pres nq ps s p hp hnq hs hg.2.1 hg.2.2.1 hg.2.2.2
    · rw [if_neg hg]
      exact hs
  · exact hinv

theorem mlfqAgeMove_pres (nq : Nat) (ps : List Process) (st : MLFQState)
    (pid2 : Int) (lv : Nat) (W : List (Int × Int))
    (hinv : mlfqTInv nq ps st)
    (hnc : pid2 ∉ st.completed) (hcur : st.current ≠ some pid2)
    (hlv : 0 < lv) (hmem : pid2 ∈ st.queues.getD lv []) :
    mlfqTInv nq ps { st with
      queues := (st.queues.set lv ((st.queues.getD lv []).erase pid2)).set (lv - 1)
        (st.queues.getD (lv - 1) [] ++ [pid2]),
      queue_level := updateAssoc st.queue_level pid2 (lv - 1),
      waiting_time := W } := by
  obtain ⟨h1, h2, h3, h4, h5, h6, h7, h8, h9, h10⟩ := hinv
  obtain ⟨qlv0, hq0, _⟩ := mem_getD_queues st.queues lv pid2 hmem
  have hlt : lv < st.queues.length := by
    rcases List.get?_eq_some.mp hq0 with ⟨h, _⟩
    exact h
  have hnlt : lv - 1 < st.queues.length := by omega
  have hne : lv - 1 ≠ lv := by omega
  have hqlv : st.queues.get? lv = some (st.queues.getD lv []) := getD_of_lt _ _ hlt
  have hqnl : st.queues.get? (lv - 1) = some (st.queues.getD (lv - 1) []) :=
    getD_of_lt _ _ hnlt
  have hpfacts := h5 lv _ hqlv pid2 hmem
  have hpnl : pid2 ∉ st.queues.getD (lv - 1) [] := by
    intro hh
    exact hne (h8 (lv - 1) _ lv _ pid2 hqnl hqlv hh hmem)
  have hnodlv : (st.queues.getD lv []).Nodup := h7 lv _ hqlv
  have hGnl : ((st.queues.set lv ((st.queues.getD lv []).erase pid2)).set (lv - 1)
      (st.queues.getD (lv - 1) [] ++ [pid2])).get? (lv - 1) =
      some (st.queues.getD (lv - 1) [] ++ [pid2]) :=
    get?_set_self_q _ _ _ (by rw [List.length_set]; exact hnlt)
  have hGlv : ((st.queues.set lv ((st.queues.getD lv []).erase pid2)).set (lv - 1)
      (st.queues.getD (lv - 1) [] ++ [pid2])).get? lv =
      some ((st.queues.getD lv []).erase pid2) := by
    rw [List.get?_set_ne _ _ hne]
    exact get?_set_self_q _ _ _ hlt
  have hGet : ∀ (l : Nat) (q2 : List Int),
      ((st.queues.set lv ((st.queues.getD lv []).erase pid2)).set (lv - 1)
        (st.queues.getD (lv - 1) [] ++ [pid2])).get? l = some q2 →
      (l = lv - 1 ∧ q2 = st.queues.getD (lv - 1) [] ++ [pid2]) ∨
      (l = lv ∧ q2 = (st.queues.getD lv []).erase pid2) ∨
      (l ≠ lv - 1 ∧ l ≠ lv ∧ st.queues.get? l = some q2) := by
    intro l q2 hq2
    by_cases hl1 : l = lv - 1
    · subst hl1
      rw [hGnl] at hq2
      injection hq2 with hq2
      exact Or.inl ⟨rfl, hq2.symm⟩
    · rw [List.get?_set_ne _ _ (fun hh => hl1 hh.symm)] at hq2
      by_cases hl2 : l = lv
      · subst hl2
        rw [get?_set_self_q _ _ _ hlt] at hq2
        injection hq2 with hq2
        exact Or.inr (Or.inl ⟨rfl, hq2.symm⟩)
      · rw [List.get?_set_ne _ _ (fun hh => hl2 hh.symm)] at hq2
        exact Or.inr (Or.inr ⟨hl1, hl2, hq2⟩)
  have hBack : ∀ (l : Nat) (q2 : List Int) (x : Int),
      ((st.queues.set lv ((st.queues.getD lv []).erase pid2)).set (lv - 1)
        (st.queues.getD (lv - 1) [] ++ [pid2])).get? l = some q2 →
      x ∈ q2 → x ≠ pid2 → ∃ qo, st.queues.get? l = some qo ∧ x ∈ qo := by
    intro l q2 x hq2 hx hxne
    rcases hGet l q2 hq2 with ⟨hl, hq⟩ | ⟨hl, hq⟩ | ⟨_, _, hq⟩
    · subst hl hq
      rcases List.mem_append.mp hx with hx | hx
      · exact ⟨_, hqnl, hx⟩
      · exact absurd (List.mem_singleton.mp hx) hxne
    · subst hl hq
      exact ⟨_, hqlv, List.mem_of_mem_erase hx⟩
    · exact ⟨q2, hq, hx⟩
  have hPid : ∀ (l : Nat) (q2 : List Int),
      ((st.queues.set lv ((st.queues.getD lv []).erase pid2)).set (lv - 1)
        (st.queues.getD (lv - 1) [] ++ [pid2])).get? l = some q2 →
      pid2 ∈ q2 → l = lv - 1 := by
    intro l q2 hq2 hx
    rcases hGet l q2 hq2 with ⟨hl, _⟩ | ⟨hl, hq⟩ | ⟨_, hl2, hq⟩
    · exact hl
    · subst hq
      exact absurd hx (hnodlv.not_mem_erase)
    · exact absurd (h8 l q2 lv _ pid2 hq hqlv hx hmem) hl2
  unfold mlfqTInv
  dsimp only
  refine ⟨h1, h2, h3, ?_, ?_, ?_, ?_, ?_, ?_, ?_⟩
  · intro c hc
    rw [updateAssoc_keys]
    exact h4 c hc
  · intro l q2 hq2 x hx
    rw [updateAssoc_keys]
    rcases hGet l q2 hq2 with ⟨_, hq⟩ | ⟨_, hq⟩ | ⟨_, _, hq⟩
    · subst hq
      rcases List.mem_append.mp hx with hx | hx
      · exact h5 (lv - 1) _ hqnl x hx
      · rw [List.mem_singleton.mp hx]
        exact hpfacts
    · subst hq
      exact h5 lv _ hqlv x (List.mem_of_mem_erase hx)
    · exact h5 l q2 hq x hx
  · intro x hxk hxc hxcur
    rw [updateAssoc_keys] at hxk
    by_cases hx2 : x = pid2
    · subst hx2
      exact ⟨lv - 1, _, hGnl, List.mem_append.mpr (Or.inr (by simp))⟩
    · obtain ⟨l, q, hq', hxq⟩ := h6 x hxk hxc hxcur
      by_cases hl2 : l = lv
      · rw [hl2, hqlv] at hq'
        injection hq' with hq'
        refine ⟨lv, _, hGlv, ?_⟩
        exact (List.mem_erase_of_ne hx2).mpr (hq' ▸ hxq)
      · by_cases hl1 : l = lv - 1
        · rw [hl1, hqnl] at hq'
          injection hq' with hq'
          refine ⟨lv - 1, _, hGnl, ?_⟩
          exact List.mem_append.mpr (Or.inl (hq' ▸ hxq))
        · refine ⟨l, q, ?_, hxq⟩
          rw [List.get?_set_ne _ _ (fun hh => hl1 hh.symm),
              List.get?_set_ne _ _ (fun hh => hl2 hh.symm)]
          exact hq'
  · intro l q2 hq2
    rcases hGet l q2 hq2 with ⟨_, hq⟩ | ⟨_, hq⟩ | ⟨_, _, hq⟩
    · subst hq
      refine List.Nodup.append (h7 (lv - 1) _ hqnl) (List.nodup_singleton _) ?_
      intro a ha hb
      rw [List.mem_singleton.mp hb] at ha
      exact hpnl ha
    · subst hq
      exact List.Nodup.erase _ hnodlv
    · exact h7 l q2 hq
  · intro l1 q1 l2 q2 x hq1 hq2 hx1 hx2
    by_cases hx : x = pid2
    · subst hx
      rw [hPid l1 q1 hq1 hx1, hPid l2 q2 hq2 hx2]
    · obtain ⟨qo1, ho1, hxo1⟩ := hBack l1 q1 x hq1 hx1 hx
      obtain ⟨qo2, ho2, hxo2⟩ := hBack l2 q2 x hq2 hx2 hx
      exact h8 l1 qo1 l2 qo2 x ho1 ho2 hxo1 hxo2
  · intro c l q2 hc hq2
    rcases hGet l q2 hq2 with ⟨_, hq⟩ | ⟨_, hq⟩ | ⟨_, _, hq⟩
    · subst hq
      intro hcm
      rcases List.mem_append.mp hcm with hcm | hcm
      · exact h9 c (lv - 1) _ hc hqnl hcm
      · rw [List.mem_singleton.mp hcm] at hc
        exact hcur hc
    · subst hq
      exact fun hcm => h9 c lv _ hc hqlv (List.mem_of_mem_erase hcm)
    · exact h9 c l q2 hc hq
  · rw [List.length_set, List.length_set]
    exact h10

theorem mlfqAge_inv (nq : Nat) (ps : List Process) (aging : Int) (st : MLFQState)
    (hinv : mlfqTInv nq ps st) :
    mlfqTInv nq ps (mlfqAge aging st) := by
  unfold mlfqAge
  apply mlfq_foldl_pres (mlfqTInv nq ps)
  · intro s pid2 _ hs
    dsimp only
    by_cases hg : pid2 ∉ s.completed ∧ s.current ≠ some pid2
    · rw [if_pos hg]
      by_cases hw : aging ≤ lookupD s.waiting_time pid2 0 + 1
      · rw [if_pos hw]
        by_cases hlv : 0 < lookupD s.queue_level pid2 0
        · rw [if_pos hlv]
          by_cases hmem : pid2 ∈ s.queues.getD (lookupD s.queue_level pid2 0) []
          · rw [if_pos hmem]
            exact mlfqAgeMove_pres nq ps s pid2 (lookupD s.queue_level pid2 0) _
              hs hg.1 hg.2 hlv hmem
          · rw [if_neg hmem]
            exact hs
        · rw [if_neg hlv]
          exact hs
      · rw [if_neg hw]
        exact hs
    · rw [if_neg hg]
      exact hs
  · exact hinv

theorem mlfqClear_pres (nq : Nat) (ps : List Process) (st : MLFQState)
    (hcur : st.current = none) (hinv : mlfqTInv nq ps st) :
    mlfqTInv nq ps { st with current := none } := by
  obtain ⟨h1, h2, h3, h4, h5, h6, h7, h8, h9, h10⟩ := hinv
  unfold mlfqTInv
  dsimp only
  refine ⟨h1, ?_, ?_, ?_, h5, ?_, h7, h8, ?_, h10⟩
  · intro c hc; cases hc
  · intro c hc; cases hc
  · intro c hc; cases hc
  · intro x hxk hxc _
    exact h6 x hxk hxc (by rw [hcur]; intro hh; cases hh)
  · intro c lv q hc _; cases hc

theorem mlfqDemote_pres (nq : Nat) (ps : List Process) (st : MLFQState) (c : Int)
    (hnq : 0 < nq) (hcur : st.current = some c) (hinv : mlfqTInv nq ps st) :
    mlfqTInv nq ps { st with
      queues := st.queues.set (min (st.current_queue_level + 1) (nq - 1))
        (st.queues.getD (min (st.current_queue_level + 1) (nq - 1)) [] ++ [c]),
      queue_level := updateAssoc st.queue_level c
        (min (st.current_queue_level + 1) (nq - 1)),
      waiting_time := updateAssoc st.waiting_time c 0,
      current := none } := by
  obtain ⟨h1, h2, h3, h4, h5, h6, h7, h8, h9, h10⟩ := hinv
  have hcc : c ∉ st.completed := h2 c hcur
  have hcp : c ∈ ps.map (·.pid) := h3 c hcur
  have hcreg : c ∈ st.queue_level.map (·.1) := h4 c hcur
  have hnlt : min (st.current_queue_level + 1) (nq - 1) < st.queues.length := by
    rw [h10]; omega
  have hqnl : st.queues.get? (min (st.current_queue_level + 1) (nq - 1)) =
      some (st.queues.getD (min (st.current_queue_level + 1) (nq - 1)) []) :=
    getD_of_lt _ _ hnlt
  have hcnq : ∀ (l : Nat) (q : List Int), st.queues.get? l = some q → c ∉ q :=
    fun l q hq => h9 c l q hcur hq
  have hGnl : (st.queues.set (min (st.current_queue_level + 1) (nq - 1))
      (st.queues.getD (min (st.current_queue_level + 1) (nq - 1)) [] ++ [c])).get?
      (min (st.current_queue_level + 1) (nq - 1)) =
      some (st.queues.getD (min (st.current_queue_level + 1) (nq - 1)) [] ++ [c]) :=
    get?_set_self_q _ _ _ hnlt
  have hGet : ∀ (l : Nat) (q2 : List Int),
      (st.queues.set (min (st.current_queue_level + 1) (nq - 1))
        (st.queues.getD (min (st.current_queue_level + 1) (nq - 1)) [] ++ [c])).get?
        l = some q2 →
      (l = min (st.current_queue_level + 1) (nq - 1) ∧
        q2 = st.queues.getD (min (st.current_queue_level + 1) (nq - 1)) [] ++ [c]) ∨
      (l ≠ min (st.current_queue_level + 1) (nq - 1) ∧
        st.queues.get? l = some q2) := by
    intro l q2 hq2
    by_cases hl : l = min (st.current_queue_level + 1) (nq - 1)
    · subst hl
      rw [get?_set_self_q _ _ _ hnlt] at hq2
      injection hq2 with hq2
      exact Or.inl ⟨rfl, hq2.symm⟩
    · rw [List.get?_set_ne _ _ (fun hh => hl hh.symm)] at hq2
      exact Or.inr ⟨hl, hq2⟩
  unfold mlfqTInv
  dsimp only
  refine ⟨h1, ?_, ?_, ?_, ?_, ?_, ?_, ?_, ?_, ?_⟩
  · intro x hx; cases hx
  · intro x hx; cases hx
  · intro x hx; cases hx
  · intro l q2 hq2 x hx
    rw [updateAssoc_keys]
    rcases hGet l q2 hq2 with ⟨_, hq⟩ | ⟨_, hq⟩
    · subst hq
      rcases List.mem_append.mp hx with hx | hx
      · exact h5 _ _ hqnl x hx
      · rw [List.mem_singleton.mp hx]
        exact ⟨hcp, hcc, hcreg⟩
    · exact h5 l q2 hq x hx
  · intro x hxk hxc _
    rw [updateAssoc_keys] at hxk
    by_cases hx2 : x = c
    · subst hx2
      exact ⟨_, _, hGnl, List.mem_append.mpr (Or.inr (by simp))⟩
    · obtain ⟨l, q, hq', hxq⟩ := h6 x hxk hxc
        (by rw [hcur]; intro hh; injection hh with hh; exact hx2 hh.symm)
      by_cases hl : l = min (st.current_queue_level + 1) (nq - 1)
      · rw [hl, hqnl] at hq'
        injection hq' with hq'
        refine ⟨_, _, hGnl, ?_⟩
        exact List.mem_append.mpr (Or.inl (hq' ▸ hxq))
      · refine ⟨l, q, ?_, hxq⟩
        rw [List.get?_set_ne _ _ (fun hh => hl hh.symm)]
        exact hq'
  · intro l q2 hq2
    rcases hGet l q2 hq2 with ⟨_, hq⟩ | ⟨_, hq⟩
    · subst hq
      refine List.Nodup.append (h7 _ _ hqnl) (List.nodup_singleton _) ?_
      intro a ha hb
      rw [List.mem_singleton.mp hb] at ha
      exact hcnq _ _ hqnl ha
    · exact h7 l q2 hq
  · intro l1 q1 l2 q2 x hq1 hq2 hx1 hx2
    have hPid : ∀ (l : Nat) (q2 : List Int),
        (st.queues.set (min (st.current_queue_level + 1) (nq - 1))
          (st.queues.getD (min (st.current_queue_level + 1) (nq - 1)) [] ++ [c])).get?
          l = some q2 → c ∈ q2 → l = min (st.current_queue_level + 1) (nq - 1) := by
      intro l q hq hc2
      rcases hGet l q hq with ⟨hl, _⟩ | ⟨_, hq'⟩
      · exact hl
      · exact absurd hc2 (hcnq l q hq')
    by_cases hx : x = c
    · subst hx
      rw [hPid l1 q1 hq1 hx1, hPid l2 q2 hq2 hx2]
    · have hBack : ∀ (l : Nat) (q2 : List Int),
          (st.queues.set (min (st.current_queue_level + 1) (nq - 1))
            (st.queues.getD (min (st.current_queue_level + 1) (nq - 1)) [] ++
              [c])).get? l = some q2 → x ∈ q2 →
          ∃ qo, st.queues.get? l = some qo ∧ x ∈ qo := by
        intro l q hq hxm
        rcases hGet l q hq with ⟨hl, hq'⟩ | ⟨_, hq'⟩
        · subst hq'
          rcases List.mem_append.mp hxm with hxm | hxm
          · exact ⟨_, hl ▸ hqnl, hxm⟩
          · exact absurd (List.mem_singleton.mp hxm) hx
        · exact ⟨q, hq', hxm⟩
      obtain ⟨qo1, ho1, hxo1⟩ := hBack l1 q1 hq1 hx1
      obtain ⟨qo2, ho2, hxo2⟩ := hBack l2 q2 hq2 hx2
      exact h8 l1 qo1 l2 qo2 x ho1 ho2 hxo1 hxo2
  · intro c2 l q2 hc2 _; cases hc2
  · rw [List.length_set]
    exact h10

theorem mlfqDispatch_pres (nq : Nat) (ps : List Process) (st : MLFQState)
    (lv : Nat) (c2 : Int) (rt : List (Int × Int)) (fe : List Int) (qr : Int)
    (hinv : mlfqTInv nq ps st) (hcur : st.current = none)
    (hfirst : mlfqFirst st.queues 0 = some (lv, c2)) :
    mlfqTInv nq ps ⟨st.current_time, st.completed, st.completion_times, rt,
      st.queues.set lv ((st.queues.getD lv []).drop 1), st.queue_level,
      st.waiting_time, some c2, qr, lv, st.remaining, fe, st.ganttRev,
      st.stepsRev⟩ := by
  obtain ⟨h1, h2, h3, h4, h5, h6, h7, h8, h9, h10⟩ := hinv
  obtain ⟨_, rest, hget⟩ := mlfqFirst_spec st.queues 0 lv c2 hfirst
  rw [Nat.sub_zero] at hget
  have hlt : lv < st.queues.length := by
    rcases List.get?_eq_some.mp hget with ⟨h, _⟩
    exact h
  have hgetD : st.queues.getD lv [] = c2 :: rest := by
    rw [getD_queues, hget]
    rfl
  have hdrop : (st.queues.getD lv []).drop 1 = rest := by
    rw [hgetD]
    rfl
  have hc2f := h5 lv _ hget c2 (List.mem_cons_self _ _)
  have hnodlv := h7 lv _ hget
  rcases List.nodup_cons.mp hnodlv with ⟨hc2rest, hrestnod⟩
  have hGlv : (st.queues.set lv ((st.queues.getD lv []).drop 1)).get? lv =
      some rest := by
    rw [hdrop]
    exact get?_set_self_q _ _ _ hlt
  have hGet : ∀ (l : Nat) (q2 : List Int),
      (st.queues.set lv ((st.queues.getD lv []).drop 1)).get? l = some q2 →
      (l = lv ∧ q2 = rest) ∨ (l ≠ lv ∧ st.queues.get? l = some q2) := by
    intro l q2 hq2
    by_cases hl : l = lv
    · subst hl
      rw [hGlv] at hq2
      injection hq2 with hq2
      exact Or.inl ⟨rfl, hq2.symm⟩
    · rw [List.get?_set_ne _ _ (fun hh => hl hh.symm)] at hq2
      exact Or.inr ⟨hl, hq2⟩
  unfold mlfqTInv
  dsimp only
  refine ⟨h1, ?_, ?_, ?_, ?_, ?_, ?_, ?_, ?_, ?_⟩
  · intro x hx; injection hx with hx; rw [← hx]; exact hc2f.2.1
  · intro x hx; injection hx with hx; rw [← hx]; exact hc2f.1
  · intro x hx; injection hx with hx; rw [← hx]; exact hc2f.2.2
  · intro l q2 hq2 x hx
    rcases hGet l q2 hq2 with ⟨_, hq⟩ | ⟨_, hq⟩
    · subst hq
      exact h5 lv _ hget x (List.mem_cons_of_mem _ hx)
    · exact h5 l q2 hq x hx
  · intro x hxk hxc hxcur
    have hx2 : x ≠ c2 := fun hh => hxcur (by rw [hh])
    obtain ⟨l, q, hq', hxq⟩ := h6 x hxk hxc (by rw [hcur]; intro hh; cases hh)
    by_cases hl : l = lv
    · rw [hl, hget] at hq'
      injection hq' with hq'
      refine ⟨lv, rest, hGlv, ?_⟩
      rw [← hq'] at hxq
      rcases List.mem_cons.mp hxq with hxq | hxq
      · exact absurd hxq hx2
      · exact hxq
    · refine ⟨l, q, ?_, hxq⟩
      rw [List.get?_set_ne _ _ (fun hh => hl hh.symm)]
      exact hq'
  · intro l q2 hq2
    rcases hGet l q2 hq2 with ⟨_, hq⟩ | ⟨_, hq⟩
    · subst hq; exact hrestnod
    · exact h7 l q2 hq
  · intro l1 q1 l2 q2 x hq1 hq2 hx1 hx2
    have hBack : ∀ (l : Nat) (q2 : List Int),
        (st.queues.set lv ((st.queues.getD lv []).drop 1)).get? l = some q2 →
        x ∈ q2 → ∃ qo, st.queues.get? l = some qo ∧ x ∈ qo := by
      intro l q hq hxm
      rcases hGet l q hq with ⟨hl, hq'⟩ | ⟨_, hq'⟩
      · subst hq'
        exact ⟨_, hl ▸ hget, List.mem_cons_of_mem _ hxm⟩
      · exact ⟨q, hq', hxm⟩
    obtain ⟨qo1, ho1, hxo1⟩ := hBack l1 q1 hq1 hx1
    obtain ⟨qo2, ho2, hxo2⟩ := hBack l2 q2 hq2 hx2
    exact h8 l1 qo1 l2 qo2 x ho1 ho2 hxo1 hxo2
  · intro c3 l q2 hc3 hq2
    injection hc3 with hc3
    rw [← hc3]
    rcases hGet l q2 hq2 with ⟨_, hq⟩ | ⟨hl, hq⟩
    · subst hq; exact hc2rest
    · intro hcm
      exact hl (h8 l q2 lv _ c2 hq hget hcm (List.mem_cons_self _ _))
  · rw [List.length_set]
    exact h10

theorem mlfqExec_T (nq : Nat) (tqs : List Int) (ps : List Process)
    (st : MLFQState) (c : Int)
    (hnd : (ps.map (·.pid)).Nodup)
    (hcur : st.current = some c)
    (hinv : mlfqTInv nq ps st) :
    mlfqTInv nq ps (mlfqExecPhase tqs st c) ∧
      schedMu ps (mlfqExecPhase tqs st c).completed
          (mlfqExecPhase tqs st c).remaining
          (mlfqExecPhase tqs st c).current_time <
        schedMu ps st.completed st.remaining st.current_time := by
  obtain ⟨⟨hrem, hkeys⟩, h2, h3, h4, h5, h6, h7, h8, h9, h10⟩ := hinv
  have hcc : c ∉ st.completed := h2 c hcur
  have hcp : c ∈ ps.map (·.pid) := h3 c hcur
  have hcreg : c ∈ st.queue_level.map (·.1) := h4 c hcur
  have hcnq : ∀ (l : Nat) (q : List Int), st.queues.get? l = some q → c ∉ q :=
    fun l q hq => h9 c l q hcur hq
  have hk : c ∈ st.remaining.map (·.1) := mem_keys_of_pids ps st.remaining c hkeys hcp
  have h1 : 1 ≤ lookupD st.remaining c 0 := hrem c hcp hcc
  unfold mlfqExecPhase
  dsimp only
  by_cases hr : lookupD st.remaining c 0 - 1 = 0
  · rw [if_pos hr]
    unfold mlfqTInv RemFacts
    dsimp only
    refine ⟨⟨⟨?_, ?_⟩, ?_, ?_, ?_, ?_, ?_, h7, h8, ?_, h10⟩, ?_⟩
    · intro pid2 hpid2 hpc2
      by_cases hpe : pid2 = c
      · exact absurd ((mem_addCompleted _ _ _).mpr (Or.inr hpe)) hpc2
      · rw [lookupD_updateAssoc_ne _ _ _ _ _ hpe]
        exact hrem pid2 hpid2 (fun hh =>
          hpc2 ((mem_addCompleted _ _ _).mpr (Or.inl hh)))
    · rw [updateAssoc_keys]
      exact hkeys
    · intro x hx; cases hx
    · intro x hx; cases hx
    · intro x hx; cases hx
    · intro l q hq x hx
      refine ⟨(h5 l q hq x hx).1, ?_, (h5 l q hq x hx).2.2⟩
      rw [mem_addCompleted]
      rintro (hh | hh)
      · exact (h5 l q hq x hx).2.1 hh
      · rw [hh] at hx
        exact hcnq l q hq hx
    · intro x hxk hxc _
      rw [mem_addCompleted] at hxc
      push_neg at hxc
      exact h6 x hxk hxc.1
        (by rw [hcur]; intro hh; injection hh with hh; exact hxc.2 hh.symm)
    · intro c3 l q hc3 _; cases hc3
    · unfold schedMu
      have hrc := remSum_complete ps st.completed st.remaining c
        (lookupD st.remaining c 0 - 1) hnd hcp hcc h1
      have hfc := futCount_mono ps st.current_time (st.current_time + 1) (by omega)
      omega
  · rw [if_neg hr]
    unfold mlfqTInv RemFacts
    dsimp only
    refine ⟨⟨⟨?_, ?_⟩, ?_, ?_, ?_, h5, h6, h7, h8, h9, h10⟩, ?_⟩
    · intro pid2 hpid2 hpc2
      by_cases hpe : pid2 = c
      · subst hpe
        rw [lookupD_updateAssoc_self _ _ _ _ hk]
        omega
      · rw [lookupD_updateAssoc_ne _ _ _ _ _ hpe]
        exact hrem pid2 hpid2 hpc2
    · rw [updateAssoc_keys]
      exact hkeys
    · intro x hx; rw [hcur] at hx; injection hx with hx; rw [← hx]; exact hcc
    · intro x hx; rw [hcur] at hx; injection hx with hx; rw [← hx]; exact hcp
    · intro x hx; rw [hcur] at hx; injection hx with hx; rw [← hx]; exact hcreg
    · unfold schedMu
      have hre := remSum_exec ps st.completed st.remaining c hnd hcp hcc h1 hk
      have hfc := futCount_mono ps st.current_time (st.current_time + 1) (by omega)
      omega

theorem mlfqStep_progress (nq : Nat) (tqs : List Int) (aging : Int)
    (ps : List Process) (st : MLFQState)
    (hnd : (ps.map (·.pid)).Nodup) (hnq : 0 < nq)
    (hinv : mlfqTInv nq ps st)
    (hndone : ¬ ps.length ≤ st.completed.length) :
    ∃ st2, mlfqStep nq tqs aging ps st = some st2 ∧ mlfqTInv nq ps st2 ∧
      schedMu ps st2.completed st2.remaining st2.current_time <
        schedMu ps st.completed st.remaining st.current_time := by
  have hinvA := mlfqArrivals_inv nq ps st hnq hinv
  have hinvB := mlfqAge_inv nq ps aging _ hinvA
  obtain ⟨hAt, hAc, hAcur, hAr, hAq, hAl⟩ := mlfqArrivals_proj ps st
  obtain ⟨hBt, hBc, hBcur, hBr, hBq, hBl⟩ := mlfqAge_proj aging (mlfqArrivals ps st)
  have hct : (mlfqAge aging (mlfqArrivals ps st)).current_time = st.current_time := by
    rw [hBt, hAt]
  have hcc : (mlfqAge aging (mlfqArrivals ps st)).completed = st.completed := by
    rw [hBc, hAc]
  have hcu : (mlfqAge aging (mlfqArrivals ps st)).current = st.current := by
    rw [hBcur, hAcur]
  have hcr : (mlfqAge aging (mlfqArrivals ps st)).remaining = st.remaining := by
    rw [hBr, hAr]
  have hregT : ∀ p ∈ ps, p.arrival_time ≤ st.current_time → p.pid ∉ st.completed →
      st.current ≠ some p.pid →
      p.pid ∈ (mlfqAge aging (mlfqArrivals ps st)).queue_level.map (·.1) := by
    intro p hp ha hc hcur
    exact mlfqAge_keys aging _ _ (mlfqArrivals_mem ps st p hp ha hc hcur)
  unfold mlfqStep
  dsimp only
  generalize hgen : mlfqAge aging (mlfqArrivals ps st) = stB
  rw [hgen] at hinvB hct hcc hcu hcr hregT
  by_cases hcond : stB.current = none ∨ stB.quantum_remaining = (0 : Int)
  · rw [if_pos hcond]
    cases hcur2 : stB.current with
    | some c =>
        dsimp only
        have hpos : 0 < lookupD stB.remaining c 0 := by
          obtain ⟨⟨hrem, _⟩, h2, h3, _⟩ := hinvB
          have := hrem c (h3 c hcur2) (h2 c hcur2)
          omega
        rw [if_pos hpos]
        dsimp only
        have hinvC := mlfqDemote_pres nq ps stB c hnq hcur2 hinvB
        cases hfirst : mlfqFirst (stB.queues.set
            (min (stB.current_queue_level + 1) (nq - 1))
            (stB.queues.getD (min (stB.current_queue_level + 1) (nq - 1)) [] ++ [c]))
            0 with
        | some pr =>
            obtain ⟨lv, c2⟩ := pr
            dsimp only
            have hinvE : ∀ (rt : List (Int × Int)) (fe : List Int) (qr : Int),
                mlfqTInv nq ps ⟨stB.current_time, stB.completed, stB.completion_times,
                  rt,
                  ((stB.queues.set (min (stB.current_queue_level + 1) (nq - 1))
                    (stB.queues.getD (min (stB.current_queue_level + 1) (nq - 1)) []
                      ++ [c])).set lv
                    (((stB.queues.set (min (stB.current_queue_level + 1) (nq - 1))
                      (stB.queues.getD (min (stB.current_queue_level + 1) (nq - 1)) []
                        ++ [c])).getD lv []).drop 1)),
                  updateAssoc stB.queue_level c
                    (min (stB.current_queue_level + 1) (nq - 1)),
                  updateAssoc stB.waiting_time c 0,
                  some c2, qr, lv, stB.remaining, fe, stB.ganttRev, stB.stepsRev⟩ :=
              fun rt fe qr =>
                mlfqDispatch_pres nq ps { stB with
                  queues := stB.queues.set
                    (min (stB.current_queue_level + 1) (nq - 1))
                    (stB.queues.getD (min (stB.current_queue_level + 1) (nq - 1)) []
                      ++ [c]),
                  queue_level := updateAssoc stB.queue_level c
                    (min (stB.current_queue_level + 1) (nq - 1)),
                  waiting_time := updateAssoc stB.waiting_time c 0,
                  current := none } lv c2 rt fe qr hinvC rfl hfirst
            by_cases hfe : c2 ∉ stB.first_execution
            · rw [if_pos hfe]
              refine ⟨_, rfl, ?_, ?_⟩
              · exact (mlfqExec_T nq tqs ps _ c2 hnd rfl (hinvE _ _ _)).1
              · rw [← hcc, ← hcr, ← hct]
                exact (mlfqExec_T nq tqs ps _ c2 hnd rfl (hinvE _ _ _)).2
            · rw [if_neg hfe]
              refine ⟨_, rfl, ?_, ?_⟩
              · exact (mlfqExec_T nq tqs ps _ c2 hnd rfl (hinvE _ _ _)).1
              · rw [← hcc, ← hcr, ← hct]
                exact (mlfqExec_T nq tqs ps _ c2 hnd rfl (hinvE _ _ _)).2
        | none =>
            exfalso
            have hnlt : min (stB.current_queue_level + 1) (nq - 1) <
                stB.queues.length := by
              obtain ⟨_, _, _, _, _, _, _, _, _, h10⟩ := hinvB
              rw [h10]; omega
            have hq := mlfqFirst_none _ 0 hfirst
              (min (stB.current_queue_level + 1) (nq - 1))
              (stB.queues.getD (min (stB.current_queue_level + 1) (nq - 1)) [] ++ [c])
              (get?_set_self_q _ _ _ hnlt)
            simp at hq
    | none =>
        dsimp only
        have hinvC := mlfqClear_pres nq ps stB hcur2 hinvB
        cases hfirst : mlfqFirst stB.queues 0 with
        | some pr =>
            obtain ⟨lv, c2⟩ := pr
            dsimp only
            have hinvE : ∀ (rt : List (Int × Int)) (fe : List Int) (qr : Int),
                mlfqTInv nq ps ⟨stB.current_time, stB.completed, stB.completion_times,
                  rt, stB.queues.set lv ((stB.queues.getD lv []).drop 1),
                  stB.queue_level, stB.waiting_time,
                  some c2, qr, lv, stB.remaining, fe, stB.ganttRev, stB.stepsRev⟩ :=
              fun rt fe qr =>
                mlfqDispatch_pres nq ps { stB with current := none } lv c2 rt fe qr
                  hinvC rfl hfirst
            by_cases hfe : c2 ∉ stB.first_execution
            · rw [if_pos hfe]
              refine ⟨_, rfl, ?_, ?_⟩
              · exact (mlfqExec_T nq tqs ps _ c2 hnd rfl (hinvE _ _ _)).1
              · rw [← hcc, ← hcr, ← hct]
                exact (mlfqExec_T nq tqs ps _ c2 hnd rfl (hinvE _ _ _)).2
            · rw [if_neg hfe]
              refine ⟨_, rfl, ?_, ?_⟩
              · exact (mlfqExec_T nq tqs ps _ c2 hnd rfl (hinvE _ _ _)).1
              · rw [← hcc, ← hcr, ← hct]
                exact (mlfqExec_T nq tqs ps _ c2 hnd rfl (hinvE _ _ _)).2
        | none =>
            obtain ⟨p0, hp0, hp0c⟩ := exists_incomplete ps st.completed hnd hndone
            have hp0a : st.current_time < p0.arrival_time := by
              by_contra hle
              push_neg at hle
              have hreg := hregT p0 hp0 hle hp0c
                (by rw [← hcu, hcur2]; intro hh; cases hh)
              obtain ⟨_, _, _, _, _, h6, _, _, _, _⟩ := hinvB
              obtain ⟨lv, qq, hqq, hmem⟩ := h6 p0.pid hreg
                (by rw [hcc]; exact hp0c)
                (by rw [hcur2]; intro hh; cases hh)
              rw [mlfqFirst_none stB.queues 0 hfirst lv qq hqq] at hmem
              cases hmem
            cases hna : nextArrivalAfter ps stB.completed stB.current_time with
            | none =>
                exfalso
                rw [hcc, hct] at hna
                unfold nextArrivalAfter at hna
                have := pythonMinInt_none _ hna
                rw [List.map_eq_nil, List.filter_eq_nil] at this
                exact this p0 hp0 (decide_eq_true ⟨hp0c, hp0a⟩)
            | some a =>
                rw [hcc, hct] at hna
                refine ⟨_, rfl, ?_, ?_⟩
                · obtain ⟨h1, h2, h3, h4, h5, h6, h7, h8, h9, h10⟩ := hinvC
                  exact ⟨h1, h2, h3, h4, h5, h6, h7, h8, h9, h10⟩
                · show schedMu ps stB.completed stB.remaining a <
                    schedMu ps st.completed st.remaining st.current_time
                  rw [hcc, hcr]
                  unfold nextArrivalAfter at hna
                  have hmem := pythonMinInt_mem _ _ hna
                  rcases List.mem_map.mp hmem with ⟨p1, hp1f, he1⟩
                  rcases List.mem_filter.mp hp1f with ⟨hp1, hp1c⟩
                  have hp1c2 := of_decide_eq_true hp1c
                  have hfc : futCount ps a < futCount ps st.current_time :=
                    futCount_lt ps st.current_time a p1 hp1 hp1c2.2 (by rw [he1])
                  unfold schedMu
                  omega
  · rw [if_neg hcond]
    push_neg at hcond
    cases hcur2 : stB.current with
    | none => exact absurd hcur2 hcond.1
    | some c =>
        dsimp only
        refine ⟨_, rfl, ?_, ?_⟩
        · exact (mlfqExec_T nq tqs ps _ c hnd hcur2 hinvB).1
        · rw [← hcc, ← hcr, ← hct]
          exact (mlfqExec_T nq tqs ps _ c hnd hcur2 hinvB).2

theorem replicate_get?_nil (n lv : Nat) (q : List Int)
    (h : (List.replicate n ([] : List Int)).get? lv = some q) : q = [] := by
  induction n generalizing lv with
  | zero => cases h
  | succ m ih =>
      rw [List.replicate_succ] at h
      cases lv with
      | zero =>
          rw [List.get?_cons_zero] at h
          injection h with h
          exact h.symm
      | succ lv2 =>
          rw [List.get?_cons_succ] at h
          exact ih lv2 h

theorem mlfqInit_inv (nq : Nat) (ps : List Process)
    (hnd : (ps.map (·.pid)).Nodup)
    (hb : ∀ p ∈ ps, 1 ≤ p.burst_time)
    (hrb : ∀ p ∈ ps, p.remaining_time = p.burst_time) :
    mlfqTInv nq ps (mlfqInitState nq ps) := by
  unfold mlfqTInv mlfqInitState
  dsimp only
  refine ⟨rfInit ps hnd hb hrb, ?_, ?_, ?_, ?_, ?_, ?_, ?_, ?_, ?_⟩
  · intro x hx; cases hx
  · intro x hx; cases hx
  · intro x hx; cases hx
  · intro lv q hq x hx
    rw [replicate_get?_nil nq lv q hq] at hx
    cases hx
  · intro x hxk
    simp at hxk
  · intro lv q hq
    rw [replicate_get?_nil nq lv q hq]
    exact List.nodup_nil
  · intro l1 q1 l2 q2 x hq1 _ hx1 _
    rw [replicate_get?_nil nq l1 q1 hq1] at hx1
    cases hx1
  · intro c lv q hc _; cases hc
  · exact List.length_replicate nq []

theorem mlfqRun_terminates (nq : Nat) (tqs : List Int) (aging : Int)
    (ps : List Process)
    (hnd : (ps.map (·.pid)).Nodup) (hnq : 0 < nq) :
    ∀ (fuel : Nat) (st : MLFQState), mlfqTInv nq ps st →
    schedMu ps st.completed st.remaining st.current_time < fuel →
    (mlfqRun nq tqs aging ps fuel st).isSome := by
  intro fuel
  induction fuel with
  | zero => intro st _ h; omega
  | succ fuel ih =>
      intro st hinv hmu
      unfold mlfqRun
      by_cases hd : ps.length ≤ st.completed.length
      · rw [if_pos hd]; rfl
      · rw [if_neg hd]
        obtain ⟨st2, hs, hinv2, hmu2⟩ :=
          mlfqStep_progress nq tqs aging ps st hnd hnq hinv hd
        rw [hs]
        exact ih st2 hinv2 (by omega)

theorem mlfq_terminates (nq : Nat) (tqs : List Int) (aging : Int)
    (ps : List Process)
    (hnd : (ps.map (·.pid)).Nodup) (hnq : 0 < nq)
    (hb : ∀ p ∈ ps, 1 ≤ p.burst_time)
    (hrb : ∀ p ∈ ps, p.remaining_time = p.burst_time) :
    (mlfqRun nq tqs aging ps (schedFuel ps) (mlfqInitState nq ps)).isSome := by
  apply mlfqRun_terminates nq tqs aging ps hnd hnq
  · exact mlfqInit_inv nq ps hnd hb hrb
  · exact schedMu_init_lt ps hnd hb hrb

theorem insertStable_length {α : Type} (lt : α → α → Bool) (x : α) :
    ∀ l : List α, (insertStable lt x l).length = l.length + 1 := by
  intro l
  induction l with
  | nil => rfl
  | cons y ys ih =>
      unfold insertStable
      by_cases h : lt y x = true
      · rw [if_pos h, List.length_cons, ih, List.length_cons]
      · rw [if_neg h, List.length_cons, List.length_cons]

theorem stableSortBy_length {α : Type} (lt : α → α → Bool) (l : List α) :
    (stableSortBy lt l).length = l.length := by
  unfold stableSortBy
  induction l with
  | nil => rfl
  | cons y ys ih =>
      rw [List.foldr_cons, insertStable_length, ih, List.length_cons]

theorem fcfs_fold_steps : ∀ (l : List Process) (acc : FcfsAcc),
    ((l.foldl fcfsBody acc).steps).length = acc.steps.length + 2 * l.length := by
  intro l
  induction l with
  | nil => intro acc; rw [List.foldl_nil, List.length_nil]; omega
  | cons p rest ih =>
      intro acc
      rw [List.foldl_cons, ih]
      have hb : (fcfsBody acc p).steps.length = acc.steps.length + 2 := by
        unfold fcfsBody
        dsimp only
        rw [List.length_append]
        rfl
      rw [hb, List.length_cons]
      omega

theorem mlfqExtend_isSome (nq : Nat) :
    ∀ (k : Nat) (tqs : List Int), tqs ≠ [] → nq - tqs.length ≤ k →
    (mlfqExtend nq tqs).isSome := by
  intro k
  induction k with
  | zero =>
      intro tqs hne hle
      unfold mlfqExtend
      rw [if_neg (by omega)]
      rfl
  | succ k ih =>
      intro tqs hne hle
      unfold mlfqExtend
      by_cases hlt : tqs.length < nq
      · rw [if_pos hlt]
        cases hlast : tqs.getLast? with
        | none =>
            exfalso
            have hS : (tqs.getLast?).isSome := List.getLast?_isSome.mpr hne
            rw [hlast] at hS
            exact Bool.noConfusion hS
        | some last =>
            apply ih
            · simp
            · rw [List.length_append]
              simp only [List.length_cons, List.length_nil]
              omega
      · rw [if_neg hlt]
        rfl

theorem rrBadExec (st : RRState) (hcur : st.current = some 1)
    (hinv : rrDivInv st) :
    (rrExec st).current = some 1 ∧ rrDivInv (rrExec st) := by
  obtain ⟨hq, hc, hk, hr⟩ := hinv
  unfold rrExec
  rw [hcur]
  dsimp only
  rw [if_neg (by omega : ¬ (lookupD st.remaining 1 0 - 1 = 0))]
  refine ⟨rfl, hq, hc, ?_, ?_⟩
  · rw [updateAssoc_keys]
    exact hk
  · rw [lookupD_updateAssoc_self _ _ _ _ hk]
    omega

theorem rrBad_inv_step (st : RRState)
    (hcur : st.current = some 1 ∨ (st.current = none ∧ st.current_time = 0))
    (hinv : rrDivInv st) :
    ∃ st2, rrStep 2 [mkProcess 1 0 5 0 none (-1)] st = some st2 ∧
      (st2.current = some 1 ∨ (st2.current = none ∧ st2.current_time = 0)) ∧
      rrDivInv st2 := by
  obtain ⟨hq, hc, hk, hr⟩ := hinv
  have hEx : ∀ (rt : List (Int × Int)) (fe : List Int) (qr : Int),
      (rrExec ⟨st.current_time, st.completed, st.completion_times, rt, [], some 1,
        qr, st.remaining, fe, st.ganttRev, st.stepsRev⟩).current = some 1 ∧
      rrDivInv (rrExec ⟨st.current_time, st.completed, st.completion_times, rt, [],
        some 1, qr, st.remaining, fe, st.ganttRev, st.stepsRev⟩) :=
    fun rt fe qr => rrBadExec _ rfl ⟨rfl, hc, hk, hr⟩
  rcases hcur with hcur | ⟨hcur, ht⟩
  · have hadd : addArrivals [mkProcess 1 0 5 0 none (-1)] st.current_time
        st.completed st.ready_queue st.current = [] := by
      unfold addArrivals
      rw [List.foldl_cons, List.foldl_nil, hq]
      rw [if_neg]
      intro hcon
      apply hcon.2.2.2
      rw [hcur]
      decide
    unfold rrStep
    dsimp only
    rw [hadd, hcur]
    by_cases hqr : st.quantum_remaining = (0 : Int)
    · rw [if_pos (Or.inr hqr)]
      dsimp only
      rw [if_neg (by omega : ¬ (0 : Int) < lookupD st.remaining 1 0)]
      rw [if_neg (by simp)]
      dsimp only
      exact ⟨_, rfl, Or.inl (hEx _ _ _).1, (hEx _ _ _).2⟩
    · rw [if_neg (by
        rintro (hh | hh)
        · exact Option.noConfusion hh
        · exact hqr hh)]
      exact ⟨_, rfl, Or.inl (hEx _ _ _).1, (hEx _ _ _).2⟩
  · have hadd : addArrivals [mkProcess 1 0 5 0 none (-1)] st.current_time
        st.completed st.ready_queue st.current = [1] := by
      unfold addArrivals
      rw [List.foldl_cons, List.foldl_nil, hq]
      rw [if_pos]
      · rfl
      · refine ⟨by rw [ht]; decide, ?_, by simp, by rw [hcur]; simp⟩
        rw [hc]
        simp
    unfold rrStep
    dsimp only
    rw [hadd, hcur]
    rw [if_pos (Or.inl rfl)]
    dsimp only
    rw [if_neg (by simp)]
    by_cases hfe : (1 : Int) ∉ st.first_execution
    · rw [if_pos hfe]
      exact ⟨_, rfl, Or.inl (hEx _ _ _).1, (hEx _ _ _).2⟩
    · rw [if_neg hfe]
      exact ⟨_, rfl, Or.inl (hEx _ _ _).1, (hEx _ _ _).2⟩

theorem rrBad_run_none : ∀ (fuel : Nat) (st : RRState),
    (st.current = some 1 ∨ (st.current = none ∧ st.current_time = 0)) →
    rrDivInv st →
    rrRun 2 [mkProcess 1 0 5 0 none (-1)] fuel st = none := by
  intro fuel
  induction fuel with
  | zero =>
      intro st hcur hinv
      rw [rrRun.eq_def]
      dsimp only
      rw [hinv.2.1]
      rw [if_neg (by decide)]
  | succ f ih =>
      intro st hcur hinv
      rw [rrRun.eq_def]
      dsimp only
      rw [hinv.2.1]
      rw [if_neg (by decide)]
      obtain ⟨st2, hs, h1, h2⟩ := rrBad_inv_step st hcur hinv
      rw [hs]
      exact ih st2 h1 h2

/-- C9: under the amended hypotheses — unique pids, positive burst
times, non-negative arrivals, and `remaining_time = burst_time` (what
`__post_init__` establishes whenever `remaining_time` is not passed
explicitly) — every scheduling engine's execute terminates within
`schedFuel ps` loop iterations (total burst time plus process count):
FCFS runs its loop exactly once per process (two steps each), and the
fueled while-loops of SJF (both modes), Priority (both modes), Round
Robin (any quantum), EDF (when all deadlines are present, otherwise the
engine raises before the loop) and MLFQ (any queue count ≥ 1, default
quantums, any aging threshold) all return a result instead of running
out of fuel. -/
theorem C9_scheduler_termination (ps : List Process)
    (hnd : (ps.map (·.pid)).Nodup)
    (hb : ∀ p ∈ ps, 0 < p.burst_time)
    (ha : ∀ p ∈ ps, 0 ≤ p.arrival_time)
    (hrb : ∀ p ∈ ps, p.remaining_time = p.burst_time) :
    (∀ st0 : SchedEngineState GanttRR,
        ((fcfsExecute st0 ps).2.execution_steps).length = 2 * ps.length) ∧
    (∀ pre : Bool, (sjfExecute (schedFuel ps) pre ps).isSome) ∧
    (∀ pre : Bool, (prioExecute (schedFuel ps) pre ps).isSome) ∧
    (∀ q : Int, (rrExecute (schedFuel ps) q ps).isSome) ∧
    ((∀ p ∈ ps, (p.deadline).isSome) → (edfExecute (schedFuel ps) ps).isSome) ∧
    (∀ (nq : Nat) (aging : Int), 0 < nq →
        (mlfqExecute (schedFuel ps) nq none aging ps).isSome) := by
  have hb1 : ∀ p ∈ ps, 1 ≤ p.burst_time := fun p hp => by have := hb p hp; omega
  refine ⟨?_, ?_, ?_, ?_, ?_, ?_⟩
  · intro st0
    unfold fcfsExecute
    dsimp only
    by_cases he : ps.isEmpty
    · rw [if_pos he]
      rw [List.isEmpty_iff.mp he]
      rfl
    · rw [if_neg he]
      dsimp only
      rw [fcfs_fold_steps]
      have hlen : (fcfsSort ps).length = ps.length := by
        unfold fcfsSort
        exact stableSortBy_length _ _
      rw [hlen]
      simp
  · intro pre
    unfold sjfExecute
    dsimp only
    by_cases he : ps.isEmpty
    · rw [if_pos he]; rfl
    · rw [if_neg he]
      cases pre with
      | true =>
          rw [if_pos rfl]
          cases hrun : srtfRun ps (schedFuel ps) (srtfInitState ps) with
          | none =>
              have hT := srtf_terminates ps hnd hb1 hrb
              rw [hrun] at hT
              exact Bool.noConfusion hT
          | some stF => rfl
      | false =>
          rw [if_neg (by simp)]
          cases hrun : npRun (sjfNpStep ps) ps.length (schedFuel ps)
              (npInitState GanttRR) with
          | none =>
              have hT := sjfNp_terminates ps hnd hb1
              rw [hrun] at hT
              exact Bool.noConfusion hT
          | some stF => rfl
  · intro pre
    unfold prioExecute
    dsimp only
    by_cases he : ps.isEmpty
    · rw [if_pos he]; rfl
    · rw [if_neg he]
      cases pre with
      | true =>
          rw [if_pos rfl]
          cases hrun : prioPRun ps (schedFuel ps) (prioPInitState ps) with
          | none =>
              have hT := prioP_terminates ps hnd hb1 hrb
              rw [hrun] at hT
              exact Bool.noConfusion hT
          | some stF => rfl
      | false =>
          rw [if_neg (by simp)]
          cases hrun : npRun (prioNpStep ps) ps.length (schedFuel ps)
              (npInitState GanttPrio) with
          | none =>
              have hT := prioNp_terminates ps hnd hb1
              rw [hrun] at hT
              exact Bool.noConfusion hT
          | some stF => rfl
  · intro q
    unfold rrExecute
    dsimp only
    by_cases he : ps.isEmpty
    · rw [if_pos he]; rfl
    · rw [if_neg he]
      cases hrun : rrRun q ps (schedFuel ps) (rrInitState ps) with
      | none =>
          have hT := rr_terminates q ps hnd hb1 hrb
          rw [hrun] at hT
          exact Bool.noConfusion hT
      | some stF => rfl
  · intro hdl
    unfold edfExecute
    dsimp only
    by_cases he : ps.isEmpty
    · rw [if_pos he]; rfl
    · rw [if_neg he]
      have hany : (ps.any fun p => p.deadline.isNone) = false := by
        rw [List.any_eq_false]
        intro p hp
        have h2 := hdl p hp
        cases hD : p.deadline with
        | none => rw [hD] at h2; exact Bool.noConfusion h2
        | some d => simp
      rw [if_neg (by rw [hany]; exact Bool.false_ne_true)]
      cases hrun : edfRun ps (schedFuel ps) (edfInitState ps) with
      | none =>
          have hT := edf_terminates ps hnd hb1 hrb
          rw [hrun] at hT
          exact Bool.noConfusion hT
      | some stF => rfl
  · intro nq aging hnq
    unfold mlfqExecute
    dsimp only
    simp only [Option.getD]
    cases hext : mlfqExtend nq [2, 4, 8] with
    | none =>
        have hS := mlfqExtend_isSome nq nq [2, 4, 8] (by simp) (by omega)
        rw [hext] at hS
        exact Bool.noConfusion hS
    | some tqs =>
        dsimp only
        by_cases he : ps.isEmpty
        · rw [if_pos he]; rfl
        · rw [if_neg he]
          cases hrun : mlfqRun nq tqs aging ps (schedFuel ps)
              (mlfqInitState nq ps) with
          | none =>
              have hT := mlfq_terminates nq tqs aging ps hnd hnq hb1 hrb
              rw [hrun] at hT
              exact Bool.noConfusion hT
          | some stF => rfl

/-- Witness for C9: a single process (pid 1, arrival 0, burst 2,
deadline 4, `remaining_time` left to `__post_init__`) satisfies every
hypothesis, and all engines terminate on it. -/
theorem C9_witness :
    (([mkProcess 1 0 2 0 (some 4) 0].map (·.pid)).Nodup ∧
     (∀ p ∈ [mkProcess 1 0 2 0 (some 4) 0], 0 < p.burst_time) ∧
     (∀ p ∈ [mkProcess 1 0 2 0 (some 4) 0], 0 ≤ p.arrival_time) ∧
     (∀ p ∈ [mkProcess 1 0 2 0 (some 4) 0], p.remaining_time = p.burst_time)) ∧
    ((∀ st0 : SchedEngineState GanttRR,
        ((fcfsExecute st0 [mkProcess 1 0 2 0 (some 4) 0]).2.execution_steps).length =
          2 * [mkProcess 1 0 2 0 (some 4) 0].length) ∧
     (∀ pre : Bool,
        (sjfExecute (schedFuel [mkProcess 1 0 2 0 (some 4) 0]) pre
          [mkProcess 1 0 2 0 (some 4) 0]).isSome) ∧
     (∀ pre : Bool,
        (prioExecute (schedFuel [mkProcess 1 0 2 0 (some 4) 0]) pre
          [mkProcess 1 0 2 0 (some 4) 0]).isSome) ∧
     (∀ q : Int,
        (rrExecute (schedFuel [mkProcess 1 0 2 0 (some 4) 0]) q
          [mkProcess 1 0 2 0 (some 4) 0]).isSome) ∧
     ((∀ p ∈ [mkProcess 1 0 2 0 (some 4) 0], (p.deadline).isSome) →
        (edfExecute (schedFuel [mkProcess 1 0 2 0 (some 4) 0])
          [mkProcess 1 0 2 0 (some 4) 0]).isSome) ∧
     (∀ (nq : Nat) (aging : Int), 0 < nq →
        (mlfqExecute (schedFuel [mkProcess 1 0 2 0 (some 4) 0]) nq none aging
          [mkProcess 1 0 2 0 (some 4) 0]).isSome)) :=
  ⟨⟨by decide, by decide, by decide, by decide⟩,
   C9_scheduler_termination [mkProcess 1 0 2 0 (some 4) 0]
     (by decide) (by decide) (by decide) (by decide)⟩

/-- Counterexample to C9 as stated: the dataclass constructor accepts
an explicit `remaining_time` of `-1`, and `__post_init__` only repairs
the value `0`, so `Process(pid=1, arrival_time=0, burst_time=5,
remaining_time=-1)` satisfies the claim's hypotheses (unique pid,
burst 5 > 0, arrival 0 ≥ 0).  On it the Round Robin loop never
completes the process — `remaining_time` only moves further below
zero and the completion test `== 0` never fires — so `execute`
diverges: no fuel bound whatsoever makes the loop finish. -/
theorem C9_counterexample :
    (([mkProcess 1 0 5 0 none (-1)].map (·.pid)).Nodup) ∧
    (∀ p ∈ [mkProcess 1 0 5 0 none (-1)], 0 < p.burst_time) ∧
    (∀ p ∈ [mkProcess 1 0 5 0 none (-1)], 0 ≤ p.arrival_time) ∧
    ∀ fuel : Nat, rrExecute fuel 2 [mkProcess 1 0 5 0 none (-1)] = none := by
  refine ⟨by decide, by decide, by decide, ?_⟩
  intro fuel
  unfold rrExecute
  dsimp only
  rw [if_neg (by decide)]
  have hrun := rrBad_run_none fuel (rrInitState [mkProcess 1 0 5 0 none (-1)])
    (Or.inr ⟨rfl, rfl⟩) ⟨rfl, rfl, by decide, by decide⟩
  rw [hrun]

theorem nb_cons_w (σ : List Int) (u w : Int) : notBefore (w :: σ) u w := by
  unfold notBefore
  rw [if_pos rfl]
  trivial

theorem nb_cons_u (σ : List Int) (u w : Int) (h : u ≠ w) :
    ¬ notBefore (u :: σ) u w := by
  unfold notBefore
  rw [if_neg h, if_pos rfl]
  exact fun h => h

theorem nb_cons_other (σ : List Int) (p u w : Int) (h1 : p ≠ w) (h2 : p ≠ u) :
    notBefore (p :: σ) u w ↔ notBefore σ u w := by
  show (if p = w then True else if p = u then False else notBefore σ u w) ↔
    notBefore σ u w
  rw [if_neg h1, if_neg h2]

theorem nb_of_not_mem (u x : Int) : ∀ (l : List Int), u ∉ l → notBefore l u x := by
  intro l
  induction l with
  | nil => intro _; trivial
  | cons p σ ih =>
      intro hu
      show if p = x then True else if p = u then False else notBefore σ u x
      by_cases h1 : p = x
      · rw [if_pos h1]; trivial
      · rw [if_neg h1]
        rw [if_neg (show ¬ (p = u) from
          fun h => hu (h ▸ List.mem_cons_self p σ))]
        exact ih (fun h => hu (List.mem_cons_of_mem p h))

theorem card_swap (C : Finset Int) (u w : Int) (hu : u ∈ C) (hw : w ∉ C) :
    (insert w (C.erase u)).card = C.card := by
  rw [Finset.card_insert_of_not_mem (fun h => hw (Finset.mem_of_mem_erase h)),
      Finset.card_erase_of_mem hu]
  have : 0 < C.card := Finset.card_pos.mpr ⟨u, hu⟩
  omega

theorem merge_swap (C : Finset Int) (u w : Int) (hu : u ∈ C) (hw : w ∉ C) :
    insert u ((insert w (C.erase u)).erase w) = C := by
  rw [Finset.erase_insert (fun h => hw (Finset.mem_of_mem_erase h)),
      Finset.insert_erase hu]

theorem swapA (C : Finset Int) (u v w : Int) (hu : u ∈ C) (hv : v ∈ C)
    (hw : w ∉ C) (huv : u ≠ v) :
    insert v ((insert w (C.erase v)).erase u) = insert w (C.erase u) := by
  have hwu : w ≠ u := fun h => hw (h ▸ hu)
  have hwv : w ≠ v := fun h => hw (h ▸ hv)
  ext x
  simp only [Finset.mem_insert, Finset.mem_erase]
  constructor
  · rintro (rfl | ⟨hxu, (rfl | ⟨hxv, hxC⟩)⟩)
    · exact Or.inr ⟨fun h => huv h.symm, hv⟩
    · exact Or.inl rfl
    · exact Or.inr ⟨hxu, hxC⟩
  · rintro (rfl | ⟨hxu, hxC⟩)
    · exact Or.inr ⟨hwu, Or.inl rfl⟩
    · by_cases hxv : x = v
      · exact Or.inl hxv
      · exact Or.inr ⟨hxu, Or.inr ⟨hxv, hxC⟩⟩

theorem swapB (C : Finset Int) (u v w p : Int) (hu : u ∈ C) (hv : v ∈ C)
    (hw : w ∉ C) (hp : p ∉ C) (huv : u ≠ v) (hpw : p ≠ w) :
    insert p ((insert w (C.erase u)).erase v) =
      insert w ((insert p (C.erase v)).erase u) := by
  have hwu : w ≠ u := fun h => hw (h ▸ hu)
  have hwv : w ≠ v := fun h => hw (h ▸ hv)
  have hpu : p ≠ u := fun h => hp (h ▸ hu)
  have hpv : p ≠ v := fun h => hp (h ▸ hv)
  ext x
  simp only [Finset.mem_insert, Finset.mem_erase]
  constructor
  · rintro (rfl | ⟨hxv, (rfl | ⟨hxu, hxC⟩)⟩)
    · exact Or.inr ⟨hpu, Or.inl rfl⟩
    · exact Or.inl rfl
    · exact Or.inr ⟨hxu, Or.inr ⟨hxv, hxC⟩⟩
  · rintro (rfl | ⟨hxu, (rfl | ⟨hxv, hxC⟩)⟩)
    · exact Or.inr ⟨hwv, Or.inl rfl⟩
    · exact Or.inl rfl
    · exact Or.inr ⟨hxv, Or.inr ⟨hxu, hxC⟩⟩

theorem exch (k : Nat) :
    ∀ (σ : List Int) (C : Finset Int) (n : Nat) (u w : Int),
    PageRun k σ C n → C.card = k → u ∈ C → w ∉ C →
    (∃ m, PageRun k σ (insert w (C.erase u)) m ∧ m ≤ n + 1) ∧
    (notBefore σ u w → ∃ m, PageRun k σ (insert w (C.erase u)) m ∧ m ≤ n) := by
  intro σ
  induction σ with
  | nil =>
      intro C n u w hrun hcard hu hw
      cases hrun
      exact ⟨⟨0, PageRun.nil _, by omega⟩, fun _ => ⟨0, PageRun.nil _, by omega⟩⟩
  | cons p σ ih =>
      intro C n u w hrun hcard hu hw
      have huw : u ≠ w := fun h => hw (h ▸ hu)
      have hcardD : (insert w (C.erase u)).card = k := by
        rw [card_swap C u w hu hw]; exact hcard
      cases hrun with
      | hit _ _ _ _ hp htail =>
          by_cases hpu : p = u
          · -- the run hits u; the exchanged state lacks u and evicts w to merge.
            subst hpu
            have hrun2 : PageRun k (p :: σ) (insert w (C.erase p)) (n + 1) := by
              apply PageRun.evict p σ _ n w
              · intro hmem
                rcases Finset.mem_insert.mp hmem with h | h
                · exact huw h
                · exact absurd h (Finset.not_mem_erase p C)
              · omega
              · exact Finset.mem_insert_self w _
              · rw [merge_swap C p w hp hw]
                exact htail
            refine ⟨⟨n + 1, hrun2, by omega⟩, ?_⟩
            intro hnb
            exact absurd hnb (nb_cons_u σ p w huw)
          · by_cases hpw : p = w
            · exact absurd (hpw ▸ hp) hw
            · -- p is in both caches: hit on both sides.
              have hpD : p ∈ insert w (C.erase u) :=
                Finset.mem_insert.mpr (Or.inr (Finset.mem_erase.mpr ⟨hpu, hp⟩))
              obtain ⟨⟨m1, hr1, hle1⟩, hcond⟩ := ih C n u w htail hcard hu hw
              refine ⟨⟨m1, PageRun.hit p σ _ m1 hpD hr1, hle1⟩, ?_⟩
              intro hnb
              obtain ⟨m2, hr2, hle2⟩ := hcond ((nb_cons_other σ p u w hpw hpu).mp hnb)
              exact ⟨m2, PageRun.hit p σ _ m2 hpD hr2, hle2⟩
      | fill _ _ _ _ hp hlt htail =>
          omega
      | evict _ _ _ n' v hp hge hv htail =>
          have hpu : p ≠ u := fun h => hp (h ▸ hu)
          by_cases hpw : p = w
          · -- the reference is w itself: the exchanged cache hits.
            subst hpw
            by_cases hvu : v = u
            · subst hvu
              refine ⟨⟨n', PageRun.hit p σ _ n' (Finset.mem_insert_self p _) htail,
                  by omega⟩, fun _ => ⟨n', PageRun.hit p σ _ n'
                  (Finset.mem_insert_self p _) htail, by omega⟩⟩
            · have hu2 : u ∈ insert p (C.erase v) :=
                Finset.mem_insert.mpr (Or.inr (Finset.mem_erase.mpr ⟨fun h => hvu h.symm, hu⟩))
              have hv2 : v ∉ insert p (C.erase v) := by
                intro hmem
                rcases Finset.mem_insert.mp hmem with h | h
                · exact hp (h ▸ hv)
                · exact absurd h (Finset.not_mem_erase v C)
              have hcard2 : (insert p (C.erase v)).card = k := by
                rw [card_swap C v p hv hp]; exact hcard
              obtain ⟨⟨m1, hr1, hle1⟩, _⟩ := ih _ n' u v htail hcard2 hu2 hv2
              rw [swapA C u v p hu hv hp (fun h => hvu h.symm)] at hr1
              refine ⟨⟨m1, PageRun.hit p σ _ m1 (Finset.mem_insert_self p _) hr1,
                  by omega⟩, fun _ => ⟨m1, PageRun.hit p σ _ m1
                  (Finset.mem_insert_self p _) hr1, by omega⟩⟩
          · -- p misses in both caches.
            have hpD : p ∉ insert w (C.erase u) := by
              intro hmem
              rcases Finset.mem_insert.mp hmem with h | h
              · exact hpw h
              · exact hp (Finset.mem_of_mem_erase h)
            by_cases hvu : v = u
            · -- the run evicts u; the exchanged cache evicts w and merges.
              subst hvu
              have hrun2 : PageRun k (p :: σ) (insert w (C.erase v)) (n' + 1) := by
                apply PageRun.evict p σ _ n' w hpD (by omega)
                  (Finset.mem_insert_self w _)
                rw [Finset.erase_insert (fun h => hw (Finset.mem_of_mem_erase h))]
                exact htail
              refine ⟨⟨n' + 1, hrun2, by omega⟩, fun _ => ⟨n' + 1, hrun2, by omega⟩⟩
            · -- both evict v and stay one swap apart.
              have hu2 : u ∈ insert p (C.erase v) :=
                Finset.mem_insert.mpr (Or.inr (Finset.mem_erase.mpr ⟨fun h => hvu h.symm, hu⟩))
              have hw2 : w ∉ insert p (C.erase v) := by
                intro hmem
                rcases Finset.mem_insert.mp hmem with h | h
                · exact hpw h.symm
                · exact hw (Finset.mem_of_mem_erase h)
              have hcard2 : (insert p (C.erase v)).card = k := by
                rw [card_swap C v p hv hp]; exact hcard
              have hvD : v ∈ insert w (C.erase u) :=
                Finset.mem_insert.mpr (Or.inr (Finset.mem_erase.mpr ⟨hvu, hv⟩))
              have hkey : insert p ((insert w (C.erase u)).erase v) =
                  insert w ((insert p (C.erase v)).erase u) :=
                swapB C u v w p hu hv hw hp (fun h => hvu h.symm) hpw
              obtain ⟨⟨m1, hr1, hle1⟩, hcond⟩ := ih _ n' u w htail hcard2 hu2 hw2
              refine ⟨⟨m1 + 1, ?_, by omega⟩, ?_⟩
              · apply PageRun.evict p σ _ m1 v hpD (by omega) hvD
                rw [hkey]
                exact hr1
              · intro hnb
                obtain ⟨m2, hr2, hle2⟩ := hcond ((nb_cons_other σ p u w hpw hpu).mp hnb)
                refine ⟨m2 + 1, ?_, by omega⟩
                apply PageRun.evict p σ _ m2 v hpD (by omega) hvD
                rw [hkey]
                exact hr2

theorem farRun_min (k : Nat) :
    ∀ (σ : List Int) (C : Finset Int) (n m : Nat),
    PageRun k σ C n → FarRun k σ C m → C.card ≤ k → m ≤ n := by
  intro σ
  induction σ with
  | nil =>
      intro C n m hrun hfar _
      cases hrun
      cases hfar
      omega
  | cons p σ ih =>
      intro C n m hrun hfar hcard
      cases hrun with
      | hit _ _ _ _ hp htail =>
          cases hfar with
          | hit _ _ _ _ _ hftail => exact ih C _ _ htail hftail hcard
          | fill _ _ _ _ hp2 _ _ => exact absurd hp hp2
          | evict _ _ _ _ _ hp2 _ _ _ _ => exact absurd hp hp2
      | fill _ _ _ n' hp hlt htail =>
          cases hfar with
          | hit _ _ _ _ hp2 _ => exact absurd hp2 hp
          | fill _ _ _ m' _ _ hftail =>
              have := ih _ _ _ htail hftail
                (by rw [Finset.card_insert_of_not_mem hp]; omega)
              omega
          | evict _ _ _ _ _ _ hge _ _ _ => omega
      | evict _ _ _ n' a hp hge ha htail =>
          cases hfar with
          | hit _ _ _ _ hp2 _ => exact absurd hp2 hp
          | fill _ _ _ _ _ hlt _ => omega
          | evict _ _ _ m' v hp2 _ hv hmax hftail =>
              have hcardC : C.card = k := by omega
              by_cases hav : a = v
              · subst hav
                have := ih _ _ _ htail hftail
                  (by rw [card_swap C a p ha hp]; omega)
                omega
              · -- exchange v into the arbitrary run's cache.
                have hvCa : v ∈ insert p (C.erase a) :=
                  Finset.mem_insert.mpr (Or.inr
                    (Finset.mem_erase.mpr ⟨fun h => hav h.symm, hv⟩))
                have haCa : a ∉ insert p (C.erase a) := by
                  intro hmem
                  rcases Finset.mem_insert.mp hmem with h | h
                  · exact hp (h ▸ ha)
                  · exact absurd h (Finset.not_mem_erase a C)
                have hcardCa : (insert p (C.erase a)).card = k := by
                  rw [card_swap C a p ha hp]; exact hcardC
                obtain ⟨_, hcond⟩ := exch k σ _ n' v a htail hcardCa hvCa haCa
                obtain ⟨m2, hr2, hle2⟩ := hcond (hmax a ha)
                rw [swapA C v a p hv ha hp (fun h => hav h.symm)] at hr2
                have := ih _ _ _ hr2 hftail
                  (by rw [card_swap C v p hv hp]; omega)
                omega

theorem mem_framesPages (frames : List FrameState) (pg : Int) :
    pg ∈ framesPages frames ↔ ∃ f ∈ frames, f.page_number = some pg := by
  unfold framesPages
  exact List.mem_filterMap

theorem findPage_none (frames : List FrameState) (pg : Int)
    (h : findPageInFrames frames pg = none) : pg ∉ framesPages frames := by
  intro hmem
  obtain ⟨f, hf, he⟩ := (mem_framesPages frames pg).mp hmem
  have := List.find?_eq_none.mp h f hf
  simp [he] at this

theorem findPage_some (frames : List FrameState) (pg : Int) (f : FrameState)
    (h : findPageInFrames frames pg = some f) : pg ∈ framesPages frames := by
  have hmem := List.mem_of_find?_eq_some h
  have hp := List.find?_some h
  refine (mem_framesPages frames pg).mpr ⟨f, hmem, ?_⟩
  simpa using hp

theorem pages_len_le (frames : List FrameState) :
    (framesPages frames).length ≤ frames.length :=
  List.length_filterMap_le _ _

theorem pages_len_lt_of_empty (frames : List FrameState) (e : FrameState)
    (h : findEmptyFrame frames = some e) :
    (framesPages frames).length < frames.length := by
  induction frames with
  | nil => cases h
  | cons f fs ih =>
      unfold findEmptyFrame at h
      rw [List.find?_cons] at h
      unfold framesPages
      rw [List.filterMap_cons]
      cases hfe : f.is_empty with
      | true =>
          have : f.page_number = none := by
            unfold FrameState.is_empty at hfe
            cases hpn : f.page_number with
            | none => rfl
            | some q => rw [hpn] at hfe; cases hfe
          rw [this]
          have := pages_len_le fs
          unfold framesPages at this
          simp only [List.length_cons]
          omega
      | false =>
          rw [hfe] at h
          have hlt := ih h
          unfold framesPages at hlt
          cases hpn : f.page_number with
          | none => simp only [List.length_cons]; omega
          | some q => simp only [List.length_cons]; omega

theorem pages_len_eq_of_full (frames : List FrameState)
    (h : findEmptyFrame frames = none) :
    (framesPages frames).length = frames.length := by
  induction frames with
  | nil => rfl
  | cons f fs ih =>
      unfold findEmptyFrame at h
      rw [List.find?_cons] at h
      cases hfe : f.is_empty with
      | true => rw [hfe] at h; cases h
      | false =>
          rw [hfe] at h
          have hocc : ∃ q, f.page_number = some q := by
            unfold FrameState.is_empty at hfe
            cases hpn : f.page_number with
            | none => rw [hpn] at hfe; cases hfe
            | some q => exact ⟨q, rfl⟩
          obtain ⟨q, hq⟩ := hocc
          unfold framesPages
          rw [List.filterMap_cons, hq]
          have := ih h
          unfold framesPages at this
          simp only [List.length_cons]
          omega

theorem pages_updateFirstFrame_id (l : List FrameState) (p : FrameState → Bool)
    (g : FrameState → FrameState) (hg : ∀ f, (g f).page_number = f.page_number) :
    framesPages (updateFirstFrame l p g) = framesPages l := by
  induction l with
  | nil => rfl
  | cons f fs ih =>
      unfold updateFirstFrame framesPages
      by_cases hp : p f = true
      · rw [if_pos hp]
        rw [List.filterMap_cons, List.filterMap_cons, hg]
      · rw [if_neg hp]
        rw [List.filterMap_cons, List.filterMap_cons]
        unfold framesPages at ih
        rw [ih]

theorem pages_fill (l : List FrameState) (e : FrameState) (pg ts : Int)
    (h : findEmptyFrame l = some e) :
    ∃ A B, framesPages l = A ++ B ∧
      framesPages (updateFirstFrame l (fun f => f.is_empty)
        (fun f => f.load_page pg ts)) = A ++ pg :: B := by
  induction l with
  | nil => cases h
  | cons f fs ih =>
      unfold findEmptyFrame at h
      rw [List.find?_cons] at h
      unfold updateFirstFrame
      cases hfe : f.is_empty with
      | true =>
          rw [hfe] at h
          rw [if_pos rfl]
          have hpn : f.page_number = none := by
            unfold FrameState.is_empty at hfe
            cases hpn : f.page_number with
            | none => rfl
            | some q => rw [hpn] at hfe; cases hfe
          refine ⟨[], framesPages fs, ?_, ?_⟩
          · unfold framesPages
            rw [List.filterMap_cons, hpn]
            rfl
          · unfold framesPages FrameState.load_page
            rw [List.filterMap_cons]
            rfl
      | false =>
          rw [hfe] at h
          rw [if_neg (by exact Bool.false_ne_true)]
          obtain ⟨A, B, h1, h2⟩ := ih h
          cases hpn : f.page_number with
          | none =>
              refine ⟨A, B, ?_, ?_⟩
              · unfold framesPages
                rw [List.filterMap_cons, hpn]
                exact h1
              · unfold framesPages
                rw [List.filterMap_cons, hpn]
                exact h2
          | some q =>
              refine ⟨q :: A, B, ?_, ?_⟩
              · unfold framesPages
                rw [List.filterMap_cons, hpn]
                rw [List.cons_append]
                unfold framesPages at h1
                rw [h1]
              · unfold framesPages
                rw [List.filterMap_cons, hpn]
                rw [List.cons_append]
                unfold framesPages at h2
                rw [h2]

theorem pages_evict_eq (l : List FrameState) (victim : FrameState) (v pg ts : Int)
    (hmem : victim ∈ l) (hv : victim.page_number = some v) :
    ∃ A B, framesPages l = A ++ v :: B ∧
      framesPages (updateFirstFrame l (fun f => f = victim)
        (fun f => f.load_page pg ts)) = A ++ pg :: B := by
  induction l with
  | nil => cases hmem
  | cons f fs ih =>
      unfold updateFirstFrame
      by_cases hf : f = victim
      · rw [if_pos (by rw [hf]; simp)]
        refine ⟨[], framesPages fs, ?_, ?_⟩
        · unfold framesPages
          rw [List.filterMap_cons, hf, hv]
          rfl
        · unfold framesPages FrameState.load_page
          rw [List.filterMap_cons]
          rfl
      · rw [if_neg (by simp [hf])]
        have hmem2 : victim ∈ fs := by
          rcases List.mem_cons.mp hmem with h | h
          · exact absurd h.symm hf
          · exact h
        obtain ⟨A, B, h1, h2⟩ := ih hmem2
        cases hpn : f.page_number with
        | none =>
            refine ⟨A, B, ?_, ?_⟩
            · unfold framesPages
              rw [List.filterMap_cons, hpn]
              exact h1
            · unfold framesPages
              rw [List.filterMap_cons, hpn]
              exact h2
        | some q =>
            refine ⟨q :: A, B, ?_, ?_⟩
            · unfold framesPages
              rw [List.filterMap_cons, hpn, List.cons_append]
              unfold framesPages at h1
              rw [h1]
            · unfold framesPages
              rw [List.filterMap_cons, hpn, List.cons_append]
              unfold framesPages at h2
              rw [h2]

theorem pages_set_eq (frames : List FrameState) (j : Nat) (victim : FrameState)
    (v pg ts : Int) (hget : frames.get? j = some victim)
    (hv : victim.page_number = some v) :
    ∃ A B, framesPages frames = A ++ v :: B ∧
      framesPages (frames.set j (victim.load_page pg ts)) = A ++ pg :: B := by
  induction frames generalizing j with
  | nil => cases hget
  | cons f fs ih =>
      cases j with
      | zero =>
          rw [List.get?_cons_zero] at hget
          injection hget with hget
          subst hget
          refine ⟨[], framesPages fs, ?_, ?_⟩
          · unfold framesPages
            rw [List.filterMap_cons, hv]
            rfl
          · unfold framesPages FrameState.load_page
            rw [List.set_cons_zero, List.filterMap_cons]
            rfl
      | succ j2 =>
          rw [List.get?_cons_succ] at hget
          obtain ⟨A, B, h1, h2⟩ := ih j2 hget
          rw [List.set_cons_succ]
          cases hpn : f.page_number with
          | none =>
              refine ⟨A, B, ?_, ?_⟩
              · unfold framesPages
                rw [List.filterMap_cons, hpn]
                exact h1
              · unfold framesPages
                rw [List.filterMap_cons, hpn]
                exact h2
          | some q =>
              refine ⟨q :: A, B, ?_, ?_⟩
              · unfold framesPages
                rw [List.filterMap_cons, hpn, List.cons_append]
                unfold framesPages at h1
                rw [h1]
              · unfold framesPages
                rw [List.filterMap_cons, hpn, List.cons_append]
                unfold framesPages at h2
                rw [h2]

theorem toFinset_fill (A B : List Int) (pg : Int) :
    (A ++ pg :: B).toFinset = insert pg (A ++ B).toFinset := by
  ext x
  simp only [List.mem_toFinset, List.mem_append, List.mem_cons, Finset.mem_insert]
  tauto

theorem toFinset_evict (A B : List Int) (v pg : Int)
    (hnd : (A ++ v :: B).Nodup) :
    (A ++ pg :: B).toFinset = insert pg ((A ++ v :: B).toFinset.erase v) := by
  have hvAB : v ∉ A ++ B :=
    (List.nodup_cons.mp (List.nodup_middle.mp hnd)).1
  ext x
  simp only [List.mem_toFinset, List.mem_append, List.mem_cons, Finset.mem_insert,
    Finset.mem_erase]
  constructor
  · rintro (hx | rfl | hx)
    · by_cases hxv : x = v
      · subst hxv; exact absurd (List.mem_append.mpr (Or.inl hx)) hvAB
      · exact Or.inr ⟨hxv, Or.inl hx⟩
    · exact Or.inl rfl
    · by_cases hxv : x = v
      · subst hxv; exact absurd (List.mem_append.mpr (Or.inr hx)) hvAB
      · exact Or.inr ⟨hxv, Or.inr (Or.inr hx)⟩
  · rintro (rfl | ⟨hxv, (hx | rfl | hx)⟩)
    · exact Or.inr (Or.inl rfl)
    · exact Or.inl hx
    · exact absurd rfl hxv
    · exact Or.inr (Or.inr hx)

theorem nodup_mid_subst (A B : List Int) (v pg : Int)
    (hnd : (A ++ v :: B).Nodup) (hpg : pg ∉ A ++ v :: B) :
    (A ++ pg :: B).Nodup := by
  obtain ⟨_, hAB⟩ := List.nodup_cons.mp (List.nodup_middle.mp hnd)
  rw [List.nodup_middle, List.nodup_cons]
  refine ⟨?_, hAB⟩
  intro hmem
  apply hpg
  rcases List.mem_append.mp hmem with h | h
  · exact List.mem_append.mpr (Or.inl h)
  · exact List.mem_append.mpr (Or.inr (List.mem_cons_of_mem v h))

theorem mem_toFinset_mid (A B : List Int) (v : Int) :
    v ∈ (A ++ v :: B).toFinset := by
  rw [List.mem_toFinset]
  exact List.mem_append.mpr (Or.inr (List.mem_cons_self v B))

theorem nodup_fill (A B : List Int) (pg : Int)
    (hnd : (A ++ B).Nodup) (hpg : pg ∉ A ++ B) :
    (A ++ pg :: B).Nodup := by
  rw [List.nodup_middle, List.nodup_cons]
  exact ⟨hpg, hnd⟩

theorem occupied_page (f : FrameState) (h : f.is_empty = false) :
    ∃ v, f.page_number = some v := by
  unfold FrameState.is_empty at h
  cases hpn : f.page_number with
  | none => rw [hpn] at h; cases h
  | some q => exact ⟨q, rfl⟩

theorem findLru_aux :
    ∀ (l : List FrameState) (acc : Option FrameState) (v : FrameState),
    l.foldl
      (fun best f =>
        if f.is_empty then best
        else
          match best with
          | none => some f
          | some b => if f.last_access_time < b.last_access_time then some f else best)
      acc = some v →
    acc = some v ∨ (v ∈ l ∧ v.is_empty = false) := by
  intro l
  induction l with
  | nil => intro acc v h; exact Or.inl h
  | cons f fs ih =>
      intro acc v h
      rw [List.foldl_cons] at h
      rcases ih _ v h with hacc | ⟨hmem, hne⟩
      · by_cases hfe : f.is_empty = true
        · rw [if_pos hfe] at hacc
          exact Or.inl hacc
        · rw [if_neg hfe] at hacc
          cases hb : acc with
          | none =>
              rw [hb] at hacc
              injection hacc with hacc
              refine Or.inr ⟨?_, ?_⟩
              · rw [← hacc]; exact List.mem_cons_self f fs
              · rw [← hacc]; exact Bool.eq_false_iff.mpr hfe
          | some b =>
              rw [hb] at hacc
              dsimp only at hacc
              by_cases hlt : f.last_access_time < b.last_access_time
              · rw [if_pos hlt] at hacc
                injection hacc with hacc
                refine Or.inr ⟨?_, ?_⟩
                · rw [← hacc]; exact List.mem_cons_self f fs
                · rw [← hacc]; exact Bool.eq_false_iff.mpr hfe
              · rw [if_neg hlt] at hacc
                exact Or.inl (hb ▸ hacc)
      · exact Or.inr ⟨List.mem_cons_of_mem f hmem, hne⟩

theorem findLru_spec (frames : List FrameState) (v : FrameState)
    (h : findLruFrame frames = some v) : v ∈ frames ∧ v.is_empty = false := by
  unfold findLruFrame at h
  rcases findLru_aux frames none v h with hacc | hh
  · cases hacc
  · exact hh

theorem findLru_isSome_aux :
    ∀ (l : List FrameState) (b : FrameState),
    ∃ b2, l.foldl
      (fun best f =>
        if f.is_empty then best
        else
          match best with
          | none => some f
          | some b => if f.last_access_time < b.last_access_time then some f else best)
      (some b) = some b2 := by
  intro l
  induction l with
  | nil => intro b; exact ⟨b, rfl⟩
  | cons f fs ih =>
      intro b
      rw [List.foldl_cons]
      dsimp only
      by_cases hfe : f.is_empty = true
      · rw [if_pos hfe]; exact ih b
      · rw [if_neg hfe]
        by_cases hlt : f.last_access_time < b.last_access_time
        · rw [if_pos hlt]; exact ih f
        · rw [if_neg hlt]; exact ih b

theorem findLru_isSome (frames : List FrameState)
    (hne : frames ≠ []) (hfull : findEmptyFrame frames = none) :
    ∃ v, findLruFrame frames = some v := by
  cases frames with
  | nil => exact absurd rfl hne
  | cons f fs =>
      unfold findEmptyFrame at hfull
      rw [List.find?_cons] at hfull
      cases hfe : f.is_empty with
      | true => rw [hfe] at hfull; cases hfull
      | false =>
          unfold findLruFrame
          rw [List.foldl_cons, if_neg (by rw [hfe]; exact Bool.false_ne_true)]
          exact findLru_isSome_aux fs f

theorem lruLoop_run (k : Nat) (hk : 1 ≤ k) :
    ∀ (l : List Int) (st : LruState) (n : Nat),
    st.frames.length = k → (framesPages st.frames).Nodup →
    ∃ st2 c, lruLoop st n l = some st2 ∧
      st2.page_faults = st.page_faults + c ∧
      PageRun k l (framesPages st.frames).toFinset c := by
  intro l
  induction l with
  | nil =>
      intro st n hlen hnd
      exact ⟨st, 0, rfl, by omega, PageRun.nil _⟩
  | cons pg rest ih =>
      intro st n hlen hnd
      unfold lruLoop lruStep
      cases hfind : findPageInFrames st.frames pg with
      | some f =>
          dsimp only
          have hpid : framesPages (updateFirstFrame st.frames
              (fun fr => fr.page_number = some pg)
              (fun fr => { fr with last_access_time := (n : Int) })) =
              framesPages st.frames :=
            pages_updateFirstFrame_id _ _ _ (fun fr => rfl)
          obtain ⟨st2, c, hloop, hf, hrun⟩ := ih
            (lruRecord
              { st with
                frames := updateFirstFrame st.frames
                  (fun fr => fr.page_number = some pg)
                  (fun fr => { fr with last_access_time := (n : Int) }) }
              n n pg true)
            (n + 1)
            (by dsimp only [lruRecord]; rw [updateFirstFrame_length]; exact hlen)
            (by dsimp only [lruRecord]; rw [hpid]; exact hnd)
          refine ⟨st2, c, hloop, ?_, ?_⟩
          · rw [hf]; rfl
          · refine PageRun.hit pg rest _ c ?_ ?_
            · exact List.mem_toFinset.mpr (findPage_some _ _ _ hfind)
            · have hconv := hrun
              dsimp only [lruRecord] at hconv
              rw [hpid] at hconv
              exact hconv
      | none =>
          dsimp only
          have hpgn := findPage_none _ _ hfind
          cases hempty : findEmptyFrame st.frames with
          | some e =>
              dsimp only
              obtain ⟨A, B, h1, h2⟩ := pages_fill st.frames e pg (n : Int) hempty
              have hnd2 : (framesPages (updateFirstFrame st.frames
                  (fun fr => fr.is_empty)
                  (fun fr => fr.load_page pg (n : Int)))).Nodup := by
                rw [h2]
                exact nodup_fill A B pg (h1 ▸ hnd) (h1 ▸ hpgn)
              obtain ⟨st2, c, hloop, hf, hrun⟩ := ih
                (lruRecord
                  { st with
                    page_faults := st.page_faults + 1,
                    frames := updateFirstFrame st.frames
                      (fun fr => fr.is_empty)
                      (fun fr => fr.load_page pg (n : Int)) }
                  n n pg false)
                (n + 1)
                (by dsimp only [lruRecord]; rw [updateFirstFrame_length]; exact hlen)
                (by dsimp only [lruRecord]; exact hnd2)
              refine ⟨st2, c + 1, hloop, ?_, ?_⟩
              · rw [hf]; dsimp only [lruRecord]; omega
              · refine PageRun.fill pg rest _ c
                  (fun h => hpgn (List.mem_toFinset.mp h)) ?_ ?_
                · rw [List.toFinset_card_of_nodup hnd]
                  have := pages_len_lt_of_empty st.frames e hempty
                  omega
                · have hconv := hrun
                  dsimp only [lruRecord] at hconv
                  rw [h2, toFinset_fill, ← h1] at hconv
                  exact hconv
          | none =>
              have hne : st.frames ≠ [] := by
                intro h
                rw [h] at hlen
                simp at hlen
                omega
              obtain ⟨victim, hvfind⟩ := findLru_isSome st.frames hne hempty
              obtain ⟨hvmem, hvocc⟩ := findLru_spec _ _ hvfind
              obtain ⟨v, hv⟩ := occupied_page victim hvocc
              obtain ⟨A, B, h1, h2⟩ := pages_evict_eq st.frames victim v pg (n : Int)
                hvmem hv
              rw [hvfind]
              dsimp only
              have hnd2 : (framesPages (updateFirstFrame st.frames
                  (fun fr => fr = victim)
                  (fun fr => fr.load_page pg (n : Int)))).Nodup := by
                rw [h2]
                exact nodup_mid_subst A B v pg (h1 ▸ hnd) (h1 ▸ hpgn)
              obtain ⟨st2, c, hloop, hf, hrun⟩ := ih
                (lruRecord
                  { st with
                    page_faults := st.page_faults + 1,
                    frames := updateFirstFrame st.frames
                      (fun fr => fr = victim)
                      (fun fr => fr.load_page pg (n : Int)) }
                  n n pg false)
                (n + 1)
                (by dsimp only [lruRecord]; rw [updateFirstFrame_length]; exact hlen)
                (by dsimp only [lruRecord]; exact hnd2)
              refine ⟨st2, c + 1, hloop, ?_, ?_⟩
              · rw [hf]; dsimp only [lruRecord]; omega
              · refine PageRun.evict pg rest _ c v
                  (fun h => hpgn (List.mem_toFinset.mp h)) ?_ ?_ ?_
                · rw [List.toFinset_card_of_nodup hnd,
                    pages_len_eq_of_full st.frames hempty, hlen]
                · rw [h1]
                  exact mem_toFinset_mid A B v
                · have hconv := hrun
                  dsimp only [lruRecord] at hconv
                  rw [h2, toFinset_evict A B v pg (h1 ▸ hnd), ← h1] at hconv
                  exact hconv

theorem findIdx?_eq_firstIdx (x : Int) :
    ∀ (l : List Int) (i : Nat),
    l.findIdx? (fun p => p = x) i = (firstIdx l x).map (· + i) := by
  intro l
  induction l with
  | nil => intro i; rfl
  | cons p σ ih =>
      intro i
      rw [List.findIdx?_cons]
      unfold firstIdx
      by_cases hp : p = x
      · rw [if_pos (decide_eq_true hp), if_pos hp]
        simp
      · rw [if_neg (by simp only [decide_eq_true_eq]; exact hp), if_neg hp]
        rw [ih (i + 1)]
        cases firstIdx σ x with
        | none => rfl
        | some j =>
            show some (j + (i + 1)) = some (j + 1 + i)
            rw [show j + (i + 1) = j + 1 + i by omega]

theorem findNextUse_eq (seq : List Int) (x : Int) (s : Nat) :
    findNextUse seq x s = match firstIdx (seq.drop s) x with
      | some j => ((s + j : Nat) : Int)
      | none => -1 := by
  unfold findNextUse
  rw [findIdx?_eq_firstIdx]
  cases firstIdx (seq.drop s) x with
  | none => rfl
  | some j => rfl

theorem firstIdx_none_iff (l : List Int) (x : Int) :
    firstIdx l x = none ↔ x ∉ l := by
  induction l with
  | nil => simp [firstIdx]
  | cons p σ ih =>
      unfold firstIdx
      by_cases hp : p = x
      · rw [if_pos hp]
        simp [hp]
      · rw [if_neg hp]
        constructor
        · intro h hmem
          rcases List.mem_cons.mp hmem with hh | hh
          · exact hp hh.symm
          · cases hfi : firstIdx σ x with
            | none => exact (ih.mp hfi) hh
            | some j => rw [hfi] at h; cases h
        · intro h
          have hσ : firstIdx σ x = none :=
            ih.mpr (fun hm => h (List.mem_cons_of_mem p hm))
          rw [hσ]
          rfl

theorem nb_of_firstIdx (u w : Int) :
    ∀ (l : List Int) (iw : Nat), firstIdx l w = some iw →
    (∀ iu, firstIdx l u = some iu → iw ≤ iu) →
    notBefore l u w := by
  intro l
  induction l with
  | nil => intro iw h; cases h
  | cons p σ ih =>
      intro iw hw hle
      by_cases hpw : p = w
      · rw [hpw]
        exact nb_cons_w σ u w
      · have hw2 : ∃ iw2, firstIdx σ w = some iw2 ∧ iw = iw2 + 1 := by
          unfold firstIdx at hw
          rw [if_neg hpw] at hw
          cases hfi : firstIdx σ w with
          | none => rw [hfi] at hw; cases hw
          | some j =>
              rw [hfi] at hw
              injection hw with hw
              exact ⟨j, rfl, hw.symm⟩
        obtain ⟨iw2, hw2, hiw⟩ := hw2
        by_cases hpu : p = u
        · exfalso
          have h0 : firstIdx (p :: σ) u = some 0 := by
            unfold firstIdx
            rw [if_pos hpu]
          have := hle 0 h0
          omega
        · rw [nb_cons_other σ p u w hpw hpu]
          refine ih iw2 hw2 ?_
          intro iu hu
          have hcons : firstIdx (p :: σ) u = some (iu + 1) := by
            unfold firstIdx
            rw [if_neg hpu, hu]
            rfl
          have := hle (iu + 1) hcons
          omega

theorem findNextUse_ne_neg1 (seq : List Int) (x : Int) (s : Nat)
    (h : findNextUse seq x s ≠ -1) :
    ∃ j, firstIdx (seq.drop s) x = some j ∧ findNextUse seq x s = ((s + j : Nat) : Int) := by
  rw [findNextUse_eq] at h ⊢
  cases hfi : firstIdx (seq.drop s) x with
  | none => rw [hfi] at h; exact absurd rfl h
  | some j => exact ⟨j, rfl, rfl⟩

theorem findNextUse_nonneg (seq : List Int) (x : Int) (s : Nat)
    (h : findNextUse seq x s ≠ -1) : 0 ≤ findNextUse seq x s := by
  obtain ⟨j, _, he⟩ := findNextUse_ne_neg1 seq x s h
  rw [he]
  exact Int.ofNat_nonneg _

theorem findNextUse_neg1_not_mem (seq : List Int) (x : Int) (s : Nat)
    (h : findNextUse seq x s = -1) : x ∉ seq.drop s := by
  rw [findNextUse_eq] at h
  cases hfi : firstIdx (seq.drop s) x with
  | none => exact (firstIdx_none_iff _ _).mp hfi
  | some j =>
      rw [hfi] at h
      exfalso
      have h2 : ((s + j : Nat) : Int) = -1 := h
      omega

theorem occupied_of_page (f : FrameState) (x : Int) (h : f.page_number = some x) :
    f.is_empty = false := by
  unfold FrameState.is_empty
  rw [h]
  rfl

theorem optVictim_go_spec (seq : List Int) (s : Nat) :
    ∀ (l : List FrameState) (far : Int) (vic : Option FrameState) (v : FrameState),
    findOptimalVictim.go seq s l far vic = some v →
    (∀ b, vic = some b → b.is_empty = false ∧
      findNextUse seq b.page_number.iget (s + 1) = far ∧
      findNextUse seq b.page_number.iget (s + 1) ≠ -1) →
    v.is_empty = false ∧ (v ∈ l ∨ vic = some v) ∧
    (findNextUse seq v.page_number.iget (s + 1) = -1 ∨
      ((∀ f ∈ l, f.is_empty = false →
        findNextUse seq f.page_number.iget (s + 1) ≠ -1 ∧
        findNextUse seq f.page_number.iget (s + 1) ≤
          findNextUse seq v.page_number.iget (s + 1)) ∧
       far ≤ findNextUse seq v.page_number.iget (s + 1))) := by
  intro l
  induction l with
  | nil =>
      intro far vic v h hvic
      unfold findOptimalVictim.go at h
      obtain ⟨h1, h2, h3⟩ := hvic v h
      refine ⟨h1, Or.inr h, Or.inr ⟨?_, ?_⟩⟩
      · intro f hf; cases hf
      · rw [h2]
  | cons f fs ih =>
      intro far vic v h hvic
      unfold findOptimalVictim.go at h
      by_cases hfe : f.is_empty = true
      · rw [if_pos hfe] at h
        obtain ⟨h1, h2, h3⟩ := ih far vic v h hvic
        refine ⟨h1, ?_, ?_⟩
        · rcases h2 with h2 | h2
          · exact Or.inl (List.mem_cons_of_mem f h2)
          · exact Or.inr h2
        · rcases h3 with h3 | ⟨h3, h4⟩
          · exact Or.inl h3
          · refine Or.inr ⟨?_, h4⟩
            intro f2 hf2 hocc
            rcases List.mem_cons.mp hf2 with hh | hh
            · rw [hh] at hocc
              rw [hocc] at hfe
              cases hfe
            · exact h3 f2 hh hocc
      · rw [if_neg hfe] at h
        dsimp only at h
        by_cases hnu : findNextUse seq f.page_number.iget (s + 1) = -1
        · rw [if_pos hnu] at h
          injection h with h
          subst h
          exact ⟨Bool.eq_false_iff.mpr hfe, Or.inl (List.mem_cons_self _ _),
            Or.inl hnu⟩
        · rw [if_neg hnu] at h
          by_cases hlt : far < findNextUse seq f.page_number.iget (s + 1)
          · rw [if_pos hlt] at h
            obtain ⟨h1, h2, h3⟩ := ih _ _ v h
              (by
                intro b hb
                injection hb with hb
                rw [← hb]
                exact ⟨Bool.eq_false_iff.mpr hfe, rfl, hnu⟩)
            refine ⟨h1, ?_, ?_⟩
            · rcases h2 with h2 | h2
              · exact Or.inl (List.mem_cons_of_mem f h2)
              · injection h2 with h2
                exact Or.inl (h2 ▸ List.mem_cons_self f fs)
            · rcases h3 with h3 | ⟨h3, h4⟩
              · exact Or.inl h3
              · refine Or.inr ⟨?_, by omega⟩
                intro f2 hf2 hocc
                rcases List.mem_cons.mp hf2 with hh | hh
                · rw [hh]
                  exact ⟨hnu, by omega⟩
                · exact h3 f2 hh hocc
          · rw [if_neg hlt] at h
            obtain ⟨h1, h2, h3⟩ := ih far vic v h hvic
            refine ⟨h1, ?_, ?_⟩
            · rcases h2 with h2 | h2
              · exact Or.inl (List.mem_cons_of_mem f h2)
              · exact Or.inr h2
            · rcases h3 with h3 | ⟨h3, h4⟩
              · exact Or.inl h3
              · refine Or.inr ⟨?_, h4⟩
                intro f2 hf2 hocc
                rcases List.mem_cons.mp hf2 with hh | hh
                · rw [hh]
                  exact ⟨hnu, by omega⟩
                · exact h3 f2 hh hocc

theorem optVictim_go_some (seq : List Int) (s : Nat) :
    ∀ (l : List FrameState) (far : Int) (b : FrameState),
    ∃ v, findOptimalVictim.go seq s l far (some b) = some v := by
  intro l
  induction l with
  | nil => intro far b; exact ⟨b, rfl⟩
  | cons f fs ih =>
      intro far b
      unfold findOptimalVictim.go
      by_cases hfe : f.is_empty = true
      · rw [if_pos hfe]; exact ih far b
      · rw [if_neg hfe]
        dsimp only
        by_cases hnu : findNextUse seq f.page_number.iget (s + 1) = -1
        · rw [if_pos hnu]; exact ⟨f, rfl⟩
        · rw [if_neg hnu]
          by_cases hlt : far < findNextUse seq f.page_number.iget (s + 1)
          · rw [if_pos hlt]; exact ih _ f
          · rw [if_neg hlt]; exact ih far b

theorem optVictim_isSome (seq : List Int) (s : Nat) (frames : List FrameState)
    (hne : frames ≠ []) (hfull : findEmptyFrame frames = none) :
    ∃ v, findOptimalVictim.go seq s frames (-1) none = some v := by
  cases frames with
  | nil => exact absurd rfl hne
  | cons f fs =>
      unfold findEmptyFrame at hfull
      rw [List.find?_cons] at hfull
      cases hfe : f.is_empty with
      | true => rw [hfe] at hfull; cases hfull
      | false =>
          unfold findOptimalVictim.go
          rw [if_neg (by rw [hfe]; exact Bool.false_ne_true)]
          dsimp only
          by_cases hnu : findNextUse seq f.page_number.iget (s + 1) = -1
          · rw [if_pos hnu]; exact ⟨f, rfl⟩
          · rw [if_neg hnu]
            rw [if_pos (by
              have := findNextUse_nonneg seq f.page_number.iget (s + 1) hnu
              omega)]
            exact optVictim_go_some seq s fs _ f

theorem optVictim_spec (seq : List Int) (s : Nat) (frames : List FrameState)
    (v : FrameState) (pv : Int)
    (hgo : findOptimalVictim.go seq s frames (-1) none = some v)
    (hpv : v.page_number = some pv) :
    v ∈ frames ∧
    ∀ x ∈ framesPages frames, notBefore (seq.drop (s + 1)) pv x := by
  obtain ⟨hocc, hmem, hthird⟩ := optVictim_go_spec seq s frames (-1) none v hgo
    (fun b hb => by cases hb)
  have hmem2 : v ∈ frames := by
    rcases hmem with h | h
    · exact h
    · cases h
  have higet : v.page_number.iget = pv := by rw [hpv]
  refine ⟨hmem2, ?_⟩
  intro x hx
  rcases hthird with hleft | ⟨hall, _⟩
  · rw [higet] at hleft
    exact nb_of_not_mem pv x _ (findNextUse_neg1_not_mem seq pv (s + 1) hleft)
  · obtain ⟨fx, hfx, hfxp⟩ := (mem_framesPages frames x).mp hx
    have hfxocc := occupied_of_page fx x hfxp
    have hfiget : fx.page_number.iget = x := by rw [hfxp]
    obtain ⟨hxne, hxle⟩ := hall fx hfx hfxocc
    obtain ⟨hvne, _⟩ := hall v hmem2 hocc
    rw [hfiget] at hxne hxle
    rw [higet] at hxle hvne
    obtain ⟨ix, hix, hex⟩ := findNextUse_ne_neg1 seq x (s + 1) hxne
    obtain ⟨iv, hiv, hev⟩ := findNextUse_ne_neg1 seq pv (s + 1) hvne
    rw [hex, hev] at hxle
    have hle2 : ix ≤ iv := by
      have h1 : (0 : Int) ≤ ix := Int.ofNat_nonneg _
      omega
    refine nb_of_firstIdx pv x (seq.drop (s + 1)) ix hix ?_
    intro iu hu
    rw [hiv] at hu
    injection hu with hu
    omega

theorem drop_succ_cons (seq : List Int) (n : Nat) (pg : Int) (rest : List Int)
    (h : seq.drop n = pg :: rest) : seq.drop (n + 1) = rest := by
  have h2 := congrArg (List.drop 1) h
  rw [List.drop_drop] at h2
  exact h2

theorem optLoop_run (k : Nat) (hk : 1 ≤ k) (seq : List Int) :
    ∀ (l : List Int) (st : OptState) (n : Nat),
    st.frames.length = k → (framesPages st.frames).Nodup →
    seq.drop n = l →
    ∃ st2 c, optLoop seq st n l = some st2 ∧
      st2.page_faults = st.page_faults + c ∧
      FarRun k l (framesPages st.frames).toFinset c := by
  intro l
  induction l with
  | nil =>
      intro st n hlen hnd _
      exact ⟨st, 0, rfl, by omega, FarRun.nil _⟩
  | cons pg rest ih =>
      intro st n hlen hnd hdrop
      have hdrop2 : seq.drop (n + 1) = rest := drop_succ_cons seq n pg rest hdrop
      unfold optLoop optStep
      cases hfind : findPageInFrames st.frames pg with
      | some f =>
          dsimp only
          have hpid : framesPages (updateFirstFrame st.frames
              (fun fr => fr.page_number = some pg)
              (fun fr => { fr with last_access_time := (n : Int) })) =
              framesPages st.frames :=
            pages_updateFirstFrame_id _ _ _ (fun fr => rfl)
          obtain ⟨st2, c, hloop, hf, hrun⟩ := ih
            (optRecord
              { st with
                frames := updateFirstFrame st.frames
                  (fun fr => fr.page_number = some pg)
                  (fun fr => { fr with last_access_time := (n : Int) }) }
              n n pg true)
            (n + 1)
            (by dsimp only [optRecord]; rw [updateFirstFrame_length]; exact hlen)
            (by dsimp only [optRecord]; rw [hpid]; exact hnd)
            hdrop2
          refine ⟨st2, c, hloop, ?_, ?_⟩
          · rw [hf]; rfl
          · refine FarRun.hit pg rest _ c ?_ ?_
            · exact List.mem_toFinset.mpr (findPage_some _ _ _ hfind)
            · have hconv := hrun
              dsimp only [optRecord] at hconv
              rw [hpid] at hconv
              exact hconv
      | none =>
          dsimp only
          have hpgn := findPage_none _ _ hfind
          cases hempty : findEmptyFrame st.frames with
          | some e =>
              dsimp only
              obtain ⟨A, B, h1, h2⟩ := pages_fill st.frames e pg (n : Int) hempty
              have hnd2 : (framesPages (updateFirstFrame st.frames
                  (fun fr => fr.is_empty)
                  (fun fr => fr.load_page pg (n : Int)))).Nodup := by
                rw [h2]
                exact nodup_fill A B pg (h1 ▸ hnd) (h1 ▸ hpgn)
              obtain ⟨st2, c, hloop, hf, hrun⟩ := ih
                (optRecord
                  { st with
                    page_faults := st.page_faults + 1,
                    frames := updateFirstFrame st.frames
                      (fun fr => fr.is_empty)
                      (fun fr => fr.load_page pg (n : Int)) }
                  n n pg false)
                (n + 1)
                (by dsimp only [optRecord]; rw [updateFirstFrame_length]; exact hlen)
                (by dsimp only [optRecord]; exact hnd2)
                hdrop2
              refine ⟨st2, c + 1, hloop, ?_, ?_⟩
              · rw [hf]; dsimp only [optRecord]; omega
              · refine FarRun.fill pg rest _ c
                  (fun h => hpgn (List.mem_toFinset.mp h)) ?_ ?_
                · rw [List.toFinset_card_of_nodup hnd]
                  have := pages_len_lt_of_empty st.frames e hempty
                  omega
                · have hconv := hrun
                  dsimp only [optRecord] at hconv
                  rw [h2, toFinset_fill, ← h1] at hconv
                  exact hconv
          | none =>
              have hne : st.frames ≠ [] := by
                intro h
                rw [h] at hlen
                simp at hlen
                omega
              obtain ⟨victim, hgo⟩ := optVictim_isSome seq n st.frames hne hempty
              have hvfind : findOptimalVictim seq st.frames n = some victim := by
                unfold findOptimalVictim
                rw [hgo]
              obtain ⟨hvocc, _, _⟩ := optVictim_go_spec seq n st.frames (-1) none
                victim hgo (fun b hb => by cases hb)
              obtain ⟨v, hv⟩ := occupied_page victim hvocc
              obtain ⟨hvmem, hmax⟩ := optVictim_spec seq n st.frames victim v hgo hv
              obtain ⟨A, B, h1, h2⟩ := pages_evict_eq st.frames victim v pg (n : Int)
                hvmem hv
              rw [hvfind]
              dsimp only
              have hnd2 : (framesPages (updateFirstFrame st.frames
                  (fun fr => fr = victim)
                  (fun fr => fr.load_page pg (n : Int)))).Nodup := by
                rw [h2]
                exact nodup_mid_subst A B v pg (h1 ▸ hnd) (h1 ▸ hpgn)
              obtain ⟨st2, c, hloop, hf, hrun⟩ := ih
                (optRecord
                  { st with
                    page_faults := st.page_faults + 1,
                    frames := updateFirstFrame st.frames
                      (fun fr => fr = victim)
                      (fun fr => fr.load_page pg (n : Int)) }
                  n n pg false)
                (n + 1)
                (by dsimp only [optRecord]; rw [updateFirstFrame_length]; exact hlen)
                (by dsimp only [optRecord]; exact hnd2)
                hdrop2
              refine ⟨st2, c + 1, hloop, ?_, ?_⟩
              · rw [hf]; dsimp only [optRecord]; omega
              · refine FarRun.evict pg rest _ c v
                  (fun h => hpgn (List.mem_toFinset.mp h)) ?_ ?_ ?_ ?_
                · rw [List.toFinset_card_of_nodup hnd,
                    pages_len_eq_of_full st.frames hempty, hlen]
                · rw [h1]
                  exact mem_toFinset_mid A B v
                · intro x hx
                  rw [← hdrop2]
                  exact hmax x (List.mem_toFinset.mp hx)
                · have hconv := hrun
                  dsimp only [optRecord] at hconv
                  rw [h2, toFinset_evict A B v pg (h1 ▸ hnd), ← h1] at hconv
                  exact hconv

theorem filterMap_eq_of_map_eq :
    ∀ (l1 l2 : List FrameState),
    l1.map (·.page_number) = l2.map (·.page_number) →
    framesPages l1 = framesPages l2 := by
  intro l1
  induction l1 with
  | nil =>
      intro l2 h
      cases l2 with
      | nil => rfl
      | cons f fs => cases h
  | cons f fs ih =>
      intro l2 h
      cases l2 with
      | nil => cases h
      | cons g gs =>
          rw [List.map_cons, List.map_cons] at h
          injection h with h1 h2
          unfold framesPages
          rw [List.filterMap_cons, List.filterMap_cons, h1]
          have := ih gs h2
          unfold framesPages at this
          rw [this]

theorem all_occupied_of_full (frames : List FrameState)
    (h : findEmptyFrame frames = none) : ∀ f ∈ frames, f.is_empty = false := by
  intro f hf
  have := List.find?_eq_none.mp h f hf
  exact Bool.eq_false_iff.mpr this

theorem all_occupied_of_map_eq (l1 l2 : List FrameState)
    (hmap : l1.map (·.page_number) = l2.map (·.page_number))
    (h : ∀ f ∈ l1, f.is_empty = false) : ∀ f ∈ l2, f.is_empty = false := by
  intro f hf
  have hpn : f.page_number ∈ l2.map (·.page_number) := List.mem_map.mpr ⟨f, hf, rfl⟩
  rw [← hmap] at hpn
  obtain ⟨f1, hf1, he⟩ := List.mem_map.mp hpn
  have hocc := h f1 hf1
  unfold FrameState.is_empty at hocc ⊢
  rw [← he]
  exact hocc

theorem map_pages_set :
    ∀ (frames : List FrameState) (j : Nat) (cf g : FrameState),
    frames.get? j = some cf → g.page_number = cf.page_number →
    (frames.set j g).map (·.page_number) = frames.map (·.page_number) := by
  intro frames
  induction frames with
  | nil => intro j cf g h _; cases h
  | cons f fs ih =>
      intro j cf g hget hpg
      cases j with
      | zero =>
          rw [List.get?_cons_zero] at hget
          injection hget with hget
          rw [List.set_cons_zero, List.map_cons, List.map_cons, hpg, hget]
      | succ j2 =>
          rw [List.get?_cons_succ] at hget
          rw [List.set_cons_succ, List.map_cons, List.map_cons, ih j2 cf g hget hpg]

theorem clockVictim_spec :
    ∀ (fuel : Nat) (frames : List FrameState) (hand : Nat)
      (f2 : List FrameState) (h2 : Nat) (victim : FrameState),
    findClockVictim fuel frames hand = some (f2, h2, victim) →
    f2.map (·.page_number) = frames.map (·.page_number) ∧
    f2.length = frames.length ∧ victim ∈ f2 ∧
    (0 < frames.length → h2 < f2.length) := by
  intro fuel
  induction fuel with
  | zero => intro frames hand f2 h2 victim h; cases h
  | succ fuel ih =>
      intro frames hand f2 h2 victim h
      unfold findClockVictim clockProbe at h
      cases hget : frames.get? hand with
      | none => rw [hget] at h; cases h
      | some cf =>
          rw [hget] at h
          dsimp only at h
          by_cases hrb : cf.reference_bit = true
          · rw [if_pos hrb] at h
            dsimp only at h
            obtain ⟨hm, hl, hv, hh⟩ := ih _ _ _ _ _ h
            have hmap : (frames.set hand { cf with reference_bit := false }).map
                (·.page_number) = frames.map (·.page_number) :=
              map_pages_set frames hand cf _ hget rfl
            rw [hmap] at hm
            rw [List.length_set] at hl
            refine ⟨hm, hl, hv, ?_⟩
            intro hpos
            exact hh (by rw [List.length_set]; exact hpos)
          · rw [if_neg hrb] at h
            dsimp only at h
            injection h with h
            injection h with ha hb
            injection hb with hb1 hb2
            subst ha
            subst hb1
            subst hb2
            refine ⟨rfl, rfl, List.get?_mem hget, ?_⟩
            intro hpos
            exact Nat.mod_lt _ hpos

theorem countTrue_set (cf : FrameState) :
    ∀ (frames : List FrameState) (hand : Nat),
    frames.get? hand = some cf → cf.reference_bit = true →
    ((frames.set hand { cf with reference_bit := false }).filter
      (·.reference_bit)).length + 1 = (frames.filter (·.reference_bit)).length := by
  intro frames
  induction frames with
  | nil => intro hand h _; cases h
  | cons f fs ih =>
      intro hand hget hrb
      cases hand with
      | zero =>
          rw [List.get?_cons_zero] at hget
          injection hget with hget
          rw [List.set_cons_zero, List.filter_cons, List.filter_cons]
          rw [if_neg (by dsimp only; exact Bool.false_ne_true)]
          rw [hget, if_pos hrb]
          rfl
      | succ h2 =>
          rw [List.get?_cons_succ] at hget
          rw [List.set_cons_succ, List.filter_cons, List.filter_cons]
          by_cases hfb : f.reference_bit = true
          · rw [if_pos hfb, if_pos hfb]
            simp only [List.length_cons]
            rw [← ih h2 hget hrb]
          · rw [if_neg hfb, if_neg hfb]
            exact ih h2 hget hrb

theorem clockVictim_isSome :
    ∀ (fuel : Nat) (frames : List FrameState) (hand : Nat),
    hand < frames.length →
    (frames.filter (·.reference_bit)).length < fuel →
    ∃ out, findClockVictim fuel frames hand = some out := by
  intro fuel
  induction fuel with
  | zero => intro frames hand _ h; omega
  | succ fuel ih =>
      intro frames hand hlt hcnt
      unfold findClockVictim clockProbe
      cases hget : frames.get? hand with
      | none =>
          exfalso
          rw [List.get?_eq_none] at hget
          omega
      | some cf =>
          dsimp only
          by_cases hrb : cf.reference_bit = true
          · rw [if_pos hrb]
            dsimp only
            have hcs := countTrue_set cf frames hand hget hrb
            refine ih _ _ ?_ ?_
            · rw [List.length_set]
              exact Nat.mod_lt _ (by omega)
            · omega
          · rw [if_neg hrb]
            dsimp only
            exact ⟨_, rfl⟩

theorem clockLoop_run (k : Nat) (hk : 1 ≤ k) :
    ∀ (l : List Int) (st : ClockState) (n : Nat),
    st.frames.length = k → (framesPages st.frames).Nodup → st.clock_hand < k →
    ∃ st2 c, clockLoop st n l = some st2 ∧
      st2.page_faults = st.page_faults + c ∧
      PageRun k l (framesPages st.frames).toFinset c := by
  intro l
  induction l with
  | nil =>
      intro st n hlen hnd hhand
      exact ⟨st, 0, rfl, by omega, PageRun.nil _⟩
  | cons pg rest ih =>
      intro st n hlen hnd hhand
      unfold clockLoop clockStep
      cases hfind : findPageInFrames st.frames pg with
      | some f =>
          dsimp only
          have hpid : framesPages (updateFirstFrame st.frames
              (fun fr => fr.page_number = some pg)
              (fun fr =>
                { fr with
                  last_access_time := (n : Int),
                  reference_bit := true })) = framesPages st.frames :=
            pages_updateFirstFrame_id _ _ _ (fun fr => rfl)
          obtain ⟨st2, c, hloop, hf, hrun⟩ := ih
            (clockRecord
              { st with
                frames := updateFirstFrame st.frames
                  (fun fr => fr.page_number = some pg)
                  (fun fr =>
                    { fr with
                      last_access_time := (n : Int),
                      reference_bit := true }) }
              n n pg true)
            (n + 1)
            (by dsimp only [clockRecord]; rw [updateFirstFrame_length]; exact hlen)
            (by dsimp only [clockRecord]; rw [hpid]; exact hnd)
            (by dsimp only [clockRecord]; exact hhand)
          refine ⟨st2, c, hloop, ?_, ?_⟩
          · rw [hf]; rfl
          · refine PageRun.hit pg rest _ c ?_ ?_
            · exact List.mem_toFinset.mpr (findPage_some _ _ _ hfind)
            · have hconv := hrun
              dsimp only [clockRecord] at hconv
              rw [hpid] at hconv
              exact hconv
      | none =>
          dsimp only
          have hpgn := findPage_none _ _ hfind
          cases hempty : findEmptyFrame st.frames with
          | some e =>
              dsimp only
              obtain ⟨A, B, h1, h2⟩ := pages_fill st.frames e pg (n : Int) hempty
              have hnd2 : (framesPages (updateFirstFrame st.frames
                  (fun fr => fr.is_empty)
                  (fun fr => fr.load_page pg (n : Int)))).Nodup := by
                rw [h2]
                exact nodup_fill A B pg (h1 ▸ hnd) (h1 ▸ hpgn)
              obtain ⟨st2, c, hloop, hf, hrun⟩ := ih
                (clockRecord
                  { st with
                    page_faults := st.page_faults + 1,
                    frames := updateFirstFrame st.frames
                      (fun fr => fr.is_empty)
                      (fun fr => fr.load_page pg (n : Int)) }
                  n n pg false)
                (n + 1)
                (by dsimp only [clockRecord]; rw [updateFirstFrame_length]; exact hlen)
                (by dsimp only [clockRecord]; exact hnd2)
                (by dsimp only [clockRecord]; exact hhand)
              refine ⟨st2, c + 1, hloop, ?_, ?_⟩
              · rw [hf]; dsimp only [clockRecord]; omega
              · refine PageRun.fill pg rest _ c
                  (fun h => hpgn (List.mem_toFinset.mp h)) ?_ ?_
                · rw [List.toFinset_card_of_nodup hnd]
                  have := pages_len_lt_of_empty st.frames e hempty
                  omega
                · have hconv := hrun
                  dsimp only [clockRecord] at hconv
                  rw [h2, toFinset_fill, ← h1] at hconv
                  exact hconv
          | none =>
              obtain ⟨⟨f2, h2v, victim⟩, hvfind⟩ :=
                clockVictim_isSome (st.frames.length + 1) st.frames st.clock_hand
                  (by omega)
                  (by have := List.length_filter_le (·.reference_bit) st.frames; omega)
              obtain ⟨hmap, hflen, hvmem, hhand2⟩ :=
                clockVictim_spec _ _ _ _ _ _ hvfind
              have hocc2 : ∀ f ∈ f2, f.is_empty = false :=
                all_occupied_of_map_eq st.frames f2 hmap.symm
                  (all_occupied_of_full st.frames hempty)
              obtain ⟨v, hv⟩ := occupied_page victim (hocc2 victim hvmem)
              have hpages2 : framesPages f2 = framesPages st.frames :=
                filterMap_eq_of_map_eq f2 st.frames hmap
              obtain ⟨A, B, h1, h2⟩ := pages_evict_eq f2 victim v pg (n : Int)
                hvmem hv
              rw [hvfind]
              dsimp only
              have h1' : framesPages st.frames = A ++ v :: B := by
                rw [← hpages2]; exact h1
              have hnd2 : (framesPages (updateFirstFrame f2
                  (fun fr => fr = victim)
                  (fun fr => fr.load_page pg (n : Int)))).Nodup := by
                rw [h2]
                exact nodup_mid_subst A B v pg (h1' ▸ hnd) (h1' ▸ hpgn)
              obtain ⟨st2, c, hloop, hf, hrun⟩ := ih
                (clockRecord
                  { st with
                    page_faults := st.page_faults + 1,
                    frames := updateFirstFrame f2
                      (fun fr => fr = victim)
                      (fun fr => fr.load_page pg (n : Int)),
                    clock_hand := h2v }
                  n n pg false)
                (n + 1)
                (by
                  dsimp only [clockRecord]
                  rw [updateFirstFrame_length, hflen]
                  exact hlen)
                (by dsimp only [clockRecord]; exact hnd2)
                (by
                  dsimp only [clockRecord]
                  have := hhand2 (by omega)
                  omega)
              refine ⟨st2, c + 1, hloop, ?_, ?_⟩
              · rw [hf]; dsimp only [clockRecord]; omega
              · refine PageRun.evict pg rest _ c v
                  (fun h => hpgn (List.mem_toFinset.mp h)) ?_ ?_ ?_
                · rw [List.toFinset_card_of_nodup hnd,
                    pages_len_eq_of_full st.frames hempty, hlen]
                · rw [h1']
                  exact mem_toFinset_mid A B v
                · have hconv := hrun
                  dsimp only [clockRecord] at hconv
                  rw [h2, toFinset_evict A B v pg (h1' ▸ hnd), ← h1'] at hconv
                  exact hconv

theorem get?_set_self_f (l : List FrameState) (j : Nat) (a : FrameState)
    (h : j < l.length) : (l.set j a).get? j = some a := by
  rw [List.get?_set_eq]
  cases hq : l.get? j with
  | none =>
      rw [List.get?_eq_none] at hq
      omega
  | some q => rfl

theorem fifoLoop_run (k : Nat) (hk : 1 ≤ k) :
    ∀ (l : List Int) (st : FifoState) (n : Nat),
    st.frames.length = k →
    (∀ j fr, st.frames.get? j = some fr → fr.frame_id = j) →
    (∀ i, i ∈ st.insertion_order ↔ frameOccupied st.frames i) →
    (framesPages st.frames).Nodup →
    ∃ st2 c, fifoLoop st n l = some st2 ∧
      st2.page_faults = st.page_faults + c ∧
      PageRun k l (framesPages st.frames).toFinset c := by
  intro l
  induction l with
  | nil =>
      intro st n hlen hid hiff hnd
      exact ⟨st, 0, rfl, by omega, PageRun.nil _⟩
  | cons pg rest ih =>
      intro st n hlen hid hiff hnd
      unfold fifoLoop fifoStep
      cases hfind : findPageInFrames st.frames pg with
      | some f =>
          dsimp only
          have hpid : framesPages (updateFirstFrame st.frames
              (fun fr => fr.page_number = some pg)
              (fun fr => { fr with last_access_time := (n : Int) })) =
              framesPages st.frames :=
            pages_updateFirstFrame_id _ _ _ (fun fr => rfl)
          obtain ⟨st2, c, hloop, hf, hrun⟩ := ih
            (fifoRecord
              { st with
                frames := updateFirstFrame st.frames
                  (fun fr => fr.page_number = some pg)
                  (fun fr => { fr with last_access_time := (n : Int) }) }
              n n pg true)
            (n + 1)
            (by dsimp only [fifoRecord]; rw [updateFirstFrame_length]; exact hlen)
            (by
              dsimp only [fifoRecord]
              refine get?_id_of_map_eq (updateFirstFrame_map_id ?_ _) hid
              exact fun fr => rfl)
            (by
              dsimp only [fifoRecord]
              intro i
              have hoccp : frameOccupied (updateFirstFrame st.frames
                  (fun fr => fr.page_number = some pg)
                  (fun fr => { fr with last_access_time := (n : Int) })) i ↔
                  frameOccupied st.frames i := by
                refine occ_updateFirstFrame_pres ?_ st.frames i
                exact fun fr => ⟨rfl, rfl⟩
              rw [hoccp]
              exact hiff i)
            (by dsimp only [fifoRecord]; rw [hpid]; exact hnd)
          refine ⟨st2, c, hloop, ?_, ?_⟩
          · rw [hf]; rfl
          · refine PageRun.hit pg rest _ c ?_ ?_
            · exact List.mem_toFinset.mpr (findPage_some _ _ _ hfind)
            · have hconv := hrun
              dsimp only [fifoRecord] at hconv
              rw [hpid] at hconv
              exact hconv
      | none =>
          dsimp only
          have hpgn := findPage_none _ _ hfind
          cases hempty : findEmptyFrame st.frames with
          | some e =>
              dsimp only
              obtain ⟨A, B, h1, h2⟩ := pages_fill st.frames e pg (n : Int) hempty
              have hnd2 : (framesPages (updateFirstFrame st.frames
                  (fun fr => fr.is_empty)
                  (fun fr => fr.load_page pg (n : Int)))).Nodup := by
                rw [h2]
                exact nodup_fill A B pg (h1 ▸ hnd) (h1 ▸ hpgn)
              obtain ⟨st2, c, hloop, hf, hrun⟩ := ih
                (fifoRecord
                  { st with
                    page_faults := st.page_faults + 1,
                    frames := updateFirstFrame st.frames
                      (fun fr => fr.is_empty)
                      (fun fr => fr.load_page pg (n : Int)),
                    insertion_order := st.insertion_order ++ [e.frame_id] }
                  n n pg false)
                (n + 1)
                (by dsimp only [fifoRecord]; rw [updateFirstFrame_length]; exact hlen)
                (by
                  dsimp only [fifoRecord]
                  refine get?_id_of_map_eq (updateFirstFrame_map_id ?_ _) hid
                  exact fun fr => rfl)
                (by
                  dsimp only [fifoRecord]
                  intro i
                  rw [occ_updateFirstFrame_load pg (n : Int) st.frames e hempty i,
                    List.mem_append, List.mem_singleton]
                  rw [hiff i])
                (by dsimp only [fifoRecord]; exact hnd2)
              refine ⟨st2, c + 1, hloop, ?_, ?_⟩
              · rw [hf]; dsimp only [fifoRecord]; omega
              · refine PageRun.fill pg rest _ c
                  (fun h => hpgn (List.mem_toFinset.mp h)) ?_ ?_
                · rw [List.toFinset_card_of_nodup hnd]
                  have := pages_len_lt_of_empty st.frames e hempty
                  omega
                · have hconv := hrun
                  dsimp only [fifoRecord] at hconv
                  rw [h2, toFinset_fill, ← h1] at hconv
                  exact hconv
          | none =>
              cases horder : st.insertion_order with
              | nil =>
                  exfalso
                  cases hget0 : st.frames.get? 0 with
                  | none =>
                      rw [List.get?_eq_none] at hget0
                      omega
                  | some f0 =>
                      have hocc0 : frameOccupied st.frames 0 :=
                        (occ_iff_get hid 0).mpr ⟨f0, hget0,
                          all_occupied_of_full st.frames hempty f0
                            (List.get?_mem hget0)⟩
                      have := (hiff 0).mpr hocc0
                      rw [horder] at this
                      cases this
              | cons vid rest_ord =>
                  dsimp only
                  have hvocc : frameOccupied st.frames vid := by
                    rw [← hiff vid, horder]
                    exact List.mem_cons_self vid rest_ord
                  obtain ⟨fr, hg, hfrocc⟩ := (occ_iff_get hid vid).mp hvocc
                  obtain ⟨v, hv⟩ := occupied_page fr hfrocc
                  have hvlt : vid < st.frames.length := (List.get?_eq_some.mp hg).1
                  rw [hg]
                  dsimp only
                  obtain ⟨A, B, h1, h2⟩ := pages_set_eq st.frames vid fr v pg (n : Int)
                    hg hv
                  have hid3 : ∀ j fr2,
                      (st.frames.set vid (fr.load_page pg (n : Int))).get? j =
                        some fr2 → fr2.frame_id = j := by
                    intro j fr2 hj
                    by_cases hjv : j = vid
                    · subst hjv
                      rw [get?_set_self_f _ _ _ hvlt] at hj
                      injection hj with hj
                      rw [← hj]
                      exact hid j fr hg
                    · rw [List.get?_set_ne _ _ (fun hh => hjv hh.symm)] at hj
                      exact hid j fr2 hj
                  have hocc3 : ∀ i,
                      frameOccupied (st.frames.set vid (fr.load_page pg (n : Int))) i ↔
                      frameOccupied st.frames i := by
                    intro i
                    rw [occ_iff_get hid3, occ_iff_get hid]
                    by_cases hiv : i = vid
                    · subst hiv
                      constructor
                      · intro _; exact ⟨fr, hg, hfrocc⟩
                      · intro _
                        exact ⟨fr.load_page pg (n : Int),
                          get?_set_self_f _ _ _ hvlt, rfl⟩
                    · rw [List.get?_set_ne _ _ (fun hh => hiv hh.symm)]
                  have hnd2 : (framesPages
                      (st.frames.set vid (fr.load_page pg (n : Int)))).Nodup := by
                    rw [h2]
                    exact nodup_mid_subst A B v pg (h1 ▸ hnd) (h1 ▸ hpgn)
                  obtain ⟨st2, c, hloop, hf, hrun⟩ := ih
                    (fifoRecord
                      { st with
                        page_faults := st.page_faults + 1,
                        frames := st.frames.set vid (fr.load_page pg (n : Int)),
                        insertion_order := rest_ord ++ [vid] }
                      n n pg false)
                    (n + 1)
                    (by dsimp only [fifoRecord]; rw [List.length_set]; exact hlen)
                    (by dsimp only [fifoRecord]; exact hid3)
                    (by
                      dsimp only [fifoRecord]
                      intro i
                      rw [hocc3 i, ← hiff i, horder]
                      rw [List.mem_append, List.mem_singleton, List.mem_cons]
                      tauto)
                    (by dsimp only [fifoRecord]; exact hnd2)
                  refine ⟨st2, c + 1, hloop, ?_, ?_⟩
                  · rw [hf]; dsimp only [fifoRecord]; omega
                  · refine PageRun.evict pg rest _ c v
                      (fun h => hpgn (List.mem_toFinset.mp h)) ?_ ?_ ?_
                    · rw [List.toFinset_card_of_nodup hnd,
                        pages_len_eq_of_full st.frames hempty, hlen]
                    · rw [h1]
                      exact mem_toFinset_mid A B v
                    · have hconv := hrun
                      dsimp only [fifoRecord] at hconv
                      rw [h2, toFinset_evict A B v pg (h1 ▸ hnd), ← h1] at hconv
                      exact hconv

theorem pages_init_nil :
    ∀ l : List Nat, framesPages (l.map FrameState.init) = [] := by
  intro l
  induction l with
  | nil => rfl
  | cons i rest ih =>
      unfold framesPages at ih ⊢
      rw [List.map_cons, List.filterMap_cons]
      exact ih

theorem fifoExecute_faults (seq : List Int) (fc : Int) (hfc : 1 ≤ fc) :
    ∃ r, ∃ c : Nat, fifoExecute seq fc = some r ∧
      lookupD r.metrics "page_faults" 0 = (c : ℚ) ∧
      PageRun fc.toNat seq ∅ c := by
  have hk : 1 ≤ fc.toNat := by omega
  obtain ⟨_, hiff, hid, hlen⟩ := fifoInit_inv fc
  have hpages : framesPages (fifoInitState fc).frames = [] := pages_init_nil _
  obtain ⟨st2, c, hloop, hf, hrun⟩ := fifoLoop_run fc.toNat hk seq
    (fifoInitState fc) 0 hlen hid
    hiff
    (by rw [hpages]; exact List.nodup_nil)
  rw [hpages] at hrun
  unfold fifoExecute
  rw [hloop]
  refine ⟨_, c, rfl, ?_, ?_⟩
  · dsimp only
    rw [lookup_page_faults]
    rw [hf]
    show ((0 + c : Nat) : ℚ) = (c : ℚ)
    norm_num
  · have : ([] : List Int).toFinset = (∅ : Finset Int) := rfl
    rw [this] at hrun
    exact hrun

theorem lruExecute_faults (seq : List Int) (fc : Int) (hfc : 1 ≤ fc) :
    ∃ r, ∃ c : Nat, lruExecute seq fc = some r ∧
      lookupD r.metrics "page_faults" 0 = (c : ℚ) ∧
      PageRun fc.toNat seq ∅ c := by
  have hk : 1 ≤ fc.toNat := by omega
  have hpages : framesPages ((List.range fc.toNat).map FrameState.init) = [] :=
    pages_init_nil _
  obtain ⟨st2, c, hloop, hf, hrun⟩ := lruLoop_run fc.toNat hk seq
    ⟨(List.range fc.toNat).map FrameState.init, 0, []⟩ 0
    (by dsimp only; rw [List.length_map, List.length_range])
    (by dsimp only; rw [hpages]; exact List.nodup_nil)
  dsimp only at hrun
  rw [hpages] at hrun
  unfold lruExecute
  rw [hloop]
  refine ⟨_, c, rfl, ?_, ?_⟩
  · dsimp only
    rw [lookup_page_faults]
    rw [hf]
    show ((0 + c : Nat) : ℚ) = (c : ℚ)
    norm_num
  · have : ([] : List Int).toFinset = (∅ : Finset Int) := rfl
    rw [this] at hrun
    exact hrun

theorem clockExecute_faults (seq : List Int) (fc : Int) (hfc : 1 ≤ fc) :
    ∃ r, ∃ c : Nat, clockExecute seq fc = some r ∧
      lookupD r.metrics "page_faults" 0 = (c : ℚ) ∧
      PageRun fc.toNat seq ∅ c := by
  have hk : 1 ≤ fc.toNat := by omega
  have hpages : framesPages ((List.range fc.toNat).map FrameState.init) = [] :=
    pages_init_nil _
  obtain ⟨st2, c, hloop, hf, hrun⟩ := clockLoop_run fc.toNat hk seq
    ⟨(List.range fc.toNat).map FrameState.init, 0, 0, []⟩ 0
    (by dsimp only; rw [List.length_map, List.length_range])
    (by dsimp only; rw [hpages]; exact List.nodup_nil)
    (by dsimp only; omega)
  dsimp only at hrun
  rw [hpages] at hrun
  unfold clockExecute
  rw [hloop]
  refine ⟨_, c, rfl, ?_, ?_⟩
  · dsimp only
    rw [lookup_page_faults]
    rw [hf]
    show ((0 + c : Nat) : ℚ) = (c : ℚ)
    norm_num
  · have : ([] : List Int).toFinset = (∅ : Finset Int) := rfl
    rw [this] at hrun
    exact hrun

theorem optExecute_faults (seq : List Int) (fc : Int) (hfc : 1 ≤ fc) :
    ∃ r, ∃ c : Nat, optExecute seq fc = some r ∧
      lookupD r.metrics "page_faults" 0 = (c : ℚ) ∧
      FarRun fc.toNat seq ∅ c := by
  have hk : 1 ≤ fc.toNat := by omega
  have hpages : framesPages ((List.range fc.toNat).map FrameState.init) = [] :=
    pages_init_nil _
  obtain ⟨st2, c, hloop, hf, hrun⟩ := optLoop_run fc.toNat hk seq seq
    ⟨(List.range fc.toNat).map FrameState.init, 0, []⟩ 0
    (by dsimp only; rw [List.length_map, List.length_range])
    (by dsimp only; rw [hpages]; exact List.nodup_nil)
    rfl
  dsimp only at hrun
  rw [hpages] at hrun
  unfold optExecute
  rw [hloop]
  refine ⟨_, c, rfl, ?_, ?_⟩
  · dsimp only
    rw [lookup_page_faults]
    rw [hf]
    show ((0 + c : Nat) : ℚ) = (c : ℚ)
    norm_num
  · have : ([] : List Int).toFinset = (∅ : Finset Int) := rfl
    rw [this] at hrun
    exact hrun

/-- C8: for every page sequence and every frame_count ≥ 1 all four
page-replacement engines complete their run, and the `page_faults`
metric produced by the Optimal policy's execute is less than or equal
to the `page_faults` metric produced by FIFO, LRU and Clock on the same
(sequence, frame_count).  Proved by abstracting each engine's frame
array to its set of resident pages — each loop is a demand-paging run
(`PageRun`), the Optimal loop moreover always evicts a page whose next
use lies farthest in the remaining sequence (`FarRun`) — and showing by
an exchange argument that a farthest-next-use run never faults more
than any other demand-paging run from the same initial cache. -/
theorem C8_optimal_minimal (seq : List Int) (fc : Int) (hfc : 1 ≤ fc) :
    ∃ ro rf rl rc,
      optExecute seq fc = some ro ∧
      fifoExecute seq fc = some rf ∧
      lruExecute seq fc = some rl ∧
      clockExecute seq fc = some rc ∧
      lookupD ro.metrics "page_faults" 0 ≤ lookupD rf.metrics "page_faults" 0 ∧
      lookupD ro.metrics "page_faults" 0 ≤ lookupD rl.metrics "page_faults" 0 ∧
      lookupD ro.metrics "page_faults" 0 ≤ lookupD rc.metrics "page_faults" 0 := by
  obtain ⟨ro, co, ho, hmo, hro⟩ := optExecute_faults seq fc hfc
  obtain ⟨rf, cf, hf, hmf, hrf⟩ := fifoExecute_faults seq fc hfc
  obtain ⟨rl, cl, hl, hml, hrl⟩ := lruExecute_faults seq fc hfc
  obtain ⟨rc, cc, hc, hmc, hrc⟩ := clockExecute_faults seq fc hfc
  have hcard : (∅ : Finset Int).card ≤ fc.toNat := by simp
  have h1 : co ≤ cf := farRun_min fc.toNat seq ∅ cf co hrf hro hcard
  have h2 : co ≤ cl := farRun_min fc.toNat seq ∅ cl co hrl hro hcard
  have h3 : co ≤ cc := farRun_min fc.toNat seq ∅ cc co hrc hro hcard
  refine ⟨ro, rf, rl, rc, ho, hf, hl, hc, ?_, ?_, ?_⟩
  · rw [hmo, hmf]; exact_mod_cast h1
  · rw [hmo, hml]; exact_mod_cast h2
  · rw [hmo, hmc]; exact_mod_cast h3

/-- Witness for C8: the textbook sequence with 3 frames. -/
theorem C8_witness :
    (1 : Int) ≤ 3 ∧
    ∃ ro rf rl rc,
      optExecute [7, 0, 1, 2, 0, 3, 0, 4, 2, 3, 0, 3, 2, 1, 2, 0, 1, 7, 0, 1] 3 =
        some ro ∧
      fifoExecute [7, 0, 1, 2, 0, 3, 0, 4, 2, 3, 0, 3, 2, 1, 2, 0, 1, 7, 0, 1] 3 =
        some rf ∧
      lruExecute [7, 0, 1, 2, 0, 3, 0, 4, 2, 3, 0, 3, 2, 1, 2, 0, 1, 7, 0, 1] 3 =
        some rl ∧
      clockExecute [7, 0, 1, 2, 0, 3, 0, 4, 2, 3, 0, 3, 2, 1, 2, 0, 1, 7, 0, 1] 3 =
        some rc ∧
      lookupD ro.metrics "page_faults" 0 ≤ lookupD rf.metrics "page_faults" 0 ∧
      lookupD ro.metrics "page_faults" 0 ≤ lookupD rl.metrics "page_faults" 0 ∧
      lookupD ro.metrics "page_faults" 0 ≤ lookupD rc.metrics "page_faults" 0 :=
  ⟨by decide,
   C8_optimal_minimal [7, 0, 1, 2, 0, 3, 0, 4, 2, 3, 0, 3, 2, 1, 2, 0, 1, 7, 0, 1] 3
     (by decide)⟩
